import Mathlib

/-! # Fuchsia Volume Manager (system/dev/block/fvm/fvm.cpp)

A shallow embedding of the slice map of a virtual partition (`SliceExtent`,
`VPartition::SliceGetLocked`, `CheckSlices`, `SliceSetLocked`, `SliceFreeLocked`) and of
the slice allocator of the volume manager (`FindFreeSliceLocked`, `WriteFvmLocked`,
`AllocateSlicesLocked`, `FreeSlicesLocked`), of `Upgrade`, of the case `FVM_ALLOC` of
`DdkIoctl` and of the loops of `Load`, with a disk of two metadata regions for the
commit, followed by the theorems proved about them.

Conventions of the embedding.

* `size_t` and `uint64_t` values are natural numbers; where the source can wrap, the
  wrap is written out (`size_add`, `size_pred`, `% 2 ^ 64`), and the narrowing casts are
  `toUInt32` and `toInt32`.
* Every interaction with the environment (a heap allocation checked through
  `fbl::AllocChecker`, an iotxn, a device sync) draws its outcome from an `Env`, indexed
  by a counter of interactions that is threaded through the calls in program order.
* The status of `DdkAdd` is drawn from a function of the same counter, and the constants
  of fvm.h that the sources at hand do not define are the fields of `Params`.
* `ZX_DEBUG_ASSERT` compiles to nothing in release builds and is not embedded.
  `ZX_ASSERT` aborts the process; a function that can reach one returns an `Option`
  whose `none` is the abort.
-/

namespace fvm

/-! ## Constants -/

/-- Status values (zircon/errors.h). -/
abbrev zx_status_t := Int

def ZX_OK : zx_status_t := 0
def ZX_ERR_NOT_SUPPORTED : zx_status_t := -2
def ZX_ERR_NO_MEMORY : zx_status_t := -4
def ZX_ERR_INVALID_ARGS : zx_status_t := -10
def ZX_ERR_OUT_OF_RANGE : zx_status_t := -14
def ZX_ERR_BUFFER_TOO_SMALL : zx_status_t := -15
def ZX_ERR_BAD_STATE : zx_status_t := -20
def ZX_ERR_NOT_FOUND : zx_status_t := -25
def ZX_ERR_IO : zx_status_t := -40
def ZX_ERR_NO_SPACE : zx_status_t := -54

/-- Modelled from the spec: the constant `VSLICE_MAX` of fvm.h, which is not part of the
sources at hand; the spec gives it as `2^32 - 1`. -/
def VSLICE_MAX : Nat := 4294967295

/-- Modelled from the spec: `PSLICE_UNALLOCATED` (also `FVM_SLICE_FREE`), the value `FREE`
that a lookup returns for a virtual slice without a physical slice. -/
def PSLICE_UNALLOCATED : Nat := 0

/-- The sum `a + b` of two `size_t` values, which wraps at `2^64`. -/
def size_add (a b : Nat) : Nat := (a + b) % 2 ^ 64

/-- The difference `a - 1` of a `size_t` value, which wraps to `2^64 - 1` at 0. -/
def size_pred (a : Nat) : Nat := (a + 2 ^ 64 - 1) % 2 ^ 64

/-- The conversion `static_cast<uint32_t>(x)` of a `size_t`: the low 32 bits. -/
def toUInt32 (x : Nat) : Nat := x % 2 ^ 32

/-- The conversion `static_cast<int>(x)` of a `size_t`: the low 32 bits, read as a
two's complement number. -/
def toInt32 (x : Nat) : Int :=
  if x % 2 ^ 32 < 2 ^ 31 then ((x % 2 ^ 32 : Nat) : Int) else ((x % 2 ^ 32 : Nat) : Int) - 2 ^ 32

/-- Outcomes of the interactions with the environment; the argument is the number of
interactions that came before. -/
structure Env where
  /-- Whether the heap allocation succeeds (`fbl::AllocChecker::check`). -/
  ac : Nat → Bool
  /-- Status of `iotxn_alloc_vmo`. -/
  iotxn_alloc : Nat → zx_status_t
  /-- Status of the transaction after `iotxn_synchronous_op`. -/
  iotxn_status : Nat → zx_status_t
  /-- Status of `device_ioctl(parent, IOCTL_DEVICE_SYNC)`. -/
  sync : Nat → zx_status_t

/-! ## SliceExtent -/

/-- Modelled from the spec: the class `SliceExtent` of fvm-private.h, a run of physical
slices keyed by the virtual slice of its first element. -/
structure SliceExtent where
  vslice_start : Nat
  pslices : List Nat
  deriving DecidableEq, Repr

namespace SliceExtent

/-- Modelled from the spec: first virtual slice of the extent (inclusive). -/
def start (e : SliceExtent) : Nat := e.vslice_start

/-- Modelled from the spec: end of the extent (exclusive), `end()` in the source. -/
def end_ (e : SliceExtent) : Nat := e.vslice_start + e.pslices.length

/-- Modelled from the spec: number of virtual slices of the extent. -/
def size (e : SliceExtent) : Nat := e.end_ - e.start

/-- Modelled from the spec: `get(v)` is the physical slice of `v` for `v` in the range of
the extent and `PSLICE_UNALLOCATED` otherwise. -/
def get (e : SliceExtent) (vslice : Nat) : Nat :=
  if e.vslice_start ≤ vslice then e.pslices.getD (vslice - e.vslice_start) PSLICE_UNALLOCATED
  else PSLICE_UNALLOCATED

/-- Modelled from the spec: `is_empty()`. -/
def is_empty (e : SliceExtent) : Bool := e.pslices.isEmpty

/-- Modelled from the spec: `append(p)` extends the extent by one virtual slice mapped to
`p`; it fails, leaving the extent as it was, when the allocation fails. Returns the
success flag, the extent and the next interaction number. -/
def push_back (e : SliceExtent) (pslice : Nat) (ac : Nat → Bool) (t : Nat) :
    Bool × SliceExtent × Nat :=
  if ac t then (true, { e with pslices := e.pslices ++ [pslice] }, t + 1)
  else (false, e, t + 1)

/-- Modelled from the spec: `pop_back()` removes the last virtual slice. -/
def pop_back (e : SliceExtent) : SliceExtent := { e with pslices := e.pslices.dropLast }

/-- The loop `for (vs = from; vs < src.end(); vs++) ZX_ASSERT(dst.push_back(src.get(vs)))`
of `Split` and `Merge`, with `n` the number of iterations left. It runs after a
successful `reserve`, so the `push_back`s do not allocate and the assertion holds. -/
def copy_from (src : SliceExtent) : Nat → Nat → SliceExtent → SliceExtent
  | 0, _, dst => dst
  | n + 1, vs, dst => copy_from src n (vs + 1) { dst with pslices := dst.pslices ++ [src.get vs] }

/-- The loop `while (!is_empty() && vslice + 1 != end()) pop_back();` of `Split`. Every
iteration removes one element, so `e.pslices.length` iterations are enough. -/
def trim_to : Nat → Nat → SliceExtent → SliceExtent
  | 0, _, e => e
  | n + 1, vslice, e =>
    if !e.is_empty && vslice + 1 != e.end_ then trim_to n vslice e.pop_back else e

/-- `SliceExtent::Split(vslice)`: returns the new extent (`none` for `nullptr`), the
receiver afterwards and the next interaction number. -/
def Split (e : SliceExtent) (vslice : Nat) (ac : Nat → Bool) (t : Nat) :
    Option SliceExtent × SliceExtent × Nat :=
  -- new (&ac) SliceExtent(vslice + 1)
  if !ac t then (none, e, t + 1)
  -- new_extent->pslices_.reserve(end() - vslice, &ac)
  else if !ac (t + 1) then (none, e, t + 2)
  else
    let new_extent := copy_from e (e.end_ - (vslice + 1)) (vslice + 1) ⟨vslice + 1, []⟩
    (some new_extent, trim_to e.pslices.length vslice e, t + 2)

/-- `SliceExtent::Merge(other)`: returns the success flag, the receiver afterwards and
the next interaction number. The `push_back` calls of the loop are taken to succeed:
`reserve(other.size())` may leave less room than the loop needs, and a `push_back` that
then fails to allocate stops the program at its `ZX_ASSERT`, a run that leaves no state
and that this definition does not describe. -/
def Merge (e other : SliceExtent) (ac : Nat → Bool) (t : Nat) : Bool × SliceExtent × Nat :=
  -- pslices_.reserve(other.size(), &ac)
  if !ac t then (false, e, t + 1)
  else (true, copy_from other (other.end_ - other.start) other.start e, t + 1)

end SliceExtent

/-! ## SliceMap -/

/-- Modelled from the spec: the `SliceMap` of a partition (an `fbl::WAVLTree` keyed by
the start of the extents), as the list of its extents in key order. -/
abbrev SliceMap := List SliceExtent

namespace SliceMap

/-- Modelled from the spec: `upper_bound(v)`, the first extent whose key is greater than
`v`; `none` is the invalid iterator `end()`. -/
def upper_bound (m : SliceMap) (vslice : Nat) : Option SliceExtent :=
  m.find? (fun e => decide (vslice < e.start))

/-- Modelled from the spec: `--upper_bound(v)`, the extent with the greatest start `≤ v`:
the element before `upper_bound(v)` in key order, the last element when `upper_bound(v)`
is `end()`, and invalid when there is no such element. -/
def upper_bound_prev (m : SliceMap) (vslice : Nat) : Option SliceExtent :=
  (m.takeWhile (fun e => decide (e.start ≤ vslice))).getLast?

/-- Modelled from the spec: `begin()`, the extent with the least key. -/
def begin_ (m : SliceMap) : Option SliceExtent := m.head?

/-- Modelled from the spec: `insert(extent)`, which places the extent at the position of
its key. -/
def insert (m : SliceMap) (e : SliceExtent) : SliceMap :=
  m.takeWhile (fun x => decide (x.start < e.start)) ++
    e :: m.dropWhile (fun x => decide (x.start < e.start))

/-- Modelled from the spec: `erase(extent)`, which removes the extent with that key. -/
def erase (m : SliceMap) (e : SliceExtent) : SliceMap :=
  m.filter (fun x => decide (x.start ≠ e.start))

/-- A mutation of an extent through an iterator: the extent with the key of `e` now has
the contents of `e`. -/
def assign (m : SliceMap) (e : SliceExtent) : SliceMap :=
  m.map (fun x => if x.start = e.start then e else x)

/-- The extent with start `s` and physical slices `l`, as a list of extents: kept only
when it is non-empty. -/
def piece (s : Nat) (l : List Nat) : SliceMap := if l = [] then [] else [⟨s, l⟩]

/-- The container keeps its extents in strictly increasing key order. -/
def Ordered (m : SliceMap) : Prop := m.Pairwise (fun a b => a.start < b.start)

/-- No extent is empty. -/
def NonEmpty (m : SliceMap) : Prop := ∀ e ∈ m, e.pslices ≠ []

/-- The virtual ranges of any two extents are disjoint. -/
def PairwiseDisjoint (m : SliceMap) : Prop :=
  m.Pairwise (fun a b => a.end_ ≤ b.start ∨ b.end_ ≤ a.start)

/-- No extent holds the value `PSLICE_UNALLOCATED`. -/
def NonZero (m : SliceMap) : Prop := ∀ e ∈ m, ∀ p ∈ e.pslices, p ≠ PSLICE_UNALLOCATED

/-- The invariant of a slice map: the extents are non-empty, hold allocated physical
slices only, and each one ends at or before the start of the next. -/
def Valid (m : SliceMap) : Prop :=
  m.Pairwise (fun a b => a.end_ ≤ b.start) ∧ NonEmpty m ∧ NonZero m

/-- Abutting extents are merged: no extent ends at the start of another. -/
def Merged (m : SliceMap) : Prop := m.Pairwise (fun a b => a.end_ ≠ b.start)

/-- Every extent ends at or before `VSLICE_MAX`. -/
def Bounded (m : SliceMap) : Prop := ∀ e ∈ m, e.end_ ≤ VSLICE_MAX

instance (m : SliceMap) : Decidable (Ordered m) := by unfold Ordered; infer_instance

instance (m : SliceMap) : Decidable (NonEmpty m) := by unfold NonEmpty; infer_instance

instance (m : SliceMap) : Decidable (PairwiseDisjoint m) := by
  unfold PairwiseDisjoint; infer_instance

instance (m : SliceMap) : Decidable (NonZero m) := by unfold NonZero; infer_instance

instance (m : SliceMap) : Decidable (Valid m) := by unfold Valid; infer_instance

instance (m : SliceMap) : Decidable (Merged m) := by unfold Merged; infer_instance

instance (m : SliceMap) : Decidable (Bounded m) := by unfold Bounded; infer_instance

end SliceMap

/-! ## VPartition -/

/-- The state of a `VPartition` (fvm-private.h): its index in the partition table, its
slice map, the fields of `info_` that the code uses, the slice size of its manager and
the `Killed` flag. -/
structure VPartition where
  entry_index : Nat
  slice_map : SliceMap
  /-- The field `info_.block_count`, a `uint64_t`. -/
  block_count : Nat
  /-- The field `info_.block_size`. -/
  block_size : Nat
  /-- The value of `mgr_->SliceSize()`. -/
  slice_size : Nat
  killed : Bool
  deriving DecidableEq, Repr

namespace VPartition

/-- Modelled from the spec: `AddBlocksLocked(nblocks)` adds the signed `nblocks` to the
block count, in 64-bit arithmetic. -/
def AddBlocksLocked (vp : VPartition) (nblocks : Int) : VPartition :=
  { vp with block_count := (((vp.block_count : Int) + nblocks) % 2 ^ 64).toNat }

/-- Modelled from the spec: `IsKilledLocked()`. -/
def IsKilledLocked (vp : VPartition) : Bool := vp.killed

/-- Modelled from the spec: `KillLocked()` marks the partition `Killed`. -/
def KillLocked (vp : VPartition) : VPartition := { vp with killed := true }

/-- `VPartition::SliceGetLocked(vslice)`. -/
def SliceGetLocked (vp : VPartition) (vslice : Nat) : Nat :=
  match vp.slice_map.upper_bound_prev vslice with
  | none => 0
  | some extent => extent.get vslice

/-- Modelled from the spec: `SliceCanFree(v)`, the precondition `lookup(v) ≠ FREE` of
`free`. -/
def SliceCanFree (vp : VPartition) (vslice : Nat) : Bool :=
  match vp.slice_map.upper_bound_prev vslice with
  | none => false
  | some extent => extent.get vslice != PSLICE_UNALLOCATED

/-- `VPartition::CheckSlices(vslice_start, &count, &allocated)`: the status on failure,
the values stored in `count` and `allocated` for `ZX_OK`. -/
def CheckSlices (vp : VPartition) (vslice_start : Nat) : Except zx_status_t (Nat × Bool) :=
  if vslice_start ≥ VSLICE_MAX then .error ZX_ERR_OUT_OF_RANGE
  else if vp.IsKilledLocked then .error ZX_ERR_BAD_STATE
  else
    let r0 : Nat × Bool :=
      match vp.slice_map.upper_bound_prev vslice_start with
      | some extent =>
        if extent.start + extent.size > vslice_start then
          (extent.size - (vslice_start - extent.start), true)
        else (0, false)
      | none => (0, false)
    if !r0.2 then
      match vp.slice_map.upper_bound vslice_start with
      | some extent => .ok (extent.start - vslice_start, false)
      | none => .ok (VSLICE_MAX - vslice_start, false)
    else .ok r0

/-- The statements of `SliceSetLocked` that follow its `if`/`else`, which both branches
reach with the extent of `vslice` in place: `m` is the slice map at that point and
`extent` the iterator of the same name. -/
def SliceSetLocked_tail (vp : VPartition) (vslice : Nat) (m : SliceMap)
    (extent : Option SliceExtent) (ac : Nat → Bool) (t : Nat) : zx_status_t × VPartition × Nat :=
  let vp1 := ({ vp with slice_map := m } : VPartition).AddBlocksLocked
    ((vp.slice_size / vp.block_size : Nat) : Int)
  -- Merge with the next contiguous extent (if any)
  match m.upper_bound vslice, extent with
  | some nextExtent, some ext =>
    if vslice + 1 = nextExtent.start then
      match ext.Merge nextExtent ac t with
      | (true, merged, t1) =>
        (ZX_OK, { vp1 with slice_map := (m.assign merged).erase nextExtent }, t1)
      | (false, _, t1) => (ZX_OK, vp1, t1)
    else (ZX_OK, vp1, t)
  | _, _ => (ZX_OK, vp1, t)

/-- `VPartition::SliceSetLocked(vslice, pslice)`: the status, the partition afterwards
and the next interaction number. -/
def SliceSetLocked (vp : VPartition) (vslice pslice : Nat) (ac : Nat → Bool) (t : Nat) :
    zx_status_t × VPartition × Nat :=
  match (vp.slice_map.upper_bound_prev vslice).filter (fun e => decide (vslice = e.end_)) with
  | some extent =>
    -- Easy case: append to existing slice
    match extent.push_back pslice ac t with
    | (true, extent1, t1) =>
      vp.SliceSetLocked_tail vslice (vp.slice_map.assign extent1) (some extent1) ac t1
    | (false, _, t1) => (ZX_ERR_NO_MEMORY, vp, t1)
  | none =>
    -- Longer case: there is no extent for this vslice, so we should make one.
    if !ac t then (ZX_ERR_NO_MEMORY, vp, t + 1)
    else
      match (SliceExtent.mk vslice []).push_back pslice ac (t + 1) with
      | (true, new_extent, t1) =>
        let m := vp.slice_map.insert new_extent
        vp.SliceSetLocked_tail vslice m (m.upper_bound_prev vslice) ac t1
      | (false, _, t1) => (ZX_ERR_NO_MEMORY, vp, t1)

/-- The statements of `SliceFreeLocked` from `extent->pop_back()` on ("Removing from end
of extent"): `m` is the slice map at that point and `extent` the extent of `vslice`. -/
def SliceFreeLocked_tail (vp : VPartition) (m : SliceMap) (extent : SliceExtent) (t : Nat) :
    Bool × VPartition × Nat :=
  let extent1 := extent.pop_back
  let m1 := m.assign extent1
  let m2 := if extent1.is_empty then m1.erase extent1 else m1
  (true, ({ vp with slice_map := m2 } : VPartition).AddBlocksLocked
    (-((vp.slice_size / vp.block_size : Nat) : Int)), t)

/-- `VPartition::SliceFreeLocked(vslice)`: the result, the partition afterwards and the
next interaction number. The source dereferences `--upper_bound(vslice)` without a
check; a call without such an extent is outside its precondition `SliceCanFree` and is
embedded as a call that fails and changes nothing. -/
def SliceFreeLocked (vp : VPartition) (vslice : Nat) (ac : Nat → Bool) (t : Nat) :
    Bool × VPartition × Nat :=
  match vp.slice_map.upper_bound_prev vslice with
  | none => (false, vp, t)
  | some extent =>
    if vslice ≠ extent.end_ - 1 then
      -- Removing from the middle of an extent; this splits the extent in two.
      match extent.Split vslice ac t with
      | (none, _, t1) => (false, vp, t1)
      | (some new_extent, extent1, t1) =>
        vp.SliceFreeLocked_tail ((vp.slice_map.assign extent1).insert new_extent) extent1 t1
    else vp.SliceFreeLocked_tail vp.slice_map extent t

/-- `VPartition::ExtentDestroyLocked(vslice)`. As in `SliceFreeLocked`, a call without an
extent at or below `vslice` is outside the precondition and changes nothing. -/
def ExtentDestroyLocked (vp : VPartition) (vslice : Nat) : VPartition :=
  match vp.slice_map.upper_bound_prev vslice with
  | none => vp
  | some extent =>
    let length := extent.size
    ({ vp with slice_map := vp.slice_map.erase extent } : VPartition).AddBlocksLocked
      (-(((length * vp.slice_size) % 2 ^ 64 / vp.block_size : Nat) : Int))

/-- A call of the slice-map interface of a partition. -/
inductive SliceOp where
  | set (vslice pslice : Nat)
  | free (vslice : Nat)
  deriving DecidableEq, Repr

/-- Runs a sequence of calls, each under its precondition: `SliceSetLocked` on a free
virtual slice with an allocated physical slice, `SliceFreeLocked` on an allocated
virtual slice. The result is `none` when a call is made outside its precondition. -/
def run_ops (ac : Nat → Bool) : List SliceOp → VPartition → Nat → Option (VPartition × Nat)
  | [], vp, t => some (vp, t)
  | .set v p :: ops, vp, t =>
    if vp.SliceGetLocked v = PSLICE_UNALLOCATED ∧ p ≠ PSLICE_UNALLOCATED then
      run_ops ac ops (vp.SliceSetLocked v p ac t).2.1 (vp.SliceSetLocked v p ac t).2.2
    else none
  | .free v :: ops, vp, t =>
    if vp.SliceCanFree v then
      run_ops ac ops (vp.SliceFreeLocked v ac t).2.1 (vp.SliceFreeLocked v ac t).2.2
    else none

end VPartition

/-! ## VPartitionManager -/

/-- Modelled from the spec: an entry `{vpart, vslice}` of the slice allocation table;
`vpart == 0` means that the physical slice is free. -/
structure slice_entry_t where
  vpart : Nat
  vslice : Nat
  deriving DecidableEq, Repr

/-- Modelled from the spec: an entry of the partition table; `slices == 0` means that the
entry is free. -/
structure vpart_entry_t where
  type : List Nat
  guid : List Nat
  slices : Nat
  name : List Nat
  flags : Nat
  deriving DecidableEq, Repr

/-- Modelled from the spec: `clear()`, which resets a partition entry. -/
def vpart_entry_t.clear (_ : vpart_entry_t) : vpart_entry_t := ⟨[], [], 0, [], 0⟩

/-- A metadata write handed to the backing device. -/
structure MetadataWrite where
  /-- The byte offset of the write (`txn->offset`). -/
  offset : Nat
  /-- The generation in the image that is written. -/
  generation : Nat
  /-- The status of the transaction. -/
  status : zx_status_t
  deriving DecidableEq, Repr

/-- The state of the `VPartitionManager` that the slice allocator reads and writes. The
two tables and the generation are the contents of the metadata buffer `metadata_`. -/
structure VPartitionManager where
  /-- The value of `MetadataSize()`. -/
  metadata_size : Nat
  /-- The value of `UsableSlicesCount(DiskSize(), SliceSize())`. -/
  usable_slices : Nat
  /-- The constant `VPART_MAX` of fvm.h, the mask of a partition index. -/
  VPART_MAX : Nat
  /-- The field `generation` of the superblock, a `uint64_t`. -/
  generation : Nat
  first_metadata_is_primary : Bool
  /-- The partition table (`GetVPartEntryLocked`). -/
  vpart_table : Nat → vpart_entry_t
  /-- The slice allocation table (`GetSliceEntryLocked`). -/
  slice_table : Nat → slice_entry_t
  /-- The metadata writes issued so far, the latest first. -/
  writes : List MetadataWrite

/-- The manager, the partition that a call works on and the number of interactions with
the environment so far. -/
structure World where
  mgr : VPartitionManager
  vp : VPartition
  tick : Nat

namespace VPartitionManager

/-- The assignment `GetSliceEntryLocked(pslice)->vpart = vpart`. -/
def set_slice_vpart (mgr : VPartitionManager) (pslice vpart : Nat) : VPartitionManager :=
  { mgr with slice_table := fun i =>
      if i = pslice then { mgr.slice_table i with vpart := vpart } else mgr.slice_table i }

/-- The assignments to `alloc_entry->vpart` and `alloc_entry->vslice`. -/
def set_slice_entry (mgr : VPartitionManager) (pslice : Nat) (entry : slice_entry_t) :
    VPartitionManager :=
  { mgr with slice_table := fun i => if i = pslice then entry else mgr.slice_table i }

/-- Modelled from the spec: `BackupOffsetLocked()`, the offset of the copy that is not
primary (`primary_is_first ? M : 0`). -/
def BackupOffsetLocked (mgr : VPartitionManager) : Nat :=
  if mgr.first_metadata_is_primary then mgr.metadata_size else 0

/-- `VPartitionManager::WriteFvmLocked()`: the status, the manager afterwards and the
next interaction number. -/
def WriteFvmLocked (env : Env) (mgr : VPartitionManager) (t : Nat) :
    zx_status_t × VPartitionManager × Nat :=
  -- iotxn_alloc_vmo
  if env.iotxn_alloc t ≠ ZX_OK then (env.iotxn_alloc t, mgr, t + 1)
  else
    -- If we were reading from the primary, write to the backup.
    let offset := mgr.BackupOffsetLocked
    -- GetFvmLocked()->generation++; fvm_update_hash(...)
    let generation := (mgr.generation + 1) % 2 ^ 64
    -- iotxn_synchronous_op
    let status := env.iotxn_status (t + 1)
    let mgr1 := { mgr with
      generation := generation, writes := ⟨offset, generation, status⟩ :: mgr.writes }
    if status ≠ ZX_OK then (status, mgr1, t + 2)
    else
      (ZX_OK, { mgr1 with first_metadata_is_primary := !mgr1.first_metadata_is_primary }, t + 2)

/-- One of the two loops of `FindFreeSliceLocked`: looks at `n` entries from index `i`
on and returns the first one whose `vpart` is 0. -/
def find_free_from (mgr : VPartitionManager) : Nat → Nat → Option Nat
  | 0, _ => none
  | n + 1, i => if (mgr.slice_table i).vpart = 0 then some i else find_free_from mgr n (i + 1)

/-- `VPartitionManager::FindFreeSliceLocked(&out, hint)`: the status and the value
stored in `out`. -/
def FindFreeSliceLocked (mgr : VPartitionManager) (hint : Nat) : zx_status_t × Nat :=
  let maxSlices := mgr.usable_slices
  let hint := max hint 1
  -- for (size_t i = hint; i <= maxSlices; i++)
  match mgr.find_free_from (maxSlices + 1 - hint) hint with
  | some i => (ZX_OK, i)
  | none =>
    -- for (size_t i = 1; i < hint; i++)
    match mgr.find_free_from (hint - 1) 1 with
    | some i => (ZX_OK, i)
    | none => (ZX_ERR_NO_SPACE, 0)

/-- The loops `for (int j = ...; j >= 0; j--)` of `AllocateSlicesLocked` that undo the
allocation of the virtual slices `vslice_start + j`, with `n` the number of iterations
left: the next one has `j = n - 1`. The result of `SliceFreeLocked` is not looked at. -/
def AllocateSlicesLocked_undo (env : Env) (vslice_start : Nat) : Nat → World → World
  | 0, w => w
  | j + 1, w =>
    let vslice := size_add vslice_start j
    let mgr1 := w.mgr.set_slice_vpart (w.vp.SliceGetLocked vslice) PSLICE_UNALLOCATED
    let r := w.vp.SliceFreeLocked vslice env.ac w.tick
    AllocateSlicesLocked_undo env vslice_start j ⟨mgr1, r.2.1, r.2.2⟩

/-- The number of iterations of `for (int j = static_cast<int>(x); j >= 0; j--)`. -/
def int_loop_count (x : Nat) : Nat := (toInt32 x + 1).toNat

/-- The loop `for (size_t i = 0; i < count; i++)` of `AllocateSlicesLocked`, with `n`
the number of iterations left, `i` the loop variable and `hint` the variable of that
name. The result is the status on an early return, and the state. -/
def AllocateSlicesLocked_loop (env : Env) (vslice_start : Nat) :
    Nat → Nat → Nat → World → Option zx_status_t × World
  | 0, _, _, w => (none, w)
  | n + 1, i, hint, w =>
    let vslice := size_add vslice_start i
    let undo := AllocateSlicesLocked_undo env vslice_start
      (int_loop_count (size_pred i))
    if w.vp.SliceGetLocked vslice ≠ PSLICE_UNALLOCATED then
      (some ZX_ERR_INVALID_ARGS, undo w)
    else
      match w.mgr.FindFreeSliceLocked hint with
      | (status, pslice) =>
        if status ≠ ZX_OK then (some status, undo w)
        else
          -- static_cast<uint32_t>(pslice)
          match w.vp.SliceSetLocked vslice (toUInt32 pslice) env.ac w.tick with
          | (set_status, vp1, t1) =>
            -- status = (vp->SliceSetLocked(...) != ZX_OK)
            if set_status ≠ ZX_OK then (some 1, undo ⟨w.mgr, vp1, t1⟩)
            else
              let mgr1 := w.mgr.set_slice_entry pslice
                ⟨Nat.land w.vp.entry_index w.mgr.VPART_MAX, Nat.land vslice VSLICE_MAX⟩
              AllocateSlicesLocked_loop env vslice_start n (i + 1) (pslice + 1) ⟨mgr1, vp1, t1⟩

/-- `VPartitionManager::AllocateSlicesLocked(vp, vslice_start, count)`. -/
def AllocateSlicesLocked (env : Env) (w : World) (vslice_start count : Nat) :
    zx_status_t × World :=
  if size_add vslice_start count > VSLICE_MAX then (ZX_ERR_INVALID_ARGS, w)
  else if w.vp.IsKilledLocked then (ZX_ERR_BAD_STATE, w)
  else
    match AllocateSlicesLocked_loop env vslice_start count 0 0 w with
    | (some status, w1) => (status, w1)
    | (none, w1) =>
      match WriteFvmLocked env w1.mgr w1.tick with
      | (status, mgr2, t2) =>
        if status ≠ ZX_OK then
          -- Undo allocation in the event of failure
          (status, AllocateSlicesLocked_undo env vslice_start
            (int_loop_count (size_pred count)) ⟨mgr2, w1.vp, t2⟩)
        else (status, ⟨mgr2, w1.vp, t2⟩)

/-- `VPartitionManager::AllocateSlices(vp, vslice_start, count)`, which takes the lock
of the manager and calls `AllocateSlicesLocked`. -/
def AllocateSlices (env : Env) (w : World) (vslice_start count : Nat) : zx_status_t × World :=
  AllocateSlicesLocked env w vslice_start count

/-- The loop "Special case: Freeing entire VPartition" of `FreeSlicesLocked` over the
extents of the partition, with `n` a bound on the number of iterations: every iteration
erases an extent, so the number of extents is enough. -/
def FreeSlicesLocked_destroy : Nat → VPartitionManager → VPartition → VPartitionManager × VPartition
  | 0, mgr, vp => (mgr, vp)
  | n + 1, mgr, vp =>
    match vp.slice_map.begin_ with
    | none => (mgr, vp)
    | some extent =>
      -- for (size_t i = extent->start(); i < extent->end(); i++)
      let mgr1 := (List.range' extent.start (extent.end_ - extent.start)).foldl
        (fun m i => m.set_slice_vpart (vp.SliceGetLocked i) PSLICE_UNALLOCATED) mgr
      FreeSlicesLocked_destroy n mgr1 (vp.ExtentDestroyLocked extent.start)

/-- The loop `for (int i = static_cast<int>(count - 1); i >= 0; i--)` of
`FreeSlicesLocked`, with `n` the number of iterations left (the next one has
`i = n - 1`) and `freed_something` the variable of that name. The result is `none` when
the `ZX_ASSERT` fails; otherwise the status on an early return, `freed_something` and
the state. -/
def FreeSlicesLocked_loop (env : Env) (vslice_start : Nat) :
    Nat → Bool → World → Option (Option zx_status_t × Bool × World)
  | 0, freed_something, w => some (none, freed_something, w)
  | i + 1, freed_something, w =>
    let vslice := size_add vslice_start i
    if w.vp.SliceCanFree vslice then
      let pslice := w.vp.SliceGetLocked vslice
      match w.vp.SliceFreeLocked vslice env.ac w.tick with
      | (ok, vp1, t1) =>
        if !freed_something && !ok then
          -- The first 'free' is the only one which can fail
          some (some ZX_ERR_NO_MEMORY, freed_something, ⟨w.mgr, vp1, t1⟩)
        else if freed_something && !ok then none
        else
          FreeSlicesLocked_loop env vslice_start i true
            ⟨w.mgr.set_slice_vpart pslice 0, vp1, t1⟩
    else FreeSlicesLocked_loop env vslice_start i freed_something w

/-- The statements of `FreeSlicesLocked` that follow the block holding the lock of the
partition: the check of `freed_something` and the commit. -/
def FreeSlicesLocked_tail (env : Env) (freed_something : Bool) (w : World) :
    zx_status_t × World :=
  if !freed_something then (ZX_ERR_INVALID_ARGS, w)
  else
    ((WriteFvmLocked env w.mgr w.tick).1,
      ⟨(WriteFvmLocked env w.mgr w.tick).2.1, w.vp, (WriteFvmLocked env w.mgr w.tick).2.2⟩)

/-- `VPartitionManager::FreeSlicesLocked(vp, vslice_start, count)`: `none` when a
`ZX_ASSERT` fails, the status and the state otherwise. The calls of `DdkRemove` have no
counterpart in the state. -/
def FreeSlicesLocked (env : Env) (w : World) (vslice_start count : Nat) :
    Option (zx_status_t × World) :=
  if size_add vslice_start count > VSLICE_MAX ∨ count > VSLICE_MAX then
    some (ZX_ERR_INVALID_ARGS, w)
  else if w.vp.IsKilledLocked then some (ZX_ERR_BAD_STATE, w)
  -- Sync first, before removing slices
  else if env.sync w.tick ≠ ZX_OK then some (env.sync w.tick, { w with tick := w.tick + 1 })
  else if vslice_start = 0 then
    -- Special case: Freeing entire VPartition
    match FreeSlicesLocked_destroy w.vp.slice_map.length w.mgr w.vp with
    | (mgr1, vp1) =>
      let mgr2 := { mgr1 with vpart_table := fun i =>
        if i = vp1.entry_index then (mgr1.vpart_table i).clear else mgr1.vpart_table i }
      some (FreeSlicesLocked_tail env true ⟨mgr2, vp1.KillLocked, w.tick + 1⟩)
  else
    match FreeSlicesLocked_loop env vslice_start (int_loop_count (size_pred count)) false
        { w with tick := w.tick + 1 } with
    | none => none
    | some (some status, _, w1) => some (status, w1)
    | some (none, freed_something, w1) => some (FreeSlicesLocked_tail env freed_something w1)

/-- `VPartitionManager::FreeSlices(vp, vslice_start, count)`, which takes the lock of the
manager and calls `FreeSlicesLocked`. -/
def FreeSlices (env : Env) (w : World) (vslice_start count : Nat) :
    Option (zx_status_t × World) :=
  FreeSlicesLocked env w vslice_start count

end VPartitionManager

/-! ## Counting the slices of a map -/

/-- The number of virtual slices held in the extents of a slice map. -/
def SliceMap.total_slices (m : SliceMap) : Nat := (m.map (fun e => e.pslices.length)).sum

/-- The physical slices held in the extents of a slice map, in the order of their
virtual slices. -/
def SliceMap.all_pslices (m : SliceMap) : List Nat := m.flatMap (fun e => e.pslices)

/-! ## The two metadata regions of the disk -/

/-- Modelled from the spec: a complete image of the metadata in a region of the disk,
which is the generation and the two tables of the metadata buffer when it was written. -/
structure MetadataImage where
  generation : Nat
  vpart_table : Nat → vpart_entry_t
  slice_table : Nat → slice_entry_t

/-- Modelled from the spec: the two metadata regions of the disk, the first at byte
offset 0 and the second at byte offset `M`; `none` stands for a region that does not
hold a complete image. -/
structure Disk where
  first : Option MetadataImage
  second : Option MetadataImage

namespace Disk

/-- Modelled from the spec: a write of `metadata_size` bytes at `offset` replaces the
content of the region that starts there. -/
def write (d : Disk) (metadata_size offset : Nat) (c : Option MetadataImage) : Disk :=
  if offset = 0 then { d with first := c }
  else if offset = metadata_size then { d with second := c }
  else d

/-- The region that the flag `first_metadata_is_primary_` designates. -/
def primary (d : Disk) (first_metadata_is_primary : Bool) : Option MetadataImage :=
  if first_metadata_is_primary then d.first else d.second

end Disk

/-- The state of a run of commits: the manager, the disk, the number of interactions so
far, and the image of the most recent successful commit (the initial image when none
has succeeded yet). -/
structure CommitState where
  mgr : VPartitionManager
  disk : Disk
  tick : Nat
  committed : MetadataImage

namespace VPartitionManager

/-- The content of the metadata buffer as an image. -/
def image (mgr : VPartitionManager) : MetadataImage :=
  ⟨mgr.generation, mgr.vpart_table, mgr.slice_table⟩

/-- A call of `WriteFvmLocked` with its effect on the disk: every write that the call
hands to the device lands in the region at its offset, as the image of the buffer when
the status of the write is `ZX_OK`, and as the arbitrary content `torn t` otherwise. -/
def Commit (env : Env) (torn : Nat → Option MetadataImage) (mgr : VPartitionManager)
    (d : Disk) (t : Nat) : zx_status_t × VPartitionManager × Disk × Nat :=
  match WriteFvmLocked env mgr t with
  | (status, mgr1, t1) =>
    (status, mgr1,
      (mgr1.writes.take (mgr1.writes.length - mgr.writes.length)).foldr
        (fun w d1 => d1.write mgr.metadata_size w.offset
          (if w.status = ZX_OK then some mgr1.image else torn t)) d,
      t1)

/-- A sequence of commits; before each one the two tables of the metadata buffer are
set to the tables of the step. -/
def run_commits (env : Env) (torn : Nat → Option MetadataImage) :
    List ((Nat → vpart_entry_t) × (Nat → slice_entry_t)) → CommitState → CommitState
  | [], s => s
  | step :: rest, s =>
    match Commit env torn { s.mgr with vpart_table := step.1, slice_table := step.2 }
        s.disk s.tick with
    | (status, mgr1, d1, t1) =>
      run_commits env torn rest ⟨mgr1, d1, t1, if status = ZX_OK then mgr1.image else s.committed⟩

end VPartitionManager

/-! ## Upgrade, FVM_ALLOC and Load -/

/-- Constants of fvm.h and values of the device that are not part of the sources at
hand; the functions below take them as parameters. -/
structure Params where
  /-- The number of entries of the partition table. -/
  FVM_MAX_ENTRIES : Nat
  /-- The bit `INACTIVE` of the flags of a partition entry. -/
  kVPartFlagInactive : Nat
  /-- The flags that `FVM_ALLOC` accepts. -/
  kVPartAllocateMask : Nat
  GUID_LEN : Nat
  /-- The field `pslice_count` of the superblock. -/
  pslice_count : Nat
  /-- The field `info_.block_size` of the manager. -/
  block_size : Nat
  /-- The value of `SliceSize()`. -/
  slice_size : Nat

/-- The request of `IOCTL_BLOCK_FVM_ALLOC`. -/
structure alloc_req_t where
  slice_count : Nat
  type : List Nat
  guid : List Nat
  name : List Nat
  flags : Nat
  deriving DecidableEq, Repr

/-- Modelled from the spec: `init(type, guid, slices, name, flags)`, which fills a
partition entry. -/
def vpart_entry_t.init (type guid : List Nat) (slices : Nat) (name : List Nat) (flags : Nat) :
    vpart_entry_t := ⟨type, guid, slices, name, flags⟩

/-- The test `!memcmp(a, b, n)`. -/
def memcmp_eq (n : Nat) (a b : List Nat) : Bool := a.take n == b.take n

/-- `VPartition::Create(vpm, entry_index, &out)` with the constructor of `VPartition`:
`none` when the allocation fails. -/
def VPartition.Create (P : Params) (entry_index : Nat) (ac : Nat → Bool) (t : Nat) :
    Option VPartition × Nat :=
  if !ac t then (none, t + 1)
  else (some ⟨entry_index, [], 0, P.block_size, P.slice_size, false⟩, t + 1)

namespace VPartitionManager

/-- The assignment of `entry` to the partition entry `index`. -/
def set_vpart_entry (mgr : VPartitionManager) (index : Nat) (entry : vpart_entry_t) :
    VPartitionManager :=
  { mgr with vpart_table := fun i => if i = index then entry else mgr.vpart_table i }

/-- The loop of `FindFreeVPartEntryLocked` from `i` on, with `n` the number of
iterations left. -/
def find_free_vpart_from (mgr : VPartitionManager) : Nat → Nat → Option Nat
  | 0, _ => none
  | n + 1, i => if (mgr.vpart_table i).slices = 0 then some i else find_free_vpart_from mgr n (i + 1)

/-- `VPartitionManager::FindFreeVPartEntryLocked(&out)`: the status and the value stored
in `out`. -/
def FindFreeVPartEntryLocked (P : Params) (mgr : VPartitionManager) : zx_status_t × Nat :=
  -- for (size_t i = 1; i < FVM_MAX_ENTRIES; i++)
  match mgr.find_free_vpart_from (P.FVM_MAX_ENTRIES - 1) 1 with
  | some i => (ZX_OK, i)
  | none => (ZX_ERR_NO_SPACE, 0)

/-- The loop of `Upgrade` over the partition entries from `i` on, with `n` the number of
iterations left; `old_guid` is `none` for `nullptr`. The result is the pair of
`old_index` and `new_index`. -/
def Upgrade_find (P : Params) (mgr : VPartitionManager) (old_guid : Option (List Nat))
    (new_guid : List Nat) : Nat → Nat → Nat × Nat → Nat × Nat
  | 0, _, r => r
  | n + 1, i, (old_index, new_index) =>
    let entry := mgr.vpart_table i
    if entry.slices ≠ 0 then
      if old_guid.isSome ∧ Nat.land entry.flags P.kVPartFlagInactive = 0 ∧
          memcmp_eq P.GUID_LEN entry.guid (old_guid.getD []) = true then
        Upgrade_find P mgr old_guid new_guid n (i + 1) (i, new_index)
      else if Nat.land entry.flags P.kVPartFlagInactive ≠ 0 ∧
          memcmp_eq P.GUID_LEN entry.guid new_guid = true then
        Upgrade_find P mgr old_guid new_guid n (i + 1) (old_index, i)
      else Upgrade_find P mgr old_guid new_guid n (i + 1) (old_index, new_index)
    else Upgrade_find P mgr old_guid new_guid n (i + 1) (old_index, new_index)

/-- `VPartitionManager::Upgrade(old_guid, new_guid)`: the status, the manager afterwards
and the next interaction number. The flags are a `uint32_t`. -/
def Upgrade (env : Env) (P : Params) (mgr : VPartitionManager) (t : Nat)
    (old_guid new_guid : List Nat) : zx_status_t × VPartitionManager × Nat :=
  match Upgrade_find P mgr
      (if memcmp_eq P.GUID_LEN old_guid new_guid then none else some old_guid) new_guid
      (P.FVM_MAX_ENTRIES - 1) 1 (0, 0) with
  | (old_index, new_index) =>
    if new_index = 0 then (ZX_ERR_NOT_FOUND, mgr, t)
    else
      -- GetVPartEntryLocked(old_index)->flags |= kVPartFlagInactive
      let mgr1 :=
        if old_index ≠ 0 then
          mgr.set_vpart_entry old_index { mgr.vpart_table old_index with
            flags := Nat.lor (mgr.vpart_table old_index).flags P.kVPartFlagInactive }
        else mgr
      -- GetVPartEntryLocked(new_index)->flags &= ~kVPartFlagInactive
      let mgr2 := mgr1.set_vpart_entry new_index { mgr1.vpart_table new_index with
        flags := Nat.land (mgr1.vpart_table new_index).flags
          (Nat.xor (2 ^ 32 - 1) (P.kVPartFlagInactive % 2 ^ 32)) }
      WriteFvmLocked env mgr2 t

/-- The case `IOCTL_BLOCK_FVM_ALLOC` of `VPartitionManager::DdkIoctl`; `cmd` is `none`
when `cmdlen` is less than the size of a request, and `ddk_add` gives the status of
`DdkAdd` in `AddPartition`. The result is the status, the manager, the partition when it
has been published, and the next interaction number. -/
def DdkIoctl_FVM_ALLOC (env : Env) (ddk_add : Nat → zx_status_t) (P : Params)
    (mgr : VPartitionManager) (t : Nat) (cmd : Option alloc_req_t) :
    zx_status_t × VPartitionManager × Option VPartition × Nat :=
  match cmd with
  | none => (ZX_ERR_BUFFER_TOO_SMALL, mgr, none, t)
  | some request =>
    if request.slice_count ≥ 2 ^ 32 - 1 then (ZX_ERR_OUT_OF_RANGE, mgr, none, t)
    else if request.slice_count = 0 then (ZX_ERR_OUT_OF_RANGE, mgr, none, t)
    else
      match FindFreeVPartEntryLocked P mgr with
      | (find_status, vpart_entry) =>
        if find_status ≠ ZX_OK then (find_status, mgr, none, t)
        else
          match VPartition.Create P vpart_entry env.ac t with
          | (none, t1) => (ZX_ERR_NO_MEMORY, mgr, none, t1)
          | (some vpart, t1) =>
            -- entry->init(...)
            let mgr1 := mgr.set_vpart_entry vpart_entry
              (vpart_entry_t.init request.type request.guid (toUInt32 request.slice_count)
                request.name (Nat.land request.flags P.kVPartAllocateMask))
            match AllocateSlicesLocked env ⟨mgr1, vpart, t1⟩ 0 request.slice_count with
            | (status, w) =>
              if status ≠ ZX_OK then
                -- entry->slices = 0; // Undo VPartition allocation
                (status, w.mgr.set_vpart_entry vpart_entry
                  { w.mgr.vpart_table vpart_entry with slices := 0 }, none, w.tick)
              else if ddk_add w.tick ≠ ZX_OK then (ddk_add w.tick, w.mgr, none, w.tick + 1)
              else (ZX_OK, w.mgr, some w.vp, w.tick + 1)

/-- The first loop of `Load`, "Iterate through FVM Entry table", from `i` on with `n` the
number of iterations left: the status on an early return, the array `vpartitions` and
the next interaction number. -/
def Load_create (P : Params) (mgr : VPartitionManager) (ac : Nat → Bool) :
    Nat → Nat → (Nat → Option VPartition) → Nat →
      Option zx_status_t × (Nat → Option VPartition) × Nat
  | 0, _, vpartitions, t => (none, vpartitions, t)
  | n + 1, i, vpartitions, t =>
    if (mgr.vpart_table i).slices = 0 then Load_create P mgr ac n (i + 1) vpartitions t
    else
      match VPartition.Create P i ac t with
      | (none, t1) => (some ZX_ERR_NO_MEMORY, vpartitions, t1)
      | (some vp, t1) =>
        Load_create P mgr ac n (i + 1) (fun k => if k = i then some vp else vpartitions k) t1

/-- The second loop of `Load`, "Iterate through the Slice Allocation table", from `i` on
with `n` the number of iterations left. `SliceSetUnsafe` is `SliceSetLocked` without the
lock, its status dropped. The result is `none` when `entry->vpart` is not an index of
the array `vpartitions`. -/
def Load_fill (P : Params) (mgr : VPartitionManager) (ac : Nat → Bool) :
    Nat → Nat → (Nat → Option VPartition) → Nat → Option ((Nat → Option VPartition) × Nat)
  | 0, _, vpartitions, t => some (vpartitions, t)
  | n + 1, i, vpartitions, t =>
    if (mgr.slice_table i).vpart = PSLICE_UNALLOCATED then
      Load_fill P mgr ac n (i + 1) vpartitions t
    else if (mgr.slice_table i).vpart ≥ P.FVM_MAX_ENTRIES then none
    else
      match vpartitions (mgr.slice_table i).vpart with
      | none => Load_fill P mgr ac n (i + 1) vpartitions t
      | some vp =>
        Load_fill P mgr ac n (i + 1)
          (fun k => if k = (mgr.slice_table i).vpart then
            some (vp.SliceSetLocked (mgr.slice_table i).vslice i ac t).2.1 else vpartitions k)
          (vp.SliceSetLocked (mgr.slice_table i).vslice i ac t).2.2

/-- The third loop of `Load`, "Iterate through 'valid' VPartitions, and create their
devices", from `i` on with `n` the number of iterations left: the manager, the
partitions whose device has been added, and the next interaction number; `none` when an
assertion of `FreeSlices` fails. -/
def Load_expose (env : Env) (ddk_add : Nat → zx_status_t) (P : Params)
    (vpartitions : Nat → Option VPartition) :
    Nat → Nat → VPartitionManager → List VPartition → Nat →
      Option (VPartitionManager × List VPartition × Nat)
  | 0, _, mgr, exposed, t => some (mgr, exposed, t)
  | n + 1, i, mgr, exposed, t =>
    match vpartitions i with
    | none => Load_expose env ddk_add P vpartitions n (i + 1) mgr exposed t
    | some vp =>
      if Nat.land (mgr.vpart_table i).flags P.kVPartFlagInactive ≠ 0 then
        -- FreeSlices(vpartitions[i].get(), 0, VSliceMax())
        match FreeSlices env ⟨mgr, vp, t⟩ 0 VSLICE_MAX with
        | none => none
        | some (_, w) => Load_expose env ddk_add P vpartitions n (i + 1) w.mgr exposed w.tick
      else if ddk_add t ≠ ZX_OK then
        Load_expose env ddk_add P vpartitions n (i + 1) mgr exposed (t + 1)
      else Load_expose env ddk_add P vpartitions n (i + 1) mgr (exposed ++ [vp]) (t + 1)

/-- `VPartitionManager::Load()` from "Begin initializing the underlying partitions" on;
`mgr` holds the metadata that the validation has selected. The result is the status, the
manager, the partitions whose device has been added and the next interaction number.
It is `none` when the loop `for (uint32_t i = 1; i <= pslice_count; i++)` does not end,
when an index is outside of the array `vpartitions`, or when an assertion fails. -/
def Load (env : Env) (ddk_add : Nat → zx_status_t) (P : Params) (mgr : VPartitionManager)
    (t : Nat) : Option (zx_status_t × VPartitionManager × List VPartition × Nat) :=
  if P.pslice_count ≥ 2 ^ 32 - 1 then none
  else
    match Load_create P mgr env.ac (P.FVM_MAX_ENTRIES - 1) 1 (fun _ => none) t with
    | (some status, _, t1) => some (status, mgr, [], t1)
    | (none, vpartitions, t1) =>
      match Load_fill P mgr env.ac P.pslice_count 1 vpartitions t1 with
      | none => none
      | some (vpartitions1, t2) =>
        match Load_expose env ddk_add P vpartitions1 P.FVM_MAX_ENTRIES 0 mgr [] t2 with
        | none => none
        | some (mgr1, exposed, t3) => some (ZX_OK, mgr1, exposed, t3)

end VPartitionManager

/-! ## Coherence of a slice map with the allocation table -/

/-- The slice map of `vp` and the slots `1..N` of the allocation table agree: `vp` maps
the virtual slice `v` to the physical slice `p`, not `FREE`, exactly when the slot `p`
names the partition and `v`. -/
def VPartitionManager.Coherent (N : Nat) (mgr : VPartitionManager) (vp : VPartition) : Prop :=
  ∀ v p, p ≠ PSLICE_UNALLOCATED →
    (vp.SliceGetLocked v = p ↔ 1 ≤ p ∧ p ≤ N ∧ mgr.slice_table p = ⟨vp.entry_index, v⟩)

/-- No two allocated slots of `1..N` name the same partition and virtual slice. -/
def VPartitionManager.NoDuplicates (N : Nat) (mgr : VPartitionManager) : Prop :=
  ∀ p, p ≤ N → ∀ q, q ≤ N →
    (1 ≤ p ∧ 1 ≤ q ∧ (mgr.slice_table p).vpart ≠ PSLICE_UNALLOCATED ∧
      mgr.slice_table p = mgr.slice_table q) → p = q

instance (N : Nat) (mgr : VPartitionManager) : Decidable (mgr.NoDuplicates N) := by
  unfold VPartitionManager.NoDuplicates; infer_instance

/-! ## The control interface of a partition -/

/-- The request of `IOCTL_BLOCK_FVM_EXTEND` and of `IOCTL_BLOCK_FVM_SHRINK`; both fields
are `size_t`. -/
structure extend_request_t where
  offset : Nat
  length : Nat
  deriving DecidableEq, Repr

/-- `RequestBoundCheck(request, vslice_max)`; the sum of `offset` and `length` wraps at
`2^64`. -/
def RequestBoundCheck (request : extend_request_t) (vslice_max : Nat) : zx_status_t :=
  if request.offset = 0 ∨ request.offset > vslice_max then ZX_ERR_OUT_OF_RANGE
  else if request.length > vslice_max then ZX_ERR_OUT_OF_RANGE
  else if size_add request.offset request.length < request.offset ∨
      size_add request.offset request.length > vslice_max then ZX_ERR_OUT_OF_RANGE
  else ZX_OK

namespace VPartition

/-- The case `IOCTL_BLOCK_FVM_EXTEND` of `VPartition::DdkIoctl`; `cmd` is `none` when
`cmdlen` is less than the size of a request. -/
def DdkIoctl_FVM_EXTEND (env : Env) (w : World) (cmd : Option extend_request_t) :
    zx_status_t × World :=
  match cmd with
  | none => (ZX_ERR_BUFFER_TOO_SMALL, w)
  | some request =>
    if RequestBoundCheck request VSLICE_MAX ≠ ZX_OK then
      (RequestBoundCheck request VSLICE_MAX, w)
    else if request.length = 0 then (ZX_OK, w)
    else VPartitionManager.AllocateSlices env w request.offset request.length

/-- The case `IOCTL_BLOCK_FVM_SHRINK` of `VPartition::DdkIoctl`; `none` when a
`ZX_ASSERT` of `FreeSlices` fails. -/
def DdkIoctl_FVM_SHRINK (env : Env) (w : World) (cmd : Option extend_request_t) :
    Option (zx_status_t × World) :=
  match cmd with
  | none => some (ZX_ERR_BUFFER_TOO_SMALL, w)
  | some request =>
    if RequestBoundCheck request VSLICE_MAX ≠ ZX_OK then
      some (RequestBoundCheck request VSLICE_MAX, w)
    else if request.length = 0 then some (ZX_OK, w)
    else VPartitionManager.FreeSlices env w request.offset request.length

/-- The case `IOCTL_BLOCK_FVM_DESTROY` of `VPartition::DdkIoctl`. -/
def DdkIoctl_FVM_DESTROY (env : Env) (w : World) : Option (zx_status_t × World) :=
  VPartitionManager.FreeSlices env w 0 VSLICE_MAX

end VPartition

/-! ## The block queue of a partition -/

/-- Constants of ddk/protocol/block.h and the function `SliceStart` of fvm.h, which are
not part of the sources at hand; `BlockQueue` takes them as parameters. -/
structure QueueParams where
  BLOCK_OP_MASK : Nat
  BLOCK_OP_READ : Nat
  BLOCK_OP_WRITE : Nat
  BLOCK_OP_FLUSH : Nat
  /-- The value of `SliceStart(disk_size, slice_size, pslice)` for the disk and the slice
  size of the manager, as a function of `pslice`. -/
  SliceStart : Nat → Nat

/-- The fields of a `block_op_t` that `BlockQueue` reads and writes: `command` and
`rw.length` are `uint32_t`, `rw.offset_dev` and `rw.offset_vmo` are `uint64_t`. -/
structure block_op_t where
  command : Nat
  length : Nat
  offset_dev : Nat
  offset_vmo : Nat
  deriving DecidableEq, Repr

/-- What a call of `BlockQueue` has done. -/
structure QueueResult where
  /-- The status handed to `txn->completion_cb`, when `BlockQueue` has called it. -/
  completed : Option zx_status_t
  /-- The requests handed to `mgr_->Queue`, in the order of the calls. -/
  queued : List block_op_t
  /-- The request `txn` after the call. -/
  txn : block_op_t
  /-- The value `txns_total` of the `multi_txn_state_t` that the queued requests share,
  when they are the sub-requests of `txn`. -/
  txns_total : Option Nat
  /-- The next interaction number. -/
  tick : Nat
  deriving DecidableEq, Repr

/-- Modelled from the spec: `fbl::round_up(val, multiple)`, the least multiple of
`multiple` that is not less than `val`, in 64-bit arithmetic. -/
def round_up (val multiple : Nat) : Nat :=
  ((val + (multiple - 1)) % 2 ^ 64 / multiple * multiple) % 2 ^ 64

namespace VPartition

/-- `VPartition::DdkGetSize()`; the product is a `zx_off_t`, and the `ZX_DEBUG_ASSERT`
on it is not embedded. -/
def DdkGetSize (vp : VPartition) : Nat := (VSLICE_MAX * vp.slice_size) % 2 ^ 64

/-- Modelled from the spec: `BlockSize()`, the field `info_.block_size`. -/
def BlockSize (vp : VPartition) : Nat := vp.block_size

/-- The loop "First, check that all slices are allocated" of `BlockQueue` from `vslice`
on, with `n` the number of iterations left: `none` when a slice is free, the variable
`contiguous` otherwise. The lookups are `uint32_t`. -/
def BlockQueue_check (vp : VPartition) (vslice_start : Nat) : Nat → Nat → Bool → Option Bool
  | 0, _, contiguous => some contiguous
  | n + 1, vslice, contiguous =>
    if vp.SliceGetLocked vslice = PSLICE_UNALLOCATED then none
    else
      BlockQueue_check vp vslice_start n (vslice + 1)
        (if vslice ≠ vslice_start ∧
            toUInt32 (vp.SliceGetLocked (vslice - 1) + 1) ≠ vp.SliceGetLocked vslice then false
          else contiguous)

/-- The loop of `BlockQueue` that builds the sub-requests `txns[i]`, with `n` the
number of iterations left, `i` the loop variable, `length_remaining` the variable of
that name and `txns` the sub-requests built so far: `none` when `calloc` fails, and the
next interaction number. The `ZX_DEBUG_ASSERT`s are not embedded. -/
def BlockQueue_split (Q : QueueParams) (vp : VPartition) (ac : Nat → Bool) (txn : block_op_t)
    (blocks_per_slice vslice_start vslice_end : Nat) :
    Nat → Nat → Nat → List block_op_t → Nat → Option (List block_op_t) × Nat
  | 0, _, _, txns, t => (some txns, t)
  | n + 1, i, length_remaining, txns, t =>
    let vslice := vslice_start + i
    let pslice := vp.SliceGetLocked vslice
    let length :=
      if vslice = vslice_start then
        (round_up (size_add txn.offset_dev 1) blocks_per_slice + 2 ^ 64 - txn.offset_dev) % 2 ^ 64
      else if vslice = vslice_end then length_remaining
      else blocks_per_slice
    let offset_vmo :=
      if vslice = vslice_start then txn.offset_vmo
      else if vslice = vslice_end then
        size_add txn.offset_vmo ((txn.length + 2 ^ 32 - length_remaining) % 2 ^ 32)
      else
        size_add txn.offset_vmo
          (size_add (txns.headD txn).length ((blocks_per_slice * (i - 1)) % 2 ^ 64))
    -- calloc(1, mgr_->BlockOpSize())
    if !ac t then (none, t + 1)
    else
      let offset_dev :=
        if vslice = vslice_start then
          size_add (Q.SliceStart pslice / vp.BlockSize) (txn.offset_dev % blocks_per_slice)
        else Q.SliceStart pslice / vp.BlockSize
      let sub : block_op_t :=
        { txn with offset_vmo := offset_vmo, length := toUInt32 length, offset_dev := offset_dev }
      BlockQueue_split Q vp ac txn blocks_per_slice vslice_start vslice_end n (i + 1)
        ((length_remaining + 2 ^ 32 - sub.length) % 2 ^ 32) (txns ++ [sub]) (t + 1)

/-- The statements of `BlockQueue` from `fbl::AutoLock lock(&lock_)` on, for a request
that has passed the checks of its command, length and range. -/
def BlockQueue_slices (Q : QueueParams) (vp : VPartition) (ac : Nat → Bool) (txn : block_op_t)
    (t : Nat) (blocks_per_slice vslice_start vslice_end : Nat) : QueueResult :=
  let offset_dev :=
    size_add (Q.SliceStart (vp.SliceGetLocked vslice_start) / vp.BlockSize)
      (txn.offset_dev % blocks_per_slice)
  let rewritten : block_op_t := { txn with offset_dev := offset_dev }
  if vslice_start = vslice_end then
    -- Common case: txn occurs within one slice
    if vp.SliceGetLocked vslice_start = PSLICE_UNALLOCATED then
      ⟨some ZX_ERR_OUT_OF_RANGE, [], txn, none, t⟩
    else ⟨none, [rewritten], rewritten, none, t⟩
  else
    -- Less common case: txn spans multiple slices
    match vp.BlockQueue_check vslice_start (vslice_end + 1 - vslice_start) vslice_start true with
    | none => ⟨some ZX_ERR_OUT_OF_RANGE, [], txn, none, t⟩
    | some true =>
      -- Ideal case: slices are contiguous
      ⟨none, [rewritten], rewritten, none, t⟩
    | some false =>
      -- Harder case: Noncontiguous slices
      let txn_count := (vslice_end + 2 ^ 64 - vslice_start + 1) % 2 ^ 64
      if 32 < txn_count then ⟨some ZX_ERR_OUT_OF_RANGE, [], txn, none, t⟩
      else if !ac t then ⟨some ZX_ERR_NO_MEMORY, [], txn, none, t + 1⟩
      else
        match vp.BlockQueue_split Q ac txn blocks_per_slice vslice_start vslice_end
            txn_count 0 txn.length [] (t + 1) with
        | (none, t1) => ⟨some ZX_ERR_NO_MEMORY, [], txn, none, t1⟩
        | (some txns, t1) => ⟨none, txns, txn, some txn_count, t1⟩

/-- `VPartition::BlockQueue(txn)`: `none` when a division by zero stops the call. -/
def BlockQueue (Q : QueueParams) (vp : VPartition) (ac : Nat → Bool) (txn : block_op_t)
    (t : Nat) : Option QueueResult :=
  if Nat.land txn.command Q.BLOCK_OP_MASK = Q.BLOCK_OP_READ ∨
      Nat.land txn.command Q.BLOCK_OP_MASK = Q.BLOCK_OP_WRITE then
    if vp.BlockSize = 0 then none
    else
      let device_capacity := vp.DdkGetSize / vp.BlockSize
      if txn.length = 0 then some ⟨some ZX_ERR_INVALID_ARGS, [], txn, none, t⟩
      else if txn.offset_dev ≥ device_capacity ∨
          device_capacity - txn.offset_dev < txn.length then
        some ⟨some ZX_ERR_OUT_OF_RANGE, [], txn, none, t⟩
      else
        let blocks_per_slice := vp.slice_size / vp.BlockSize
        if blocks_per_slice = 0 then none
        else
          -- Start, end both inclusive
          let vslice_start := txn.offset_dev / blocks_per_slice
          let vslice_end := (txn.offset_dev + txn.length - 1) % 2 ^ 64 / blocks_per_slice
          some (vp.BlockQueue_slices Q ac txn t blocks_per_slice vslice_start vslice_end)
  else if Nat.land txn.command Q.BLOCK_OP_MASK = Q.BLOCK_OP_FLUSH then
    -- Pass-through operations
    some ⟨none, [txn], txn, none, t⟩
  else some ⟨some ZX_ERR_NOT_SUPPORTED, [], txn, none, t⟩

end VPartition

/-! ## The completion of a split request and the place of a slice on the disk -/

/-- Modelled from the spec: `SliceStart(disk_size, slice_size, pslice)` of fvm.h, the
byte offset of the physical slice `pslice` on the disk, whose layout is the primary
metadata, the backup metadata and then the physical slices 1, 2, ...; `metadata_size`
is the value of `MetadataSize(disk_size, slice_size)`. -/
def SliceStart (metadata_size slice_size pslice : Nat) : Nat :=
  (2 * metadata_size + (pslice - 1) * slice_size) % 2 ^ 64

/-- The fields `txns_completed`, `txns_total` and `status` of a `multi_txn_state_t`; the
first two are `size_t`. -/
structure multi_txn_state_t where
  txns_completed : Nat
  txns_total : Nat
  status : zx_status_t
  deriving DecidableEq, Repr

/-- The constructor `multi_txn_state(total, txn)`. -/
def multi_txn_state_t.init (total : Nat) : multi_txn_state_t := ⟨0, total, ZX_OK⟩

/-- `multi_txn_completion(txn, status)` on the state that `txn->cookie` points to: the
state afterwards and, when the call invokes `state->original->completion_cb`, the status
that it hands over; the state is deleted then. -/
def multi_txn_completion (state : multi_txn_state_t) (status : zx_status_t) :
    multi_txn_state_t × Option zx_status_t :=
  -- state->txns_completed++
  let txns_completed := (state.txns_completed + 1) % 2 ^ 64
  let status1 := if state.status = ZX_OK ∧ status ≠ ZX_OK then status else state.status
  if txns_completed = state.txns_total then
    (⟨txns_completed, state.txns_total, status1⟩, some status1)
  else (⟨txns_completed, state.txns_total, status1⟩, none)

/-- The calls of `multi_txn_completion` for the sub-requests of one request, which
complete with the statuses of the list in this order: what each call hands to the
completion callback of the request. -/
def run_completions : multi_txn_state_t → List zx_status_t → List (Option zx_status_t)
  | _, [] => []
  | state, status :: rest =>
    (multi_txn_completion state status).2 ::
      run_completions (multi_txn_completion state status).1 rest

/-! ## The translation of a block request, in the words of the specification -/

namespace VPartition

/-- Modelled from the spec: the device block of the virtual block `b` under the
translation slice by slice, the start block of the physical slice of the virtual slice
`b / K` plus `b mod K`, with `K` the number of blocks of a slice. -/
def block_address (Q : QueueParams) (vp : VPartition) (b : Nat) : Nat :=
  Q.SliceStart (vp.SliceGetLocked (b / (vp.slice_size / vp.block_size))) / vp.block_size +
    b % (vp.slice_size / vp.block_size)

/-- Modelled from the spec: the length of the `j`-th of the `n` sub-requests of a request
of `length` blocks that starts `r` blocks into its first slice of `K` blocks: `K - r`
for the first one, `K` for the middle ones and the remainder for the last one. -/
def piece_length (K r length n j : Nat) : Nat :=
  if j = 0 then K - r else if j + 1 = n then length - (K - r) - (n - 2) * K else K

/-- Modelled from the spec: the `j`-th of the `n` sub-requests of the request `txn`: its
device offset is the start block of the physical slice of the `j`-th virtual slice of
the request, plus the offset into the slice for the first one, and its VMO offset is the
one of the request plus the lengths of the sub-requests before it. -/
def scatter_piece (Q : QueueParams) (vp : VPartition) (txn : block_op_t) (n j : Nat) :
    block_op_t :=
  { command := txn.command
    length := piece_length (vp.slice_size / vp.block_size)
      (txn.offset_dev % (vp.slice_size / vp.block_size)) txn.length n j
    offset_dev :=
      Q.SliceStart (vp.SliceGetLocked
        (txn.offset_dev / (vp.slice_size / vp.block_size) + j)) / vp.block_size +
      (if j = 0 then txn.offset_dev % (vp.slice_size / vp.block_size) else 0)
    offset_vmo := txn.offset_vmo +
      ((List.range j).map (piece_length (vp.slice_size / vp.block_size)
        (txn.offset_dev % (vp.slice_size / vp.block_size)) txn.length n)).sum }

end VPartition

/-! ## States used in the examples -/

/-- An environment in which every interaction succeeds. -/
def env_ok : Env := ⟨fun _ => true, fun _ => ZX_OK, fun _ => ZX_OK, fun _ => ZX_OK⟩

/-- An environment in which the metadata write of interaction 9 fails with `ZX_ERR_IO`
and the heap allocation of interaction 10 fails. -/
def env_write_alloc_fail : Env :=
  ⟨fun k => k != 10, fun _ => ZX_OK, fun k => if k = 9 then ZX_ERR_IO else ZX_OK, fun _ => ZX_OK⟩

/-- An environment in which the transaction of a metadata write cannot be allocated. -/
def env_no_txn : Env :=
  ⟨fun _ => true, fun _ => ZX_ERR_NO_MEMORY, fun _ => ZX_OK, fun _ => ZX_OK⟩

/-- An environment in which the metadata write of interaction 3 fails with `ZX_ERR_IO`. -/
def env_second_write_fails : Env :=
  ⟨fun _ => true, fun _ => ZX_OK, fun k => if k = 3 then ZX_ERR_IO else ZX_OK, fun _ => ZX_OK⟩

/-- An environment in which every metadata write fails with `ZX_ERR_IO`. -/
def env_write_fails : Env :=
  ⟨fun _ => true, fun _ => ZX_OK, fun _ => ZX_ERR_IO, fun _ => ZX_OK⟩

/-- A partition table of 4 entries, the bit 0 as `INACTIVE` and as the mask of
`FVM_ALLOC`, GUIDs of 16 bytes, 62 physical slices, blocks of 512 bytes and slices of
1 MiB. -/
def params_small : Params := ⟨4, 1, 1, 16, 62, 512, 1048576⟩

/-- A manager of 62 physical slices, all free, with metadata of 8192 bytes, at generation
7, the first copy being primary. -/
def mgr_empty : VPartitionManager :=
  ⟨8192, 62, 65535, 7, true, fun _ => ⟨[], [], 0, [], 0⟩, fun _ => ⟨0, 0⟩, []⟩

/-- A partition with the virtual slices of `m` on a device of 512-byte blocks and slices
of 1 MiB. -/
def vp_of (m : SliceMap) : VPartition :=
  ⟨1, m, (m.map (fun e => e.pslices.length)).sum * 2048, 512, 1048576, false⟩

/-- A metadata image without partitions in which the slot of physical slice 1 names
partition 2 and virtual slice 0. -/
def mgr_orphan : VPartitionManager :=
  { mgr_empty with slice_table := fun i => if i = 1 then ⟨2, 0⟩ else ⟨0, 0⟩ }

/-- A metadata image with the active partition 1, which owns the physical slices 1, 2
and 5 as its virtual slices 0, 1 and 7, and the inactive partition 2, which owns the
physical slices 3 and 4 as its virtual slices 0 and 1. -/
def mgr_image : VPartitionManager :=
  { mgr_empty with
    vpart_table := fun i =>
      if i = 1 then ⟨[1], [7], 3, [112], 0⟩
      else if i = 2 then ⟨[1], [8], 2, [113], 1⟩ else ⟨[], [], 0, [], 0⟩,
    slice_table := fun i =>
      if i = 1 then ⟨1, 0⟩ else if i = 2 then ⟨1, 1⟩ else if i = 3 then ⟨2, 0⟩
      else if i = 4 then ⟨2, 1⟩ else if i = 5 then ⟨1, 7⟩ else ⟨0, 0⟩ }

/-- The state of a manager without allocated slices and of its partition 1, before any
interaction with the environment. -/
def world_empty : World := ⟨mgr_empty, vp_of [], 0⟩

/-- The state after partition 1 of `world_empty` has allocated the virtual slices 1 to 4. -/
def world_four : World := (VPartitionManager.AllocateSlices env_ok world_empty 1 4).2

/-- The result of `FVM_ALLOC` on `mgr_empty` for a partition of 3 slices with GUID 7. -/
def alloc_one : zx_status_t × VPartitionManager × Option VPartition × Nat :=
  VPartitionManager.DdkIoctl_FVM_ALLOC env_ok (fun _ => ZX_OK) params_small mgr_empty 0
    (some ⟨3, [1], [7], [112], 0⟩)

/-- The manager after `alloc_one` with the partition that it has published. -/
def world_one : World := ⟨alloc_one.2.1, alloc_one.2.2.1.getD (vp_of []), alloc_one.2.2.2⟩

/-- The result of a second `FVM_ALLOC`, for an inactive partition of 2 slices with GUID 8. -/
def alloc_two : zx_status_t × VPartitionManager × Option VPartition × Nat :=
  VPartitionManager.DdkIoctl_FVM_ALLOC env_ok (fun _ => ZX_OK) params_small alloc_one.2.1
    alloc_one.2.2.2 (some ⟨2, [1], [8], [113], 1⟩)

/-- An environment in which every heap allocation fails. -/
def env_no_heap : Env := ⟨fun _ => false, fun _ => ZX_OK, fun _ => ZX_OK, fun _ => ZX_OK⟩

/-- The block operations `READ = 1`, `WRITE = 2` and `FLUSH = 3` under the mask `0xff`,
on a disk with metadata of 8192 bytes and slices of 1 MiB. -/
def queue_params : QueueParams := ⟨255, 1, 2, 3, SliceStart 8192 1048576⟩

/-- A partition whose virtual slices 0, 1 and 2 are the physical slices 1, 5 and 2. -/
def vp_scattered : VPartition := vp_of [⟨0, [1, 5, 2]⟩]

/-- A partition of 34 virtual slices, 0 to 33, on the physical slices 2, 1, 3, 4, ...,
34. -/
def vp_many : VPartition := vp_of [⟨0, 2 :: 1 :: List.range' 3 32⟩]

/-! ## Arithmetic of the block count -/

theorem add_sub_blocks (b k : Nat) (hb : b < 2 ^ 64) :
    (((((((b : Int) + (k : Int)) % 2 ^ 64).toNat : Nat) : Int) + -(k : Int)) % 2 ^ 64).toNat = b := by
  omega

theorem toInt32_of_lt (x : Nat) (h : x < 2 ^ 31) : toInt32 x = (x : Int) := by
  unfold toInt32
  have h1 : x % 2 ^ 32 = x := Nat.mod_eq_of_lt (by omega)
  rw [h1]
  simp only [h, if_true]

theorem toInt32_neg (x : Nat) (h1 : 2 ^ 31 ≤ x) (h2 : x < 2 ^ 32) : toInt32 x < 0 := by
  unfold toInt32
  have h3 : x % 2 ^ 32 = x := Nat.mod_eq_of_lt h2
  rw [h3]
  have h4 : ¬ (x < 2 ^ 31) := by omega
  simp only [h4, if_false]
  omega

/-! ## Extents: what `get`, `Split` and `Merge` compute -/

namespace SliceExtent

theorem get_of_lt (e : SliceExtent) (v : Nat) (h : v < e.vslice_start) : e.get v = 0 := by
  simp [get, Nat.not_le.mpr h, PSLICE_UNALLOCATED]

theorem get_of_ge (e : SliceExtent) (v : Nat) (h : e.end_ ≤ v) : e.get v = 0 := by
  unfold get end_ at *
  split
  · rw [List.getD_eq_default]
    · rfl
    · omega
  · rfl

theorem get_mk_append (s : Nat) (a b : List Nat) (v : Nat) :
    (SliceExtent.mk s (a ++ b)).get v =
      (SliceExtent.mk s a).get v + (SliceExtent.mk (s + a.length) b).get v := by
  unfold get
  simp only [PSLICE_UNALLOCATED]
  by_cases h1 : s ≤ v
  · by_cases h2 : s + a.length ≤ v
    · have h3 : a.length ≤ v - s := by omega
      simp only [h1, h2, if_true]
      rw [List.getD_append_right _ _ _ _ h3, List.getD_eq_default a 0 h3]
      have : v - s - a.length = v - (s + a.length) := by omega
      simp [this]
    · have h3 : v - s < a.length := by omega
      simp only [h1, h2, if_true, if_false]
      rw [List.getD_append _ _ _ _ h3]
      simp
  · have h2 : ¬ (s + a.length ≤ v) := by omega
    simp [h1, h2]

theorem get_single (s p v : Nat) : (SliceExtent.mk s [p]).get v = if v = s then p else 0 := by
  unfold get
  simp only [PSLICE_UNALLOCATED]
  by_cases h1 : s ≤ v
  · by_cases h2 : v = s
    · subst h2; simp
    · have : v - s = (v - s - 1) + 1 := by omega
      simp only [h1, h2, if_true, if_false]
      rw [this]; simp
  · have : v ≠ s := by omega
    simp [h1, this]

theorem get_nil (s v : Nat) : (SliceExtent.mk s []).get v = 0 := by
  unfold get; simp [PSLICE_UNALLOCATED]

theorem copy_from_eq (src : SliceExtent) :
    ∀ (n vs : Nat) (dst : SliceExtent), src.start ≤ vs → vs + n = src.end_ →
      copy_from src n vs dst =
        { dst with pslices := dst.pslices ++ src.pslices.drop (vs - src.start) } := by
  intro n
  induction n with
  | zero =>
    intro vs dst h1 h2
    have : src.pslices.length ≤ vs - src.start := by
      unfold end_ start at *; omega
    simp [copy_from, List.drop_eq_nil_of_le this]
  | succ n ih =>
    intro vs dst h1 h2
    have hlt : vs - src.start < src.pslices.length := by
      unfold end_ start at *; omega
    rw [copy_from, ih (vs + 1) _ (by omega) (by omega)]
    have hget : src.get vs = src.pslices[vs - src.start] := by
      unfold get start at *
      simp only [h1, if_true]
      rw [List.getD_eq_getElem _ _ hlt]
    have hd : src.pslices.drop (vs - src.start) =
        src.pslices[vs - src.start] :: src.pslices.drop (vs + 1 - src.start) := by
      rw [List.drop_eq_getElem_cons hlt]
      congr 2
      unfold start at *; omega
    simp [hget, hd]

theorem trim_to_eq (vslice : Nat) :
    ∀ (n : Nat) (e : SliceExtent), n = e.pslices.length → e.start ≤ vslice → vslice < e.end_ →
      trim_to n vslice e = { e with pslices := e.pslices.take (vslice + 1 - e.start) } := by
  intro n
  induction n with
  | zero =>
    intro e hn h1 h2
    unfold end_ start at *; omega
  | succ n ih =>
    intro e hn h1 h2
    have hne : e.pslices ≠ [] := by
      intro h; rw [h] at hn; simp at hn
    by_cases hend : vslice + 1 = e.end_
    · have : vslice + 1 - e.start = e.pslices.length := by
        unfold end_ start at *; omega
      rw [trim_to, this, List.take_length]
      simp [hend]
    · have hpop : e.pop_back.pslices = e.pslices.take (e.pslices.length - 1) := by
        simp [pop_back, List.dropLast_eq_take]
      have hlen : e.pop_back.pslices.length = n := by
        rw [hpop, List.length_take]; omega
      have hs : e.pop_back.start = e.start := rfl
      have he : vslice < e.pop_back.end_ := by
        unfold end_ start at *
        rw [hlen]; simp only [pop_back]; omega
      have hemp : e.is_empty = false := by
        simp [is_empty, hne]
      rw [trim_to]
      simp only [hemp, Bool.not_false, Bool.true_and, bne_iff_ne, ne_eq, hend, not_false_eq_true,
        if_true]
      rw [ih e.pop_back hlen.symm (by rw [hs]; exact h1) he, hpop, hs, List.take_take]
      have : min (vslice + 1 - e.start) (e.pslices.length - 1) = vslice + 1 - e.start := by
        unfold end_ start at *; omega
      simp [pop_back, this]

theorem Split_eq (e : SliceExtent) (vslice : Nat) (ac : Nat → Bool) (t : Nat)
    (h1 : e.start ≤ vslice) (h2 : vslice < e.end_) (a1 : ac t = true) (a2 : ac (t + 1) = true) :
    e.Split vslice ac t =
      (some ⟨vslice + 1, e.pslices.drop (vslice + 1 - e.start)⟩,
        ⟨e.vslice_start, e.pslices.take (vslice + 1 - e.start)⟩, t + 2) := by
  unfold Split
  simp only [a1, a2, Bool.not_true, Bool.false_eq_true, if_false]
  rw [copy_from_eq e _ _ _ (by omega) (by omega), trim_to_eq vslice _ e rfl h1 h2]
  simp

theorem Merge_eq (e other : SliceExtent) (ac : Nat → Bool) (t : Nat) (a1 : ac t = true) :
    e.Merge other ac t = (true, ⟨e.vslice_start, e.pslices ++ other.pslices⟩, t + 1) := by
  unfold Merge
  simp only [a1, Bool.not_true, Bool.false_eq_true, if_false]
  rw [copy_from_eq other _ _ _ (le_refl _) (by unfold end_ start; omega)]
  simp

end SliceExtent

/-! ## Slice maps: the container operations on a map split around a virtual slice -/

namespace SliceMap

theorem upper_bound_prev_nil (v : Nat) : upper_bound_prev [] v = none := rfl

theorem upper_bound_prev_cons (a : SliceExtent) (r : SliceMap) (v : Nat) :
    upper_bound_prev (a :: r) v =
      if a.start ≤ v then some ((upper_bound_prev r v).getD a) else none := by
  unfold upper_bound_prev
  by_cases h : a.start ≤ v
  · simp only [h, decide_True, List.takeWhile_cons_of_pos, if_true]
    rw [List.getLast?_cons]
  · simp [h]

theorem upper_bound_cons (a : SliceExtent) (r : SliceMap) (v : Nat) :
    upper_bound (a :: r) v = if v < a.start then some a else upper_bound r v := by
  unfold upper_bound
  by_cases h : v < a.start <;> simp [List.find?_cons, h]

theorem upper_bound_prev_append (L R : SliceMap) (v : Nat)
    (hL : ∀ x ∈ L, x.start ≤ v) (hR : ∀ x ∈ R, v < x.start) :
    upper_bound_prev (L ++ R) v = L.getLast? := by
  unfold upper_bound_prev
  have h1 : List.takeWhile (fun e => decide (e.start ≤ v)) (L ++ R) = L := by
    rw [List.takeWhile_append_of_pos (by simpa using hL)]
    cases R with
    | nil => simp
    | cons b R =>
      have := hR b (by simp)
      simp [Nat.not_le.mpr this]
  rw [h1]

theorem upper_bound_append (L R : SliceMap) (v : Nat)
    (hL : ∀ x ∈ L, x.start ≤ v) (hR : ∀ x ∈ R, v < x.start) :
    upper_bound (L ++ R) v = R.head? := by
  unfold upper_bound
  induction L with
  | nil =>
    cases R with
    | nil => rfl
    | cons b R => simp [List.find?_cons, hR b (by simp)]
  | cons a L ih =>
    have ha := hL a (by simp)
    simp only [List.cons_append, List.find?_cons, Nat.not_lt.mpr ha, decide_False]
    exact ih (fun x hx => hL x (by simp [hx]))




theorem upper_bound_prev_mem (m : SliceMap) (v : Nat) (x : SliceExtent)
    (h : upper_bound_prev m v = some x) : x ∈ m ∧ x.start ≤ v := by
  unfold upper_bound_prev at h
  have hx := List.mem_of_getLast?_eq_some h
  constructor
  · exact List.takeWhile_subset _ hx
  · simpa using List.mem_takeWhile_imp hx

theorem start_gt_of_pairwise (a : SliceExtent) (r : SliceMap) (v : Nat)
    (h : List.Pairwise (fun a b : SliceExtent => a.end_ ≤ b.start) (a :: r))
    (ha : v < a.start) : ∀ x ∈ r, v < x.start := by
  intro x hx
  have := (List.pairwise_cons.mp h).1 x hx
  unfold SliceExtent.end_ SliceExtent.start at *
  omega

theorem upper_bound_prev_none (m : SliceMap) (v : Nat)
    (h : m.Pairwise (fun a b => a.end_ ≤ b.start)) (hn : upper_bound_prev m v = none) :
    ∀ x ∈ m, v < x.start := by
  cases m with
  | nil => simp
  | cons a r =>
    rw [upper_bound_prev_cons] at hn
    by_cases ha : a.start ≤ v
    · simp [ha] at hn
    · intro x hx
      rcases List.mem_cons.mp hx with rfl | hx
      · omega
      · exact start_gt_of_pairwise a r v h (by omega) x hx

theorem sum_get_of_gt (m : SliceMap) (v : Nat) (h : ∀ x ∈ m, v < x.start) :
    (m.map (fun e => e.get v)).sum = 0 := by
  induction m with
  | nil => rfl
  | cons a r ih =>
    have ha : a.get v = 0 := by
      have := h a (by simp)
      unfold SliceExtent.get SliceExtent.start at *
      simp [Nat.not_le.mpr this, PSLICE_UNALLOCATED]
    simp [ha, ih (fun x hx => h x (by simp [hx]))]

theorem sum_get_of_le (m : SliceMap) (v : Nat) (h : ∀ x ∈ m, x.end_ ≤ v) :
    (m.map (fun e => e.get v)).sum = 0 := by
  induction m with
  | nil => rfl
  | cons a r ih =>
    have ha : a.get v = 0 := by
      have := h a (by simp)
      unfold SliceExtent.get SliceExtent.end_ at *
      simp only [PSLICE_UNALLOCATED]
      split
      · rw [List.getD_eq_default]; omega
      · rfl
    simp [ha, ih (fun x hx => h x (by simp [hx]))]

/-- The physical slice that the extents of `m` hold for `v`, as a sum: in a valid map at
most one extent contributes. -/
theorem lookup_eq_sum (m : SliceMap) (v : Nat) (h : m.Pairwise (fun a b => a.end_ ≤ b.start)) :
    (match upper_bound_prev m v with
      | none => 0
      | some extent => extent.get v) = (m.map (fun e => e.get v)).sum := by
  induction m with
  | nil => rfl
  | cons a r ih =>
    have hr := (List.pairwise_cons.mp h).2
    have ih := ih hr
    rw [upper_bound_prev_cons]
    by_cases ha : a.start ≤ v
    · simp only [ha, if_true, List.map_cons, List.sum_cons]
      cases hu : upper_bound_prev r v with
      | none =>
        rw [sum_get_of_gt r v (upper_bound_prev_none r v hr hu)]
        simp
      | some x =>
        rw [hu] at ih
        have hx := upper_bound_prev_mem r v x hu
        have h1 := (List.pairwise_cons.mp h).1 x hx.1
        have ha0 : a.get v = 0 := by
          have h2 : a.end_ ≤ v := by omega
          unfold SliceExtent.get SliceExtent.end_ at *
          simp only [PSLICE_UNALLOCATED]
          split
          · rw [List.getD_eq_default]; omega
          · rfl
        simp only [Option.getD_some, ha0, zero_add]
        exact ih
    · simp only [ha, if_false]
      rw [sum_get_of_gt _ v]
      intro x hx
      rcases List.mem_cons.mp hx with rfl | hx
      · omega
      · exact start_gt_of_pairwise a r v h (by omega) x hx

theorem insert_append (L R : SliceMap) (e : SliceExtent)
    (hL : ∀ x ∈ L, x.start < e.start) (hR : ∀ x ∈ R, e.start < x.start) :
    insert (L ++ R) e = L ++ e :: R := by
  unfold insert
  have hR0 : List.takeWhile (fun x => decide (x.start < e.start)) R = [] := by
    cases R with
    | nil => rfl
    | cons b R => simp [Nat.lt_asymm (hR b (by simp))]
  have hR1 : List.dropWhile (fun x => decide (x.start < e.start)) R = R := by
    cases R with
    | nil => rfl
    | cons b R => simp [Nat.lt_asymm (hR b (by simp))]
  rw [List.takeWhile_append_of_pos (by simpa using hL),
    List.dropWhile_append_of_pos (by simpa using hL), hR0, hR1]
  simp

theorem erase_mid (L R : SliceMap) (e e1 : SliceExtent) (he : e1.start = e.start)
    (hL : ∀ x ∈ L, x.start < e.start) (hR : ∀ x ∈ R, e.start < x.start) :
    erase (L ++ e :: R) e1 = L ++ R := by
  unfold erase
  rw [List.filter_append, List.filter_cons]
  have h1 : List.filter (fun x => decide (x.start ≠ e1.start)) L = L := by
    rw [List.filter_eq_self]
    intro x hx
    have := hL x hx
    simp; omega
  have h2 : List.filter (fun x => decide (x.start ≠ e1.start)) R = R := by
    rw [List.filter_eq_self]
    intro x hx
    have := hR x hx
    simp; omega
  rw [h1, h2]
  simp [he]

theorem assign_mid (L R : SliceMap) (e e1 : SliceExtent) (he : e1.start = e.start)
    (hL : ∀ x ∈ L, x.start < e.start) (hR : ∀ x ∈ R, e.start < x.start) :
    assign (L ++ e :: R) e1 = L ++ e1 :: R := by
  unfold assign
  rw [List.map_append, List.map_cons]
  have h1 : List.map (fun x => if x.start = e1.start then e1 else x) L = L := by
    conv_rhs => rw [← List.map_id L]
    apply List.map_congr_left
    intro x hx
    have := hL x hx
    have hne : x.start ≠ e1.start := by omega
    simp [hne]
  have h2 : List.map (fun x => if x.start = e1.start then e1 else x) R = R := by
    conv_rhs => rw [← List.map_id R]
    apply List.map_congr_left
    intro x hx
    have := hR x hx
    have hne : x.start ≠ e1.start := by omega
    simp [hne]
  rw [h1, h2]
  simp [he]

theorem mem_piece (s : Nat) (l : List Nat) (x : SliceExtent) :
    x ∈ piece s l ↔ l ≠ [] ∧ x = ⟨s, l⟩ := by
  unfold piece
  by_cases h : l = [] <;> simp [h]

theorem sum_get_piece (s : Nat) (l : List Nat) (u : Nat) :
    ((piece s l).map (fun e => e.get u)).sum = (SliceExtent.mk s l).get u := by
  unfold piece
  by_cases h : l = []
  · simp [h, SliceExtent.get_nil]
  · simp [h]

theorem get_ne_zero (e : SliceExtent) (v : Nat) (hnz : ∀ p ∈ e.pslices, p ≠ PSLICE_UNALLOCATED)
    (h1 : e.start ≤ v) (h2 : v < e.end_) : e.get v ≠ 0 := by
  unfold SliceExtent.get SliceExtent.start SliceExtent.end_ at *
  have hlt : v - e.vslice_start < e.pslices.length := by omega
  simp only [h1, if_true]
  rw [List.getD_eq_getElem _ _ hlt]
  exact hnz _ (List.getElem_mem _)

/-- A virtual slice outside every extent splits the map in two. -/
theorem split_of_free (m : SliceMap) (v : Nat) (hpw : m.Pairwise (fun a b => a.end_ ≤ b.start))
    (hout : ∀ e ∈ m, v < e.start ∨ e.end_ ≤ v) :
    ∃ L R, m = L ++ R ∧ (∀ x ∈ L, x.end_ ≤ v) ∧ (∀ x ∈ R, v < x.start) := by
  induction m with
  | nil => exact ⟨[], [], rfl, by simp, by simp⟩
  | cons a r ih =>
    rcases hout a (by simp) with ha | ha
    · refine ⟨[], a :: r, rfl, by simp, ?_⟩
      intro x hx
      rcases List.mem_cons.mp hx with rfl | hx
      · exact ha
      · exact start_gt_of_pairwise a r v hpw ha x hx
    · obtain ⟨L, R, hLR, hL, hR⟩ := ih (List.pairwise_cons.mp hpw).2
        (fun e he => hout e (by simp [he]))
      refine ⟨a :: L, R, by simp [hLR], ?_, hR⟩
      intro x hx
      rcases List.mem_cons.mp hx with rfl | hx
      · exact ha
      · exact hL x hx

theorem sum_eq_zero_iff (l : List Nat) : l.sum = 0 ↔ ∀ x ∈ l, x = 0 := by
  induction l with
  | nil => simp
  | cons a r ih => simp [ih]

theorem set_form_valid (L0 R0 : SliceMap) (pre post : List Nat) (v p : Nat)
    (hv : Valid (L0 ++ piece (v - pre.length) pre ++ piece (v + 1) post ++ R0))
    (hp : p ≠ PSLICE_UNALLOCATED) (hle : pre.length ≤ v)
    (hL0 : ∀ x ∈ L0, x.end_ ≤ v - pre.length)
    (hR0 : ∀ x ∈ R0, v + 1 + post.length ≤ x.start) :
    Valid (L0 ++ ⟨v - pre.length, pre ++ p :: post⟩ :: R0) := by
  obtain ⟨hpw, hne, hnz⟩ := hv
  have hpL : L0.Pairwise (fun a b => a.end_ ≤ b.start) :=
    (List.pairwise_append.mp (List.pairwise_append.mp (List.pairwise_append.mp hpw).1).1).1
  have hpR : R0.Pairwise (fun a b => a.end_ ≤ b.start) := (List.pairwise_append.mp hpw).2.1
  refine ⟨?_, ?_, ?_⟩
  · rw [List.pairwise_append, List.pairwise_cons]
    refine ⟨hpL, ⟨?_, hpR⟩, ?_⟩
    · intro x hx
      have := hR0 x hx
      simp only [SliceExtent.end_, List.length_append, List.length_cons]
      omega
    · intro x hx y hy
      rcases List.mem_cons.mp hy with rfl | hy
      · exact hL0 x hx
      · have h1 := hL0 x hx
        have h2 := hR0 y hy
        omega
  · intro e he
    rcases List.mem_append.mp he with he | he
    · exact hne e (by simp [he])
    · rcases List.mem_cons.mp he with rfl | he
      · simp
      · exact hne e (by simp [he])
  · intro e he q hq
    rcases List.mem_append.mp he with he | he
    · exact hnz e (by simp [he]) q hq
    · rcases List.mem_cons.mp he with rfl | he
      · simp only [List.mem_append, List.mem_cons] at hq
        rcases hq with hq | rfl | hq
        · have hpre : pre ≠ [] := List.ne_nil_of_mem hq
          exact hnz ⟨v - pre.length, pre⟩ (by simp [mem_piece, hpre]) q hq
        · exact hp
        · have hpost : post ≠ [] := List.ne_nil_of_mem hq
          exact hnz ⟨v + 1, post⟩ (by simp [mem_piece, hpost]) q hq
      · exact hnz e (by simp [he]) q hq

theorem set_form_sum (L0 R0 : SliceMap) (pre post : List Nat) (v p u : Nat)
    (hle : pre.length ≤ v) :
    ((L0 ++ ⟨v - pre.length, pre ++ p :: post⟩ :: R0).map (fun e => e.get u)).sum =
      ((L0 ++ piece (v - pre.length) pre ++ piece (v + 1) post ++ R0).map
        (fun e => e.get u)).sum + (if u = v then p else 0) := by
  have h1 : (SliceExtent.mk (v - pre.length) (pre ++ p :: post)).get u =
      (SliceExtent.mk (v - pre.length) pre).get u + (if u = v then p else 0) +
        (SliceExtent.mk (v + 1) post).get u := by
    have : pre ++ p :: post = pre ++ ([p] ++ post) := by simp
    rw [this, SliceExtent.get_mk_append, SliceExtent.get_mk_append, SliceExtent.get_single]
    have h2 : v - pre.length + pre.length = v := by omega
    simp only [h2, List.length_singleton]
    omega
  simp only [List.map_append, List.sum_append, List.map_cons, List.sum_cons, sum_get_piece, h1]
  omega

theorem free_form_valid (L R : SliceMap) (e : SliceExtent) (v : Nat)
    (hv : Valid (L ++ e :: R)) (h1 : e.start ≤ v) (h2 : v < e.end_) :
    Valid (L ++ piece e.vslice_start (e.pslices.take (v - e.start)) ++
      piece (v + 1) (e.pslices.drop (v + 1 - e.start)) ++ R) := by
  obtain ⟨hpw, hne, hnz⟩ := hv
  have hpL := (List.pairwise_append.mp hpw).1
  have hpR := (List.pairwise_cons.mp (List.pairwise_append.mp hpw).2.1).2
  have hLe : ∀ x ∈ L, x.end_ ≤ e.start := fun x hx =>
    (List.pairwise_append.mp hpw).2.2 x hx e (by simp)
  have hRe : ∀ x ∈ R, e.end_ ≤ x.start :=
    (List.pairwise_cons.mp (List.pairwise_append.mp hpw).2.1).1
  have hLR : ∀ x ∈ L, ∀ y ∈ R, x.end_ ≤ y.start := fun x hx y hy =>
    (List.pairwise_append.mp hpw).2.2 x hx y (by simp [hy])
  have hlen : e.end_ = e.start + e.pslices.length := rfl
  have hst : e.start = e.vslice_start := rfl
  refine ⟨?_, ?_, ?_⟩
  · simp only [List.append_assoc]
    rw [List.pairwise_append, List.pairwise_append, List.pairwise_append]
    refine ⟨hpL, ⟨?_, ⟨?_, hpR, ?_⟩, ?_⟩, ?_⟩
    · unfold piece; split <;> simp
    · unfold piece; split <;> simp
    · intro x hx y hy
      obtain ⟨_, rfl⟩ := (mem_piece _ _ _).mp hx
      have := hRe y hy
      simp only [SliceExtent.end_, List.length_drop] at *
      omega
    · intro x hx y hy
      obtain ⟨_, rfl⟩ := (mem_piece _ _ _).mp hx
      rcases List.mem_append.mp hy with hy | hy
      · obtain ⟨_, rfl⟩ := (mem_piece _ _ _).mp hy
        simp only [SliceExtent.end_, SliceExtent.start, List.length_take] at *
        omega
      · have := hRe y hy
        simp only [SliceExtent.end_, SliceExtent.start, List.length_take] at *
        omega
    · intro x hx y hy
      have h3 := hLe x hx
      rcases List.mem_append.mp hy with hy | hy
      · obtain ⟨_, rfl⟩ := (mem_piece _ _ _).mp hy
        exact h3
      · rcases List.mem_append.mp hy with hy | hy
        · obtain ⟨_, rfl⟩ := (mem_piece _ _ _).mp hy
          simp only [SliceExtent.end_, SliceExtent.start] at *
          omega
        · exact hLR x hx y hy
  · intro x hx
    simp only [List.mem_append, mem_piece] at hx
    rcases hx with ((hx | ⟨h, rfl⟩) | ⟨h, rfl⟩) | hx
    · exact hne x (by simp [hx])
    · exact h
    · exact h
    · exact hne x (by simp [hx])
  · intro x hx q hq
    simp only [List.mem_append, mem_piece] at hx
    rcases hx with ((hx | ⟨h, rfl⟩) | ⟨h, rfl⟩) | hx
    · exact hnz x (by simp [hx]) q hq
    · exact hnz e (by simp) q (List.mem_of_mem_take hq)
    · exact hnz e (by simp) q (List.mem_of_mem_drop hq)
    · exact hnz x (by simp [hx]) q hq

theorem free_form_sum (L R : SliceMap) (e : SliceExtent) (v u : Nat)
    (h1 : e.start ≤ v) (h2 : v < e.end_) :
    ((L ++ e :: R).map (fun e => e.get u)).sum =
      ((L ++ piece e.vslice_start (e.pslices.take (v - e.start)) ++
        piece (v + 1) (e.pslices.drop (v + 1 - e.start)) ++ R).map (fun e => e.get u)).sum +
        (if u = v then e.get v else 0) := by
  have hlen : e.end_ = e.start + e.pslices.length := rfl
  have hst : e.start = e.vslice_start := rfl
  have hk : v - e.start < e.pslices.length := by omega
  have hsplit : e.pslices = e.pslices.take (v - e.start) ++
      ([e.pslices[v - e.start]] ++ e.pslices.drop (v + 1 - e.start)) := by
    conv_lhs => rw [← List.take_append_drop (v - e.start) e.pslices]
    rw [List.drop_eq_getElem_cons hk]
    have : v - e.start + 1 = v + 1 - e.start := by omega
    simp [this]
  have hgv : e.get v = e.pslices[v - e.start] := by
    unfold SliceExtent.get
    rw [← hst]
    simp only [h1, if_true]
    rw [List.getD_eq_getElem _ _ hk]
  have hge : e.get u = (SliceExtent.mk e.vslice_start (e.pslices.take (v - e.start))).get u +
      (if u = v then e.get v else 0) +
      (SliceExtent.mk (v + 1) (e.pslices.drop (v + 1 - e.start))).get u := by
    have he : e = ⟨e.vslice_start, e.pslices⟩ := rfl
    conv_lhs => rw [he, hsplit]
    rw [SliceExtent.get_mk_append, SliceExtent.get_mk_append, SliceExtent.get_single, hgv]
    have h3 : e.vslice_start + (e.pslices.take (v - e.start)).length = v := by
      rw [List.length_take]; omega
    simp only [h3, List.length_singleton]
    omega
  simp only [List.map_append, List.sum_append, List.map_cons, List.sum_cons, sum_get_piece, hge]
  omega

theorem upper_bound_prev_of_max (m : SliceMap) (v : Nat) (e : SliceExtent) (hord : Ordered m)
    (he : e ∈ m) (hle : e.start ≤ v) (hmax : ∀ x ∈ m, x.start ≤ v → x.start ≤ e.start) :
    upper_bound_prev m v = some e := by
  induction m with
  | nil => simp at he
  | cons a r ih =>
    have hr : Ordered r := (List.pairwise_cons.mp hord).2
    have har : ∀ x ∈ r, a.start < x.start := (List.pairwise_cons.mp hord).1
    rw [upper_bound_prev_cons]
    rcases List.mem_cons.mp he with rfl | her
    · simp only [hle, if_true]
      cases hu : upper_bound_prev r v with
      | none => rfl
      | some x =>
        have hx := upper_bound_prev_mem r v x hu
        have h1 := hmax x (by simp [hx.1]) hx.2
        have h2 := har x hx.1
        omega
    · have ha : a.start ≤ v := by have := har e her; omega
      simp only [ha, if_true]
      rw [ih hr her (fun x hx hxv => hmax x (by simp [hx]) hxv)]
      rfl

theorem upper_bound_prev_of_gt (m : SliceMap) (v : Nat) (h : ∀ x ∈ m, v < x.start) :
    upper_bound_prev m v = none := by
  cases m with
  | nil => rfl
  | cons a r =>
    rw [upper_bound_prev_cons]
    have := h a (by simp)
    simp [Nat.not_le.mpr this]

theorem set_form_pairwise (L0 R0 : SliceMap) (pre post : List Nat) (v p : Nat)
    (hpw : (L0 ++ piece (v - pre.length) pre ++ piece (v + 1) post ++ R0).Pairwise
      (fun a b => a.end_ ≤ b.start))
    (hle : pre.length ≤ v)
    (hL0 : ∀ x ∈ L0, x.end_ ≤ v - pre.length)
    (hR0 : ∀ x ∈ R0, v + 1 + post.length ≤ x.start) :
    (L0 ++ ⟨v - pre.length, pre ++ p :: post⟩ :: R0).Pairwise (fun a b => a.end_ ≤ b.start) := by
  have hpL : L0.Pairwise (fun a b => a.end_ ≤ b.start) :=
    (List.pairwise_append.mp (List.pairwise_append.mp (List.pairwise_append.mp hpw).1).1).1
  have hpR : R0.Pairwise (fun a b => a.end_ ≤ b.start) := (List.pairwise_append.mp hpw).2.1
  rw [List.pairwise_append, List.pairwise_cons]
  refine ⟨hpL, ⟨?_, hpR⟩, ?_⟩
  · intro x hx
    have := hR0 x hx
    simp only [SliceExtent.end_, List.length_append, List.length_cons]
    omega
  · intro x hx y hy
    rcases List.mem_cons.mp hy with rfl | hy
    · exact hL0 x hx
    · have h1 := hL0 x hx
      have h2 := hR0 y hy
      omega

theorem set_form_merged (L0 R0 : SliceMap) (pre post : List Nat) (v p : Nat)
    (hm : Merged (L0 ++ piece (v - pre.length) pre ++ piece (v + 1) post ++ R0))
    (hle : pre.length ≤ v)
    (hL0 : ∀ x ∈ L0, x.end_ ≤ v - pre.length)
    (hR0 : ∀ x ∈ R0, v + 1 + post.length ≤ x.start)
    (hpre : pre = [] → ∀ x ∈ L0, x.end_ < v)
    (hpost : post = [] → ∀ x ∈ R0, v + 1 < x.start) :
    Merged (L0 ++ ⟨v - pre.length, pre ++ p :: post⟩ :: R0) := by
  unfold Merged at *
  have h1 := List.pairwise_append.mp hm
  have h2 := List.pairwise_append.mp h1.1
  have h3 := List.pairwise_append.mp h2.1
  rw [List.pairwise_append, List.pairwise_cons]
  refine ⟨h3.1, ⟨?_, h1.2.1⟩, ?_⟩
  · intro x hx
    by_cases hp : post = []
    · have := hpost hp x hx
      subst hp
      simp only [SliceExtent.end_, List.length_append, List.length_cons, List.length_nil]
      omega
    · have := h1.2.2 ⟨v + 1, post⟩ (by simp [mem_piece, hp]) x hx
      simp only [SliceExtent.end_, List.length_append, List.length_cons] at *
      omega
  · intro x hx y hy
    rcases List.mem_cons.mp hy with rfl | hy
    · by_cases hp : pre = []
      · have := hpre hp x hx
        subst hp
        simp only [SliceExtent.start, List.length_nil] at *
        omega
      · exact h3.2.2 x hx ⟨v - pre.length, pre⟩ (by simp [mem_piece, hp])
    · have h4 := hL0 x hx
      have h5 := hR0 y hy
      omega

theorem free_form_merged (L R : SliceMap) (e : SliceExtent) (v : Nat)
    (hv : Valid (L ++ e :: R)) (hm : Merged (L ++ e :: R)) (h1 : e.start ≤ v) (h2 : v < e.end_) :
    Merged (L ++ piece e.vslice_start (e.pslices.take (v - e.start)) ++
      piece (v + 1) (e.pslices.drop (v + 1 - e.start)) ++ R) := by
  obtain ⟨hpw, hne, hnz⟩ := hv
  unfold Merged at *
  have hLe : ∀ x ∈ L, x.end_ ≤ e.start := fun x hx =>
    (List.pairwise_append.mp hpw).2.2 x hx e (by simp)
  have hRe : ∀ x ∈ R, e.end_ ≤ x.start :=
    (List.pairwise_cons.mp (List.pairwise_append.mp hpw).2.1).1
  have hLe1 : ∀ x ∈ L, x.end_ ≠ e.start := fun x hx =>
    (List.pairwise_append.mp hm).2.2 x hx e (by simp)
  have hRe1 : ∀ x ∈ R, e.end_ ≠ x.start :=
    (List.pairwise_cons.mp (List.pairwise_append.mp hm).2.1).1
  have hLR : ∀ x ∈ L, ∀ y ∈ R, x.end_ ≠ y.start := fun x hx y hy =>
    (List.pairwise_append.mp hm).2.2 x hx y (by simp [hy])
  have hlen : e.end_ = e.start + e.pslices.length := rfl
  have hst : e.start = e.vslice_start := rfl
  simp only [List.append_assoc]
  rw [List.pairwise_append, List.pairwise_append, List.pairwise_append]
  refine ⟨(List.pairwise_append.mp hm).1, ⟨?_, ⟨?_, ?_, ?_⟩, ?_⟩, ?_⟩
  · unfold piece; split <;> simp
  · unfold piece; split <;> simp
  · exact (List.pairwise_cons.mp (List.pairwise_append.mp hm).2.1).2
  · intro x hx y hy
    obtain ⟨_, rfl⟩ := (mem_piece _ _ _).mp hx
    have := hRe1 y hy
    simp only [SliceExtent.end_, List.length_drop] at *
    omega
  · intro x hx y hy
    obtain ⟨_, rfl⟩ := (mem_piece _ _ _).mp hx
    rcases List.mem_append.mp hy with hy | hy
    · obtain ⟨_, rfl⟩ := (mem_piece _ _ _).mp hy
      simp only [SliceExtent.end_, SliceExtent.start, List.length_take] at *
      omega
    · have := hRe y hy
      simp only [SliceExtent.end_, SliceExtent.start, List.length_take] at *
      omega
  · intro x hx y hy
    have h3 := hLe x hx
    rcases List.mem_append.mp hy with hy | hy
    · obtain ⟨_, rfl⟩ := (mem_piece _ _ _).mp hy
      exact hLe1 x hx
    · rcases List.mem_append.mp hy with hy | hy
      · obtain ⟨_, rfl⟩ := (mem_piece _ _ _).mp hy
        simp only [SliceExtent.end_, SliceExtent.start] at *
        omega
      · exact hLR x hx y hy

/-- In a valid map whose abutting extents are merged, no extent ends where an extent
starts, whatever their order. -/
theorem no_abut_of_merged (m : SliceMap) (hv : Valid m) (hm : Merged m) :
    ∀ a ∈ m, ∀ b ∈ m, a.end_ ≠ b.start := by
  have hpw := hv.1
  have hlen : ∀ e ∈ m, e.start < e.end_ := by
    intro e he
    have := List.length_pos.mpr (hv.2.1 e he)
    unfold SliceExtent.end_ SliceExtent.start
    omega
  clear hv
  induction m with
  | nil => simp
  | cons x r ih =>
    have hx1 := (List.pairwise_cons.mp hpw).1
    have hx2 := (List.pairwise_cons.mp hm).1
    have ihr := ih (List.pairwise_cons.mp hm).2 (List.pairwise_cons.mp hpw).2
      (fun e he => hlen e (by simp [he]))
    intro a ha b hb
    rcases List.mem_cons.mp ha with ha1 | ha1 <;> rcases List.mem_cons.mp hb with hb1 | hb1
    · rw [ha1, hb1]
      have := hlen x (by simp); omega
    · rw [ha1]; exact hx2 b hb1
    · rw [hb1]
      have h1 := hx1 a ha1
      have h2 := hlen a ha
      have h3 := hlen x (by simp)
      omega
    · exact ihr a ha1 b hb1

theorem pairwiseDisjoint_of_valid (m : SliceMap) (hv : Valid m) : PairwiseDisjoint m :=
  hv.1.imp (fun h => Or.inl h)

end SliceMap

/-! ## `SliceSetLocked` and `SliceFreeLocked` on a valid slice map -/

namespace VPartition

open SliceMap

theorem SliceSetLocked_tail_eq (vp : VPartition) (v : Nat) (ac : Nat → Bool) (t : Nat)
    (L1 : SliceMap) (e1 : SliceExtent) (R : SliceMap)
    (hL1 : ∀ x ∈ L1, x.start < e1.start) (he1 : e1.start ≤ v) (hR : ∀ x ∈ R, v < x.start)
    (hpw : R.Pairwise (fun a b => a.end_ ≤ b.start)) (hne : NonEmpty R) :
    ∃ post R0 t2, R = piece (v + 1) post ++ R0 ∧
      vp.SliceSetLocked_tail v (L1 ++ e1 :: R) (some e1) ac t =
        (ZX_OK, { vp with
          slice_map := L1 ++ ⟨e1.vslice_start, e1.pslices ++ post⟩ :: R0,
          block_count := (vp.AddBlocksLocked ((vp.slice_size / vp.block_size : Nat) : Int)).block_count },
          t2) ∧
      (∀ x ∈ R0, v + 1 + post.length ≤ x.start) ∧
      ((∀ k, ac k = true) → post = [] → ∀ x ∈ R0, v + 1 < x.start) := by
  have hub : upper_bound (L1 ++ e1 :: R) v = R.head? := by
    have := upper_bound_append (L1 ++ [e1]) R v
      (by
        intro x hx
        rcases List.mem_append.mp hx with hx | hx
        · have := hL1 x hx; omega
        · simp at hx; subst hx; exact he1) hR
    simpa using this
  unfold SliceSetLocked_tail
  rw [hub]
  cases R with
  | nil =>
    refine ⟨[], [], t, by simp [piece], ?_, by simp, by simp⟩
    simp [AddBlocksLocked]
  | cons n R1 =>
    have hn : v < n.start := hR n (by simp)
    have hR1 : ∀ x ∈ R1, n.end_ ≤ x.start := (List.pairwise_cons.mp hpw).1
    have hnne : n.pslices ≠ [] := hne n (by simp)
    have hnlen : 0 < n.pslices.length := List.length_pos.mpr hnne
    by_cases hv : v + 1 = n.start
    · cases hac : ac t with
      | false =>
        refine ⟨[], n :: R1, t + 1, by simp [piece], ?_, ?_, ?_⟩
        · simp [hv, SliceExtent.Merge, hac, AddBlocksLocked]
        · intro x hx
          have := hR x hx
          simp; omega
        · intro hall
          rw [hall t] at hac
          exact absurd hac (by simp)
      | true =>
        refine ⟨n.pslices, R1, t + 1, ?_, ?_, ?_, ?_⟩
        · have : n = ⟨v + 1, n.pslices⟩ := by
            cases n; simp [SliceExtent.start] at hv; simp [hv]
          simp only [piece, hnne, if_false, List.singleton_append]
          rw [← this]
        · simp only [List.head?_cons, hv, if_true, SliceExtent.Merge_eq e1 n ac t hac]
          have h1 : assign (L1 ++ e1 :: n :: R1) ⟨e1.vslice_start, e1.pslices ++ n.pslices⟩ =
              L1 ++ ⟨e1.vslice_start, e1.pslices ++ n.pslices⟩ :: n :: R1 := by
            apply assign_mid L1 (n :: R1) e1 ⟨e1.vslice_start, e1.pslices ++ n.pslices⟩ rfl hL1
            intro x hx
            have := hR x hx
            omega
          have h2 : erase (L1 ++ ⟨e1.vslice_start, e1.pslices ++ n.pslices⟩ :: n :: R1) n =
              L1 ++ ⟨e1.vslice_start, e1.pslices ++ n.pslices⟩ :: R1 := by
            have := erase_mid (L1 ++ [⟨e1.vslice_start, e1.pslices ++ n.pslices⟩]) R1 n n rfl
              (by
                intro x hx
                rcases List.mem_append.mp hx with hx | hx
                · have := hL1 x hx; omega
                · simp at hx; subst hx
                  show e1.start < n.start
                  omega)
              (by
                intro x hx
                have := hR1 x hx
                unfold SliceExtent.end_ SliceExtent.start at *
                omega)
            simpa using this
          rw [h1, h2]
          simp [AddBlocksLocked]
        · intro x hx
          have := hR1 x hx
          unfold SliceExtent.end_ SliceExtent.start at *
          omega
        · intro _ hp
          exact absurd hp hnne
    · refine ⟨[], n :: R1, t, by simp [piece], ?_, ?_, ?_⟩
      · simp [hv, AddBlocksLocked]
      · intro x hx
        have := hR x hx
        simp; omega
      · intro _ _ x hx
        rcases List.mem_cons.mp hx with rfl | hx
        · omega
        · have := hR1 x hx
          unfold SliceExtent.end_ SliceExtent.start at *
          omega

theorem SliceSetLocked_new (vp : VPartition) (v p : Nat) (ac : Nat → Bool) (t : Nat)
    (L R : SliceMap) (hm : vp.slice_map = L ++ R)
    (hpw : (L ++ R).Pairwise (fun a b => a.end_ ≤ b.start)) (hne : NonEmpty (L ++ R))
    (hL : ∀ x ∈ L, x.end_ < v) (hR : ∀ x ∈ R, v < x.start) :
    ((vp.SliceSetLocked v p ac t).1 = ZX_ERR_NO_MEMORY ∧ (vp.SliceSetLocked v p ac t).2.1 = vp ∧
        ¬ ∀ k, ac k = true) ∨
    ∃ post R0 t2, R = piece (v + 1) post ++ R0 ∧
      vp.SliceSetLocked v p ac t =
        (ZX_OK, { vp with
          slice_map := L ++ ⟨v, p :: post⟩ :: R0,
          block_count := (vp.AddBlocksLocked ((vp.slice_size / vp.block_size : Nat) : Int)).block_count },
          t2) ∧
      (∀ x ∈ R0, v + 1 + post.length ≤ x.start) ∧
      ((∀ k, ac k = true) → post = [] → ∀ x ∈ R0, v + 1 < x.start) := by
  have hLs : ∀ x ∈ L, x.start < v := by
    intro x hx
    have := hL x hx
    unfold SliceExtent.end_ SliceExtent.start at *
    omega
  have hfilter : (upper_bound_prev (L ++ R) v).filter (fun e => decide (v = e.end_)) = none := by
    rw [upper_bound_prev_append L R v (fun x hx => Nat.le_of_lt (hLs x hx)) hR]
    cases hl : L.getLast? with
    | none => rfl
    | some e =>
      have := hL e (List.mem_of_getLast?_eq_some hl)
      have hne : v ≠ e.end_ := by omega
      simp [Option.filter, hne]
  unfold SliceSetLocked
  rw [hm, hfilter]
  cases h1 : ac t with
  | false =>
    left
    refine ⟨by simp, by simp, ?_⟩
    intro hall; rw [hall t] at h1; exact absurd h1 (by simp)
  | true =>
    cases h2 : ac (t + 1) with
    | false =>
      left
      refine ⟨by simp [SliceExtent.push_back, h2], by simp [SliceExtent.push_back, h2], ?_⟩
      intro hall; rw [hall (t + 1)] at h2; exact absurd h2 (by simp)
    | true =>
      right
      have hins : SliceMap.insert (L ++ R) ⟨v, [p]⟩ = L ++ ⟨v, [p]⟩ :: R :=
        insert_append L R ⟨v, [p]⟩ hLs hR
      have hubp : upper_bound_prev (L ++ ⟨v, [p]⟩ :: R) v = some ⟨v, [p]⟩ := by
        have := upper_bound_prev_append (L ++ [⟨v, [p]⟩]) R v
          (by
            intro x hx
            rcases List.mem_append.mp hx with hx | hx
            · exact Nat.le_of_lt (hLs x hx)
            · simp at hx; subst hx; exact le_refl _) hR
        simpa using this
      obtain ⟨post, R0, t2, hR0, htail, h3, h4⟩ :=
        SliceSetLocked_tail_eq vp v ac (t + 1 + 1) L ⟨v, [p]⟩ R hLs (le_refl _) hR
          (List.pairwise_append.mp hpw).2.1 (fun x hx => hne x (List.mem_append_right _ hx))
      refine ⟨post, R0, t2, hR0, ?_, h3, h4⟩
      simp only [Bool.not_true, Bool.false_eq_true, if_false, SliceExtent.push_back, h2, if_true,
        List.nil_append, hins, hubp, htail, List.singleton_append]

theorem SliceSetLocked_append (vp : VPartition) (v p : Nat) (ac : Nat → Bool) (t : Nat)
    (L : SliceMap) (e : SliceExtent) (R : SliceMap) (hm : vp.slice_map = L ++ e :: R)
    (hpw : (L ++ e :: R).Pairwise (fun a b => a.end_ ≤ b.start)) (hne : NonEmpty (L ++ e :: R))
    (he : e.end_ = v) (hR : ∀ x ∈ R, v < x.start) :
    ((vp.SliceSetLocked v p ac t).1 = ZX_ERR_NO_MEMORY ∧ (vp.SliceSetLocked v p ac t).2.1 = vp ∧
        ¬ ∀ k, ac k = true) ∨
    ∃ post R0 t2, R = piece (v + 1) post ++ R0 ∧
      vp.SliceSetLocked v p ac t =
        (ZX_OK, { vp with
          slice_map := L ++ ⟨e.vslice_start, e.pslices ++ p :: post⟩ :: R0,
          block_count := (vp.AddBlocksLocked ((vp.slice_size / vp.block_size : Nat) : Int)).block_count },
          t2) ∧
      (∀ x ∈ R0, v + 1 + post.length ≤ x.start) ∧
      ((∀ k, ac k = true) → post = [] → ∀ x ∈ R0, v + 1 < x.start) := by
  have hene : e.pslices ≠ [] := hne e (by simp)
  have helen : 0 < e.pslices.length := List.length_pos.mpr hene
  have hes : e.start < v := by
    unfold SliceExtent.end_ SliceExtent.start at *; omega
  have hLs : ∀ x ∈ L, x.start < e.start := by
    intro x hx
    have h1 := (List.pairwise_append.mp hpw).2.2 x hx e (by simp)
    have h2 := List.length_pos.mpr (hne x (List.mem_append_left _ hx))
    unfold SliceExtent.end_ SliceExtent.start at *
    omega
  have hRs : ∀ x ∈ R, e.start < x.start := fun x hx => Nat.lt_trans hes (hR x hx)
  have hfilter : (upper_bound_prev (L ++ e :: R) v).filter (fun e => decide (v = e.end_)) =
      some e := by
    have := upper_bound_prev_append (L ++ [e]) R v
      (by
        intro x hx
        rcases List.mem_append.mp hx with hx | hx
        · have := hLs x hx; omega
        · simp at hx; subst hx; omega) hR
    simp only [List.append_assoc, List.singleton_append] at this
    rw [this]
    simp [Option.filter, he]
  unfold SliceSetLocked
  rw [hm, hfilter]
  cases h1 : ac t with
  | false =>
    left
    refine ⟨by simp [SliceExtent.push_back, h1], by simp [SliceExtent.push_back, h1], ?_⟩
    intro hall; rw [hall t] at h1; exact absurd h1 (by simp)
  | true =>
    right
    have hasg : assign (L ++ e :: R) ⟨e.vslice_start, e.pslices ++ [p]⟩ =
        L ++ ⟨e.vslice_start, e.pslices ++ [p]⟩ :: R :=
      assign_mid L R e ⟨e.vslice_start, e.pslices ++ [p]⟩ rfl hLs hRs
    obtain ⟨post, R0, t2, hR0, htail, h3, h4⟩ :=
      SliceSetLocked_tail_eq vp v ac (t + 1) L ⟨e.vslice_start, e.pslices ++ [p]⟩ R hLs
        (Nat.le_of_lt hes) hR (List.pairwise_cons.mp (List.pairwise_append.mp hpw).2.1).2
        (fun x hx => hne x (by simp [hx]))
    refine ⟨post, R0, t2, hR0, ?_, h3, h4⟩
    simp only [SliceExtent.push_back, h1, if_true, hasg, htail, List.append_assoc,
      List.singleton_append]

theorem upper_bound_prev_mid (L : SliceMap) (e : SliceExtent) (R : SliceMap) (v : Nat)
    (hL : ∀ x ∈ L, x.start < e.start) (he : e.start ≤ v) (hR : ∀ x ∈ R, v < x.start) :
    upper_bound_prev (L ++ e :: R) v = some e := by
  have := upper_bound_prev_append (L ++ [e]) R v
    (by
      intro x hx
      rcases List.mem_append.mp hx with hx | hx
      · have := hL x hx; omega
      · simp at hx; subst hx; exact he) hR
  simpa using this

theorem SliceFreeLocked_tail_eq (vp : VPartition) (t : Nat) (L : SliceMap) (e : SliceExtent)
    (R : SliceMap) (hL : ∀ x ∈ L, x.start < e.start) (hR : ∀ x ∈ R, e.start < x.start) :
    vp.SliceFreeLocked_tail (L ++ e :: R) e t =
      (true, { vp with
        slice_map := L ++ piece e.vslice_start e.pslices.dropLast ++ R,
        block_count :=
          (vp.AddBlocksLocked (-((vp.slice_size / vp.block_size : Nat) : Int))).block_count },
        t) := by
  unfold SliceFreeLocked_tail
  have hasg : assign (L ++ e :: R) e.pop_back = L ++ e.pop_back :: R :=
    assign_mid L R e e.pop_back rfl hL hR
  have hers : erase (L ++ e.pop_back :: R) e.pop_back = L ++ R :=
    erase_mid L R e.pop_back e.pop_back rfl hL hR
  simp only [hasg, hers]
  by_cases hemp : e.pslices.dropLast = []
  · simp [SliceExtent.is_empty, SliceExtent.pop_back, hemp, piece, AddBlocksLocked]
  · simp [SliceExtent.is_empty, SliceExtent.pop_back, hemp, piece, AddBlocksLocked]

theorem SliceFreeLocked_form (vp : VPartition) (v : Nat) (ac : Nat → Bool) (t : Nat)
    (L : SliceMap) (e : SliceExtent) (R : SliceMap) (hm : vp.slice_map = L ++ e :: R)
    (hpw : (L ++ e :: R).Pairwise (fun a b => a.end_ ≤ b.start)) (hne : NonEmpty (L ++ e :: R))
    (h1 : e.start ≤ v) (h2 : v < e.end_) :
    ((vp.SliceFreeLocked v ac t).1 = false ∧ (vp.SliceFreeLocked v ac t).2.1 = vp ∧
        v + 1 ≠ e.end_ ∧ ¬ ∀ k, ac k = true) ∨
    ∃ t2, vp.SliceFreeLocked v ac t =
      (true, { vp with
        slice_map := L ++ piece e.vslice_start (e.pslices.take (v - e.start)) ++
          piece (v + 1) (e.pslices.drop (v + 1 - e.start)) ++ R,
        block_count :=
          (vp.AddBlocksLocked (-((vp.slice_size / vp.block_size : Nat) : Int))).block_count },
        t2) := by
  have hLs : ∀ x ∈ L, x.start < e.start := by
    intro x hx
    have h1 := (List.pairwise_append.mp hpw).2.2 x hx e (by simp)
    have h2 := List.length_pos.mpr (hne x (List.mem_append_left _ hx))
    unfold SliceExtent.end_ SliceExtent.start at *
    omega
  have hRe : ∀ x ∈ R, e.end_ ≤ x.start :=
    (List.pairwise_cons.mp (List.pairwise_append.mp hpw).2.1).1
  have hRs : ∀ x ∈ R, e.start < x.start := by
    intro x hx; have := hRe x hx; omega
  have hRv : ∀ x ∈ R, v < x.start := by
    intro x hx; have := hRe x hx; omega
  have hubp := upper_bound_prev_mid L e R v hLs h1 hRv
  have hlen : e.end_ = e.start + e.pslices.length := rfl
  unfold SliceFreeLocked
  rw [hm, hubp]
  by_cases hv : v + 1 = e.end_
  · right
    have hc : ¬ (v ≠ e.end_ - 1) := by omega
    have ht : e.pslices.take (v - e.start) = e.pslices.dropLast := by
      rw [List.dropLast_eq_take]; congr 1; omega
    have hd : e.pslices.drop (v + 1 - e.start) = [] := by
      apply List.drop_eq_nil_of_le; omega
    refine ⟨t, ?_⟩
    simp only [hc, if_false, SliceFreeLocked_tail_eq vp t L e R hLs hRs, ht, hd]
    simp [piece]
  · have hc : v ≠ e.end_ - 1 := by omega
    simp only [hc, ne_eq, not_false_eq_true, if_true]
    cases a1 : ac t with
    | false =>
      left
      refine ⟨by simp [SliceExtent.Split, a1], by simp [SliceExtent.Split, a1], hv, ?_⟩
      intro hall; rw [hall t] at a1; exact absurd a1 (by simp)
    | true =>
      cases a2 : ac (t + 1) with
      | false =>
        left
        refine ⟨by simp [SliceExtent.Split, a1, a2], by simp [SliceExtent.Split, a1, a2], hv, ?_⟩
        intro hall; rw [hall (t + 1)] at a2; exact absurd a2 (by simp)
      | true =>
        right
        refine ⟨t + 2, ?_⟩
        rw [SliceExtent.Split_eq e v ac t h1 h2 a1 a2]
        have hasg : assign (L ++ e :: R) ⟨e.vslice_start, e.pslices.take (v + 1 - e.start)⟩ =
            L ++ ⟨e.vslice_start, e.pslices.take (v + 1 - e.start)⟩ :: R :=
          assign_mid L R e ⟨e.vslice_start, e.pslices.take (v + 1 - e.start)⟩ rfl hLs hRs
        have hins : SliceMap.insert
            (L ++ ⟨e.vslice_start, e.pslices.take (v + 1 - e.start)⟩ :: R)
            ⟨v + 1, e.pslices.drop (v + 1 - e.start)⟩ =
            L ++ ⟨e.vslice_start, e.pslices.take (v + 1 - e.start)⟩ ::
              ⟨v + 1, e.pslices.drop (v + 1 - e.start)⟩ :: R := by
          have := insert_append (L ++ [⟨e.vslice_start, e.pslices.take (v + 1 - e.start)⟩]) R
            ⟨v + 1, e.pslices.drop (v + 1 - e.start)⟩
            (by
              intro x hx
              rcases List.mem_append.mp hx with hx | hx
              · have := hLs x hx
                show x.start < v + 1
                omega
              · simp at hx; subst hx
                show e.start < v + 1
                omega)
            (by
              intro x hx
              have := hRe x hx
              show v + 1 < x.start
              omega)
          simpa using this
        have htl := SliceFreeLocked_tail_eq vp (t + 2) L
          ⟨e.vslice_start, e.pslices.take (v + 1 - e.start)⟩
          (⟨v + 1, e.pslices.drop (v + 1 - e.start)⟩ :: R) hLs
          (by
            intro x hx
            rcases List.mem_cons.mp hx with rfl | hx
            · show e.start < v + 1
              omega
            · exact hRs x hx)
        have hdl : (e.pslices.take (v + 1 - e.start)).dropLast = e.pslices.take (v - e.start) := by
          rw [List.dropLast_eq_take, List.take_take, List.length_take]
          congr 1
          omega
        have hdne : e.pslices.drop (v + 1 - e.start) ≠ [] := by
          intro h
          have := List.drop_eq_nil_iff.mp h
          omega
        simp only [hasg, hins, htl, hdl]
        simp [piece, hdne]

theorem SliceGetLocked_eq_sum (vp : VPartition) (v : Nat)
    (hpw : vp.slice_map.Pairwise (fun a b => a.end_ ≤ b.start)) :
    vp.SliceGetLocked v = (vp.slice_map.map (fun e => e.get v)).sum :=
  lookup_eq_sum vp.slice_map v hpw

theorem SliceCanFree_iff (vp : VPartition) (v : Nat) :
    vp.SliceCanFree v = true ↔ vp.SliceGetLocked v ≠ PSLICE_UNALLOCATED := by
  unfold SliceCanFree SliceGetLocked
  cases upper_bound_prev vp.slice_map v with
  | none => simp [PSLICE_UNALLOCATED]
  | some e => simp

/-- A virtual slice is free exactly when it lies outside every extent. -/
theorem SliceGetLocked_eq_zero_iff (vp : VPartition) (v : Nat) (hv : Valid vp.slice_map) :
    vp.SliceGetLocked v = PSLICE_UNALLOCATED ↔ ∀ e ∈ vp.slice_map, v < e.start ∨ e.end_ ≤ v := by
  rw [SliceGetLocked_eq_sum vp v hv.1, PSLICE_UNALLOCATED, sum_eq_zero_iff]
  constructor
  · intro h e he
    by_contra hc
    have h1 : e.start ≤ v := by omega
    have h2 : v < e.end_ := by omega
    exact get_ne_zero e v (hv.2.2 e he) h1 h2 (h (e.get v) (List.mem_map.mpr ⟨e, he, rfl⟩))
  · intro h x hx
    obtain ⟨e, he, rfl⟩ := List.mem_map.mp hx
    rcases h e he with h1 | h1
    · exact SliceExtent.get_of_lt e v h1
    · exact SliceExtent.get_of_ge e v h1

/-- An allocated virtual slice lies in an extent of the map. -/
theorem exists_extent_of_allocated (vp : VPartition) (v : Nat) (hv : Valid vp.slice_map)
    (h : vp.SliceGetLocked v ≠ PSLICE_UNALLOCATED) :
    ∃ L e R, vp.slice_map = L ++ e :: R ∧ e.start ≤ v ∧ v < e.end_ := by
  have := (not_congr (SliceGetLocked_eq_zero_iff vp v hv)).mp h
  push_neg at this
  obtain ⟨e, he, h1, h2⟩ := this
  obtain ⟨L, R, hLR⟩ := List.append_of_mem he
  exact ⟨L, e, R, hLR, h1, h2⟩

/-- What `SliceSetLocked` does to a valid slice map in which `v` is free: the extent that
ends at `v` (with slices `pre`, if any), the new slice and, when the merge succeeds, the
extent that starts at `v + 1` (with slices `post`) become one extent. -/
theorem SliceSetLocked_form (vp : VPartition) (v p : Nat) (ac : Nat → Bool) (t : Nat)
    (hv : Valid vp.slice_map) (hfree : vp.SliceGetLocked v = PSLICE_UNALLOCATED) :
    ((vp.SliceSetLocked v p ac t).1 = ZX_ERR_NO_MEMORY ∧ (vp.SliceSetLocked v p ac t).2.1 = vp ∧
        ¬ ∀ k, ac k = true) ∨
    ∃ L0 pre post R0 t2,
      vp.slice_map = L0 ++ piece (v - pre.length) pre ++ piece (v + 1) post ++ R0 ∧
      pre.length ≤ v ∧
      vp.SliceSetLocked v p ac t =
        (ZX_OK, { vp with
          slice_map := L0 ++ ⟨v - pre.length, pre ++ p :: post⟩ :: R0,
          block_count := (vp.AddBlocksLocked ((vp.slice_size / vp.block_size : Nat) : Int)).block_count },
          t2) ∧
      (∀ x ∈ L0, x.end_ ≤ v - pre.length) ∧
      (∀ x ∈ R0, v + 1 + post.length ≤ x.start) ∧
      (pre = [] → ∀ x ∈ L0, x.end_ < v) ∧
      ((∀ k, ac k = true) → post = [] → ∀ x ∈ R0, v + 1 < x.start) := by
  obtain ⟨L, R, hLR, hL, hR⟩ := split_of_free vp.slice_map v hv.1
    ((SliceGetLocked_eq_zero_iff vp v hv).mp hfree)
  have hpw := hv.1
  have hne := hv.2.1
  rw [hLR] at hpw hne
  rcases List.eq_nil_or_concat L with hnil | ⟨L1, e, hL1⟩
  · -- no extent at or below `v`
    subst hnil
    rcases SliceSetLocked_new vp v p ac t [] R hLR hpw hne (by simp) hR with h | h
    · exact Or.inl h
    · obtain ⟨post, R0, t2, h1, h2, h3, h4⟩ := h
      refine Or.inr ⟨[], [], post, R0, t2, ?_, by simp, ?_, by simp, h3, by simp, h4⟩
      · rw [hLR, h1]; simp [piece]
      · simpa using h2
  · rw [List.concat_eq_append] at hL1
    subst hL1
    have hee : e.end_ ≤ v := hL e (by simp)
    have hpw1 : (L1 ++ e :: R).Pairwise (fun a b => a.end_ ≤ b.start) := by simpa using hpw
    have hne1 : NonEmpty (L1 ++ e :: R) := by simpa using hne
    have hLe : ∀ x ∈ L1, x.end_ ≤ e.start := fun x hx =>
      (List.pairwise_append.mp hpw1).2.2 x hx e (by simp)
    have hene : e.pslices ≠ [] := hne1 e (by simp)
    have helen : 0 < e.pslices.length := List.length_pos.mpr hene
    by_cases hev : e.end_ = v
    · -- the extent before `v` ends at `v`
      rcases SliceSetLocked_append vp v p ac t L1 e R (by simpa using hLR) hpw1 hne1 hev hR
        with h | h
      · exact Or.inl h
      · obtain ⟨post, R0, t2, h1, h2, h3, h4⟩ := h
        have hs : v - e.pslices.length = e.vslice_start := by
          unfold SliceExtent.end_ at hev; omega
        refine Or.inr ⟨L1, e.pslices, post, R0, t2, ?_, ?_, ?_, ?_, h3, ?_, h4⟩
        · rw [hLR, h1, hs]; simp [piece, hene]
        · unfold SliceExtent.end_ at hev; omega
        · rw [hs]; exact h2
        · rw [hs]; exact hLe
        · intro h; exact absurd h hene
    · -- the extent before `v` ends below `v`
      have hL2 : ∀ x ∈ L1 ++ [e], x.end_ < v := by
        intro x hx
        rcases List.mem_append.mp hx with hx | hx
        · have := hLe x hx
          unfold SliceExtent.end_ SliceExtent.start at *
          omega
        · simp at hx; subst hx; omega
      rcases SliceSetLocked_new vp v p ac t (L1 ++ [e]) R hLR hpw hne hL2 hR with h | h
      · exact Or.inl h
      · obtain ⟨post, R0, t2, h1, h2, h3, h4⟩ := h
        refine Or.inr ⟨L1 ++ [e], [], post, R0, t2, ?_, by simp, ?_, ?_, h3, ?_, h4⟩
        · rw [hLR, h1]; simp [piece]
        · simpa using h2
        · simpa using hL
        · intro _; exact hL2

theorem SliceSetLocked_form_of_ok (vp : VPartition) (v p : Nat) (ac : Nat → Bool) (t : Nat)
    (hv : Valid vp.slice_map) (hfree : vp.SliceGetLocked v = PSLICE_UNALLOCATED)
    (hok : (vp.SliceSetLocked v p ac t).1 = ZX_OK ∨ ∀ k, ac k = true) :
    ∃ L0 pre post R0 t2,
      vp.slice_map = L0 ++ piece (v - pre.length) pre ++ piece (v + 1) post ++ R0 ∧
      pre.length ≤ v ∧
      vp.SliceSetLocked v p ac t =
        (ZX_OK, { vp with
          slice_map := L0 ++ ⟨v - pre.length, pre ++ p :: post⟩ :: R0,
          block_count := (vp.AddBlocksLocked ((vp.slice_size / vp.block_size : Nat) : Int)).block_count },
          t2) ∧
      (∀ x ∈ L0, x.end_ ≤ v - pre.length) ∧
      (∀ x ∈ R0, v + 1 + post.length ≤ x.start) ∧
      (pre = [] → ∀ x ∈ L0, x.end_ < v) ∧
      ((∀ k, ac k = true) → post = [] → ∀ x ∈ R0, v + 1 < x.start) := by
  rcases SliceSetLocked_form vp v p ac t hv hfree with ⟨h1, _, h3⟩ | h
  · rcases hok with hok | hok
    · rw [h1] at hok
      exact absurd hok (by decide)
    · exact absurd hok h3
  · exact h

/-- After a successful `SliceSetLocked` of a free virtual slice the map is valid again and
maps `v` to `p`, every other virtual slice as before. -/
theorem SliceSetLocked_spec (vp : VPartition) (v p : Nat) (ac : Nat → Bool) (t : Nat)
    (hv : Valid vp.slice_map) (hfree : vp.SliceGetLocked v = PSLICE_UNALLOCATED)
    (hok : (vp.SliceSetLocked v p ac t).1 = ZX_OK ∨ ∀ k, ac k = true) :
    (vp.SliceSetLocked v p ac t).1 = ZX_OK ∧
      (p ≠ PSLICE_UNALLOCATED → Valid (vp.SliceSetLocked v p ac t).2.1.slice_map) ∧
      (∀ u, (vp.SliceSetLocked v p ac t).2.1.SliceGetLocked u =
        if u = v then p else vp.SliceGetLocked u) ∧
      (vp.SliceSetLocked v p ac t).2.1.entry_index = vp.entry_index ∧
      (vp.SliceSetLocked v p ac t).2.1.killed = vp.killed ∧
      (vp.SliceSetLocked v p ac t).2.1.block_size = vp.block_size ∧
      (vp.SliceSetLocked v p ac t).2.1.slice_size = vp.slice_size := by
  obtain ⟨L0, pre, post, R0, t2, hm, hle, hres, hL0, hR0, _, _⟩ :=
    SliceSetLocked_form_of_ok vp v p ac t hv hfree hok
  rw [hres]
  have hv1 := hv
  rw [hm] at hv1
  refine ⟨rfl, ?_, ?_, rfl, rfl, rfl, rfl⟩
  · intro hp
    exact set_form_valid L0 R0 pre post v p hv1 hp hle hL0 hR0
  · intro u
    have hpw := set_form_pairwise L0 R0 pre post v p hv1.1 hle hL0 hR0
    rw [SliceGetLocked_eq_sum _ u hpw, SliceGetLocked_eq_sum vp u hv.1]
    simp only
    rw [set_form_sum L0 R0 pre post v p u hle, ← hm]
    by_cases huv : u = v
    · subst huv
      rw [← SliceGetLocked_eq_sum vp u hv.1, hfree]
      simp [PSLICE_UNALLOCATED]
    · simp [huv]

/-- `SliceSetLocked(v, p)` followed by a successful `SliceFreeLocked(v)` gives the
partition back as it was. -/
theorem SliceSet_SliceFree (vp : VPartition) (v p : Nat) (ac : Nat → Bool) (t : Nat)
    (ac1 : Nat → Bool) (t1 : Nat)
    (hv : Valid vp.slice_map) (hfree : vp.SliceGetLocked v = PSLICE_UNALLOCATED)
    (hok : (vp.SliceSetLocked v p ac t).1 = ZX_OK ∨ ∀ k, ac k = true)
    (hbc : vp.block_count < 2 ^ 64) :
    (((vp.SliceSetLocked v p ac t).2.1.SliceFreeLocked v ac1 t1).1 = true →
      ((vp.SliceSetLocked v p ac t).2.1.SliceFreeLocked v ac1 t1).2.1 = vp) ∧
    ((∀ k, ac1 k = true) →
      ((vp.SliceSetLocked v p ac t).2.1.SliceFreeLocked v ac1 t1).1 = true) := by
  obtain ⟨L0, pre, post, R0, t2, hm, hle, hres, hL0, hR0, _, _⟩ :=
    SliceSetLocked_form_of_ok vp v p ac t hv hfree hok
  rw [hres]
  have hv1 := hv
  rw [hm] at hv1
  have hpw := set_form_pairwise L0 R0 pre post v p hv1.1 hle hL0 hR0
  have hne : NonEmpty (L0 ++ ⟨v - pre.length, pre ++ p :: post⟩ :: R0) := by
    intro e he
    rcases List.mem_append.mp he with he | he
    · exact hv1.2.1 e (by simp [he])
    · rcases List.mem_cons.mp he with rfl | he
      · simp
      · exact hv1.2.1 e (by simp [he])
  have hform := SliceFreeLocked_form
    ({ vp with
      slice_map := L0 ++ ⟨v - pre.length, pre ++ p :: post⟩ :: R0,
      block_count := (vp.AddBlocksLocked ((vp.slice_size / vp.block_size : Nat) : Int)).block_count }
      : VPartition) v ac1 t1 L0 ⟨v - pre.length, pre ++ p :: post⟩ R0 rfl hpw hne
    (by show v - pre.length ≤ v; omega)
    (by simp only [SliceExtent.end_, List.length_append, List.length_cons]; omega)
  have htake : (pre ++ p :: post).take (v - (v - pre.length)) = pre := by
    have : v - (v - pre.length) = pre.length := by omega
    rw [this]; simp
  have hdrop : (pre ++ p :: post).drop (v + 1 - (v - pre.length)) = post := by
    have : v + 1 - (v - pre.length) = pre.length + 1 := by omega
    rw [this, List.drop_append_eq_append_drop]
    simp
  simp only [SliceExtent.start, htake, hdrop] at hform
  rcases hform with ⟨h1, _, _, h4⟩ | ⟨t3, h⟩
  · refine ⟨?_, ?_⟩
    · intro h; rw [h1] at h; exact absurd h (by simp)
    · intro h; exact absurd h h4
  · rw [h]
    refine ⟨?_, fun _ => rfl⟩
    intro _
    simp only [AddBlocksLocked, ← hm]
    rw [add_sub_blocks _ _ hbc]

/-- After a successful `SliceFreeLocked` of an allocated virtual slice the map is valid
again, `v` is free and every other virtual slice is mapped as before. -/
theorem SliceFreeLocked_spec (vp : VPartition) (v : Nat) (ac : Nat → Bool) (t : Nat)
    (hv : Valid vp.slice_map) (halloc : vp.SliceGetLocked v ≠ PSLICE_UNALLOCATED)
    (hok : (vp.SliceFreeLocked v ac t).1 = true) :
    Valid (vp.SliceFreeLocked v ac t).2.1.slice_map ∧
      (∀ u, (vp.SliceFreeLocked v ac t).2.1.SliceGetLocked u =
        if u = v then PSLICE_UNALLOCATED else vp.SliceGetLocked u) ∧
      (vp.SliceFreeLocked v ac t).2.1.entry_index = vp.entry_index ∧
      (vp.SliceFreeLocked v ac t).2.1.killed = vp.killed ∧
      (vp.SliceFreeLocked v ac t).2.1.block_size = vp.block_size ∧
      (vp.SliceFreeLocked v ac t).2.1.slice_size = vp.slice_size := by
  obtain ⟨L, e, R, hm, h1, h2⟩ := exists_extent_of_allocated vp v hv halloc
  have hv1 := hv
  rw [hm] at hv1
  rcases SliceFreeLocked_form vp v ac t L e R hm hv1.1 hv1.2.1 h1 h2 with ⟨h, _⟩ | ⟨t2, h⟩
  · rw [h] at hok; exact absurd hok (by simp)
  · rw [h]
    have hval := free_form_valid L R e v hv1 h1 h2
    refine ⟨hval, ?_, rfl, rfl, rfl, rfl⟩
    intro u
    have hs := free_form_sum L R e v u h1 h2
    rw [SliceGetLocked_eq_sum _ u hval.1, SliceGetLocked_eq_sum vp u hv.1, hm]
    simp only
    by_cases huv : u = v
    · subst huv
      simp only [if_true]
      -- `u` lies outside every extent of the new map
      have hz : ((L ++ e :: R).map (fun x => x.get u)).sum = e.get u := by
        have hLz : (L.map (fun x => x.get u)).sum = 0 := by
          apply sum_get_of_le
          intro x hx
          have := (List.pairwise_append.mp hv1.1).2.2 x hx e (by simp)
          omega
        have hRz : (R.map (fun x => x.get u)).sum = 0 := by
          apply sum_get_of_gt
          intro x hx
          have := (List.pairwise_cons.mp (List.pairwise_append.mp hv1.1).2.1).1 x hx
          omega
        simp [hLz, hRz]
      rw [hz] at hs
      simp only [if_true] at hs
      simp only [PSLICE_UNALLOCATED]
      omega
    · simp only [huv, if_false] at hs ⊢
      omega

/-- Whether `SliceFreeLocked` succeeds: always when no allocation fails. -/
theorem SliceFreeLocked_ok (vp : VPartition) (v : Nat) (ac : Nat → Bool) (t : Nat)
    (hv : Valid vp.slice_map) (halloc : vp.SliceGetLocked v ≠ PSLICE_UNALLOCATED)
    (hac : ∀ k, ac k = true) : (vp.SliceFreeLocked v ac t).1 = true := by
  obtain ⟨L, e, R, hm, h1, h2⟩ := exists_extent_of_allocated vp v hv halloc
  have hv1 := hv
  rw [hm] at hv1
  rcases SliceFreeLocked_form vp v ac t L e R hm hv1.1 hv1.2.1 h1 h2 with ⟨_, _, _, h⟩ | ⟨t2, h⟩
  · exact absurd hac h
  · rw [h]

theorem SliceSetLocked_merged (vp : VPartition) (v p : Nat) (ac : Nat → Bool) (t : Nat)
    (hv : Valid vp.slice_map) (hm : Merged vp.slice_map)
    (hfree : vp.SliceGetLocked v = PSLICE_UNALLOCATED) (hac : ∀ k, ac k = true) :
    Merged (vp.SliceSetLocked v p ac t).2.1.slice_map := by
  obtain ⟨L0, pre, post, R0, t2, hmap, hle, hres, hL0, hR0, hpre, hpost⟩ :=
    SliceSetLocked_form_of_ok vp v p ac t hv hfree (Or.inr hac)
  rw [hres]
  rw [hmap] at hm
  exact set_form_merged L0 R0 pre post v p hm hle hL0 hR0 hpre (hpost hac)

theorem SliceFreeLocked_merged (vp : VPartition) (v : Nat) (ac : Nat → Bool) (t : Nat)
    (hv : Valid vp.slice_map) (hm : Merged vp.slice_map)
    (halloc : vp.SliceGetLocked v ≠ PSLICE_UNALLOCATED)
    (hok : (vp.SliceFreeLocked v ac t).1 = true) :
    Merged (vp.SliceFreeLocked v ac t).2.1.slice_map := by
  obtain ⟨L, e, R, hmap, h1, h2⟩ := exists_extent_of_allocated vp v hv halloc
  have hv1 := hv
  rw [hmap] at hv1 hm
  rcases SliceFreeLocked_form vp v ac t L e R hmap hv1.1 hv1.2.1 h1 h2 with ⟨h, _⟩ | ⟨t2, h⟩
  · rw [h] at hok; exact absurd hok (by simp)
  · rw [h]
    exact free_form_merged L R e v hv1 hm h1 h2

theorem run_ops_invariant (ac : Nat → Bool) (hac : ∀ k, ac k = true) :
    ∀ (ops : List SliceOp) (vp : VPartition) (t : Nat) (vp1 : VPartition) (t1 : Nat),
      Valid vp.slice_map → Merged vp.slice_map → run_ops ac ops vp t = some (vp1, t1) →
      Valid vp1.slice_map ∧ Merged vp1.slice_map := by
  intro ops
  induction ops with
  | nil =>
    intro vp t vp1 t1 hv hm hrun
    simp only [run_ops, Option.some.injEq, Prod.mk.injEq] at hrun
    rw [← hrun.1]
    exact ⟨hv, hm⟩
  | cons op ops ih =>
    intro vp t vp1 t1 hv hm hrun
    cases op with
    | set v p =>
      simp only [run_ops] at hrun
      split at hrun
      · rename_i hpre
        exact ih _ _ vp1 t1
          ((SliceSetLocked_spec vp v p ac t hv hpre.1 (Or.inr hac)).2.1 hpre.2)
          (SliceSetLocked_merged vp v p ac t hv hm hpre.1 hac) hrun
      · exact absurd hrun (by simp)
    | free v =>
      simp only [run_ops] at hrun
      split at hrun
      · rename_i hpre
        have halloc := (SliceCanFree_iff vp v).mp hpre
        have hok := SliceFreeLocked_ok vp v ac t hv halloc hac
        exact ih _ _ vp1 t1 (SliceFreeLocked_spec vp v ac t hv halloc hok).1
          (SliceFreeLocked_merged vp v ac t hv hm halloc hok) hrun
      · exact absurd hrun (by simp)

theorem AddBlocksLocked_lt (vp : VPartition) (k : Int) :
    (vp.AddBlocksLocked k).block_count < 2 ^ 64 := by
  unfold AddBlocksLocked
  simp only
  omega

theorem SliceGetLocked_ne_zero_of_mem (vp : VPartition) (u : Nat) (e : SliceExtent)
    (hv : Valid vp.slice_map) (he : e ∈ vp.slice_map) (h1 : e.start ≤ u) (h2 : u < e.end_) :
    vp.SliceGetLocked u ≠ PSLICE_UNALLOCATED := by
  intro h
  have := (SliceGetLocked_eq_zero_iff vp u hv).mp h e he
  omega

theorem SliceSetLocked_block_count_lt (vp : VPartition) (v p : Nat) (ac : Nat → Bool) (t : Nat)
    (hv : Valid vp.slice_map) (hfree : vp.SliceGetLocked v = PSLICE_UNALLOCATED)
    (hok : (vp.SliceSetLocked v p ac t).1 = ZX_OK ∨ ∀ k, ac k = true) :
    (vp.SliceSetLocked v p ac t).2.1.block_count < 2 ^ 64 := by
  obtain ⟨L0, pre, post, R0, t2, _, _, hres, _⟩ :=
    SliceSetLocked_form_of_ok vp v p ac t hv hfree hok
  rw [hres]
  exact AddBlocksLocked_lt vp ((vp.slice_size / vp.block_size : Nat) : Int)

end VPartition

/-! ## The slice allocator -/

namespace VPartitionManager

open SliceMap VPartition

theorem int_loop_count_pred (count : Nat) (h0 : 0 < count) (h : count ≤ 2 ^ 31) :
    int_loop_count (size_pred count) = count := by
  unfold int_loop_count size_pred
  have h1 : (count + 2 ^ 64 - 1) % 2 ^ 64 = count - 1 := by omega
  rw [h1, toInt32_of_lt _ (by omega)]
  omega

theorem int_loop_count_big (count : Nat) (h1 : 2 ^ 31 < count) (h2 : count ≤ 2 ^ 32) :
    int_loop_count (size_pred count) = 0 := by
  unfold int_loop_count size_pred
  have h3 : (count + 2 ^ 64 - 1) % 2 ^ 64 = count - 1 := by omega
  rw [h3]
  have := toInt32_neg (count - 1) (by omega) (by omega)
  omega

theorem int_loop_count_of_zero (count : Nat) (h : count = 0) :
    int_loop_count (size_pred count) = 0 := by
  unfold int_loop_count size_pred toInt32
  have h1 : (count + 2 ^ 64 - 1) % 2 ^ 64 = 2 ^ 64 - 1 := by omega
  rw [h1]
  have h2 : (2 ^ 64 - 1) % 2 ^ 32 = 2 ^ 32 - 1 := by norm_num
  rw [h2]
  have h3 : ¬ (2 ^ 32 - 1 < 2 ^ 31) := by norm_num
  rw [if_neg h3]
  omega

/-- The loops over `int j = static_cast<int>(count - 1)` down to 0 run `count` times for
`0 < count <= 2^31` and not at all for the other counts up to `2^32`. -/
theorem int_loop_count_cases (count : Nat) (hc : count ≤ 2 ^ 32) :
    (0 < count ∧ count ≤ 2 ^ 31 ∧ int_loop_count (size_pred count) = count) ∨
      int_loop_count (size_pred count) = 0 := by
  by_cases h0 : count = 0
  · right; exact int_loop_count_of_zero count h0
  · by_cases h1 : count ≤ 2 ^ 31
    · left; exact ⟨by omega, h1, int_loop_count_pred count (by omega) h1⟩
    · right; exact int_loop_count_big count (by omega) hc

theorem find_free_from_some (mgr : VPartitionManager) :
    ∀ (n i p : Nat), mgr.find_free_from n i = some p →
      i ≤ p ∧ p < i + n ∧ (mgr.slice_table p).vpart = 0 := by
  intro n
  induction n with
  | zero => intro i p h; simp [find_free_from] at h
  | succ n ih =>
    intro i p h
    rw [find_free_from] at h
    split at h
    · rename_i h0
      simp only [Option.some.injEq] at h
      subst h
      exact ⟨le_refl _, by omega, h0⟩
    · have := ih (i + 1) p h
      omega

theorem FindFreeSliceLocked_ok (mgr : VPartitionManager) (hint p : Nat)
    (h : (mgr.FindFreeSliceLocked hint).1 = ZX_OK) (hp : (mgr.FindFreeSliceLocked hint).2 = p)
    (hh : hint ≤ mgr.usable_slices + 1) :
    1 ≤ p ∧ p ≤ mgr.usable_slices ∧ (mgr.slice_table p).vpart = 0 := by
  unfold FindFreeSliceLocked at h hp
  simp only at h hp
  cases h1 : mgr.find_free_from (mgr.usable_slices + 1 - max hint 1) (max hint 1) with
  | some i =>
    rw [h1] at hp
    simp only at hp
    subst hp
    have := find_free_from_some mgr _ _ _ h1
    omega
  | none =>
    rw [h1] at h hp
    cases h2 : mgr.find_free_from (max hint 1 - 1) 1 with
    | some i =>
      rw [h2] at hp
      simp only at hp
      subst hp
      have := find_free_from_some mgr _ _ _ h2
      omega
    | none =>
      rw [h2] at h
      exact absurd h (by decide)

/-- The loop of `FreeSlicesLocked` over `a + b` virtual slices is the loop over the upper
`b` ones followed by the loop over the lower `a` ones. -/
theorem FreeSlicesLocked_loop_add (env : Env) (vs a : Nat) :
    ∀ (b : Nat) (f : Bool) (w : World),
      FreeSlicesLocked_loop env vs (a + b) f w =
        match FreeSlicesLocked_loop env (vs + a) b f w with
        | some (none, f1, w1) => FreeSlicesLocked_loop env vs a f1 w1
        | r => r := by
  intro b
  induction b with
  | zero => intro f w; simp [FreeSlicesLocked_loop]
  | succ b ih =>
    intro f w
    have h1 : a + (b + 1) = (a + b) + 1 := by omega
    have h2 : size_add vs (a + b) = size_add (vs + a) b := by
      unfold size_add; rw [Nat.add_assoc]
    rw [h1, FreeSlicesLocked_loop, FreeSlicesLocked_loop, h2]
    by_cases hc : w.vp.SliceCanFree (size_add (vs + a) b) = true
    · simp only [hc, if_true]
      generalize w.vp.SliceFreeLocked (size_add (vs + a) b) env.ac w.tick = r
      obtain ⟨ok, vp1, t1⟩ := r
      cases f <;> cases ok <;> simp [ih]
    · simp only [hc, if_false]
      exact ih _ _

theorem AllocateSlicesLocked_loop_succ (env : Env) (vs n i hint : Nat) (w w1 : World)
    (h : AllocateSlicesLocked_loop env vs (n + 1) i hint w = (none, w1)) :
    w.vp.SliceGetLocked (size_add vs i) = PSLICE_UNALLOCATED ∧
    (w.mgr.FindFreeSliceLocked hint).1 = ZX_OK ∧
    (w.vp.SliceSetLocked (size_add vs i) (toUInt32 (w.mgr.FindFreeSliceLocked hint).2)
      env.ac w.tick).1 = ZX_OK ∧
    AllocateSlicesLocked_loop env vs n (i + 1) ((w.mgr.FindFreeSliceLocked hint).2 + 1)
      ⟨w.mgr.set_slice_entry (w.mgr.FindFreeSliceLocked hint).2
          ⟨Nat.land w.vp.entry_index w.mgr.VPART_MAX, Nat.land (size_add vs i) VSLICE_MAX⟩,
        (w.vp.SliceSetLocked (size_add vs i) (toUInt32 (w.mgr.FindFreeSliceLocked hint).2)
          env.ac w.tick).2.1,
        (w.vp.SliceSetLocked (size_add vs i) (toUInt32 (w.mgr.FindFreeSliceLocked hint).2)
          env.ac w.tick).2.2⟩ = (none, w1) := by
  rw [AllocateSlicesLocked_loop] at h
  dsimp only at h
  by_cases h1 : w.vp.SliceGetLocked (size_add vs i) = PSLICE_UNALLOCATED
  · rw [if_neg (not_not.mpr h1)] at h
    by_cases h2 : (w.mgr.FindFreeSliceLocked hint).1 = ZX_OK
    · rw [if_neg (not_not.mpr h2)] at h
      by_cases h3 : (w.vp.SliceSetLocked (size_add vs i)
          (toUInt32 (w.mgr.FindFreeSliceLocked hint).2) env.ac w.tick).1 = ZX_OK
      · rw [if_neg (not_not.mpr h3)] at h
        exact ⟨h1, h2, h3, h⟩
      · rw [if_pos h3] at h
        exact absurd (congrArg Prod.fst h) (by simp)
    · rw [if_pos h2] at h
      exact absurd (congrArg Prod.fst h) (by simp)
  · rw [if_pos h1] at h
    exact absurd (congrArg Prod.fst h) (by simp)

/-- The allocation loop, when it runs to its end: the slice map stays valid, the virtual
slices of the loop are allocated and the others are mapped as before, and the loop of
`FreeSlicesLocked` over the same virtual slices, when it runs to its end, gives the
partition back as it was. -/
theorem AllocateSlicesLocked_loop_spec (env : Env) (vs : Nat) :
    ∀ (n i hint : Nat) (w w1 : World),
      AllocateSlicesLocked_loop env vs n i hint w = (none, w1) →
      Valid w.vp.slice_map → vs + i + n < 2 ^ 64 → hint ≤ w.mgr.usable_slices + 1 →
      w.mgr.usable_slices < 2 ^ 32 →
      Valid w1.vp.slice_map ∧
      (∀ v, vs + i ≤ v → v < vs + i + n → w1.vp.SliceGetLocked v ≠ PSLICE_UNALLOCATED) ∧
      (∀ v, (v < vs + i ∨ vs + i + n ≤ v) → w1.vp.SliceGetLocked v = w.vp.SliceGetLocked v) ∧
      (w.vp.block_count < 2 ^ 64 →
        ∀ (f : Bool) (W : World) (f1 : Bool) (W1 : World), W.vp = w1.vp →
          FreeSlicesLocked_loop env (vs + i) n f W = some (none, f1, W1) → W1.vp = w.vp) := by
  intro n
  induction n with
  | zero =>
    intro i hint w w1 h hv _ _ _
    simp only [AllocateSlicesLocked_loop, Prod.mk.injEq, true_and] at h
    subst h
    refine ⟨hv, ?_, ?_, ?_⟩
    · intro v h1 h2; omega
    · intro v _; rfl
    · intro _ f W f1 W1 hW hloop
      simp only [FreeSlicesLocked_loop, Option.some.injEq, Prod.mk.injEq, true_and] at hloop
      rw [← hloop.2]; exact hW
  | succ n ih =>
    intro i hint w w1 h hv hbound hhint hus
    obtain ⟨h1, h2, h3, h4⟩ := AllocateSlicesLocked_loop_succ env vs n i hint w w1 h
    have hmod : size_add vs i = vs + i := Nat.mod_eq_of_lt (by omega)
    rw [hmod] at h1 h3 h4
    obtain ⟨hp1, hp2, _⟩ := FindFreeSliceLocked_ok w.mgr hint _ h2 rfl hhint
    have hpmod : toUInt32 (w.mgr.FindFreeSliceLocked hint).2 = (w.mgr.FindFreeSliceLocked hint).2 :=
      Nat.mod_eq_of_lt (by omega)
    rw [hpmod] at h3 h4
    have hpne : (w.mgr.FindFreeSliceLocked hint).2 ≠ PSLICE_UNALLOCATED := by
      unfold PSLICE_UNALLOCATED; omega
    obtain ⟨_, hval, hlook, _⟩ := SliceSetLocked_spec w.vp (vs + i)
      (w.mgr.FindFreeSliceLocked hint).2 env.ac w.tick hv h1 (Or.inl h3)
    have hbc1 := SliceSetLocked_block_count_lt w.vp (vs + i)
      (w.mgr.FindFreeSliceLocked hint).2 env.ac w.tick hv h1 (Or.inl h3)
    obtain ⟨iv, ia, ib, ic⟩ := ih (i + 1) _ _ w1 h4 (hval hpne) (by omega)
      (by show _ ≤ w.mgr.usable_slices + 1; omega) hus
    refine ⟨iv, ?_, ?_, ?_⟩
    · intro v hv1 hv2
      by_cases hvi : v = vs + i
      · rw [ib v (Or.inl (by omega))]
        show (w.vp.SliceSetLocked (vs + i) _ env.ac w.tick).2.1.SliceGetLocked v ≠ _
        rw [hlook v, if_pos hvi]
        exact hpne
      · exact ia v (by omega) (by omega)
    · intro v hv1
      rw [ib v (by omega)]
      show (w.vp.SliceSetLocked (vs + i) _ env.ac w.tick).2.1.SliceGetLocked v = _
      rw [hlook v, if_neg (by omega)]
    · intro hbc f W f1 W1 hW hloop
      have hadd := FreeSlicesLocked_loop_add env (vs + i) 1 n f W
      have h1n : 1 + n = n + 1 := by omega
      have hassoc : vs + i + 1 = vs + (i + 1) := by omega
      rw [h1n, hloop, hassoc] at hadd
      cases hup : FreeSlicesLocked_loop env (vs + (i + 1)) n f W with
      | none => rw [hup] at hadd; exact absurd hadd (by simp)
      | some r =>
        obtain ⟨st, f2, W2⟩ := r
        rw [hup] at hadd
        cases st with
        | some st1 =>
          simp only [Option.some.injEq, Prod.mk.injEq] at hadd
          exact absurd hadd.1 (by simp)
        | none =>
          simp only at hadd
          have hW2 : W2.vp = (w.vp.SliceSetLocked (vs + i) (w.mgr.FindFreeSliceLocked hint).2
              env.ac w.tick).2.1 := ic hbc1 f W f2 W2 hW hup
          -- the last step of the loop frees `vs + i`
          have hmod0 : size_add (vs + i) 0 = vs + i := by
            unfold size_add at hmod ⊢
            rw [Nat.add_zero]; exact hmod
          rw [FreeSlicesLocked_loop, hmod0] at hadd
          have hcan : W2.vp.SliceCanFree (vs + i) = true := by
            rw [SliceCanFree_iff, hW2, hlook (vs + i), if_pos rfl]
            exact hpne
          rw [if_pos hcan] at hadd
          have hrt := SliceSet_SliceFree w.vp (vs + i) (w.mgr.FindFreeSliceLocked hint).2
            env.ac w.tick env.ac W2.tick hv h1 (Or.inl h3) hbc
          rw [← hW2] at hrt
          generalize W2.vp.SliceFreeLocked (vs + i) env.ac W2.tick = r at hadd hrt
          obtain ⟨ok, vp2, t2⟩ := r
          cases ok with
          | false =>
            cases f2 <;> simp at hadd
          | true =>
            have hvp2 : vp2 = w.vp := hrt.1 rfl
            cases f2 <;>
              simp only [Bool.not_true, Bool.not_false, Bool.and_false, Bool.false_eq_true,
                if_false, FreeSlicesLocked_loop, Option.some.injEq, Prod.mk.injEq,
                true_and] at hadd
            · rw [hadd.2]; exact hvp2
            · rw [hadd.2]; exact hvp2


theorem AllocateSlicesLocked_loop_status (env : Env) (vs : Nat) :
    ∀ (n i hint : Nat) (w w1 : World) (st : zx_status_t),
      AllocateSlicesLocked_loop env vs n i hint w = (some st, w1) → st ≠ ZX_OK := by
  intro n
  induction n with
  | zero =>
    intro i hint w w1 st h
    simp [AllocateSlicesLocked_loop] at h
  | succ n ih =>
    intro i hint w w1 st h
    rw [AllocateSlicesLocked_loop] at h
    dsimp only at h
    split at h
    · simp only [Prod.mk.injEq, Option.some.injEq] at h
      rw [← h.1]; decide
    · split at h
      · rename_i h2
        simp only [Prod.mk.injEq, Option.some.injEq] at h
        rw [← h.1]; exact h2
      · split at h
        · simp only [Prod.mk.injEq, Option.some.injEq] at h
          rw [← h.1]; decide
        · exact ih _ _ _ _ _ h

/-- What a successful `AllocateSlicesLocked` leaves behind. -/
theorem AllocateSlicesLocked_ok (env : Env) (w : World) (vs count : Nat)
    (hv : Valid w.vp.slice_map) (hrange : vs + count ≤ VSLICE_MAX)
    (hus : w.mgr.usable_slices < 2 ^ 32)
    (hok : (AllocateSlicesLocked env w vs count).1 = ZX_OK) :
    w.vp.killed = false ∧
    Valid (AllocateSlicesLocked env w vs count).2.vp.slice_map ∧
    (∀ v, vs ≤ v → v < vs + count →
      (AllocateSlicesLocked env w vs count).2.vp.SliceGetLocked v ≠ PSLICE_UNALLOCATED) ∧
    (∀ v, (v < vs ∨ vs + count ≤ v) →
      (AllocateSlicesLocked env w vs count).2.vp.SliceGetLocked v = w.vp.SliceGetLocked v) ∧
    (w.vp.block_count < 2 ^ 64 →
      ∀ (f : Bool) (W : World) (f1 : Bool) (W1 : World),
        W.vp = (AllocateSlicesLocked env w vs count).2.vp →
        FreeSlicesLocked_loop env vs count f W = some (none, f1, W1) → W1.vp = w.vp) := by
  have hmax : VSLICE_MAX = 4294967295 := rfl
  have hg : ¬ (size_add vs count > VSLICE_MAX) := by
    rw [size_add, Nat.mod_eq_of_lt (by omega)]; omega
  unfold AllocateSlicesLocked at hok ⊢
  rw [if_neg hg] at hok ⊢
  cases hk : w.vp.killed with
  | true =>
    simp only [IsKilledLocked, hk, if_true] at hok
    exact absurd hok (by decide)
  | false =>
    simp only [IsKilledLocked, hk, Bool.false_eq_true, if_false] at hok ⊢
    cases hl : AllocateSlicesLocked_loop env vs count 0 0 w with
    | mk st w1 =>
      rw [hl] at hok
      cases st with
      | some s =>
        exact absurd hok (AllocateSlicesLocked_loop_status env vs count 0 0 w w1 s hl)
      | none =>
        obtain ⟨h1, h2, h3, h4⟩ := AllocateSlicesLocked_loop_spec env vs count 0 0 w w1 hl hv
          (by omega) (by omega) hus
        simp only [Nat.add_zero] at h2 h3 h4
        dsimp only at hok ⊢
        split at hok
        · rename_i hw
          simp only at hok
          exact absurd hok hw
        · rename_i hw
          rw [if_neg hw]
          exact ⟨trivial, h1, h2, h3, h4⟩

theorem FreeSlicesLocked_loop_status (env : Env) (vs : Nat) :
    ∀ (n : Nat) (f : Bool) (w : World) (s : zx_status_t) (f1 : Bool) (w1 : World),
      FreeSlicesLocked_loop env vs n f w = some (some s, f1, w1) → s = ZX_ERR_NO_MEMORY := by
  intro n
  induction n with
  | zero =>
    intro f w s f1 w1 h
    simp [FreeSlicesLocked_loop] at h
  | succ n ih =>
    intro f w s f1 w1 h
    rw [FreeSlicesLocked_loop] at h
    dsimp only at h
    split at h
    · split at h
      · simp only [Option.some.injEq, Prod.mk.injEq] at h
        exact h.1.symm
      · split at h
        · exact absurd h (by simp)
        · exact ih _ _ _ _ _ h
    · exact ih _ _ _ _ _ h

/-- What a successful `FreeSlicesLocked` of a range that does not start at 0 has done:
its loop ran over all of `count <= 2^31` virtual slices, to the end. -/
theorem FreeSlicesLocked_ok (env : Env) (W W2 : World) (vs count : Nat)
    (hs : 0 < vs) (hrange : vs + count ≤ VSLICE_MAX)
    (hok : FreeSlicesLocked env W vs count = some (ZX_OK, W2)) :
    0 < count ∧ count ≤ 2 ^ 31 ∧
    ∃ W1, FreeSlicesLocked_loop env vs count false { W with tick := W.tick + 1 } =
        some (none, true, W1) ∧ W2.vp = W1.vp := by
  have hmax : VSLICE_MAX = 4294967295 := rfl
  have hg : ¬ (size_add vs count > VSLICE_MAX ∨ count > VSLICE_MAX) := by
    rw [size_add, Nat.mod_eq_of_lt (by omega)]; omega
  have hs0 : ¬ (vs = 0) := by omega
  unfold FreeSlicesLocked at hok
  rw [if_neg hg] at hok
  by_cases hk : W.vp.IsKilledLocked = true
  · rw [if_pos hk] at hok
    simp only [Option.some.injEq, Prod.mk.injEq] at hok
    exfalso; exact absurd hok.1 (by decide)
  · rw [if_neg hk] at hok
    by_cases hsync : env.sync W.tick ≠ ZX_OK
    · rw [if_pos hsync] at hok
      simp only [Option.some.injEq, Prod.mk.injEq] at hok
      exfalso; exact hsync hok.1
    · rw [if_neg hsync, if_neg hs0] at hok
      have hcount := int_loop_count_cases count (by omega)
      generalize hloop : FreeSlicesLocked_loop env vs (int_loop_count (size_pred count)) false
        { mgr := W.mgr, vp := W.vp, tick := W.tick + 1 } = res at hok
      rcases hcount with ⟨hc0, hc1, hc⟩ | hc
      · rw [hc] at hloop
        refine ⟨hc0, hc1, ?_⟩
        cases res with
        | none => exfalso; exact absurd hok (by simp)
        | some r =>
          obtain ⟨st, f1, W1⟩ := r
          cases st with
          | some s =>
            simp only [Option.some.injEq, Prod.mk.injEq] at hok
            have := FreeSlicesLocked_loop_status env vs count false _ s f1 W1 hloop
            rw [this] at hok
            exfalso; exact absurd hok.1 (by decide)
          | none =>
            cases f1 with
            | false =>
              simp only [FreeSlicesLocked_tail, Bool.not_false, if_true, Option.some.injEq,
                Prod.mk.injEq] at hok
              exfalso; exact absurd hok.1 (by decide)
            | true =>
              simp only [FreeSlicesLocked_tail, Bool.not_true, Bool.false_eq_true, if_false,
                Option.some.injEq, Prod.mk.injEq] at hok
              exact ⟨W1, hloop, by rw [← hok.2]⟩
      · rw [hc] at hloop
        simp only [FreeSlicesLocked_loop] at hloop
        rw [← hloop] at hok
        simp only [FreeSlicesLocked_tail, Bool.not_false, if_true, Option.some.injEq,
          Prod.mk.injEq] at hok
        exfalso; exact absurd hok.1 (by decide)

/-- A successful `AllocateSlicesLocked` whose `vslice_start + count` does not overflow
has its range within `VSLICE_MAX`. -/
theorem AllocateSlicesLocked_range (env : Env) (w : World) (vs count : Nat)
    (hsz : vs + count < 2 ^ 64) (hok : (AllocateSlicesLocked env w vs count).1 = ZX_OK) :
    vs + count ≤ VSLICE_MAX := by
  by_contra h
  have hg : size_add vs count > VSLICE_MAX := by
    rw [size_add, Nat.mod_eq_of_lt hsz]; omega
  unfold AllocateSlicesLocked at hok
  rw [if_pos hg] at hok
  have hne : ZX_ERR_INVALID_ARGS = ZX_OK := hok
  exact absurd hne (by decide)

end VPartitionManager

/-! # The claims -/

namespace VPartition
open SliceMap

/-- C1: in a slice map ordered by start, `SliceGetLocked v` is the physical slice stored
for `v` in the extent `e` with the greatest start at or below `v` when `v` lies in the
range of `e`; it is `PSLICE_UNALLOCATED` when `v` lies at or past the end of `e`, and
when no extent starts at or below `v`. -/
theorem SliceGetLocked_lookup (vp : VPartition) (v : Nat) (hord : Ordered vp.slice_map) :
    (∀ e ∈ vp.slice_map, e.start ≤ v →
        (∀ x ∈ vp.slice_map, x.start ≤ v → x.start ≤ e.start) →
        (v < e.end_ → e.pslices[v - e.start]? = some (vp.SliceGetLocked v)) ∧
        (e.end_ ≤ v → vp.SliceGetLocked v = PSLICE_UNALLOCATED)) ∧
      ((∀ e ∈ vp.slice_map, v < e.start) → vp.SliceGetLocked v = PSLICE_UNALLOCATED) := by
  constructor
  · intro e he hle hmax
    have hu := upper_bound_prev_of_max vp.slice_map v e hord he hle hmax
    have hg : vp.SliceGetLocked v = e.get v := by
      unfold SliceGetLocked; rw [hu]
    rw [hg]
    constructor
    · intro hlt
      have hk : v - e.start < e.pslices.length := by
        unfold SliceExtent.end_ SliceExtent.start at *; omega
      have hle1 : e.vslice_start ≤ v := hle
      unfold SliceExtent.get
      simp only [hle1, if_true]
      rw [List.getElem?_eq_getElem hk]
      have : v - e.vslice_start = v - e.start := rfl
      rw [this, List.getD_eq_getElem _ _ hk]
    · intro hge
      exact SliceExtent.get_of_ge e v hge
  · intro h
    unfold SliceGetLocked
    rw [upper_bound_prev_of_gt vp.slice_map v h]
    rfl

/-- Example for C1: virtual slice 4 of the map with the extents `[1, 2)` and `[3, 5)`. -/
theorem SliceGetLocked_lookup_witness :
    Ordered (vp_of [⟨1, [11]⟩, ⟨3, [13, 14]⟩]).slice_map ∧
      (SliceExtent.mk 3 [13, 14]).pslices[4 - 3]? =
        some ((vp_of [⟨1, [11]⟩, ⟨3, [13, 14]⟩]).SliceGetLocked 4) ∧
      (vp_of [⟨1, [11]⟩, ⟨3, [13, 14]⟩]).SliceGetLocked 4 = 14 :=
  ⟨by decide,
    ((SliceGetLocked_lookup (vp_of [⟨1, [11]⟩, ⟨3, [13, 14]⟩]) 4
      (by decide)).1 ⟨3, [13, 14]⟩ (by decide) (by decide) (by decide)).1 (by decide),
    by decide⟩

/-- C2: on a well-formed slice map, for a virtual slice `v` that is free, when no
allocation fails `SliceSetLocked v p` returns `ZX_OK`, and afterwards the lookup of `v`
is `p` and the lookup of every other virtual slice is what it was. -/
theorem SliceSetLocked_lookup (vp : VPartition) (v p : Nat) (ac : Nat → Bool) (t : Nat)
    (hv : Valid vp.slice_map) (hfree : vp.SliceGetLocked v = PSLICE_UNALLOCATED)
    (hac : ∀ k, ac k = true) :
    (vp.SliceSetLocked v p ac t).1 = ZX_OK ∧
      (vp.SliceSetLocked v p ac t).2.1.SliceGetLocked v = p ∧
      ∀ u, u ≠ v → (vp.SliceSetLocked v p ac t).2.1.SliceGetLocked u = vp.SliceGetLocked u := by
  obtain ⟨h1, _, h3, _⟩ := SliceSetLocked_spec vp v p ac t hv hfree (Or.inr hac)
  refine ⟨h1, ?_, ?_⟩
  · rw [h3 v]; simp
  · intro u hu
    rw [h3 u]; simp [hu]

/-- Example for C2: setting virtual slice 2 between the extents `[1, 2)` and `[3, 5)`. -/
theorem SliceSetLocked_lookup_witness :
    Valid (vp_of [⟨1, [11]⟩, ⟨3, [13, 14]⟩]).slice_map ∧
      (vp_of [⟨1, [11]⟩, ⟨3, [13, 14]⟩]).SliceGetLocked 2 = PSLICE_UNALLOCATED ∧
      ((vp_of [⟨1, [11]⟩, ⟨3, [13, 14]⟩]).SliceSetLocked 2 12 (fun _ => true) 0).1 = ZX_OK ∧
      ((vp_of [⟨1, [11]⟩, ⟨3, [13, 14]⟩]).SliceSetLocked 2 12
        (fun _ => true) 0).2.1.SliceGetLocked 2 = 12 ∧
      ((vp_of [⟨1, [11]⟩, ⟨3, [13, 14]⟩]).SliceSetLocked 2 12
        (fun _ => true) 0).2.1.slice_map = [⟨1, [11, 12, 13, 14]⟩] :=
  ⟨by decide, by decide,
    (SliceSetLocked_lookup (vp_of [⟨1, [11]⟩, ⟨3, [13, 14]⟩]) 2 12
      (fun _ => true) 0 (by decide) (by decide) (fun _ => rfl)).1,
    (SliceSetLocked_lookup (vp_of [⟨1, [11]⟩, ⟨3, [13, 14]⟩]) 2 12
      (fun _ => true) 0 (by decide) (by decide) (fun _ => rfl)).2.1,
    by decide⟩

/-- C3: on a well-formed slice map `L ++ e :: R` with `v` in the range of the extent `e`,
`SliceFreeLocked v` succeeds when no allocation fails, and when it succeeds it replaces
`e` by the extents `[e.start, v)` and `[v + 1, e.end)`, each kept only when it is not
empty and each with the physical slices that `e` had there, leaves `L` and `R` as they
were, frees `v` and keeps the lookup of every other virtual slice; freeing the middle of
an extent of three slices leaves two extents of one slice. -/
theorem SliceFreeLocked_split (vp : VPartition) (v : Nat) (ac : Nat → Bool) (t : Nat)
    (L : SliceMap) (e : SliceExtent) (R : SliceMap)
    (hv : Valid vp.slice_map) (hm : vp.slice_map = L ++ e :: R)
    (h1 : e.start ≤ v) (h2 : v < e.end_) :
    ((∀ k, ac k = true) → (vp.SliceFreeLocked v ac t).1 = true) ∧
    ((vp.SliceFreeLocked v ac t).1 = true →
      (vp.SliceFreeLocked v ac t).2.1.slice_map =
          L ++ piece e.start (e.pslices.take (v - e.start)) ++
            piece (v + 1) (e.pslices.drop (v + 1 - e.start)) ++ R ∧
        (vp.SliceFreeLocked v ac t).2.1.SliceGetLocked v = PSLICE_UNALLOCATED ∧
        (∀ u, u ≠ v →
          (vp.SliceFreeLocked v ac t).2.1.SliceGetLocked u = vp.SliceGetLocked u) ∧
        (∀ a b c, e.pslices = [a, b, c] → v = e.start + 1 →
          (vp.SliceFreeLocked v ac t).2.1.slice_map =
            L ++ ⟨e.start, [a]⟩ :: ⟨e.start + 2, [c]⟩ :: R)) := by
  have hv1 := hv
  rw [hm] at hv1
  have halloc : vp.SliceGetLocked v ≠ PSLICE_UNALLOCATED := by
    intro h
    have := (SliceGetLocked_eq_zero_iff vp v hv).mp h e (by rw [hm]; simp)
    omega
  refine ⟨SliceFreeLocked_ok vp v ac t hv halloc, ?_⟩
  intro hok
  have hspec := SliceFreeLocked_spec vp v ac t hv halloc hok
  rcases SliceFreeLocked_form vp v ac t L e R hm hv1.1 hv1.2.1 h1 h2 with ⟨h, _⟩ | ⟨t2, h⟩
  · rw [h] at hok; exact absurd hok (by simp)
  · refine ⟨by rw [h]; rfl, ?_, ?_, ?_⟩
    · rw [hspec.2.1 v]; simp
    · intro u hu
      rw [hspec.2.1 u]; simp [hu]
    · intro a b c habc hvs
      rw [h]
      have h3 : v - e.start = 1 := by omega
      have h4 : v + 1 - e.start = 2 := by omega
      simp only [h3, h4, habc]
      subst hvs
      simp [piece, SliceExtent.start]

/-- Example for C3: freeing virtual slice 2 of the extent `[1, 4)`. -/
theorem SliceFreeLocked_split_witness :
    Valid (vp_of [⟨1, [11, 12, 13]⟩]).slice_map ∧
      ((vp_of [⟨1, [11, 12, 13]⟩]).SliceFreeLocked 2 (fun _ => true) 0).1 = true ∧
      ((vp_of [⟨1, [11, 12, 13]⟩]).SliceFreeLocked 2 (fun _ => true) 0).2.1.slice_map =
        [⟨1, [11]⟩, ⟨3, [13]⟩] :=
  ⟨by decide, by decide,
    ((SliceFreeLocked_split (vp_of [⟨1, [11, 12, 13]⟩]) 2 (fun _ => true) 0 []
      ⟨1, [11, 12, 13]⟩ [] (by decide) rfl (by decide) (by decide)).2 (by decide)).2.2.2
      11 12 13 rfl rfl⟩

/-- C4: starting from an empty slice map, after any sequence of `SliceSetLocked` calls
on free virtual slices and `SliceFreeLocked` calls on allocated virtual slices in which
no allocation fails, every extent is non-empty, the ranges of the extents are pairwise
disjoint, and no extent ends at the virtual slice where another one starts. -/
theorem run_ops_wellformed (ac : Nat → Bool) (ops : List SliceOp) (vp : VPartition) (t : Nat)
    (vp1 : VPartition) (t1 : Nat) (hempty : vp.slice_map = []) (hac : ∀ k, ac k = true)
    (hrun : run_ops ac ops vp t = some (vp1, t1)) :
    NonEmpty vp1.slice_map ∧ PairwiseDisjoint vp1.slice_map ∧
      ∀ a ∈ vp1.slice_map, ∀ b ∈ vp1.slice_map, a.end_ ≠ b.start := by
  have h := run_ops_invariant ac hac ops vp t vp1 t1
    (by rw [hempty]; exact ⟨List.Pairwise.nil, by simp [NonEmpty], by simp [NonZero]⟩)
    (by rw [hempty]; exact List.Pairwise.nil) hrun
  exact ⟨h.1.2.1, pairwiseDisjoint_of_valid _ h.1, no_abut_of_merged _ h.1 h.2⟩

/-- Example for C4: eight calls that append, merge, split and erase extents. -/
theorem run_ops_wellformed_witness :
    run_ops (fun _ => true)
        [.set 1 11, .set 2 12, .set 3 13, .set 4 14, .free 2, .set 6 16, .set 5 15, .free 1]
        (vp_of []) 0 = some (vp_of [⟨3, [13, 14, 15, 16]⟩], 11) ∧
    NonEmpty (vp_of [⟨3, [13, 14, 15, 16]⟩]).slice_map ∧
      PairwiseDisjoint (vp_of [⟨3, [13, 14, 15, 16]⟩]).slice_map ∧
      ∀ a ∈ (vp_of [⟨3, [13, 14, 15, 16]⟩]).slice_map,
        ∀ b ∈ (vp_of [⟨3, [13, 14, 15, 16]⟩]).slice_map, a.end_ ≠ b.start :=
  ⟨by decide,
    run_ops_wellformed (fun _ => true)
      [.set 1 11, .set 2 12, .set 3 13, .set 4 14, .free 2, .set 6 16, .set 5 15, .free 1]
      (vp_of []) 0 (vp_of [⟨3, [13, 14, 15, 16]⟩]) 11 rfl (fun _ => rfl) (by decide)⟩

/-- C5: for a live partition with a well-formed slice map (valid, abutting extents
merged, extents within `VSLICE_MAX`) and `v < VSLICE_MAX`, `CheckSlices v` returns a
count of at least 1 with `v + count ≤ VSLICE_MAX` and a flag such that every virtual
slice of `[v, v + count)` is allocated exactly when the flag is set, and the run is
maximal: it reaches `VSLICE_MAX` or the virtual slice `v + count` has the other status.
The extent `[1, 5)` after freeing virtual slice 2 gives `(1, true)` at 1, `(1, false)`
at 2 and `(2, true)` at 3. -/
theorem CheckSlices_run (vp : VPartition) (v : Nat) (hlive : vp.killed = false)
    (hv : Valid vp.slice_map) (hm : Merged vp.slice_map) (hb : Bounded vp.slice_map)
    (hlt : v < VSLICE_MAX) :
    (∃ count allocated, vp.CheckSlices v = .ok (count, allocated) ∧
      1 ≤ count ∧ v + count ≤ VSLICE_MAX ∧
      (∀ u, v ≤ u → u < v + count →
        (vp.SliceGetLocked u ≠ PSLICE_UNALLOCATED ↔ allocated = true)) ∧
      (v + count = VSLICE_MAX ∨
        (vp.SliceGetLocked (v + count) ≠ PSLICE_UNALLOCATED ↔ allocated = false))) ∧
    (((vp_of [⟨1, [11, 12, 13, 14]⟩]).SliceFreeLocked 2
        (fun _ => true) 0).2.1.CheckSlices 1 = .ok (1, true) ∧
      ((vp_of [⟨1, [11, 12, 13, 14]⟩]).SliceFreeLocked 2
        (fun _ => true) 0).2.1.CheckSlices 2 = .ok (1, false) ∧
      ((vp_of [⟨1, [11, 12, 13, 14]⟩]).SliceFreeLocked 2
        (fun _ => true) 0).2.1.CheckSlices 3 = .ok (2, true)) := by
  refine ⟨?_, rfl, rfl, rfl⟩
  have hnge : ¬ (v ≥ VSLICE_MAX) := by omega
  by_cases hfree : vp.SliceGetLocked v = PSLICE_UNALLOCATED
  · -- `v` is free
    obtain ⟨L, R, hLR, hL, hR⟩ := split_of_free vp.slice_map v hv.1
      ((SliceGetLocked_eq_zero_iff vp v hv).mp hfree)
    have hLs : ∀ x ∈ L, x.start ≤ v := by
      intro x hx
      have := hL x hx
      unfold SliceExtent.end_ SliceExtent.start at *; omega
    have hubp := upper_bound_prev_append L R v hLs hR
    have hub := upper_bound_append L R v hLs hR
    have hzero : ∀ u, v ≤ u → (∀ x ∈ R, u < x.start) →
        vp.SliceGetLocked u = PSLICE_UNALLOCATED := by
      intro u hu hRu
      rw [SliceGetLocked_eq_zero_iff vp u hv, hLR]
      intro x hx
      rcases List.mem_append.mp hx with hx | hx
      · right; have := hL x hx; omega
      · left; exact hRu x hx
    have hcs : vp.CheckSlices v =
        match R.head? with
        | some extent => .ok (extent.start - v, false)
        | none => .ok (VSLICE_MAX - v, false) := by
      unfold CheckSlices
      simp only [hnge, if_false, IsKilledLocked, hlive, Bool.false_eq_true]
      rw [hLR, hubp, hub]
      cases hl : L.getLast? with
      | none => rfl
      | some e =>
        have h1 := hL e (List.mem_of_getLast?_eq_some hl)
        have h2 : ¬ (e.start + e.size > v) := by
          unfold SliceExtent.size SliceExtent.end_ SliceExtent.start at *; omega
        simp [h2]
    rw [hcs]
    cases R with
    | nil =>
      refine ⟨VSLICE_MAX - v, false, rfl, by omega, by omega, ?_, Or.inl (by omega)⟩
      intro u hu _
      simp [hzero u hu (by simp)]
    | cons n R1 =>
      have hn := hR n (by simp)
      have hnm : n ∈ vp.slice_map := by rw [hLR]; simp
      have hnb := hb n hnm
      have hnlen := List.length_pos.mpr (hv.2.1 n hnm)
      have hR1 : ∀ x ∈ R1, n.end_ ≤ x.start := by
        rw [hLR] at hv
        exact (List.pairwise_cons.mp (List.pairwise_append.mp hv.1).2.1).1
      refine ⟨n.start - v, false, rfl, by omega, ?_, ?_, Or.inr ?_⟩
      · unfold SliceExtent.end_ SliceExtent.start at *; omega
      · intro u hu hlt2
        have : vp.SliceGetLocked u = PSLICE_UNALLOCATED := by
          apply hzero u hu
          intro x hx
          rcases List.mem_cons.mp hx with rfl | hx
          · omega
          · have := hR1 x hx
            unfold SliceExtent.end_ SliceExtent.start at *; omega
        simp [this]
      · have h1 : v + (n.start - v) = n.start := by omega
        rw [h1]
        have := SliceGetLocked_ne_zero_of_mem vp n.start n hv hnm (le_refl _)
          (by unfold SliceExtent.end_ SliceExtent.start at *; omega)
        simp [this]
  · -- `v` lies in an extent
    obtain ⟨L, e, R, hLR, h1, h2⟩ := exists_extent_of_allocated vp v hv hfree
    have hem : e ∈ vp.slice_map := by rw [hLR]; simp
    have hv1 := hv
    rw [hLR] at hv1
    have hLe : ∀ x ∈ L, x.end_ ≤ e.start := fun x hx =>
      (List.pairwise_append.mp hv1.1).2.2 x hx e (by simp)
    have hLs : ∀ x ∈ L, x.start < e.start := by
      intro x hx
      have h3 := hLe x hx
      have h4 := List.length_pos.mpr (hv1.2.1 x (by simp [hx]))
      unfold SliceExtent.end_ SliceExtent.start at *; omega
    have hRe : ∀ x ∈ R, e.end_ ≤ x.start :=
      (List.pairwise_cons.mp (List.pairwise_append.mp hv1.1).2.1).1
    have hRm : ∀ x ∈ R, e.end_ ≠ x.start := by
      rw [hLR] at hm
      exact (List.pairwise_cons.mp (List.pairwise_append.mp hm).2.1).1
    have hubp := upper_bound_prev_mid L e R v hLs h1
      (by intro x hx; have := hRe x hx; omega)
    have hsz : e.start + e.size > v := by
      unfold SliceExtent.size SliceExtent.end_ SliceExtent.start at *; omega
    have hcnt : v + (e.size - (v - e.start)) = e.end_ := by
      unfold SliceExtent.size SliceExtent.end_ SliceExtent.start at *; omega
    unfold CheckSlices
    simp only [hnge, if_false, IsKilledLocked, hlive, Bool.false_eq_true]
    rw [hLR, hubp]
    simp only [hsz, if_true, Bool.not_true, Bool.false_eq_true, if_false]
    refine ⟨e.size - (v - e.start), true, rfl, by omega, ?_, ?_, ?_⟩
    · rw [hcnt]; exact hb e hem
    · intro u hu hlt2
      have := SliceGetLocked_ne_zero_of_mem vp u e hv hem (by omega) (by omega)
      simp [this]
    · rw [hcnt]
      by_cases hmax : e.end_ = VSLICE_MAX
      · exact Or.inl hmax
      · right
        have : vp.SliceGetLocked e.end_ = PSLICE_UNALLOCATED := by
          rw [SliceGetLocked_eq_zero_iff vp _ hv, hLR]
          intro x hx
          rcases List.mem_append.mp hx with hx | hx
          · right; have := hLe x hx
            unfold SliceExtent.end_ SliceExtent.start at *; omega
          · rcases List.mem_cons.mp hx with rfl | hx
            · right; exact le_refl _
            · left
              have h3 := hRe x hx
              have h4 := hRm x hx
              omega
        simp [this]

/-- Example for C5: the query at virtual slice 2 of the extents `[1, 2)` and `[3, 5)`. -/
theorem CheckSlices_run_witness :
    (vp_of [⟨1, [11]⟩, ⟨3, [13, 14]⟩]).killed = false ∧
      Valid (vp_of [⟨1, [11]⟩, ⟨3, [13, 14]⟩]).slice_map ∧
      Merged (vp_of [⟨1, [11]⟩, ⟨3, [13, 14]⟩]).slice_map ∧
      Bounded (vp_of [⟨1, [11]⟩, ⟨3, [13, 14]⟩]).slice_map ∧
      (vp_of [⟨1, [11]⟩, ⟨3, [13, 14]⟩]).CheckSlices 2 = .ok (1, false) ∧
      ∃ count allocated,
        (vp_of [⟨1, [11]⟩, ⟨3, [13, 14]⟩]).CheckSlices 2 = .ok (count, allocated) ∧
        1 ≤ count ∧ 2 + count ≤ VSLICE_MAX ∧
        (∀ u, 2 ≤ u → u < 2 + count →
          ((vp_of [⟨1, [11]⟩, ⟨3, [13, 14]⟩]).SliceGetLocked u ≠ PSLICE_UNALLOCATED ↔
            allocated = true)) ∧
        (2 + count = VSLICE_MAX ∨
          ((vp_of [⟨1, [11]⟩, ⟨3, [13, 14]⟩]).SliceGetLocked (2 + count) ≠
            PSLICE_UNALLOCATED ↔ allocated = false)) :=
  ⟨rfl, by decide, by decide, by decide, rfl,
    (CheckSlices_run (vp_of [⟨1, [11]⟩, ⟨3, [13, 14]⟩]) 2 rfl (by decide) (by decide)
      (by decide) (by decide)).1⟩

end VPartition

namespace VPartitionManager
open SliceMap VPartition

/-- C6: after a successful `AllocateSlices(vp, vslice_start, count)` on a well-formed
slice map, with `vslice_start + count` within `size_t` and physical slice numbers within
32 bits, every virtual slice of `[vslice_start, vslice_start + count)` is allocated and
the lookup of every virtual slice outside of that range is what it was before the call. -/
theorem AllocateSlices_lookup (env : Env) (w : World) (vslice_start count : Nat)
    (hv : Valid w.vp.slice_map) (hsz : vslice_start + count < 2 ^ 64)
    (hus : w.mgr.usable_slices < 2 ^ 32)
    (hok : (AllocateSlices env w vslice_start count).1 = ZX_OK) :
    (∀ v, vslice_start ≤ v → v < vslice_start + count →
      (AllocateSlices env w vslice_start count).2.vp.SliceGetLocked v ≠ PSLICE_UNALLOCATED) ∧
    (∀ v, (v < vslice_start ∨ vslice_start + count ≤ v) →
      (AllocateSlices env w vslice_start count).2.vp.SliceGetLocked v =
        w.vp.SliceGetLocked v) := by
  have hrange := AllocateSlicesLocked_range env w vslice_start count hsz hok
  obtain ⟨_, _, h1, h2, _⟩ := AllocateSlicesLocked_ok env w vslice_start count hv hrange hus hok
  exact ⟨h1, h2⟩

/-- Example for C6: allocating the virtual slices 1 to 4 of an empty partition. -/
theorem AllocateSlices_lookup_witness :
    Valid world_empty.vp.slice_map ∧ world_empty.mgr.usable_slices < 2 ^ 32 ∧
      (AllocateSlices env_ok world_empty 1 4).1 = ZX_OK ∧
      (AllocateSlices env_ok world_empty 1 4).2.vp.slice_map = [⟨1, [1, 2, 3, 4]⟩] ∧
      ∀ v, 1 ≤ v → v < 1 + 4 →
        (AllocateSlices env_ok world_empty 1 4).2.vp.SliceGetLocked v ≠ PSLICE_UNALLOCATED :=
  ⟨by decide, by decide, by decide, by decide,
    (AllocateSlices_lookup env_ok world_empty 1 4 (by decide) (by decide) (by decide)
      (by decide)).1⟩

/-- C7, evaluated at a failing input: partition 1 owns virtual slice 3; the allocation of
the virtual slices 1 and 2 maps them and merges the three slices into one extent, the
metadata write fails with `ZX_ERR_IO`, and while the allocation is undone the heap
allocation of `Split` for virtual slice 2 fails. `AllocateSlices` returns `ZX_ERR_IO`, yet
virtual slice 2 stays mapped to physical slice 3 and the block count stays one slice too
high, while the slots of the physical slices 2 and 3 are marked free. -/
theorem AllocateSlices_undo_incomplete :
    (AllocateSlices env_ok world_empty 3 1).1 = ZX_OK ∧
    (AllocateSlices env_ok world_empty 3 1).2.vp = vp_of [⟨3, [1]⟩] ∧
    (AllocateSlices env_ok world_empty 3 1).2.tick = 4 ∧
    (AllocateSlices env_write_alloc_fail (AllocateSlices env_ok world_empty 3 1).2 1 2).1 =
      ZX_ERR_IO ∧
    (AllocateSlices env_write_alloc_fail (AllocateSlices env_ok world_empty 3 1).2 1 2).2.vp =
      vp_of [⟨2, [3, 1]⟩] ∧
    (vp_of [⟨2, [3, 1]⟩]).slice_map ≠ (vp_of [⟨3, [1]⟩]).slice_map ∧
    (vp_of [⟨2, [3, 1]⟩]).block_count ≠ (vp_of [⟨3, [1]⟩]).block_count ∧
    ((AllocateSlices env_write_alloc_fail
      (AllocateSlices env_ok world_empty 3 1).2 1 2).2.mgr.slice_table 3).vpart = 0 := by
  decide

/-- C8, evaluated at a failing input: partition 1 owns the virtual slices 1 to 4 and
`FreeSlices(vp, 1, 2^31 + 1)` is called with every interaction succeeding. The range
`[1, 2^31 + 2)` lies within `VSLICE_MAX` and holds allocated slices, yet the call returns
`ZX_ERR_INVALID_ARGS` and leaves the partition and the allocation table as they were. -/
theorem FreeSlices_count_truncated :
    (AllocateSlices env_ok world_empty 1 4).2.vp = vp_of [⟨1, [1, 2, 3, 4]⟩] ∧
    1 + (2 ^ 31 + 1) ≤ VSLICE_MAX ∧
    (FreeSlices env_ok (AllocateSlices env_ok world_empty 1 4).2 1 (2 ^ 31 + 1)).map
        (fun r => (r.1, r.2.vp, (r.2.mgr.slice_table 4).vpart)) =
      some (ZX_ERR_INVALID_ARGS, vp_of [⟨1, [1, 2, 3, 4]⟩], 1) ∧
    (vp_of [⟨1, [1, 2, 3, 4]⟩]).SliceGetLocked 4 = 4 :=
  ⟨by decide, by decide, rfl, by decide⟩

/-- C9: for a partition with a well-formed slice map and a range `[s, s + n)` with
`s > 0` and `s + n ≤ VSLICE_MAX`, a successful `AllocateSlices(vp, s, n)` followed by a
successful `FreeSlices(vp, s, n)` leaves the partition, its slice map included, as it was
before the allocation. -/
theorem AllocateSlices_FreeSlices (env : Env) (w : World) (vslice_start count : Nat)
    (hv : Valid w.vp.slice_map) (hs : 0 < vslice_start)
    (hrange : vslice_start + count ≤ VSLICE_MAX)
    (hus : w.mgr.usable_slices < 2 ^ 32) (hbc : w.vp.block_count < 2 ^ 64)
    (hok1 : (AllocateSlices env w vslice_start count).1 = ZX_OK)
    (hok2 : (FreeSlices env (AllocateSlices env w vslice_start count).2 vslice_start count).map
      (fun r => r.1) = some ZX_OK) :
    (FreeSlices env (AllocateSlices env w vslice_start count).2 vslice_start count).map
        (fun r => r.2.vp.slice_map) = some w.vp.slice_map ∧
      (FreeSlices env (AllocateSlices env w vslice_start count).2 vslice_start count).map
        (fun r => r.2.vp) = some w.vp := by
  obtain ⟨_, _, _, _, hrt⟩ := AllocateSlicesLocked_ok env w vslice_start count hv hrange hus hok1
  unfold FreeSlices AllocateSlices at hok2 ⊢
  cases hf : FreeSlicesLocked env (AllocateSlicesLocked env w vslice_start count).2
      vslice_start count with
  | none => rw [hf] at hok2; exact absurd hok2 (by simp)
  | some r =>
    obtain ⟨st, W2⟩ := r
    rw [hf] at hok2
    have hst : st = ZX_OK := by simpa using hok2
    subst hst
    obtain ⟨_, _, W1, hloop, hvp⟩ := FreeSlicesLocked_ok env _ W2 vslice_start count hs hrange hf
    have := hrt hbc false _ true W1 (by rfl) hloop
    simp only [Option.map_some', hvp, this, and_self]

/-- Example for C9: allocating and freeing the virtual slices 1 to 4 of a partition that
owns virtual slice 5. -/
theorem AllocateSlices_FreeSlices_witness :
    (AllocateSlices env_ok world_empty 5 1).2.vp.slice_map = [⟨5, [1]⟩] ∧
      (AllocateSlices env_ok (AllocateSlices env_ok world_empty 5 1).2 1 4).1 = ZX_OK ∧
      (AllocateSlices env_ok (AllocateSlices env_ok world_empty 5 1).2 1 4).2.vp.slice_map =
        [⟨1, [2, 3, 4, 5, 1]⟩] ∧
      (FreeSlices env_ok (AllocateSlices env_ok (AllocateSlices env_ok world_empty 5 1).2 1 4).2
        1 4).map (fun r => r.1) = some ZX_OK ∧
      (FreeSlices env_ok (AllocateSlices env_ok (AllocateSlices env_ok world_empty 5 1).2 1 4).2
        1 4).map (fun r => r.2.vp.slice_map) =
          some (AllocateSlices env_ok world_empty 5 1).2.vp.slice_map :=
  ⟨by decide, by decide, by decide, by decide,
    (AllocateSlices_FreeSlices env_ok (AllocateSlices env_ok world_empty 5 1).2 1 4
      (by decide) (by decide) (by decide) (by decide) (by decide) (by decide) (by decide)).1⟩

end VPartitionManager

namespace VPartition
open SliceMap

/-- C10: on a well-formed slice map, for a virtual slice `v` that is free, when no
allocation fails `SliceSetLocked v p` followed by `SliceFreeLocked v` both succeed and
leave the partition as it was: the same extents with the same starts and physical
slices, and the same block count. -/
theorem SliceSet_SliceFree_id (vp : VPartition) (v p : Nat) (ac : Nat → Bool) (t : Nat)
    (hv : Valid vp.slice_map) (hfree : vp.SliceGetLocked v = PSLICE_UNALLOCATED)
    (hac : ∀ k, ac k = true) (hbc : vp.block_count < 2 ^ 64) :
    (vp.SliceSetLocked v p ac t).1 = ZX_OK ∧
      ((vp.SliceSetLocked v p ac t).2.1.SliceFreeLocked v ac
        (vp.SliceSetLocked v p ac t).2.2).1 = true ∧
      ((vp.SliceSetLocked v p ac t).2.1.SliceFreeLocked v ac
        (vp.SliceSetLocked v p ac t).2.2).2.1 = vp := by
  have h := SliceSet_SliceFree vp v p ac t ac (vp.SliceSetLocked v p ac t).2.2 hv hfree
    (Or.inr hac) hbc
  exact ⟨(SliceSetLocked_spec vp v p ac t hv hfree (Or.inr hac)).1, h.2 hac, h.1 (h.2 hac)⟩

/-- Example for C10: setting and freeing virtual slice 2 between the extents `[1, 2)`
and `[3, 5)`, which are merged by the first call and split by the second. -/
theorem SliceSet_SliceFree_id_witness :
    Valid (vp_of [⟨1, [11]⟩, ⟨3, [13, 14]⟩]).slice_map ∧
      (vp_of [⟨1, [11]⟩, ⟨3, [13, 14]⟩]).SliceGetLocked 2 = PSLICE_UNALLOCATED ∧
      ((vp_of [⟨1, [11]⟩, ⟨3, [13, 14]⟩]).SliceSetLocked 2 12
        (fun _ => true) 0).2.1.slice_map = [⟨1, [11, 12, 13, 14]⟩] ∧
      (((vp_of [⟨1, [11]⟩, ⟨3, [13, 14]⟩]).SliceSetLocked 2 12
        (fun _ => true) 0).2.1.SliceFreeLocked 2 (fun _ => true)
        ((vp_of [⟨1, [11]⟩, ⟨3, [13, 14]⟩]).SliceSetLocked 2 12 (fun _ => true) 0).2.2).2.1 =
          vp_of [⟨1, [11]⟩, ⟨3, [13, 14]⟩] :=
  ⟨by decide, by decide, by decide,
    (SliceSet_SliceFree_id (vp_of [⟨1, [11]⟩, ⟨3, [13, 14]⟩]) 2 12 (fun _ => true) 0
      (by decide) (by decide) (fun _ => rfl) (by decide)).2.2⟩

end VPartition

/-! ## Extents: the pieces of `Split` -/

namespace SliceExtent

theorem get_take (e : SliceExtent) (k u : Nat) (hu : u < e.vslice_start + k) :
    (SliceExtent.mk e.vslice_start (e.pslices.take k)).get u = e.get u := by
  have h := get_mk_append e.vslice_start (e.pslices.take k) (e.pslices.drop k) u
  rw [List.take_append_drop] at h
  have hz : (SliceExtent.mk (e.vslice_start + (e.pslices.take k).length)
      (e.pslices.drop k)).get u = 0 := by
    by_cases hk : k ≤ e.pslices.length
    · apply get_of_lt
      simp only [List.length_take, Nat.min_eq_left hk]
      exact hu
    · have : e.pslices.drop k = [] := List.drop_eq_nil_iff.mpr (by omega)
      rw [this]; exact get_nil _ _
  have he : (SliceExtent.mk e.vslice_start e.pslices) = e := rfl
  rw [he, hz] at h
  omega

theorem get_drop (e : SliceExtent) (k u : Nat) (hk : k ≤ e.pslices.length)
    (hu : e.vslice_start + k ≤ u) :
    (SliceExtent.mk (e.vslice_start + k) (e.pslices.drop k)).get u = e.get u := by
  have h := get_mk_append e.vslice_start (e.pslices.take k) (e.pslices.drop k) u
  rw [List.take_append_drop] at h
  have hl : (e.pslices.take k).length = k := by
    simp only [List.length_take, Nat.min_eq_left hk]
  have hz : (SliceExtent.mk e.vslice_start (e.pslices.take k)).get u = 0 := by
    apply get_of_ge
    unfold end_
    simp only [hl]
    exact hu
  have he : (SliceExtent.mk e.vslice_start e.pslices) = e := rfl
  rw [he, hz, hl] at h
  omega

theorem Split_some (e : SliceExtent) (vslice : Nat) (ac : Nat → Bool) (t : Nat)
    (n : SliceExtent) (h : (e.Split vslice ac t).1 = some n) :
    ac t = true ∧ ac (t + 1) = true := by
  unfold Split at h
  cases h1 : ac t with
  | false => simp [h1] at h
  | true =>
    cases h2 : ac (t + 1) with
    | false => simp [h1, h2] at h
    | true => exact ⟨rfl, rfl⟩

end SliceExtent

/-! ## The commit: cases of `WriteFvmLocked` and its effect on the disk -/

namespace VPartitionManager

/-- `WriteFvmLocked` when the transaction cannot be allocated. -/
theorem WriteFvmLocked_no_txn (env : Env) (mgr : VPartitionManager) (t : Nat)
    (h : env.iotxn_alloc t ≠ ZX_OK) :
    WriteFvmLocked env mgr t = (env.iotxn_alloc t, mgr, t + 1) := by
  unfold WriteFvmLocked
  rw [if_pos h]

/-- `WriteFvmLocked` when the transaction is allocated and the write fails. -/
theorem WriteFvmLocked_failed (env : Env) (mgr : VPartitionManager) (t : Nat)
    (h : env.iotxn_alloc t = ZX_OK) (hs : env.iotxn_status (t + 1) ≠ ZX_OK) :
    WriteFvmLocked env mgr t =
      (env.iotxn_status (t + 1),
        { mgr with
          generation := (mgr.generation + 1) % 2 ^ 64,
          writes := ⟨mgr.BackupOffsetLocked, (mgr.generation + 1) % 2 ^ 64,
            env.iotxn_status (t + 1)⟩ :: mgr.writes },
        t + 2) := by
  unfold WriteFvmLocked
  rw [if_neg (not_not.mpr h)]
  simp only [if_pos hs]

/-- `WriteFvmLocked` when the transaction is allocated and the write succeeds. -/
theorem WriteFvmLocked_written (env : Env) (mgr : VPartitionManager) (t : Nat)
    (h : env.iotxn_alloc t = ZX_OK) (hs : env.iotxn_status (t + 1) = ZX_OK) :
    WriteFvmLocked env mgr t =
      (ZX_OK,
        { mgr with
          generation := (mgr.generation + 1) % 2 ^ 64,
          first_metadata_is_primary := !mgr.first_metadata_is_primary,
          writes := ⟨mgr.BackupOffsetLocked, (mgr.generation + 1) % 2 ^ 64,
            env.iotxn_status (t + 1)⟩ :: mgr.writes },
        t + 2) := by
  unfold WriteFvmLocked
  rw [if_neg (not_not.mpr h)]
  simp only [if_neg (not_not.mpr hs)]

theorem Commit_no_txn (env : Env) (torn : Nat → Option MetadataImage) (mgr : VPartitionManager)
    (d : Disk) (t : Nat) (h : env.iotxn_alloc t ≠ ZX_OK) :
    Commit env torn mgr d t = (env.iotxn_alloc t, mgr, d, t + 1) := by
  unfold Commit
  rw [WriteFvmLocked_no_txn env mgr t h]
  simp

theorem Commit_failed (env : Env) (torn : Nat → Option MetadataImage) (mgr : VPartitionManager)
    (d : Disk) (t : Nat) (h : env.iotxn_alloc t = ZX_OK)
    (hs : env.iotxn_status (t + 1) ≠ ZX_OK) :
    Commit env torn mgr d t =
      ((WriteFvmLocked env mgr t).1, (WriteFvmLocked env mgr t).2.1,
        d.write mgr.metadata_size mgr.BackupOffsetLocked (torn t), t + 2) := by
  unfold Commit
  rw [WriteFvmLocked_failed env mgr t h hs]
  simp [hs]

theorem Commit_written (env : Env) (torn : Nat → Option MetadataImage) (mgr : VPartitionManager)
    (d : Disk) (t : Nat) (h : env.iotxn_alloc t = ZX_OK)
    (hs : env.iotxn_status (t + 1) = ZX_OK) :
    Commit env torn mgr d t =
      (ZX_OK, (WriteFvmLocked env mgr t).2.1,
        d.write mgr.metadata_size mgr.BackupOffsetLocked
          (some (WriteFvmLocked env mgr t).2.1.image), t + 2) := by
  unfold Commit
  rw [WriteFvmLocked_written env mgr t h hs]
  simp [hs]

end VPartitionManager

namespace Disk

theorem primary_write_backup (d : Disk) (M : Nat) (b : Bool) (c : Option MetadataImage)
    (hM : 0 < M) : (d.write M (if b then M else 0) c).primary b = d.primary b := by
  cases b
  · simp [write, primary]
  · have : M ≠ 0 := by omega
    simp [write, primary, this]

theorem primary_write_flip (d : Disk) (M : Nat) (b : Bool) (c : Option MetadataImage)
    (hM : 0 < M) : (d.write M (if b then M else 0) c).primary (!b) = c := by
  cases b
  · simp [write, primary]
  · have : M ≠ 0 := by omega
    simp [write, primary, this]

end Disk

/-! ## Slice maps: order, lookups inside an extent -/

namespace SliceMap

theorem ordered_of_valid (m : SliceMap) (hv : Valid m) : Ordered m := by
  obtain ⟨hpw, hne, hnz⟩ := hv
  clear hnz
  unfold Ordered
  induction m with
  | nil => exact List.Pairwise.nil
  | cons a r ih =>
    rw [List.pairwise_cons] at hpw ⊢
    refine ⟨?_, ih hpw.2 (fun e he => hne e (by simp [he]))⟩
    intro x hx
    have h1 := hpw.1 x hx
    have h2 := List.length_pos.mpr (hne a (by simp))
    unfold SliceExtent.end_ SliceExtent.start at *
    omega

theorem valid_tail (a : SliceExtent) (r : SliceMap) (hv : Valid (a :: r)) : Valid r :=
  ⟨(List.pairwise_cons.mp hv.1).2, fun e he => hv.2.1 e (by simp [he]),
    fun e he => hv.2.2 e (by simp [he])⟩

end SliceMap

namespace VPartition
open SliceMap

/-- The lookup of a virtual slice inside an extent of a valid map is the entry of that
extent. -/
theorem SliceGetLocked_eq_get_of_mem (vp : VPartition) (v : Nat) (e : SliceExtent)
    (hv : Valid vp.slice_map) (he : e ∈ vp.slice_map) (h1 : e.start ≤ v) (h2 : v < e.end_) :
    vp.SliceGetLocked v = e.get v := by
  obtain ⟨L, R, hLR⟩ := List.append_of_mem he
  have hv1 := hv
  rw [hLR] at hv1
  rw [SliceGetLocked_eq_sum vp v hv.1, hLR]
  have hLz : (L.map (fun x => x.get v)).sum = 0 := by
    apply sum_get_of_le
    intro x hx
    have := (List.pairwise_append.mp hv1.1).2.2 x hx e (by simp)
    omega
  have hRz : (R.map (fun x => x.get v)).sum = 0 := by
    apply sum_get_of_gt
    intro x hx
    have := (List.pairwise_cons.mp (List.pairwise_append.mp hv1.1).2.1).1 x hx
    omega
  simp [hLz, hRz]

end VPartition

/-! ## Destroying a partition -/

namespace SliceExtent

theorem map_get_range (e : SliceExtent) :
    (List.range' e.start (e.end_ - e.start)).map (fun i => e.get i) = e.pslices := by
  apply List.ext_getElem
  · simp [end_, start]
  · intro n h1 h2
    simp only [List.getElem_map, List.getElem_range', get, start, Nat.one_mul]
    have : e.vslice_start ≤ e.vslice_start + n := by omega
    simp only [this, if_true, Nat.add_sub_cancel_left]
    exact List.getD_eq_getElem _ _ h2

end SliceExtent

namespace VPartitionManager
open SliceMap VPartition

theorem foldl_set_slice_vpart (l : List Nat) (mgr : VPartitionManager) :
    l.foldl (fun m p => m.set_slice_vpart p PSLICE_UNALLOCATED) mgr =
      { mgr with slice_table := fun q =>
          if q ∈ l then { mgr.slice_table q with vpart := 0 } else mgr.slice_table q } := by
  induction l generalizing mgr with
  | nil => simp
  | cons a r ih =>
    rw [List.foldl_cons, ih]
    simp only [set_slice_vpart, PSLICE_UNALLOCATED]
    congr 1
    funext q
    by_cases h1 : q ∈ r
    · by_cases h2 : q = a
      · simp [h1, h2]
      · simp [h1, h2]
    · by_cases h2 : q = a
      · simp [h1, h2]
      · simp [h1, h2]

end VPartitionManager

namespace VPartition
open SliceMap

theorem ExtentDestroyLocked_head (vp : VPartition) (e : SliceExtent) (r : SliceMap)
    (hm : vp.slice_map = e :: r) (hv : Valid vp.slice_map) :
    vp.ExtentDestroyLocked e.start =
      ({ vp with slice_map := r } : VPartition).AddBlocksLocked
        (-(((e.size * vp.slice_size) % 2 ^ 64 / vp.block_size : Nat) : Int)) := by
  have hord := ordered_of_valid _ hv
  rw [hm] at hord
  have hgt : ∀ x ∈ r, e.start < x.start := (List.pairwise_cons.mp hord).1
  have hu : upper_bound_prev vp.slice_map e.start = some e := by
    rw [hm]
    exact upper_bound_prev_mid [] e r e.start (by simp) (le_refl _) hgt
  unfold ExtentDestroyLocked
  rw [hu]
  have he : SliceMap.erase vp.slice_map e = r := by
    rw [hm]
    unfold SliceMap.erase
    rw [List.filter_cons]
    simp only [ne_eq, not_true_eq_false, decide_False, Bool.false_eq_true, if_false]
    apply List.filter_eq_self.mpr
    intro x hx
    have := hgt x hx
    simp only [ne_eq, decide_not, Bool.not_eq_true', decide_eq_false_iff_not]
    omega
  simp only [he]

end VPartition

namespace VPartitionManager
open SliceMap VPartition

theorem destroy_fold (vp : VPartition) (e : SliceExtent) (r : SliceMap) (mgr : VPartitionManager)
    (hm : vp.slice_map = e :: r) (hv : Valid vp.slice_map) :
    (List.range' e.start (e.end_ - e.start)).foldl
        (fun m i => m.set_slice_vpart (vp.SliceGetLocked i) PSLICE_UNALLOCATED) mgr =
      { mgr with slice_table := fun q =>
          if q ∈ e.pslices then { mgr.slice_table q with vpart := 0 } else mgr.slice_table q } := by
  have hmap : (List.range' e.start (e.end_ - e.start)).map vp.SliceGetLocked = e.pslices := by
    rw [← SliceExtent.map_get_range e]
    apply List.map_congr_left
    intro i hi
    rw [List.mem_range'_1] at hi
    exact SliceGetLocked_eq_get_of_mem vp i e hv (by rw [hm]; simp) hi.1 (by omega)
  rw [← foldl_set_slice_vpart, ← hmap, List.foldl_map]

theorem block_arith (bc len ss bs : Nat) (rest : Nat) (hbs : 0 < bs) (hdiv : bs ∣ ss)
    (hlen : len * ss < 2 ^ 64) (hbc : bc = (len + rest) * (ss / bs)) (hlt : bc < 2 ^ 64) :
    ((((bc : Int) + -(((len * ss) % 2 ^ 64 / bs : Nat) : Int)) % 2 ^ 64).toNat) =
      rest * (ss / bs) := by
  obtain ⟨k, hk⟩ := hdiv
  have h1 : ss / bs = k := by rw [hk]; exact Nat.mul_div_cancel_left k hbs
  have h2 : (len * ss) % 2 ^ 64 / bs = len * k := by
    rw [Nat.mod_eq_of_lt hlen, hk, ← Nat.mul_assoc, Nat.mul_comm len bs, Nat.mul_assoc]
    exact Nat.mul_div_cancel_left _ hbs
  rw [h2, h1]
  rw [h1] at hbc
  have h3 : bc = len * k + rest * k := by rw [hbc]; ring
  have h4 : ((bc : Int) + -((len * k : Nat) : Int)) = ((rest * k : Nat) : Int) := by
    rw [h3]; push_cast; ring
  rw [h4]
  have h5 : rest * k < 2 ^ 64 := by omega
  omega

theorem FreeSlicesLocked_destroy_spec :
    ∀ (m : SliceMap) (n : Nat) (mgr : VPartitionManager) (vp : VPartition),
      vp.slice_map = m → Valid m → m.length ≤ n →
      (FreeSlicesLocked_destroy n mgr vp).1 =
        { mgr with slice_table := fun q =>
            if q ∈ m.all_pslices then { mgr.slice_table q with vpart := 0 }
            else mgr.slice_table q } ∧
      (FreeSlicesLocked_destroy n mgr vp).2.slice_map = [] ∧
      (FreeSlicesLocked_destroy n mgr vp).2.entry_index = vp.entry_index ∧
      (FreeSlicesLocked_destroy n mgr vp).2.killed = vp.killed ∧
      (FreeSlicesLocked_destroy n mgr vp).2.block_size = vp.block_size ∧
      (FreeSlicesLocked_destroy n mgr vp).2.slice_size = vp.slice_size ∧
      (0 < vp.block_size → vp.block_size ∣ vp.slice_size →
        m.total_slices * vp.slice_size < 2 ^ 64 →
        vp.block_count = m.total_slices * (vp.slice_size / vp.block_size) →
        (FreeSlicesLocked_destroy n mgr vp).2.block_count = 0) := by
  intro m
  induction m with
  | nil =>
    intro n mgr vp hm _ _
    have h : FreeSlicesLocked_destroy n mgr vp = (mgr, vp) := by
      cases n with
      | zero => rfl
      | succ k => unfold FreeSlicesLocked_destroy; rw [hm]; rfl
    rw [h]
    refine ⟨?_, hm, rfl, rfl, rfl, rfl, ?_⟩
    · simp [all_pslices]
    · intro _ _ _ hbc
      simpa [total_slices] using hbc
  | cons e r ih =>
    intro n mgr vp hm hv hn
    cases n with
    | zero => simp at hn
    | succ k =>
      have hvv : Valid vp.slice_map := by rw [hm]; exact hv
      have hstep : FreeSlicesLocked_destroy (k + 1) mgr vp =
          FreeSlicesLocked_destroy k
            { mgr with slice_table := fun q =>
              if q ∈ e.pslices then { mgr.slice_table q with vpart := 0 }
              else mgr.slice_table q }
            (({ vp with slice_map := r } : VPartition).AddBlocksLocked
              (-(((e.size * vp.slice_size) % 2 ^ 64 / vp.block_size : Nat) : Int))) := by
        rw [FreeSlicesLocked_destroy]
        simp only [hm, begin_, List.head?_cons]
        have h1 := destroy_fold vp e r mgr hm hvv
        have h2 := ExtentDestroyLocked_head vp e r hm hvv
        rw [h2]
        rw [h1]
      rw [hstep]
      obtain ⟨i1, i2, i3, i4, i5, i6, i7⟩ := ih k _
        (({ vp with slice_map := r } : VPartition).AddBlocksLocked
          (-(((e.size * vp.slice_size) % 2 ^ 64 / vp.block_size : Nat) : Int)))
        rfl (valid_tail e r hv) (by simp at hn; omega)
      refine ⟨?_, i2, i3, i4, i5, i6, ?_⟩
      · rw [i1]
        congr 1
        funext q
        have hmem : q ∈ all_pslices (e :: r) ↔ q ∈ e.pslices ∨ q ∈ all_pslices r := by
          simp [all_pslices]
        by_cases h1 : q ∈ e.pslices
        · by_cases h2 : q ∈ all_pslices r
          · simp [hmem, h1, h2]
          · simp [hmem, h1, h2]
        · by_cases h2 : q ∈ all_pslices r
          · simp [hmem, h1, h2]
          · simp [hmem, h1, h2]
      · intro hbs hdiv hover hbc
        apply i7 hbs hdiv
        · simp only [total_slices, List.map_cons, List.sum_cons] at hover ⊢
          simp only [AddBlocksLocked]
          exact lt_of_le_of_lt (Nat.mul_le_mul_right _ (Nat.le_add_left _ _)) hover
        · simp only [AddBlocksLocked]
          have hsz : e.size = e.pslices.length := by
            simp [SliceExtent.size, SliceExtent.end_, SliceExtent.start]
          rw [hsz]
          simp only [total_slices, List.map_cons, List.sum_cons] at hover hbc ⊢
          apply block_arith _ _ _ _ _ hbs hdiv _ hbc
          · calc vp.block_count = (e.pslices.length + (r.map fun e => e.pslices.length).sum) *
                  (vp.slice_size / vp.block_size) := hbc
              _ ≤ (e.pslices.length + (r.map fun e => e.pslices.length).sum) * vp.slice_size :=
                Nat.mul_le_mul_left _ (Nat.div_le_self _ _)
              _ < 2 ^ 64 := hover
          · exact lt_of_le_of_lt (Nat.mul_le_mul_right _ (Nat.le_add_right _ _)) hover

end VPartitionManager

namespace VPartition
open SliceMap

/-- The physical slices that a valid map holds are the values of its lookups. -/
theorem mem_all_pslices_iff (vp : VPartition) (q : Nat) (hv : Valid vp.slice_map) :
    q ∈ vp.slice_map.all_pslices ↔
      ∃ v, vp.SliceGetLocked v = q ∧ q ≠ PSLICE_UNALLOCATED := by
  constructor
  · intro h
    simp only [all_pslices, List.mem_flatMap] at h
    obtain ⟨e, he, hq⟩ := h
    obtain ⟨i, hi, hqi⟩ := List.getElem_of_mem hq
    refine ⟨e.start + i, ?_, hv.2.2 e he q hq⟩
    rw [SliceGetLocked_eq_get_of_mem vp _ e hv he (by omega)
      (by unfold SliceExtent.end_ SliceExtent.start; omega)]
    unfold SliceExtent.get SliceExtent.start
    have : e.vslice_start ≤ e.vslice_start + i := by omega
    simp only [this, if_true, Nat.add_sub_cancel_left]
    rw [List.getD_eq_getElem _ _ hi]
    exact hqi
  · rintro ⟨v, hq, hne⟩
    have hal : vp.SliceGetLocked v ≠ PSLICE_UNALLOCATED := by rw [hq]; exact hne
    obtain ⟨L, e, R, hLR, h1, h2⟩ := exists_extent_of_allocated vp v hv hal
    have he : e ∈ vp.slice_map := by rw [hLR]; simp
    rw [SliceGetLocked_eq_get_of_mem vp v e hv he h1 h2] at hq
    simp only [all_pslices, List.mem_flatMap]
    refine ⟨e, he, ?_⟩
    unfold SliceExtent.get at hq
    have h3 : e.vslice_start ≤ v := h1
    have h4 : v - e.vslice_start < e.pslices.length := by
      unfold SliceExtent.end_ SliceExtent.start at *; omega
    simp only [h3, if_true] at hq
    rw [List.getD_eq_getElem _ _ h4] at hq
    rw [← hq]
    exact List.getElem_mem _

end VPartition

namespace VPartitionManager
open SliceMap VPartition

/-- The fields of the manager that `WriteFvmLocked` leaves as they are. -/
theorem WriteFvmLocked_frame (env : Env) (mgr : VPartitionManager) (t : Nat) :
    (WriteFvmLocked env mgr t).2.1.slice_table = mgr.slice_table ∧
      (WriteFvmLocked env mgr t).2.1.vpart_table = mgr.vpart_table ∧
      (WriteFvmLocked env mgr t).2.1.metadata_size = mgr.metadata_size ∧
      (WriteFvmLocked env mgr t).2.1.usable_slices = mgr.usable_slices ∧
      (WriteFvmLocked env mgr t).2.1.VPART_MAX = mgr.VPART_MAX := by
  by_cases h : env.iotxn_alloc t = ZX_OK
  · by_cases hs : env.iotxn_status (t + 1) = ZX_OK
    · rw [WriteFvmLocked_written env mgr t h hs]
      exact ⟨rfl, rfl, rfl, rfl, rfl⟩
    · rw [WriteFvmLocked_failed env mgr t h hs]
      exact ⟨rfl, rfl, rfl, rfl, rfl⟩
  · rw [WriteFvmLocked_no_txn env mgr t h]
    exact ⟨rfl, rfl, rfl, rfl, rfl⟩

/-- `FreeSlicesLocked` with `vslice_start == 0` on a live partition whose sync succeeds:
the branch "Freeing entire VPartition". -/
theorem FreeSlicesLocked_zero (env : Env) (w : World) (count : Nat)
    (hk : w.vp.killed = false) (hsync : env.sync w.tick = ZX_OK)
    (hcount : count ≤ VSLICE_MAX) :
    FreeSlicesLocked env w 0 count =
      some (FreeSlicesLocked_tail env true
        ⟨{ (FreeSlicesLocked_destroy w.vp.slice_map.length w.mgr w.vp).1 with
            vpart_table := fun i =>
              if i = (FreeSlicesLocked_destroy w.vp.slice_map.length w.mgr w.vp).2.entry_index
              then ((FreeSlicesLocked_destroy w.vp.slice_map.length w.mgr w.vp).1.vpart_table
                i).clear
              else (FreeSlicesLocked_destroy w.vp.slice_map.length w.mgr w.vp).1.vpart_table i },
          (FreeSlicesLocked_destroy w.vp.slice_map.length w.mgr w.vp).2.KillLocked,
          w.tick + 1⟩) := by
  have hmax : VSLICE_MAX = 4294967295 := rfl
  have hg : ¬ (size_add 0 count > VSLICE_MAX ∨ count > VSLICE_MAX) := by
    rw [size_add, Nat.mod_eq_of_lt (by omega)]; omega
  unfold FreeSlicesLocked
  rw [if_neg hg]
  have hk1 : ¬ (w.vp.IsKilledLocked = true) := by simp [IsKilledLocked, hk]
  rw [if_neg hk1, if_neg (not_not.mpr hsync), if_pos rfl]

end VPartitionManager

namespace VPartitionManager
open SliceMap VPartition

/-- What "Freeing entire VPartition" leaves behind. -/
theorem FreeSlices_zero_spec (env : Env) (w : World) (count : Nat)
    (hk : w.vp.killed = false) (hsync : env.sync w.tick = ZX_OK)
    (hcount : count ≤ VSLICE_MAX) (hv : Valid w.vp.slice_map) :
    ∃ st W, FreeSlices env w 0 count = some (st, W) ∧
      W.vp.slice_map = [] ∧ W.vp.killed = true ∧ W.vp.entry_index = w.vp.entry_index ∧
      W.mgr.slice_table = (fun q =>
        if q ∈ w.vp.slice_map.all_pslices then { w.mgr.slice_table q with vpart := 0 }
        else w.mgr.slice_table q) ∧
      W.mgr.vpart_table = (fun i =>
        if i = w.vp.entry_index then (w.mgr.vpart_table i).clear else w.mgr.vpart_table i) ∧
      (0 < w.vp.block_size → w.vp.block_size ∣ w.vp.slice_size →
        w.vp.slice_map.total_slices * w.vp.slice_size < 2 ^ 64 →
        w.vp.block_count = w.vp.slice_map.total_slices * (w.vp.slice_size / w.vp.block_size) →
        W.vp.block_count = 0) := by
  obtain ⟨d1, d2, d3, d4, _, _, d7⟩ :=
    FreeSlicesLocked_destroy_spec w.vp.slice_map w.vp.slice_map.length w.mgr w.vp rfl hv
      (le_refl _)
  unfold FreeSlices
  rw [FreeSlicesLocked_zero env w count hk hsync hcount]
  refine ⟨_, _, rfl, ?_⟩
  simp only [FreeSlicesLocked_tail, Bool.not_true, Bool.false_eq_true, if_false]
  refine ⟨?_, ?_, ?_, ?_, ?_, ?_⟩
  · simp only [KillLocked]; exact d2
  · rfl
  · simp only [KillLocked]; exact d3
  · rw [(WriteFvmLocked_frame env _ _).1, d1]
  · rw [(WriteFvmLocked_frame env _ _).2.1, d1, d3]
  · intro h1 h2 h3 h4
    simp only [KillLocked]
    exact d7 h1 h2 h3 h4

end VPartitionManager

/-! ## What the slice allocator leaves untouched -/

namespace VPartitionManager
open SliceMap VPartition

theorem AllocateSlicesLocked_undo_vpart_table (env : Env) (vs : Nat) :
    ∀ (n : Nat) (w : World),
      (AllocateSlicesLocked_undo env vs n w).mgr.vpart_table = w.mgr.vpart_table := by
  intro n
  induction n with
  | zero => intro w; rfl
  | succ j ih =>
    intro w
    rw [AllocateSlicesLocked_undo]
    exact ih _

theorem AllocateSlicesLocked_loop_vpart_table (env : Env) (vs : Nat) :
    ∀ (n i hint : Nat) (w : World),
      (AllocateSlicesLocked_loop env vs n i hint w).2.mgr.vpart_table = w.mgr.vpart_table := by
  intro n
  induction n with
  | zero => intro i hint w; rfl
  | succ n ih =>
    intro i hint w
    rw [AllocateSlicesLocked_loop]
    dsimp only
    by_cases h1 : w.vp.SliceGetLocked (size_add vs i) = PSLICE_UNALLOCATED
    · rw [if_neg (not_not.mpr h1)]
      by_cases h2 : (w.mgr.FindFreeSliceLocked hint).1 = ZX_OK
      · rw [if_neg (not_not.mpr h2)]
        by_cases h3 : (w.vp.SliceSetLocked (size_add vs i)
            (toUInt32 (w.mgr.FindFreeSliceLocked hint).2) env.ac w.tick).1 = ZX_OK
        · rw [if_neg (not_not.mpr h3)]
          rw [ih]
          rfl
        · rw [if_pos h3]
          dsimp only
          rw [AllocateSlicesLocked_undo_vpart_table]
      · rw [if_pos h2]
        dsimp only
        rw [AllocateSlicesLocked_undo_vpart_table]
    · rw [if_pos h1]
      dsimp only
      rw [AllocateSlicesLocked_undo_vpart_table]

/-- `AllocateSlicesLocked` never changes the partition table. -/
theorem AllocateSlicesLocked_vpart_table (env : Env) (w : World) (vs count : Nat) :
    (AllocateSlicesLocked env w vs count).2.mgr.vpart_table = w.mgr.vpart_table := by
  unfold AllocateSlicesLocked
  by_cases hg : size_add vs count > VSLICE_MAX
  · rw [if_pos hg]
  · rw [if_neg hg]
    by_cases hk : w.vp.IsKilledLocked = true
    · rw [if_pos hk]
    · rw [if_neg hk]
      have hl := AllocateSlicesLocked_loop_vpart_table env vs count 0 0 w
      cases hlo : AllocateSlicesLocked_loop env vs count 0 0 w with
      | mk st w1 =>
        rw [hlo] at hl
        cases st with
        | some s => exact hl
        | none =>
          dsimp only
          by_cases hw : (WriteFvmLocked env w1.mgr w1.tick).1 = ZX_OK
          · rw [if_neg (not_not.mpr hw)]
            dsimp only
            rw [(WriteFvmLocked_frame env _ _).2.1]
            exact hl
          · rw [if_pos hw]
            dsimp only
            rw [AllocateSlicesLocked_undo_vpart_table]
            dsimp only
            rw [(WriteFvmLocked_frame env _ _).2.1]
            exact hl

theorem FreeSlicesLocked_loop_vpart_table (env : Env) (vs : Nat) :
    ∀ (n : Nat) (f : Bool) (w : World) (r : Option zx_status_t × Bool × World),
      FreeSlicesLocked_loop env vs n f w = some r →
      r.2.2.mgr.vpart_table = w.mgr.vpart_table := by
  intro n
  induction n with
  | zero =>
    intro f w r h
    simp only [FreeSlicesLocked_loop, Option.some.injEq] at h
    rw [← h]
  | succ n ih =>
    intro f w r h
    rw [FreeSlicesLocked_loop] at h
    dsimp only at h
    split at h
    · split at h
      · simp only [Option.some.injEq] at h
        rw [← h]
      · split at h
        · exact absurd h (by simp)
        · rw [ih _ _ _ h]
          rfl
    · exact ih _ _ _ h

/-- `FreeSlicesLocked` with `vslice_start > 0` never changes the partition table. -/
theorem FreeSlicesLocked_vpart_table (env : Env) (w : World) (vs count : Nat)
    (r : zx_status_t × World) (hs : 0 < vs) (h : FreeSlicesLocked env w vs count = some r) :
    r.2.mgr.vpart_table = w.mgr.vpart_table := by
  unfold FreeSlicesLocked at h
  split at h
  · simp only [Option.some.injEq] at h; rw [← h]
  · split at h
    · simp only [Option.some.injEq] at h; rw [← h]
    · split at h
      · simp only [Option.some.injEq] at h; rw [← h]
      · rw [if_neg (by omega)] at h
        cases hl : FreeSlicesLocked_loop env vs (int_loop_count (size_pred count)) false
            { w with tick := w.tick + 1 } with
        | none => rw [hl] at h; exact absurd h (by simp)
        | some res =>
          have hf := FreeSlicesLocked_loop_vpart_table env vs _ _ _ res hl
          rw [hl] at h
          obtain ⟨st, f1, w1⟩ := res
          cases st with
          | some s =>
            simp only [Option.some.injEq] at h
            rw [← h]; exact hf
          | none =>
            simp only [Option.some.injEq] at h
            rw [← h]
            unfold FreeSlicesLocked_tail
            split
            · exact hf
            · simp only
              rw [(WriteFvmLocked_frame env _ _).2.1]
              exact hf

end VPartitionManager

namespace VPartitionManager
open SliceMap VPartition

theorem AllocateSlicesLocked_loop_fields (env : Env) (vs : Nat) :
    ∀ (n i hint : Nat) (w w1 : World),
      AllocateSlicesLocked_loop env vs n i hint w = (none, w1) →
      Valid w.vp.slice_map → vs + i + n < 2 ^ 64 → hint ≤ w.mgr.usable_slices + 1 →
      w.mgr.usable_slices < 2 ^ 32 →
      w1.vp.entry_index = w.vp.entry_index ∧ w1.vp.killed = w.vp.killed ∧
        w1.vp.block_size = w.vp.block_size ∧ w1.vp.slice_size = w.vp.slice_size := by
  intro n
  induction n with
  | zero =>
    intro i hint w w1 h _ _ _ _
    simp only [AllocateSlicesLocked_loop, Prod.mk.injEq, true_and] at h
    subst h
    exact ⟨rfl, rfl, rfl, rfl⟩
  | succ n ih =>
    intro i hint w w1 h hv hbound hhint hus
    obtain ⟨h1, h2, h3, h4⟩ := AllocateSlicesLocked_loop_succ env vs n i hint w w1 h
    have hmod : size_add vs i = vs + i := Nat.mod_eq_of_lt (by omega)
    rw [hmod] at h1 h3 h4
    obtain ⟨hp1, hp2, _⟩ := FindFreeSliceLocked_ok w.mgr hint _ h2 rfl hhint
    have hpmod : toUInt32 (w.mgr.FindFreeSliceLocked hint).2 = (w.mgr.FindFreeSliceLocked hint).2 :=
      Nat.mod_eq_of_lt (by omega)
    rw [hpmod] at h3 h4
    have hpne : (w.mgr.FindFreeSliceLocked hint).2 ≠ PSLICE_UNALLOCATED := by
      unfold PSLICE_UNALLOCATED; omega
    obtain ⟨_, hval, _, e1, e2, e3, e4⟩ := SliceSetLocked_spec w.vp (vs + i)
      (w.mgr.FindFreeSliceLocked hint).2 env.ac w.tick hv h1 (Or.inl h3)
    obtain ⟨i1, i2, i3, i4⟩ := ih (i + 1) _ _ w1 h4 (hval hpne) (by omega)
      (by show _ ≤ w.mgr.usable_slices + 1; omega) hus
    exact ⟨i1.trans e1, i2.trans e2, i3.trans e3, i4.trans e4⟩

/-- The fields of the partition that a successful `AllocateSlicesLocked` leaves as they
are. -/
theorem AllocateSlicesLocked_ok_fields (env : Env) (w : World) (vs count : Nat)
    (hv : Valid w.vp.slice_map) (hrange : vs + count ≤ VSLICE_MAX)
    (hus : w.mgr.usable_slices < 2 ^ 32)
    (hok : (AllocateSlicesLocked env w vs count).1 = ZX_OK) :
    (AllocateSlicesLocked env w vs count).2.vp.entry_index = w.vp.entry_index ∧
      (AllocateSlicesLocked env w vs count).2.vp.killed = w.vp.killed ∧
      (AllocateSlicesLocked env w vs count).2.vp.block_size = w.vp.block_size ∧
      (AllocateSlicesLocked env w vs count).2.vp.slice_size = w.vp.slice_size := by
  have hmax : VSLICE_MAX = 4294967295 := rfl
  have hg : ¬ (size_add vs count > VSLICE_MAX) := by
    rw [size_add, Nat.mod_eq_of_lt (by omega)]; omega
  unfold AllocateSlicesLocked at hok ⊢
  rw [if_neg hg] at hok ⊢
  by_cases hk : w.vp.IsKilledLocked = true
  · rw [if_pos hk] at hok
    have hne : ZX_ERR_BAD_STATE = ZX_OK := hok
    exact absurd hne (by decide)
  · rw [if_neg hk] at hok ⊢
    cases hl : AllocateSlicesLocked_loop env vs count 0 0 w with
    | mk st w1 =>
      rw [hl] at hok
      cases st with
      | some s =>
        exact absurd hok (AllocateSlicesLocked_loop_status env vs count 0 0 w w1 s hl)
      | none =>
        have hf := AllocateSlicesLocked_loop_fields env vs count 0 0 w w1 hl hv
          (by omega) (by omega) hus
        dsimp only at hok ⊢
        by_cases hw : (WriteFvmLocked env w1.mgr w1.tick).1 = ZX_OK
        · rw [if_neg (not_not.mpr hw)]
          exact hf
        · rw [if_pos hw] at hok
          exact absurd hok hw

end VPartitionManager

namespace SliceMap

/-- A valid map whose allocated virtual slices are those of `[a, a + n)` holds `n`
slices. -/
theorem total_slices_of_range :
    ∀ (m : SliceMap) (a n : Nat), Valid m →
      (∀ v, (m.map (fun e => e.get v)).sum ≠ 0 ↔ a ≤ v ∧ v < a + n) →
      m.total_slices = n := by
  intro m
  induction m with
  | nil =>
    intro a n _ h
    have := (h a).not
    simp only [List.map_nil, List.sum_nil, ne_eq, not_true_eq_false, not_false_eq_true,
      true_iff] at this
    simp only [total_slices, List.map_nil, List.sum_nil]
    omega
  | cons e r ih =>
    intro a n hv h
    have hne := List.length_pos.mpr (hv.2.1 e (by simp))
    have hr := valid_tail e r hv
    have hgt : ∀ x ∈ r, e.end_ ≤ x.start := (List.pairwise_cons.mp hv.1).1
    have hnz : ∀ p ∈ e.pslices, p ≠ PSLICE_UNALLOCATED := hv.2.2 e (by simp)
    have hsum : ∀ v, ((e :: r).map (fun x => x.get v)).sum =
        e.get v + (r.map (fun x => x.get v)).sum := by
      intro v; simp
    -- the start of `e` is allocated
    have hs : a ≤ e.start ∧ e.start < a + n := by
      apply (h e.start).mp
      rw [hsum]
      have := get_ne_zero e e.start hnz (le_refl _)
        (by unfold SliceExtent.end_ SliceExtent.start; omega)
      omega
    -- `a` lies in `e`
    have ha : e.start ≤ a := by
      by_contra hc
      have h1 : ((e :: r).map (fun x => x.get a)).sum ≠ 0 := (h a).mpr ⟨le_refl _, by omega⟩
      rw [hsum, SliceExtent.get_of_lt e a (by unfold SliceExtent.start at hc; omega),
        sum_get_of_gt r a (by
          intro x hx
          have := hgt x hx
          unfold SliceExtent.end_ SliceExtent.start at *
          omega)] at h1
      exact h1 rfl
    -- the last virtual slice of `e` is allocated
    have he : e.end_ ≤ a + n := by
      have h1 : ((e :: r).map (fun x => x.get (e.end_ - 1))).sum ≠ 0 := by
        rw [hsum]
        have := get_ne_zero e (e.end_ - 1) hnz
          (by unfold SliceExtent.end_ SliceExtent.start; omega)
          (by unfold SliceExtent.end_; omega)
        omega
      have := (h (e.end_ - 1)).mp h1
      omega
    have hend : e.end_ = e.start + e.pslices.length := rfl
    have hrr : ∀ v, (r.map (fun x => x.get v)).sum ≠ 0 ↔
        e.end_ ≤ v ∧ v < e.end_ + (a + n - e.end_) := by
      intro v
      constructor
      · intro h1
        have h2 : ((e :: r).map (fun x => x.get v)).sum ≠ 0 := by rw [hsum]; omega
        have h3 := (h v).mp h2
        refine ⟨?_, by omega⟩
        by_contra hc
        apply h1
        apply sum_get_of_gt
        intro x hx
        have := hgt x hx
        omega
      · intro h1
        have h2 := (h v).mpr ⟨by omega, by omega⟩
        rw [hsum, SliceExtent.get_of_ge e v h1.1] at h2
        omega
    have := ih e.end_ (a + n - e.end_) hr hrr
    simp only [total_slices, List.map_cons, List.sum_cons] at this ⊢
    rw [this]
    unfold SliceExtent.end_ SliceExtent.start at *
    omega

end SliceMap

namespace VPartitionManager
open SliceMap VPartition

/-- The path of a successful `FVM_ALLOC`. -/
theorem DdkIoctl_FVM_ALLOC_ok (env : Env) (ddk_add : Nat → zx_status_t) (P : Params)
    (mgr : VPartitionManager) (t : Nat) (cmd : Option alloc_req_t)
    (hok : (DdkIoctl_FVM_ALLOC env ddk_add P mgr t cmd).1 = ZX_OK) :
    ∃ request, cmd = some request ∧ 0 < request.slice_count ∧
      request.slice_count < 2 ^ 32 - 1 ∧
      (FindFreeVPartEntryLocked P mgr).1 = ZX_OK ∧ env.ac t = true ∧
      (AllocateSlicesLocked env
        ⟨mgr.set_vpart_entry (FindFreeVPartEntryLocked P mgr).2
            (vpart_entry_t.init request.type request.guid (toUInt32 request.slice_count)
              request.name (Nat.land request.flags P.kVPartAllocateMask)),
          ⟨(FindFreeVPartEntryLocked P mgr).2, [], 0, P.block_size, P.slice_size, false⟩,
          t + 1⟩ 0 request.slice_count).1 = ZX_OK ∧
      (DdkIoctl_FVM_ALLOC env ddk_add P mgr t cmd).2.1 =
        (AllocateSlicesLocked env
          ⟨mgr.set_vpart_entry (FindFreeVPartEntryLocked P mgr).2
              (vpart_entry_t.init request.type request.guid (toUInt32 request.slice_count)
                request.name (Nat.land request.flags P.kVPartAllocateMask)),
            ⟨(FindFreeVPartEntryLocked P mgr).2, [], 0, P.block_size, P.slice_size, false⟩,
            t + 1⟩ 0 request.slice_count).2.mgr ∧
      (DdkIoctl_FVM_ALLOC env ddk_add P mgr t cmd).2.2.1 =
        some (AllocateSlicesLocked env
          ⟨mgr.set_vpart_entry (FindFreeVPartEntryLocked P mgr).2
              (vpart_entry_t.init request.type request.guid (toUInt32 request.slice_count)
                request.name (Nat.land request.flags P.kVPartAllocateMask)),
            ⟨(FindFreeVPartEntryLocked P mgr).2, [], 0, P.block_size, P.slice_size, false⟩,
            t + 1⟩ 0 request.slice_count).2.vp := by
  cases cmd with
  | none =>
    have hne : ZX_ERR_BUFFER_TOO_SMALL = ZX_OK := hok
    exact absurd hne (by decide)
  | some request =>
    refine ⟨request, rfl, ?_⟩
    unfold DdkIoctl_FVM_ALLOC at hok ⊢
    dsimp only at hok ⊢
    by_cases h1 : request.slice_count ≥ 2 ^ 32 - 1
    · rw [if_pos h1] at hok
      have hne : ZX_ERR_OUT_OF_RANGE = ZX_OK := hok
      exact absurd hne (by decide)
    · rw [if_neg h1] at hok ⊢
      by_cases h2 : request.slice_count = 0
      · rw [if_pos h2] at hok
        have hne : ZX_ERR_OUT_OF_RANGE = ZX_OK := hok
        exact absurd hne (by decide)
      · rw [if_neg h2] at hok ⊢
        by_cases h3 : (FindFreeVPartEntryLocked P mgr).1 = ZX_OK
        · rw [if_neg (not_not.mpr h3)] at hok ⊢
          cases h4 : env.ac t with
          | false =>
            simp only [VPartition.Create, h4, Bool.not_false, if_true] at hok
            have hne : ZX_ERR_NO_MEMORY = ZX_OK := hok
            exact absurd hne (by decide)
          | true =>
            simp only [VPartition.Create, h4, Bool.not_true, Bool.false_eq_true, if_false]
              at hok ⊢
            by_cases h5 : (AllocateSlicesLocked env
                ⟨mgr.set_vpart_entry (FindFreeVPartEntryLocked P mgr).2
                    (vpart_entry_t.init request.type request.guid
                      (toUInt32 request.slice_count)
                      request.name (Nat.land request.flags P.kVPartAllocateMask)),
                  ⟨(FindFreeVPartEntryLocked P mgr).2, [], 0, P.block_size, P.slice_size,
                    false⟩,
                  t + 1⟩ 0 request.slice_count).1 = ZX_OK
            · rw [if_neg (not_not.mpr h5)] at hok ⊢
              refine ⟨by omega, by omega, h3, trivial, h5, ?_⟩
              generalize AllocateSlicesLocked env
                ⟨mgr.set_vpart_entry (FindFreeVPartEntryLocked P mgr).2
                    (vpart_entry_t.init request.type request.guid
                      (toUInt32 request.slice_count)
                      request.name (Nat.land request.flags P.kVPartAllocateMask)),
                  ⟨(FindFreeVPartEntryLocked P mgr).2, [], 0, P.block_size, P.slice_size,
                    false⟩,
                  t + 1⟩ 0 request.slice_count = A at hok h5 ⊢
              by_cases h6 : ddk_add A.2.tick = ZX_OK
              · rw [if_neg (not_not.mpr h6)]
                exact ⟨rfl, rfl⟩
              · rw [if_pos h6] at hok
                exact absurd hok h6
            · rw [if_pos h5] at hok
              exact absurd hok h5
        · rw [if_pos h3] at hok
          exact absurd hok h3

end VPartitionManager

/-! ## Load -/

namespace VPartitionManager
open SliceMap VPartition

/-- The partitions that the first loop of `Load` creates are empty and live, at the
indices of the loop. -/
theorem Load_create_spec (P : Params) (mgr : VPartitionManager) (ac : Nat → Bool) :
    ∀ (n i : Nat) (parts : Nat → Option VPartition) (t : Nat)
      (parts1 : Nat → Option VPartition) (t1 : Nat),
      Load_create P mgr ac n i parts t = (none, parts1, t1) → 1 ≤ i →
      (∀ k vp, parts k = some vp →
        vp = ⟨k, [], 0, P.block_size, P.slice_size, false⟩ ∧ 1 ≤ k ∧ k < i) →
      ∀ k vp, parts1 k = some vp →
        vp = ⟨k, [], 0, P.block_size, P.slice_size, false⟩ ∧ 1 ≤ k ∧ k < i + n := by
  intro n
  induction n with
  | zero =>
    intro i parts t parts1 t1 h _ hinv k vp hk
    simp only [Load_create, Prod.mk.injEq, true_and] at h
    rw [← h.1] at hk
    exact hinv k vp hk
  | succ n ih =>
    intro i parts t parts1 t1 h hi hinv k vp hk
    rw [Load_create] at h
    by_cases hs : (mgr.vpart_table i).slices = 0
    · rw [if_pos hs] at h
      have := ih (i + 1) parts t parts1 t1 h (by omega)
        (fun k vp hk => by have := hinv k vp hk; exact ⟨this.1, this.2.1, by omega⟩) k vp hk
      exact ⟨this.1, this.2.1, by omega⟩
    · rw [if_neg hs] at h
      cases hc : ac t with
      | false =>
        simp only [VPartition.Create, hc, Bool.not_false, if_true] at h
        exact absurd h (by simp)
      | true =>
        simp only [VPartition.Create, hc, Bool.not_true, Bool.false_eq_true, if_false] at h
        have := ih (i + 1) _ (t + 1) parts1 t1 h (by omega)
          (fun k vp hk => by
            by_cases hki : k = i
            · subst hki
              simp only [if_true, Option.some.injEq] at hk
              exact ⟨hk.symm, hi, by omega⟩
            · simp only [hki, if_false] at hk
              have := hinv k vp hk
              exact ⟨this.1, this.2.1, by omega⟩) k vp hk
        exact ⟨this.1, this.2.1, by omega⟩

/-- The invariant of the second loop of `Load`: before the slot `i` is looked at, every
partition of the array is live and valid and maps exactly what the slots below `i` say. -/
theorem Load_fill_spec (P : Params) (mgr : VPartitionManager) (ac : Nat → Bool)
    (hac : ∀ k, ac k = true) :
    ∀ (n i : Nat) (parts : Nat → Option VPartition) (t : Nat)
      (parts1 : Nat → Option VPartition) (t1 : Nat),
      Load_fill P mgr ac n i parts t = some (parts1, t1) → 1 ≤ i →
      mgr.NoDuplicates (i + n - 1) →
      (∀ k vp, parts k = some vp →
        1 ≤ k ∧ vp.entry_index = k ∧ vp.killed = false ∧ Valid vp.slice_map ∧
        ∀ v p, p ≠ PSLICE_UNALLOCATED →
          (vp.SliceGetLocked v = p ↔ 1 ≤ p ∧ p < i ∧ mgr.slice_table p = ⟨k, v⟩)) →
      ∀ k vp, parts1 k = some vp →
        1 ≤ k ∧ vp.entry_index = k ∧ vp.killed = false ∧ Valid vp.slice_map ∧
        ∀ v p, p ≠ PSLICE_UNALLOCATED →
          (vp.SliceGetLocked v = p ↔ 1 ≤ p ∧ p < i + n ∧ mgr.slice_table p = ⟨k, v⟩) := by
  intro n
  induction n with
  | zero =>
    intro i parts t parts1 t1 h _ _ hinv k vp hk
    simp only [Load_fill, Option.some.injEq, Prod.mk.injEq] at h
    rw [← h.1] at hk
    exact hinv k vp hk
  | succ n ih =>
    intro i parts t parts1 t1 h hi hnd hinv k vp hk
    have hassoc : i + 1 + n = i + (n + 1) := by omega
    rw [Load_fill] at h
    -- the invariant for `i + 1` of a partition that the slot `i` does not name
    have hother : ∀ k vp, parts k = some vp → (mgr.slice_table i).vpart ≠ k →
          1 ≤ k ∧ vp.entry_index = k ∧ vp.killed = false ∧ Valid vp.slice_map ∧
          ∀ v p, p ≠ PSLICE_UNALLOCATED →
            (vp.SliceGetLocked v = p ↔ 1 ≤ p ∧ p < i + 1 ∧ mgr.slice_table p = ⟨k, v⟩) := by
      intro k vp hk hno
      obtain ⟨a1, a2, a3, a4, a5⟩ := hinv k vp hk
      refine ⟨a1, a2, a3, a4, ?_⟩
      intro v p hp
      rw [a5 v p hp]
      constructor
      · rintro ⟨b1, b2, b3⟩
        exact ⟨b1, by omega, b3⟩
      · rintro ⟨b1, b2, b3⟩
        refine ⟨b1, ?_, b3⟩
        by_contra hc
        have hpi : p = i := by omega
        subst hpi
        apply hno
        rw [b3]
    have hsame : (∀ k vp, parts k = some vp → (mgr.slice_table i).vpart ≠ k) →
        ∀ k vp, parts k = some vp →
          1 ≤ k ∧ vp.entry_index = k ∧ vp.killed = false ∧ Valid vp.slice_map ∧
          ∀ v p, p ≠ PSLICE_UNALLOCATED →
            (vp.SliceGetLocked v = p ↔ 1 ≤ p ∧ p < i + 1 ∧ mgr.slice_table p = ⟨k, v⟩) :=
      fun hno k vp hk => hother k vp hk (hno k vp hk)
    by_cases hfree : (mgr.slice_table i).vpart = PSLICE_UNALLOCATED
    · rw [if_pos hfree] at h
      have := ih (i + 1) parts t parts1 t1 h (by omega) (by rw [hassoc]; exact hnd)
        (hsame (fun k vp hk => by
          have := (hinv k vp hk).1
          rw [hfree]; unfold PSLICE_UNALLOCATED; omega)) k vp hk
      rw [hassoc] at this
      exact this
    · rw [if_neg hfree] at h
      by_cases hb : (mgr.slice_table i).vpart ≥ P.FVM_MAX_ENTRIES
      · rw [if_pos hb] at h
        exact absurd h (by simp)
      · rw [if_neg hb] at h
        cases hp : parts (mgr.slice_table i).vpart with
        | none =>
          rw [hp] at h
          have := ih (i + 1) parts t parts1 t1 h (by omega) (by rw [hassoc]; exact hnd)
            (hsame (fun k vp hk hc => by
              rw [hc, hk] at hp
              exact absurd hp (by simp))) k vp hk
          rw [hassoc] at this
          exact this
        | some vp0 =>
          rw [hp] at h
          simp only at h
          obtain ⟨a1, a2, a3, a4, a5⟩ := hinv _ vp0 hp
          have hine : i ≠ PSLICE_UNALLOCATED := by unfold PSLICE_UNALLOCATED; omega
          -- the virtual slice of the slot is free in the partition
          have hfr : vp0.SliceGetLocked (mgr.slice_table i).vslice = PSLICE_UNALLOCATED := by
            by_contra hc
            obtain ⟨b1, b2, b3⟩ := (a5 _ _ hc).mp rfl
            have := hnd i (by omega) _ (by omega) ⟨hi, b1, hfree, by rw [b3]⟩
            omega
          obtain ⟨_, s2, s3, s4, s5, _⟩ := SliceSetLocked_spec vp0 (mgr.slice_table i).vslice i
            ac t a4 hfr (Or.inr hac)
          have := ih (i + 1) _ _ parts1 t1 h (by omega) (by rw [hassoc]; exact hnd)
            (fun k1 vp1 hk1 => by
              by_cases hk1i : k1 = (mgr.slice_table i).vpart
              · simp only [hk1i, if_true, Option.some.injEq] at hk1
                subst hk1
                rw [hk1i]
                refine ⟨a1, s4.trans a2, s5.trans a3, s2 hine, ?_⟩
                intro v p hpne
                rw [s3 v]
                by_cases hv : v = (mgr.slice_table i).vslice
                · rw [if_pos hv]
                  constructor
                  · intro hip
                    subst hip
                    refine ⟨hi, by omega, ?_⟩
                    rw [hv]
                  · rintro ⟨b1, b2, b3⟩
                    by_contra hc
                    have hlt : p < i := by omega
                    have := (a5 v p hpne).mpr ⟨b1, hlt, b3⟩
                    rw [hv, hfr] at this
                    exact hpne this.symm
                · rw [if_neg hv, a5 v p hpne]
                  constructor
                  · rintro ⟨b1, b2, b3⟩
                    exact ⟨b1, by omega, b3⟩
                  · rintro ⟨b1, b2, b3⟩
                    refine ⟨b1, ?_, b3⟩
                    by_contra hc
                    have hpi : p = i := by omega
                    subst hpi
                    apply hv
                    rw [b3]
              · simp only [hk1i, if_false] at hk1
                exact hother k1 vp1 hk1 (fun hc => hk1i hc.symm)) k vp hk
          rw [hassoc] at this
          exact this

/-- The slice table after `FreeSlices` with `vslice_start == 0` on a live partition: as
before when the sync fails, and with the slots of the partition marked free otherwise. -/
theorem FreeSlices_zero_cases (env : Env) (w : World) (count : Nat)
    (hk : w.vp.killed = false) (hcount : count ≤ VSLICE_MAX) (hv : Valid w.vp.slice_map) :
    ∃ st W, FreeSlices env w 0 count = some (st, W) ∧
      (W.mgr.slice_table = w.mgr.slice_table ∨
        W.mgr.slice_table = (fun q =>
          if q ∈ w.vp.slice_map.all_pslices then { w.mgr.slice_table q with vpart := 0 }
          else w.mgr.slice_table q)) := by
  by_cases hsync : env.sync w.tick = ZX_OK
  · obtain ⟨st, W, h, _, _, _, h4, _⟩ := FreeSlices_zero_spec env w count hk hsync hcount hv
    exact ⟨st, W, h, Or.inr h4⟩
  · have hmax : VSLICE_MAX = 4294967295 := rfl
    have hg : ¬ (size_add 0 count > VSLICE_MAX ∨ count > VSLICE_MAX) := by
      rw [size_add, Nat.mod_eq_of_lt (by omega)]; omega
    have hk1 : ¬ (w.vp.IsKilledLocked = true) := by simp [IsKilledLocked, hk]
    refine ⟨env.sync w.tick, { w with tick := w.tick + 1 }, ?_, Or.inl rfl⟩
    unfold FreeSlices FreeSlicesLocked
    rw [if_neg hg, if_neg hk1, if_pos hsync]

/-- Destroying a coherent partition keeps every partition of another index coherent. -/
theorem Coherent_of_destroyed (N : Nat) (mgr mgr1 : VPartitionManager) (vp vp1 : VPartition)
    (hv : Valid vp.slice_map) (hc : Coherent N mgr vp) (hc1 : Coherent N mgr vp1)
    (hne : vp1.entry_index ≠ vp.entry_index) (h1 : 1 ≤ vp1.entry_index)
    (hT : mgr1.slice_table = (fun q =>
      if q ∈ vp.slice_map.all_pslices then { mgr.slice_table q with vpart := 0 }
      else mgr.slice_table q)) :
    Coherent N mgr1 vp1 := by
  intro v p hp
  rw [hc1 v p hp, hT]
  by_cases hmem : p ∈ vp.slice_map.all_pslices
  · simp only [hmem, if_true]
    obtain ⟨v0, hq, _⟩ := (mem_all_pslices_iff vp p hv).mp hmem
    obtain ⟨_, _, b3⟩ := (hc v0 p hp).mp hq
    constructor
    · rintro ⟨_, _, c3⟩
      rw [b3] at c3
      simp only [slice_entry_t.mk.injEq] at c3
      exact absurd c3.1.symm hne
    · rintro ⟨_, _, c3⟩
      simp only [slice_entry_t.mk.injEq] at c3
      omega
  · simp only [hmem, if_false]

theorem Coherent_congr (N : Nat) (mgr mgr1 : VPartitionManager) (vp : VPartition)
    (h : mgr1.slice_table = mgr.slice_table) (hc : Coherent N mgr vp) : Coherent N mgr1 vp := by
  intro v p hp
  rw [h]
  exact hc v p hp

/-- The invariant of the third loop of `Load`: the partitions that are still to be looked
at and the ones that have been published are coherent with the allocation table. -/
theorem Load_expose_spec (env : Env) (ddk_add : Nat → zx_status_t) (P : Params) (N : Nat)
    (parts : Nat → Option VPartition) :
    ∀ (n i : Nat) (mgr : VPartitionManager) (exposed : List VPartition) (t : Nat)
      (mgr1 : VPartitionManager) (exposed1 : List VPartition) (t1 : Nat),
      Load_expose env ddk_add P parts n i mgr exposed t = some (mgr1, exposed1, t1) →
      (∀ k vp, i ≤ k → parts k = some vp →
        1 ≤ k ∧ vp.entry_index = k ∧ vp.killed = false ∧ Valid vp.slice_map ∧
          Coherent N mgr vp) →
      (∀ vp ∈ exposed, 1 ≤ vp.entry_index ∧ vp.entry_index < i ∧
        parts vp.entry_index = some vp ∧ Coherent N mgr vp) →
      ∀ vp ∈ exposed1, 1 ≤ vp.entry_index ∧ vp.entry_index < i + n ∧
        parts vp.entry_index = some vp ∧ Coherent N mgr1 vp := by
  intro n
  induction n with
  | zero =>
    intro i mgr exposed t mgr1 exposed1 t1 h _ hexp vp hvp
    simp only [Load_expose, Option.some.injEq, Prod.mk.injEq] at h
    rw [← h.2.1] at hvp
    rw [← h.1]
    exact hexp vp hvp
  | succ n ih =>
    intro i mgr exposed t mgr1 exposed1 t1 h hparts hexp vp hvp
    have hassoc : i + 1 + n = i + (n + 1) := by omega
    rw [Load_expose] at h
    -- the step when neither the table nor the published partitions change
    have hskip : ∀ t0, Load_expose env ddk_add P parts n (i + 1) mgr exposed t0 =
        some (mgr1, exposed1, t1) →
        1 ≤ vp.entry_index ∧ vp.entry_index < i + (n + 1) ∧
          parts vp.entry_index = some vp ∧ Coherent N mgr1 vp := by
      intro t0 h0
      have := ih (i + 1) mgr exposed t0 mgr1 exposed1 t1 h0
        (fun k vp hk hp => hparts k vp (by omega) hp)
        (fun vp hvp => by
          obtain ⟨a1, a2, a3, a4⟩ := hexp vp hvp
          exact ⟨a1, by omega, a3, a4⟩) vp hvp
      rw [hassoc] at this
      exact this
    cases hp : parts i with
    | none =>
      rw [hp] at h
      exact hskip t h
    | some vp0 =>
      rw [hp] at h
      simp only at h
      obtain ⟨p1, p2, p3, p4, p5⟩ := hparts i vp0 (le_refl _) hp
      by_cases hin : Nat.land (mgr.vpart_table i).flags P.kVPartFlagInactive ≠ 0
      · rw [if_pos hin] at h
        obtain ⟨st, W, hW, hT⟩ := FreeSlices_zero_cases env ⟨mgr, vp0, t⟩ VSLICE_MAX p3
          (le_refl _) p4
        rw [hW] at h
        simp only at h
        have hco : ∀ vp1 : VPartition, 1 ≤ vp1.entry_index → vp1.entry_index ≠ i →
            Coherent N mgr vp1 → Coherent N W.mgr vp1 := by
          intro vp1 h1 hne hc1
          rcases hT with hT | hT
          · exact Coherent_congr N mgr W.mgr vp1 hT hc1
          · exact Coherent_of_destroyed N mgr W.mgr vp0 vp1 p4 p5 hc1 (by rw [p2]; exact hne)
              h1 hT
        have := ih (i + 1) W.mgr exposed W.tick mgr1 exposed1 t1 h
          (fun k vp1 hk hp1 => by
            obtain ⟨a1, a2, a3, a4, a5⟩ := hparts k vp1 (by omega) hp1
            exact ⟨a1, a2, a3, a4, hco vp1 (by omega) (by omega) a5⟩)
          (fun vp1 hvp1 => by
            obtain ⟨a1, a2, a3, a4⟩ := hexp vp1 hvp1
            exact ⟨a1, by omega, a3, hco vp1 a1 (by omega) a4⟩) vp hvp
        rw [hassoc] at this
        exact this
      · rw [if_neg hin] at h
        by_cases hadd : ddk_add t ≠ ZX_OK
        · rw [if_pos hadd] at h
          exact hskip (t + 1) h
        · rw [if_neg hadd] at h
          have := ih (i + 1) mgr (exposed ++ [vp0]) (t + 1) mgr1 exposed1 t1 h
            (fun k vp hk hp => hparts k vp (by omega) hp)
            (fun vp1 hvp1 => by
              rcases List.mem_append.mp hvp1 with hm | hm
              · obtain ⟨a1, a2, a3, a4⟩ := hexp vp1 hm
                exact ⟨a1, by omega, a3, a4⟩
              · simp only [List.mem_singleton] at hm
                subst hm
                exact ⟨by omega, by omega, by rw [p2]; exact hp, p5⟩) vp hvp
          rw [hassoc] at this
          exact this

end VPartitionManager

namespace VPartitionManager
open SliceMap VPartition

/-! ## Upgrade -/

/-- The variable `new_index` after the loop of `Upgrade`: its initial value when no entry
of the range is allocated and inactive with the GUID `new_guid`, and the last such entry
otherwise. -/
theorem Upgrade_find_new (P : Params) (mgr : VPartitionManager) (og : Option (List Nat))
    (ng : List Nat) :
    ∀ (n i : Nat) (r : Nat × Nat),
      ((Upgrade_find P mgr og ng n i r).2 = r.2 ∧
        ∀ j, i ≤ j → j < i + n → ¬ ((mgr.vpart_table j).slices ≠ 0 ∧
          Nat.land (mgr.vpart_table j).flags P.kVPartFlagInactive ≠ 0 ∧
          memcmp_eq P.GUID_LEN (mgr.vpart_table j).guid ng = true)) ∨
      (i ≤ (Upgrade_find P mgr og ng n i r).2 ∧ (Upgrade_find P mgr og ng n i r).2 < i + n ∧
        ((mgr.vpart_table (Upgrade_find P mgr og ng n i r).2).slices ≠ 0 ∧
          Nat.land (mgr.vpart_table (Upgrade_find P mgr og ng n i r).2).flags
            P.kVPartFlagInactive ≠ 0 ∧
          memcmp_eq P.GUID_LEN (mgr.vpart_table (Upgrade_find P mgr og ng n i r).2).guid ng
            = true) ∧
        ∀ j, (Upgrade_find P mgr og ng n i r).2 < j → j < i + n →
          ¬ ((mgr.vpart_table j).slices ≠ 0 ∧
            Nat.land (mgr.vpart_table j).flags P.kVPartFlagInactive ≠ 0 ∧
            memcmp_eq P.GUID_LEN (mgr.vpart_table j).guid ng = true)) := by
  intro n
  induction n with
  | zero =>
    intro i r
    left
    exact ⟨rfl, fun j h1 h2 => by omega⟩
  | succ n ih =>
    intro i r
    obtain ⟨o, nw⟩ := r
    rw [Upgrade_find]
    dsimp only
    by_cases hs : (mgr.vpart_table i).slices ≠ 0
    · rw [if_pos hs]
      by_cases h1 : og.isSome ∧ Nat.land (mgr.vpart_table i).flags P.kVPartFlagInactive = 0 ∧
          memcmp_eq P.GUID_LEN (mgr.vpart_table i).guid (og.getD []) = true
      · rw [if_pos h1]
        rcases ih (i + 1) (i, nw) with ⟨e, hno⟩ | ⟨a, b, c, d⟩
        · left
          refine ⟨e, fun j hj1 hj2 => ?_⟩
          by_cases hji : j = i
          · subst hji
            rintro ⟨_, hf, _⟩
            exact hf h1.2.1
          · exact hno j (by omega) (by omega)
        · right
          exact ⟨by omega, by omega, c, fun j hj1 hj2 => d j hj1 (by omega)⟩
      · rw [if_neg h1]
        by_cases h2 : Nat.land (mgr.vpart_table i).flags P.kVPartFlagInactive ≠ 0 ∧
            memcmp_eq P.GUID_LEN (mgr.vpart_table i).guid ng = true
        · rw [if_pos h2]
          rcases ih (i + 1) (o, i) with ⟨e, hno⟩ | ⟨a, b, c, d⟩
          · right
            rw [e]
            exact ⟨le_refl _, by omega, ⟨hs, h2.1, h2.2⟩,
              fun j hj1 hj2 => hno j (by omega) (by omega)⟩
          · right
            exact ⟨by omega, by omega, c, fun j hj1 hj2 => d j hj1 (by omega)⟩
        · rw [if_neg h2]
          rcases ih (i + 1) (o, nw) with ⟨e, hno⟩ | ⟨a, b, c, d⟩
          · left
            refine ⟨e, fun j hj1 hj2 => ?_⟩
            by_cases hji : j = i
            · subst hji
              rintro ⟨_, hf, hg⟩
              exact h2 ⟨hf, hg⟩
            · exact hno j (by omega) (by omega)
          · right
            exact ⟨by omega, by omega, c, fun j hj1 hj2 => d j hj1 (by omega)⟩
    · rw [if_neg hs]
      rcases ih (i + 1) (o, nw) with ⟨e, hno⟩ | ⟨a, b, c, d⟩
      · left
        refine ⟨e, fun j hj1 hj2 => ?_⟩
        by_cases hji : j = i
        · subst hji
          rintro ⟨hf, _⟩
          exact hs hf
        · exact hno j (by omega) (by omega)
      · right
        exact ⟨by omega, by omega, c, fun j hj1 hj2 => d j hj1 (by omega)⟩

/-- The variable `old_index` after the loop of `Upgrade`: its initial value when no entry
of the range is allocated and active with the GUID `old_guid`, and the last such entry
otherwise. -/
theorem Upgrade_find_old (P : Params) (mgr : VPartitionManager) (og : Option (List Nat))
    (ng : List Nat) :
    ∀ (n i : Nat) (r : Nat × Nat),
      ((Upgrade_find P mgr og ng n i r).1 = r.1 ∧
        ∀ j, i ≤ j → j < i + n → ¬ ((mgr.vpart_table j).slices ≠ 0 ∧ og.isSome ∧
          Nat.land (mgr.vpart_table j).flags P.kVPartFlagInactive = 0 ∧
          memcmp_eq P.GUID_LEN (mgr.vpart_table j).guid (og.getD []) = true)) ∨
      (i ≤ (Upgrade_find P mgr og ng n i r).1 ∧ (Upgrade_find P mgr og ng n i r).1 < i + n ∧
        ((mgr.vpart_table (Upgrade_find P mgr og ng n i r).1).slices ≠ 0 ∧ og.isSome ∧
          Nat.land (mgr.vpart_table (Upgrade_find P mgr og ng n i r).1).flags
            P.kVPartFlagInactive = 0 ∧
          memcmp_eq P.GUID_LEN (mgr.vpart_table (Upgrade_find P mgr og ng n i r).1).guid
            (og.getD []) = true) ∧
        ∀ j, (Upgrade_find P mgr og ng n i r).1 < j → j < i + n →
          ¬ ((mgr.vpart_table j).slices ≠ 0 ∧ og.isSome ∧
            Nat.land (mgr.vpart_table j).flags P.kVPartFlagInactive = 0 ∧
            memcmp_eq P.GUID_LEN (mgr.vpart_table j).guid (og.getD []) = true)) := by
  intro n
  induction n with
  | zero =>
    intro i r
    left
    exact ⟨rfl, fun j h1 h2 => by omega⟩
  | succ n ih =>
    intro i r
    obtain ⟨o, nw⟩ := r
    rw [Upgrade_find]
    dsimp only
    by_cases hs : (mgr.vpart_table i).slices ≠ 0
    · rw [if_pos hs]
      by_cases h1 : og.isSome ∧ Nat.land (mgr.vpart_table i).flags P.kVPartFlagInactive = 0 ∧
          memcmp_eq P.GUID_LEN (mgr.vpart_table i).guid (og.getD []) = true
      · rw [if_pos h1]
        rcases ih (i + 1) (i, nw) with ⟨e, hno⟩ | ⟨a, b, c, d⟩
        · right
          rw [e]
          exact ⟨le_refl _, by omega, ⟨hs, h1.1, h1.2.1, h1.2.2⟩,
            fun j hj1 hj2 => hno j (by omega) (by omega)⟩
        · right
          exact ⟨by omega, by omega, c, fun j hj1 hj2 => d j hj1 (by omega)⟩
      · rw [if_neg h1]
        have hstep : ∀ r1 : Nat × Nat, r1.1 = o →
            ((Upgrade_find P mgr og ng n (i + 1) r1).1 = o ∧
              ∀ j, i ≤ j → j < i + (n + 1) → ¬ ((mgr.vpart_table j).slices ≠ 0 ∧ og.isSome ∧
                Nat.land (mgr.vpart_table j).flags P.kVPartFlagInactive = 0 ∧
                memcmp_eq P.GUID_LEN (mgr.vpart_table j).guid (og.getD []) = true)) ∨
            (i ≤ (Upgrade_find P mgr og ng n (i + 1) r1).1 ∧
              (Upgrade_find P mgr og ng n (i + 1) r1).1 < i + (n + 1) ∧
              ((mgr.vpart_table (Upgrade_find P mgr og ng n (i + 1) r1).1).slices ≠ 0 ∧
                og.isSome ∧
                Nat.land (mgr.vpart_table (Upgrade_find P mgr og ng n (i + 1) r1).1).flags
                  P.kVPartFlagInactive = 0 ∧
                memcmp_eq P.GUID_LEN
                  (mgr.vpart_table (Upgrade_find P mgr og ng n (i + 1) r1).1).guid
                  (og.getD []) = true) ∧
              ∀ j, (Upgrade_find P mgr og ng n (i + 1) r1).1 < j → j < i + (n + 1) →
                ¬ ((mgr.vpart_table j).slices ≠ 0 ∧ og.isSome ∧
                  Nat.land (mgr.vpart_table j).flags P.kVPartFlagInactive = 0 ∧
                  memcmp_eq P.GUID_LEN (mgr.vpart_table j).guid (og.getD []) = true)) := by
          intro r1 hr1
          rcases ih (i + 1) r1 with ⟨e, hno⟩ | ⟨a, b, c, d⟩
          · left
            refine ⟨e.trans hr1, fun j hj1 hj2 => ?_⟩
            by_cases hji : j = i
            · subst hji
              rintro ⟨_, hf⟩
              exact h1 hf
            · exact hno j (by omega) (by omega)
          · right
            exact ⟨by omega, by omega, c, fun j hj1 hj2 => d j hj1 (by omega)⟩
        by_cases h2 : Nat.land (mgr.vpart_table i).flags P.kVPartFlagInactive ≠ 0 ∧
            memcmp_eq P.GUID_LEN (mgr.vpart_table i).guid ng = true
        · rw [if_pos h2]
          exact hstep (o, i) rfl
        · rw [if_neg h2]
          exact hstep (o, nw) rfl
    · rw [if_neg hs]
      rcases ih (i + 1) (o, nw) with ⟨e, hno⟩ | ⟨a, b, c, d⟩
      · left
        refine ⟨e, fun j hj1 hj2 => ?_⟩
        by_cases hji : j = i
        · subst hji
          rintro ⟨hf, _⟩
          exact hs hf
        · exact hno j (by omega) (by omega)
      · right
        exact ⟨by omega, by omega, c, fun j hj1 hj2 => d j hj1 (by omega)⟩


/-- The bits of the mask `k` are clear after `flags &= ~k` on a `uint32_t`. -/
theorem land_not_land (f k : Nat) :
    Nat.land (Nat.land f (Nat.xor (2 ^ 32 - 1) (k % 2 ^ 32))) k = 0 := by
  show (f &&& ((2 ^ 32 - 1) ^^^ (k % 2 ^ 32))) &&& k = 0
  apply Nat.eq_of_testBit_eq
  intro b
  simp only [Nat.testBit_land, Nat.testBit_xor, Nat.testBit_two_pow_sub_one,
    Nat.testBit_mod_two_pow, Nat.zero_testBit]
  by_cases hb : b < 32 <;> cases f.testBit b <;> cases k.testBit b <;> simp [hb]

/-- The bits of the mask `k` are set after `flags |= k`. -/
theorem lor_land (f k : Nat) : Nat.land (Nat.lor f k) k = k := by
  show (f ||| k) &&& k = k
  apply Nat.eq_of_testBit_eq
  intro b
  simp only [Nat.testBit_land, Nat.testBit_lor]
  cases f.testBit b <;> cases k.testBit b <;> rfl

/-- The bits outside of the mask `k` are kept by `flags &= ~k` on a `uint32_t`. -/
theorem testBit_land_not (f k b : Nat) (hf : f < 2 ^ 32) (hb : k.testBit b = false) :
    (Nat.land f (Nat.xor (2 ^ 32 - 1) (k % 2 ^ 32))).testBit b = f.testBit b := by
  show (f &&& ((2 ^ 32 - 1) ^^^ (k % 2 ^ 32))).testBit b = f.testBit b
  simp only [Nat.testBit_land, Nat.testBit_xor, Nat.testBit_two_pow_sub_one,
    Nat.testBit_mod_two_pow, hb]
  by_cases h32 : b < 32
  · simp [h32]
  · have hfb : f.testBit b = false :=
      Nat.testBit_lt_two_pow (lt_of_lt_of_le hf (Nat.pow_le_pow_right (by omega) (by omega)))
    simp [h32, hfb]

/-- The bits outside of the mask `k` are kept by `flags |= k`. -/
theorem testBit_lor_mask (f k b : Nat) (hb : k.testBit b = false) :
    (Nat.lor f k).testBit b = f.testBit b := by
  show (f ||| k).testBit b = f.testBit b
  simp only [Nat.testBit_lor, hb, Bool.or_false]

/-- `Upgrade` in terms of the indices that its loop finds. -/
theorem Upgrade_eq (env : Env) (P : Params) (mgr : VPartitionManager) (t : Nat)
    (old_guid new_guid : List Nat) (r : Nat × Nat)
    (hr : Upgrade_find P mgr
      (if memcmp_eq P.GUID_LEN old_guid new_guid then none else some old_guid) new_guid
      (P.FVM_MAX_ENTRIES - 1) 1 (0, 0) = r) :
    Upgrade env P mgr t old_guid new_guid =
      if r.2 = 0 then (ZX_ERR_NOT_FOUND, mgr, t)
      else
        WriteFvmLocked env
          ((if r.1 ≠ 0 then
              mgr.set_vpart_entry r.1 { mgr.vpart_table r.1 with
                flags := Nat.lor (mgr.vpart_table r.1).flags P.kVPartFlagInactive }
            else mgr).set_vpart_entry r.2
            { (if r.1 ≠ 0 then
                mgr.set_vpart_entry r.1 { mgr.vpart_table r.1 with
                  flags := Nat.lor (mgr.vpart_table r.1).flags P.kVPartFlagInactive }
              else mgr).vpart_table r.2 with
              flags := Nat.land ((if r.1 ≠ 0 then
                  mgr.set_vpart_entry r.1 { mgr.vpart_table r.1 with
                    flags := Nat.lor (mgr.vpart_table r.1).flags P.kVPartFlagInactive }
                else mgr).vpart_table r.2).flags
                (Nat.xor (2 ^ 32 - 1) (P.kVPartFlagInactive % 2 ^ 32)) }) t := by
  unfold Upgrade
  rw [hr]

/-- The entry that `Upgrade` activates exists exactly when the loop leaves `new_index`
different from 0. -/
theorem Upgrade_find_new_zero (P : Params) (mgr : VPartitionManager) (og : Option (List Nat))
    (ng : List Nat) :
    (Upgrade_find P mgr og ng (P.FVM_MAX_ENTRIES - 1) 1 (0, 0)).2 = 0 ↔
      ¬ ∃ i, i < P.FVM_MAX_ENTRIES ∧ 1 ≤ i ∧ (mgr.vpart_table i).slices ≠ 0 ∧
        Nat.land (mgr.vpart_table i).flags P.kVPartFlagInactive ≠ 0 ∧
        memcmp_eq P.GUID_LEN (mgr.vpart_table i).guid ng = true := by
  rcases Upgrade_find_new P mgr og ng (P.FVM_MAX_ENTRIES - 1) 1 (0, 0) with ⟨e, hno⟩ | ⟨a, b, c, _⟩
  · constructor
    · intro _
      rintro ⟨i, h1, h2, h3⟩
      exact hno i h2 (by omega) h3
    · intro _
      exact e
  · constructor
    · intro h0
      omega
    · intro hne
      exact absurd ⟨_, by omega, a, c⟩ hne

/-- The next interaction number of `WriteFvmLocked` is greater than the one it starts
with, and its status is one of the environment or `ZX_OK`. -/
theorem WriteFvmLocked_tick_status (env : Env) (mgr : VPartitionManager) (t : Nat) :
    t < (WriteFvmLocked env mgr t).2.2 ∧
      ((WriteFvmLocked env mgr t).1 = env.iotxn_alloc t ∨
        (WriteFvmLocked env mgr t).1 = env.iotxn_status (t + 1) ∨
        (WriteFvmLocked env mgr t).1 = ZX_OK) := by
  by_cases h : env.iotxn_alloc t = ZX_OK
  · by_cases hs : env.iotxn_status (t + 1) = ZX_OK
    · rw [WriteFvmLocked_written env mgr t h hs]
      exact ⟨by show t < t + 2; omega, Or.inr (Or.inr rfl)⟩
    · rw [WriteFvmLocked_failed env mgr t h hs]
      exact ⟨by show t < t + 2; omega, Or.inr (Or.inl rfl)⟩
  · rw [WriteFvmLocked_no_txn env mgr t h]
    exact ⟨by show t < t + 1; omega, Or.inl rfl⟩

end VPartitionManager

namespace VPartitionManager
open SliceMap VPartition

/-- The loop of `FreeSlicesLocked` over virtual slices that cannot be freed changes
nothing. -/
theorem FreeSlicesLocked_loop_nothing (env : Env) (vs : Nat) :
    ∀ (n : Nat) (f : Bool) (w : World),
      (∀ i, i < n → w.vp.SliceCanFree (size_add vs i) = false) →
      FreeSlicesLocked_loop env vs n f w = some (none, f, w) := by
  intro n
  induction n with
  | zero =>
    intro f w _
    rfl
  | succ n ih =>
    intro f w h
    rw [FreeSlicesLocked_loop]
    dsimp only
    rw [h n (by omega)]
    simp only [Bool.false_eq_true, if_false]
    exact ih f w (fun i hi => h i (by omega))

end VPartitionManager

namespace VPartitionManager
open SliceMap VPartition

/-- Two GUIDs that both compare equal to a third one compare equal. -/
theorem memcmp_eq_trans (n : Nat) (a b g : List Nat) (ha : memcmp_eq n a g = true)
    (hb : memcmp_eq n b g = true) : memcmp_eq n a b = true := by
  unfold memcmp_eq at *
  rw [beq_iff_eq] at *
  rw [ha, hb]

/-- The partition table after an `Upgrade` that has found the entry to activate. -/
theorem Upgrade_table (env : Env) (P : Params) (mgr : VPartitionManager) (t : Nat)
    (old_guid new_guid : List Nat) (r : Nat × Nat)
    (hr : Upgrade_find P mgr
      (if memcmp_eq P.GUID_LEN old_guid new_guid then none else some old_guid) new_guid
      (P.FVM_MAX_ENTRIES - 1) 1 (0, 0) = r)
    (h2 : r.2 ≠ 0) (h12 : r.1 ≠ r.2) :
    (Upgrade env P mgr t old_guid new_guid).2.1.vpart_table = fun i =>
      if i = r.2 then
        { mgr.vpart_table i with
          flags := Nat.land (mgr.vpart_table i).flags
            (Nat.xor (2 ^ 32 - 1) (P.kVPartFlagInactive % 2 ^ 32)) }
      else if r.1 ≠ 0 ∧ i = r.1 then
        { mgr.vpart_table i with
          flags := Nat.lor (mgr.vpart_table i).flags P.kVPartFlagInactive }
      else mgr.vpart_table i := by
  rw [Upgrade_eq env P mgr t old_guid new_guid r hr, if_neg h2,
    (WriteFvmLocked_frame env _ t).2.1]
  funext i
  by_cases h1 : r.1 ≠ 0
  · simp only [if_pos h1, set_vpart_entry]
    by_cases hi : i = r.2
    · subst hi
      simp only [if_true, if_neg (Ne.symm h12)]
    · simp only [if_neg hi, h1, ne_eq, not_false_eq_true, true_and]
      by_cases hi1 : i = r.1
      · subst hi1
        simp only [if_true]
      · simp only [if_neg hi1]
  · simp only [if_neg h1, set_vpart_entry]
    by_cases hi : i = r.2
    · subst hi
      simp only [if_true]
    · simp only [if_neg hi, h1, false_and, if_false]

end VPartitionManager

/-! ## The block count of a partition -/

namespace SliceMap

theorem total_slices_append (a b : SliceMap) :
    total_slices (a ++ b) = total_slices a + total_slices b := by
  simp [total_slices]

theorem total_slices_cons (e : SliceExtent) (r : SliceMap) :
    total_slices (e :: r) = e.pslices.length + total_slices r := by
  simp [total_slices]

theorem total_slices_piece (s : Nat) (l : List Nat) : total_slices (piece s l) = l.length := by
  unfold piece
  by_cases h : l = []
  · simp [h, total_slices]
  · simp [h, total_slices]

end SliceMap

namespace VPartition
open SliceMap

/-- The number of slices that a successful `SliceSetLocked` leaves in the extents. -/
theorem SliceSetLocked_total (vp : VPartition) (v p : Nat) (ac : Nat → Bool) (t : Nat)
    (hv : Valid vp.slice_map) (hfree : vp.SliceGetLocked v = PSLICE_UNALLOCATED)
    (hok : (vp.SliceSetLocked v p ac t).1 = ZX_OK) :
    (vp.SliceSetLocked v p ac t).2.1.slice_map.total_slices = vp.slice_map.total_slices + 1 ∧
      (vp.SliceSetLocked v p ac t).2.1.block_count =
        (vp.AddBlocksLocked ((vp.slice_size / vp.block_size : Nat) : Int)).block_count ∧
      (vp.SliceSetLocked v p ac t).2.1.block_size = vp.block_size ∧
      (vp.SliceSetLocked v p ac t).2.1.slice_size = vp.slice_size := by
  obtain ⟨L0, pre, post, R0, t2, hm, _, hres, _⟩ :=
    SliceSetLocked_form_of_ok vp v p ac t hv hfree (Or.inl hok)
  rw [hres, hm]
  refine ⟨?_, rfl, rfl, rfl⟩
  simp only [total_slices_append, total_slices_cons, total_slices_piece, List.length_append,
    List.length_cons]
  omega

/-- The number of slices that a successful `SliceFreeLocked` leaves in the extents. -/
theorem SliceFreeLocked_total (vp : VPartition) (v : Nat) (ac : Nat → Bool) (t : Nat)
    (hv : Valid vp.slice_map) (halloc : vp.SliceGetLocked v ≠ PSLICE_UNALLOCATED)
    (hok : (vp.SliceFreeLocked v ac t).1 = true) :
    (vp.SliceFreeLocked v ac t).2.1.slice_map.total_slices + 1 = vp.slice_map.total_slices ∧
      (vp.SliceFreeLocked v ac t).2.1.block_count =
        (vp.AddBlocksLocked (-((vp.slice_size / vp.block_size : Nat) : Int))).block_count ∧
      (vp.SliceFreeLocked v ac t).2.1.block_size = vp.block_size ∧
      (vp.SliceFreeLocked v ac t).2.1.slice_size = vp.slice_size := by
  obtain ⟨L, e, R, hm, h1, h2⟩ := exists_extent_of_allocated vp v hv halloc
  have hv1 := hv
  rw [hm] at hv1
  rcases SliceFreeLocked_form vp v ac t L e R hm hv1.1 hv1.2.1 h1 h2 with ⟨h, _⟩ | ⟨t2, h⟩
  · rw [h] at hok; exact absurd hok (by simp)
  · rw [h, hm]
    refine ⟨?_, rfl, rfl, rfl⟩
    have hend : e.end_ = e.start + e.pslices.length := rfl
    simp only [total_slices_append, total_slices_cons, total_slices_piece, List.length_take,
      List.length_drop]
    omega

/-- The extent that `ExtentDestroyLocked` erases. -/
theorem ExtentDestroyLocked_total (vp : VPartition) (v : Nat) (e : SliceExtent)
    (hv : Valid vp.slice_map) (hu : upper_bound_prev vp.slice_map v = some e) :
    (vp.ExtentDestroyLocked v).slice_map.total_slices + e.pslices.length =
        vp.slice_map.total_slices ∧
      vp.ExtentDestroyLocked v =
        ({ vp with slice_map := (vp.ExtentDestroyLocked v).slice_map } : VPartition).AddBlocksLocked
          (-(((e.size * vp.slice_size) % 2 ^ 64 / vp.block_size : Nat) : Int)) := by
  have hmem := (upper_bound_prev_mem _ _ _ hu).1
  obtain ⟨L, R, hLR⟩ := List.append_of_mem hmem
  have hord := ordered_of_valid _ hv
  rw [hLR] at hord
  have hL : ∀ x ∈ L, x.start < e.start := fun x hx =>
    (List.pairwise_append.mp hord).2.2 x hx e (by simp)
  have hR : ∀ x ∈ R, e.start < x.start :=
    (List.pairwise_cons.mp (List.pairwise_append.mp hord).2.1).1
  have her : erase vp.slice_map e = L ++ R := by
    rw [hLR]; exact erase_mid L R e e rfl hL hR
  unfold ExtentDestroyLocked
  rw [hu]
  simp only [her, AddBlocksLocked, and_true]
  rw [hLR]
  simp only [total_slices_append, total_slices_cons]
  omega

end VPartition

namespace VPartitionManager
open SliceMap VPartition

/-! ## Load: the partitions that are created, freed and published -/

/-- The array that the first loop of `Load` builds when no allocation fails. -/
theorem Load_create_parts (P : Params) (mgr : VPartitionManager) (ac : Nat → Bool) :
    ∀ (n i : Nat) (parts : Nat → Option VPartition) (t : Nat)
      (parts1 : Nat → Option VPartition) (t1 : Nat),
      Load_create P mgr ac n i parts t = (none, parts1, t1) →
      ∀ k, parts1 k =
        if i ≤ k ∧ k < i + n ∧ (mgr.vpart_table k).slices ≠ 0 then
          some ⟨k, [], 0, P.block_size, P.slice_size, false⟩
        else parts k := by
  intro n
  induction n with
  | zero =>
    intro i parts t parts1 t1 h k
    simp only [Load_create, Prod.mk.injEq, true_and] at h
    rw [← h.1, if_neg (by omega)]
  | succ n ih =>
    intro i parts t parts1 t1 h k
    rw [Load_create] at h
    by_cases hs : (mgr.vpart_table i).slices = 0
    · rw [if_pos hs] at h
      rw [ih (i + 1) parts t parts1 t1 h k]
      by_cases hki : k = i
      · subst hki
        rw [if_neg (by omega), if_neg (fun hc => hc.2.2 hs)]
      · by_cases hc : i + 1 ≤ k ∧ k < i + 1 + n ∧ (mgr.vpart_table k).slices ≠ 0
        · rw [if_pos hc, if_pos ⟨by omega, by omega, hc.2.2⟩]
        · rw [if_neg hc, if_neg (fun hd => hc ⟨by omega, by omega, hd.2.2⟩)]
    · rw [if_neg hs] at h
      cases hc : ac t with
      | false =>
        simp only [VPartition.Create, hc, Bool.not_false, if_true] at h
        exact absurd h (by simp)
      | true =>
        simp only [VPartition.Create, hc, Bool.not_true, Bool.false_eq_true, if_false] at h
        rw [ih (i + 1) _ (t + 1) parts1 t1 h k]
        by_cases hki : k = i
        · subst hki
          have c1 : ¬ (k + 1 ≤ k ∧ k < k + 1 + n ∧ (mgr.vpart_table k).slices ≠ 0) :=
            fun hd => by omega
          have c2 : k ≤ k ∧ k < k + (n + 1) ∧ (mgr.vpart_table k).slices ≠ 0 :=
            ⟨le_refl _, by omega, hs⟩
          simp only [if_neg c1, if_pos c2, if_true]
        · by_cases hc : i + 1 ≤ k ∧ k < i + 1 + n ∧ (mgr.vpart_table k).slices ≠ 0
          · have c2 : i ≤ k ∧ k < i + (n + 1) ∧ (mgr.vpart_table k).slices ≠ 0 :=
              ⟨by omega, by omega, hc.2.2⟩
            simp only [if_pos hc, if_pos c2]
          · have c2 : ¬ (i ≤ k ∧ k < i + (n + 1) ∧ (mgr.vpart_table k).slices ≠ 0) :=
              fun hd => hc ⟨by omega, by omega, hd.2.2⟩
            simp only [if_neg hc, if_neg c2, hki, if_false]

/-- The second loop of `Load` keeps the set of indices that have a partition. -/
theorem Load_fill_isSome (P : Params) (mgr : VPartitionManager) (ac : Nat → Bool) :
    ∀ (n i : Nat) (parts : Nat → Option VPartition) (t : Nat)
      (parts1 : Nat → Option VPartition) (t1 : Nat),
      Load_fill P mgr ac n i parts t = some (parts1, t1) →
      ∀ k, (parts1 k).isSome = (parts k).isSome := by
  intro n
  induction n with
  | zero =>
    intro i parts t parts1 t1 h k
    simp only [Load_fill, Option.some.injEq, Prod.mk.injEq] at h
    rw [← h.1]
  | succ n ih =>
    intro i parts t parts1 t1 h k
    rw [Load_fill] at h
    by_cases h1 : (mgr.slice_table i).vpart = PSLICE_UNALLOCATED
    · rw [if_pos h1] at h
      exact ih (i + 1) parts t parts1 t1 h k
    · rw [if_neg h1] at h
      by_cases h2 : (mgr.slice_table i).vpart ≥ P.FVM_MAX_ENTRIES
      · rw [if_pos h2] at h
        exact absurd h (by simp)
      · rw [if_neg h2] at h
        cases hp : parts (mgr.slice_table i).vpart with
        | none =>
          rw [hp] at h
          exact ih (i + 1) parts t parts1 t1 h k
        | some vp =>
          rw [hp] at h
          simp only at h
          rw [ih (i + 1) _ _ parts1 t1 h k]
          by_cases hk : k = (mgr.slice_table i).vpart
          · rw [if_pos hk, hk, hp]
            rfl
          · rw [if_neg hk]

/-- The third loop of `Load` when every sync and every `DdkAdd` succeeds: the partition
table, the allocation table and the published partitions after the loop. -/
theorem Load_expose_full (env : Env) (ddk_add : Nat → zx_status_t) (P : Params)
    (parts : Nat → Option VPartition) (hsync : ∀ k, env.sync k = ZX_OK)
    (hadd : ∀ k, ddk_add k = ZX_OK)
    (hparts : ∀ k vp, parts k = some vp →
      vp.entry_index = k ∧ vp.killed = false ∧ Valid vp.slice_map) :
    ∀ (n i : Nat) (mgr : VPartitionManager) (exposed : List VPartition) (t : Nat)
      (mgr1 : VPartitionManager) (exposed1 : List VPartition) (t1 : Nat),
      Load_expose env ddk_add P parts n i mgr exposed t = some (mgr1, exposed1, t1) →
      (∀ k, mgr1.vpart_table k =
        if i ≤ k ∧ k < i + n ∧ (parts k).isSome = true ∧
            Nat.land (mgr.vpart_table k).flags P.kVPartFlagInactive ≠ 0 then
          (mgr.vpart_table k).clear
        else mgr.vpart_table k) ∧
      (∀ q, mgr1.slice_table q = mgr.slice_table q ∨
        mgr1.slice_table q = { mgr.slice_table q with vpart := 0 }) ∧
      (∀ q, (∀ k vp, i ≤ k → k < i + n → parts k = some vp →
          Nat.land (mgr.vpart_table k).flags P.kVPartFlagInactive ≠ 0 →
          q ∉ vp.slice_map.all_pslices) →
        mgr1.slice_table q = mgr.slice_table q) ∧
      (∀ q k vp, i ≤ k → k < i + n → parts k = some vp →
        Nat.land (mgr.vpart_table k).flags P.kVPartFlagInactive ≠ 0 →
        q ∈ vp.slice_map.all_pslices → (mgr1.slice_table q).vpart = 0) ∧
      (∀ vp, vp ∈ exposed1 ↔ vp ∈ exposed ∨
        ∃ k, i ≤ k ∧ k < i + n ∧ parts k = some vp ∧
          Nat.land (mgr.vpart_table k).flags P.kVPartFlagInactive = 0) := by
  intro n
  induction n with
  | zero =>
    intro i mgr exposed t mgr1 exposed1 t1 h
    simp only [Load_expose, Option.some.injEq, Prod.mk.injEq] at h
    obtain ⟨h1, h2, _⟩ := h
    subst h1
    subst h2
    refine ⟨fun k => ?_, fun q => Or.inl rfl, fun q _ => rfl, ?_, fun vp => ?_⟩
    · rw [if_neg (fun hc => by omega)]
    · intro q k vp h1 h2
      omega
    · constructor
      · intro h
        exact Or.inl h
      · rintro (h | ⟨k, h1, h2, _⟩)
        · exact h
        · omega
  | succ n ih =>
    intro i mgr exposed t mgr1 exposed1 t1 h
    rw [Load_expose] at h
    -- the step when the tables do not change
    have hkeep : ∀ (ex : List VPartition) (t0 : Nat),
        Load_expose env ddk_add P parts n (i + 1) mgr ex t0 = some (mgr1, exposed1, t1) →
        (parts i = none ∨ Nat.land (mgr.vpart_table i).flags P.kVPartFlagInactive = 0) →
        (∀ k, mgr1.vpart_table k =
          if i ≤ k ∧ k < i + (n + 1) ∧ (parts k).isSome = true ∧
              Nat.land (mgr.vpart_table k).flags P.kVPartFlagInactive ≠ 0 then
            (mgr.vpart_table k).clear
          else mgr.vpart_table k) ∧
        (∀ q, mgr1.slice_table q = mgr.slice_table q ∨
          mgr1.slice_table q = { mgr.slice_table q with vpart := 0 }) ∧
        (∀ q, (∀ k vp, i ≤ k → k < i + (n + 1) → parts k = some vp →
            Nat.land (mgr.vpart_table k).flags P.kVPartFlagInactive ≠ 0 →
            q ∉ vp.slice_map.all_pslices) →
          mgr1.slice_table q = mgr.slice_table q) ∧
        (∀ q k vp, i ≤ k → k < i + (n + 1) → parts k = some vp →
          Nat.land (mgr.vpart_table k).flags P.kVPartFlagInactive ≠ 0 →
          q ∈ vp.slice_map.all_pslices → (mgr1.slice_table q).vpart = 0) ∧
        (∀ vp, vp ∈ exposed1 ↔ vp ∈ ex ∨
          ∃ k, i + 1 ≤ k ∧ k < i + (n + 1) ∧ parts k = some vp ∧
            Nat.land (mgr.vpart_table k).flags P.kVPartFlagInactive = 0) := by
      intro ex t0 h0 hi
      obtain ⟨a1, a2, a3, a4, a5⟩ := ih (i + 1) mgr ex t0 mgr1 exposed1 t1 h0
      have hnot : ¬ ((parts i).isSome = true ∧
          Nat.land (mgr.vpart_table i).flags P.kVPartFlagInactive ≠ 0) := by
        rintro ⟨c1, c2⟩
        rcases hi with hi | hi
        · rw [hi] at c1
          exact absurd c1 (by simp)
        · exact c2 hi
      refine ⟨fun k => ?_, a2, fun q hq => ?_, ?_, fun vp => ?_⟩
      · rw [a1 k]
        by_cases hki : k = i
        · subst hki
          have c1 : ¬ (k + 1 ≤ k ∧ k < k + 1 + n ∧ (parts k).isSome = true ∧
              Nat.land (mgr.vpart_table k).flags P.kVPartFlagInactive ≠ 0) :=
            fun hd => by omega
          have c2 : ¬ (k ≤ k ∧ k < k + (n + 1) ∧ (parts k).isSome = true ∧
              Nat.land (mgr.vpart_table k).flags P.kVPartFlagInactive ≠ 0) :=
            fun hd => hnot hd.2.2
          rw [if_neg c1, if_neg c2]
        · by_cases hc : i + 1 ≤ k ∧ k < i + 1 + n ∧ (parts k).isSome = true ∧
              Nat.land (mgr.vpart_table k).flags P.kVPartFlagInactive ≠ 0
          · have c2 : i ≤ k ∧ k < i + (n + 1) ∧ (parts k).isSome = true ∧
                Nat.land (mgr.vpart_table k).flags P.kVPartFlagInactive ≠ 0 :=
              ⟨by omega, by omega, hc.2.2⟩
            rw [if_pos hc, if_pos c2]
          · have c2 : ¬ (i ≤ k ∧ k < i + (n + 1) ∧ (parts k).isSome = true ∧
                Nat.land (mgr.vpart_table k).flags P.kVPartFlagInactive ≠ 0) :=
              fun hd => hc ⟨by omega, by omega, hd.2.2⟩
            rw [if_neg hc, if_neg c2]
      · exact a3 q (fun k vp h1 h2 h3 h4 => hq k vp (by omega) (by omega) h3 h4)
      · intro q k vp h1 h2 h3 h4 h5
        have hki : k ≠ i := by
          intro he
          subst he
          exact hnot ⟨by rw [h3]; rfl, h4⟩
        exact a4 q k vp (by omega) (by omega) h3 h4 h5
      · rw [a5 vp]
        constructor
        · rintro (hm | ⟨k, h1, h2, h3, h4⟩)
          · exact Or.inl hm
          · exact Or.inr ⟨k, h1, by omega, h3, h4⟩
        · rintro (hm | ⟨k, h1, h2, h3, h4⟩)
          · exact Or.inl hm
          · exact Or.inr ⟨k, h1, by omega, h3, h4⟩
    cases hp : parts i with
    | none =>
      rw [hp] at h
      obtain ⟨a1, a2, a3, a4, a5⟩ := hkeep exposed t h (Or.inl hp)
      refine ⟨a1, a2, a3, a4, fun vp => ?_⟩
      rw [a5 vp]
      constructor
      · rintro (hm | ⟨k, h1, h2, h3, h4⟩)
        · exact Or.inl hm
        · exact Or.inr ⟨k, by omega, h2, h3, h4⟩
      · rintro (hm | ⟨k, h1, h2, h3, h4⟩)
        · exact Or.inl hm
        · by_cases hki : k = i
          · subst hki
            rw [hp] at h3
            exact absurd h3 (by simp)
          · exact Or.inr ⟨k, by omega, h2, h3, h4⟩
    | some vp0 =>
      rw [hp] at h
      simp only at h
      obtain ⟨p1, p2, p3⟩ := hparts i vp0 hp
      by_cases hin : Nat.land (mgr.vpart_table i).flags P.kVPartFlagInactive ≠ 0
      · rw [if_pos hin] at h
        obtain ⟨st, W, hW, _, _, _, hT, hV, _⟩ :=
          FreeSlices_zero_spec env ⟨mgr, vp0, t⟩ VSLICE_MAX p2 (hsync _) (le_refl _) p3
        rw [hW] at h
        simp only at h
        obtain ⟨a1, a2, a3, a4, a5⟩ := ih (i + 1) W.mgr exposed W.tick mgr1 exposed1 t1 h
        have hVk : ∀ k, k ≠ i → W.mgr.vpart_table k = mgr.vpart_table k := by
          intro k hk
          rw [hV]
          simp only [p1, hk, if_false]
        have hVi : W.mgr.vpart_table i = (mgr.vpart_table i).clear := by
          rw [hV]
          simp only [p1, if_true]
        have hTq : ∀ q, W.mgr.slice_table q =
            if q ∈ vp0.slice_map.all_pslices then { mgr.slice_table q with vpart := 0 }
            else mgr.slice_table q := fun q => by rw [hT]
        refine ⟨fun k => ?_, fun q => ?_, fun q hq => ?_, ?_, fun vp => ?_⟩
        · rw [a1 k]
          by_cases hki : k = i
          · subst hki
            have c1 : ¬ (k + 1 ≤ k ∧ k < k + 1 + n ∧ (parts k).isSome = true ∧
                Nat.land (W.mgr.vpart_table k).flags P.kVPartFlagInactive ≠ 0) :=
              fun hd => by omega
            have c2 : k ≤ k ∧ k < k + (n + 1) ∧ (parts k).isSome = true ∧
                Nat.land (mgr.vpart_table k).flags P.kVPartFlagInactive ≠ 0 :=
              ⟨le_refl _, by omega, by rw [hp]; rfl, hin⟩
            rw [if_neg c1, if_pos c2, hVi]
          · rw [hVk k hki]
            by_cases hc : i + 1 ≤ k ∧ k < i + 1 + n ∧ (parts k).isSome = true ∧
                Nat.land (mgr.vpart_table k).flags P.kVPartFlagInactive ≠ 0
            · have c2 : i ≤ k ∧ k < i + (n + 1) ∧ (parts k).isSome = true ∧
                  Nat.land (mgr.vpart_table k).flags P.kVPartFlagInactive ≠ 0 :=
                ⟨by omega, by omega, hc.2.2⟩
              rw [if_pos hc, if_pos c2]
            · have c2 : ¬ (i ≤ k ∧ k < i + (n + 1) ∧ (parts k).isSome = true ∧
                  Nat.land (mgr.vpart_table k).flags P.kVPartFlagInactive ≠ 0) :=
                fun hd => hc ⟨by omega, by omega, hd.2.2⟩
              rw [if_neg hc, if_neg c2]
        · rcases a2 q with e | e
          · rw [e, hTq q]
            by_cases hm : q ∈ vp0.slice_map.all_pslices
            · rw [if_pos hm]; exact Or.inr rfl
            · rw [if_neg hm]; exact Or.inl rfl
          · rw [e, hTq q]
            by_cases hm : q ∈ vp0.slice_map.all_pslices
            · rw [if_pos hm]; exact Or.inr rfl
            · rw [if_neg hm]; exact Or.inr rfl
        · have hq0 : q ∉ vp0.slice_map.all_pslices :=
            hq i vp0 (le_refl _) (by omega) hp hin
          rw [a3 q (fun k vp h1 h2 h3 h4 =>
            hq k vp (by omega) (by omega) h3 (by rw [← hVk k (by omega)]; exact h4)),
            hTq q, if_neg hq0]
        · intro q k vp h1 h2 h3 h4 h5
          by_cases hki : k = i
          · subst hki
            rw [hp] at h3
            simp only [Option.some.injEq] at h3
            subst h3
            rcases a2 q with e | e
            · rw [e, hTq q, if_pos h5]
            · rw [e]
          · exact a4 q k vp (by omega) (by omega) h3 (by rw [hVk k hki]; exact h4) h5
        · rw [a5 vp]
          constructor
          · rintro (hm | ⟨k, h1, h2, h3, h4⟩)
            · exact Or.inl hm
            · exact Or.inr ⟨k, by omega, by omega, h3, by rw [← hVk k (by omega)]; exact h4⟩
          · rintro (hm | ⟨k, h1, h2, h3, h4⟩)
            · exact Or.inl hm
            · by_cases hki : k = i
              · subst hki
                exact absurd h4 hin
              · exact Or.inr ⟨k, by omega, by omega, h3, by rw [hVk k hki]; exact h4⟩
      · rw [if_neg hin] at h
        rw [if_neg (not_not.mpr (hadd t))] at h
        obtain ⟨a1, a2, a3, a4, a5⟩ := hkeep (exposed ++ [vp0]) (t + 1) h
          (Or.inr (not_not.mp hin))
        refine ⟨a1, a2, a3, a4, fun vp => ?_⟩
        rw [a5 vp]
        constructor
        · rintro (hm | ⟨k, h1, h2, h3, h4⟩)
          · rcases List.mem_append.mp hm with hm | hm
            · exact Or.inl hm
            · simp only [List.mem_singleton] at hm
              subst hm
              exact Or.inr ⟨i, le_refl _, by omega, hp, not_not.mp hin⟩
          · exact Or.inr ⟨k, by omega, h2, h3, h4⟩
        · rintro (hm | ⟨k, h1, h2, h3, h4⟩)
          · exact Or.inl (List.mem_append.mpr (Or.inl hm))
          · by_cases hki : k = i
            · subst hki
              rw [hp] at h3
              simp only [Option.some.injEq] at h3
              subst h3
              exact Or.inl (List.mem_append.mpr (Or.inr (by simp)))
            · exact Or.inr ⟨k, by omega, h2, h3, h4⟩

end VPartitionManager

namespace VPartitionManager
open SliceMap VPartition

/-- The first loop of `Load` does not return early when no allocation fails. -/
theorem Load_create_none (P : Params) (mgr : VPartitionManager) (ac : Nat → Bool)
    (hac : ∀ k, ac k = true) :
    ∀ (n i : Nat) (parts : Nat → Option VPartition) (t : Nat),
      (Load_create P mgr ac n i parts t).1 = none := by
  intro n
  induction n with
  | zero =>
    intro i parts t
    rfl
  | succ n ih =>
    intro i parts t
    rw [Load_create]
    by_cases hs : (mgr.vpart_table i).slices = 0
    · rw [if_pos hs]
      exact ih (i + 1) parts t
    · rw [if_neg hs]
      simp only [VPartition.Create, hac t, Bool.not_true, Bool.false_eq_true, if_false]
      exact ih (i + 1) _ (t + 1)

end VPartitionManager

namespace VPartitionManager
open SliceMap VPartition

/-! ## The search for a free physical slice -/

/-- The loop of `FindFreeSliceLocked` returns the first free entry of its range. -/
theorem find_free_from_first (mgr : VPartitionManager) :
    ∀ (n i p : Nat), mgr.find_free_from n i = some p →
      ∀ k, i ≤ k → k < p → (mgr.slice_table k).vpart ≠ 0 := by
  intro n
  induction n with
  | zero => intro i p h; simp [find_free_from] at h
  | succ n ih =>
    intro i p h k hk1 hk2
    rw [find_free_from] at h
    by_cases h0 : (mgr.slice_table i).vpart = 0
    · rw [if_pos h0] at h
      simp only [Option.some.injEq] at h
      omega
    · rw [if_neg h0] at h
      by_cases hki : k = i
      · rw [hki]; exact h0
      · exact ih (i + 1) p h k (by omega) hk2

/-- The loop of `FindFreeSliceLocked` finds nothing exactly when no entry of its range is
free. -/
theorem find_free_from_none (mgr : VPartitionManager) :
    ∀ (n i : Nat), mgr.find_free_from n i = none ↔
      ∀ k, i ≤ k → k < i + n → (mgr.slice_table k).vpart ≠ 0 := by
  intro n
  induction n with
  | zero =>
    intro i
    simp only [find_free_from, true_iff]
    intro k h1 h2
    omega
  | succ n ih =>
    intro i
    rw [find_free_from]
    by_cases h0 : (mgr.slice_table i).vpart = 0
    · rw [if_pos h0]
      constructor
      · intro h; exact absurd h (by simp)
      · intro h; exact absurd h0 (h i (le_refl _) (by omega))
    · rw [if_neg h0, ih (i + 1)]
      constructor
      · intro h k hk1 hk2
        by_cases hki : k = i
        · rw [hki]; exact h0
        · exact h k (by omega) (by omega)
      · intro h k hk1 hk2
        exact h k (by omega) (by omega)

end VPartitionManager

/-! ## The loop of `FreeSlicesLocked` after its first free -/

namespace VPartition
open SliceMap

/-- An allocated virtual slice whose successor is free is the last one of its extent:
`SliceFreeLocked` finds `vslice == extent->end() - 1`, does not split, and succeeds
whatever the heap does. -/
theorem SliceFreeLocked_last (vp : VPartition) (v : Nat) (hv : Valid vp.slice_map)
    (halloc : vp.SliceGetLocked v ≠ PSLICE_UNALLOCATED)
    (hnext : vp.SliceGetLocked (v + 1) = PSLICE_UNALLOCATED) :
    (∃ e, upper_bound_prev vp.slice_map v = some e ∧ ¬ (v ≠ e.end_ - 1)) ∧
      ∀ ac t, (vp.SliceFreeLocked v ac t).1 = true := by
  obtain ⟨L, e, R, hm, h1, h2⟩ := exists_extent_of_allocated vp v hv halloc
  have hv1 := hv
  rw [hm] at hv1
  have hend : v + 1 = e.end_ := by
    by_contra hc
    have hmem : e ∈ vp.slice_map := by rw [hm]; simp
    exact SliceGetLocked_ne_zero_of_mem vp (v + 1) e hv hmem (by omega) (by omega) hnext
  have hLs : ∀ x ∈ L, x.start < e.start := by
    intro x hx
    have h1 := (List.pairwise_append.mp hv1.1).2.2 x hx e (by simp)
    have h2 := List.length_pos.mpr (hv1.2.1 x (List.mem_append_left _ hx))
    unfold SliceExtent.end_ SliceExtent.start at *
    omega
  have hRe : ∀ x ∈ R, e.end_ ≤ x.start :=
    (List.pairwise_cons.mp (List.pairwise_append.mp hv1.1).2.1).1
  have hRv : ∀ x ∈ R, v < x.start := by
    intro x hx; have := hRe x hx; omega
  constructor
  · refine ⟨e, ?_, by omega⟩
    rw [hm]
    exact upper_bound_prev_mid L e R v hLs h1 hRv
  · intro ac t
    rcases SliceFreeLocked_form vp v ac t L e R hm hv1.1 hv1.2.1 h1 h2 with
      ⟨_, _, h, _⟩ | ⟨t2, h⟩
    · exact absurd hend h
    · rw [h]

end VPartition

namespace VPartitionManager
open SliceMap VPartition

/-- Once something has been freed, the loop of `FreeSlicesLocked` runs to its end: each
virtual slice that it frees has a free successor, so neither the early return nor the
`ZX_ASSERT` is reached. -/
theorem FreeSlicesLocked_loop_after_first (env : Env) (vs : Nat) :
    ∀ (n : Nat) (w : World), Valid w.vp.slice_map → vs + n ≤ 2 ^ 64 →
      w.vp.SliceGetLocked (vs + n) = PSLICE_UNALLOCATED →
      ∃ w1, FreeSlicesLocked_loop env vs n true w = some (none, true, w1) := by
  intro n
  induction n with
  | zero =>
    intro w _ _ _
    exact ⟨w, rfl⟩
  | succ n ih =>
    intro w hv hb hnext
    have hsa : size_add vs n = vs + n := by
      rw [size_add, Nat.mod_eq_of_lt (by omega)]
    rw [FreeSlicesLocked_loop]
    dsimp only
    rw [hsa]
    cases hc : w.vp.SliceCanFree (vs + n) with
    | false =>
      simp only [Bool.false_eq_true, if_false]
      apply ih w hv (by omega)
      by_contra hne
      have := (SliceCanFree_iff _ _).mpr hne
      rw [hc] at this
      exact absurd this (by simp)
    | true =>
      simp only [if_true]
      have halloc := (SliceCanFree_iff _ _).mp hc
      have hok := (SliceFreeLocked_last w.vp (vs + n) hv halloc hnext).2 env.ac w.tick
      obtain ⟨s1, s2, _⟩ := SliceFreeLocked_spec w.vp (vs + n) env.ac w.tick hv halloc hok
      rw [hok]
      simp only [Bool.not_true, Bool.and_false, Bool.false_eq_true, if_false]
      apply ih _ s1 (by omega)
      show (w.vp.SliceFreeLocked (vs + n) env.ac w.tick).2.1.SliceGetLocked (vs + n) = _
      rw [s2 (vs + n), if_pos rfl]

/-- The loop of `FreeSlicesLocked` on a valid slice map never reaches its `ZX_ASSERT`,
and it returns early only with `ZX_ERR_NO_MEMORY` and before anything has been freed. -/
theorem FreeSlicesLocked_loop_first (env : Env) (vs : Nat) :
    ∀ (n : Nat) (w : World), Valid w.vp.slice_map → vs + n ≤ 2 ^ 64 →
      ∃ st f1 w1, FreeSlicesLocked_loop env vs n false w = some (st, f1, w1) ∧
        (st = none ∨ (st = some ZX_ERR_NO_MEMORY ∧ f1 = false ∧ w1.mgr = w.mgr)) := by
  intro n
  induction n with
  | zero =>
    intro w _ _
    exact ⟨none, false, w, rfl, Or.inl rfl⟩
  | succ n ih =>
    intro w hv hb
    have hsa : size_add vs n = vs + n := by
      rw [size_add, Nat.mod_eq_of_lt (by omega)]
    rw [FreeSlicesLocked_loop]
    dsimp only
    rw [hsa]
    cases hc : w.vp.SliceCanFree (vs + n) with
    | false =>
      simp only [Bool.false_eq_true, if_false]
      exact ih w hv (by omega)
    | true =>
      simp only [if_true]
      have halloc := (SliceCanFree_iff _ _).mp hc
      cases hok : (w.vp.SliceFreeLocked (vs + n) env.ac w.tick).1 with
      | false =>
        simp only [Bool.not_false, Bool.and_self, if_true]
        exact ⟨_, _, _, rfl, Or.inr ⟨rfl, rfl, rfl⟩⟩
      | true =>
        obtain ⟨s1, s2, _⟩ := SliceFreeLocked_spec w.vp (vs + n) env.ac w.tick hv halloc hok
        simp only [Bool.not_true, Bool.and_false, Bool.false_eq_true, if_false,
          Bool.not_false, Bool.false_and]
        obtain ⟨w1, h1⟩ := FreeSlicesLocked_loop_after_first env vs n
          ⟨w.mgr.set_slice_vpart (w.vp.SliceGetLocked (vs + n)) 0,
            (w.vp.SliceFreeLocked (vs + n) env.ac w.tick).2.1,
            (w.vp.SliceFreeLocked (vs + n) env.ac w.tick).2.2⟩ s1 (by omega)
          (by
            show (w.vp.SliceFreeLocked (vs + n) env.ac w.tick).2.1.SliceGetLocked (vs + n) = _
            rw [s2 (vs + n), if_pos rfl])
        exact ⟨none, true, w1, h1, Or.inl rfl⟩

end VPartitionManager

/-! ## The completion of the sub-requests -/

/-- The completions of the sub-requests that are still outstanding, from a state in
which `c` of the `n` sub-requests have completed: only the last one invokes the
callback, with the status kept so far if it is not `ZX_OK` and with the first status of
the list that is not `ZX_OK` otherwise. -/
theorem run_completions_from :
    ∀ (l : List zx_status_t) (c n : Nat) (st : zx_status_t), l ≠ [] →
      c + l.length = n → n < 2 ^ 64 →
      run_completions ⟨c, n, st⟩ l =
        List.replicate (l.length - 1) none ++
          [some (if st = ZX_OK then (l.find? (fun s => decide (s ≠ ZX_OK))).getD ZX_OK
            else st)] := by
  intro l
  induction l with
  | nil => intro c n st h; exact absurd rfl h
  | cons s rest ih =>
    intro c n st _ hlen hn
    simp only [List.length_cons] at hlen
    have hmod : (c + 1) % 2 ^ 64 = c + 1 := Nat.mod_eq_of_lt (by omega)
    rw [run_completions]
    unfold multi_txn_completion
    simp only [hmod]
    by_cases hr : rest = []
    · subst hr
      simp only [List.length_nil, Nat.add_zero] at hlen
      rw [if_pos hlen]
      simp only [run_completions, List.length_cons, List.length_nil, Nat.zero_add,
        Nat.sub_self, List.replicate_zero, List.nil_append, List.find?_cons, List.find?_nil]
      by_cases h1 : st = ZX_OK
      · by_cases h2 : s = ZX_OK
        · simp [h1, h2]
        · simp [h1, h2]
      · simp [h1]
    · have hpos : 0 < rest.length := List.length_pos.mpr hr
      rw [if_neg (by omega)]
      simp only
      rw [ih (c + 1) n _ hr (by omega) hn]
      have hrep : List.replicate (rest.length + 1 - 1) (none : Option zx_status_t) =
          none :: List.replicate (rest.length - 1) none := by
        rw [Nat.add_sub_cancel]
        obtain ⟨k, hk⟩ : ∃ k, rest.length = k + 1 := ⟨rest.length - 1, by omega⟩
        rw [hk]
        rfl
      simp only [List.length_cons, hrep, List.cons_append, List.find?_cons]
      by_cases h1 : st = ZX_OK
      · by_cases h2 : s = ZX_OK
        · simp [h1, h2]
        · simp [h1, h2]
      · simp [h1]

namespace VPartition
open SliceMap

/-! ## The block queue: requests that pass the checks of length and range -/

/-- The arithmetic of a device whose block size divides its slice size. -/
theorem blocks_per_slice_pos (vp : VPartition) (hbs : 0 < vp.block_size)
    (hdiv : vp.block_size ∣ vp.slice_size) (hss : 0 < vp.slice_size) :
    0 < vp.slice_size / vp.block_size :=
  Nat.div_pos (Nat.le_of_dvd hss hdiv) hbs

/-- The capacity in blocks that `BlockQueue` computes. -/
theorem device_capacity_eq (vp : VPartition) (hdiv : vp.block_size ∣ vp.slice_size)
    (hover : VSLICE_MAX * vp.slice_size < 2 ^ 64) :
    vp.DdkGetSize / vp.BlockSize = VSLICE_MAX * (vp.slice_size / vp.block_size) ∧
      VSLICE_MAX * (vp.slice_size / vp.block_size) < 2 ^ 64 := by
  constructor
  · unfold DdkGetSize BlockSize
    rw [Nat.mod_eq_of_lt hover]
    exact Nat.mul_div_assoc _ hdiv
  · exact lt_of_le_of_lt (Nat.mul_le_mul_left _ (Nat.div_le_self _ _)) hover

/-- A READ or WRITE request of a length other than 0 whose blocks fit in the partition
reaches the part of `BlockQueue` under the lock, with `vslice_start` and `vslice_end`
the virtual slices of its first and of its last block. -/
theorem BlockQueue_in_range (Q : QueueParams) (vp : VPartition) (ac : Nat → Bool)
    (txn : block_op_t) (t : Nat)
    (hcmd : Nat.land txn.command Q.BLOCK_OP_MASK = Q.BLOCK_OP_READ ∨
      Nat.land txn.command Q.BLOCK_OP_MASK = Q.BLOCK_OP_WRITE)
    (hbs : 0 < vp.block_size) (hdiv : vp.block_size ∣ vp.slice_size)
    (hss : 0 < vp.slice_size) (hover : VSLICE_MAX * vp.slice_size < 2 ^ 64)
    (hlen : txn.length ≠ 0)
    (hfit : txn.offset_dev + txn.length ≤ VSLICE_MAX * (vp.slice_size / vp.block_size)) :
    vp.BlockQueue Q ac txn t =
      some (vp.BlockQueue_slices Q ac txn t (vp.slice_size / vp.block_size)
        (txn.offset_dev / (vp.slice_size / vp.block_size))
        ((txn.offset_dev + txn.length - 1) / (vp.slice_size / vp.block_size))) := by
  obtain ⟨hcap, hlt⟩ := device_capacity_eq vp hdiv hover
  have hK := blocks_per_slice_pos vp hbs hdiv hss
  have hne : ¬ (vp.BlockSize = 0) := by
    unfold BlockSize; omega
  have hmod : (txn.offset_dev + txn.length - 1) % 2 ^ 64 = txn.offset_dev + txn.length - 1 :=
    Nat.mod_eq_of_lt (by omega)
  unfold BlockQueue
  rw [if_pos hcmd, if_neg hne]
  simp only [hlen, if_false, hcap]
  rw [if_neg (by omega)]
  simp only [BlockSize, hmod]
  rw [if_neg (by omega)]

/-- The loop that checks the slices of a request stops at a free slice. -/
theorem BlockQueue_check_none (vp : VPartition) (vs : Nat) :
    ∀ (n v : Nat) (c : Bool),
      (∃ u, v ≤ u ∧ u < v + n ∧ vp.SliceGetLocked u = PSLICE_UNALLOCATED) →
      vp.BlockQueue_check vs n v c = none := by
  intro n
  induction n with
  | zero =>
    rintro v c ⟨u, h1, h2, _⟩
    omega
  | succ n ih =>
    rintro v c ⟨u, h1, h2, h3⟩
    rw [BlockQueue_check]
    by_cases h0 : vp.SliceGetLocked v = PSLICE_UNALLOCATED
    · rw [if_pos h0]
    · rw [if_neg h0]
      apply ih
      refine ⟨u, ?_, by omega, h3⟩
      by_contra hc
      have : u = v := by omega
      rw [this] at h3
      exact h0 h3

/-- The loop that checks the slices of a request keeps `contiguous` when all slices are
allocated and each one but the first follows its predecessor on the disk. -/
theorem BlockQueue_check_true (vp : VPartition) (vs : Nat) :
    ∀ (n v : Nat) (c : Bool),
      (∀ u, v ≤ u → u < v + n → vp.SliceGetLocked u ≠ PSLICE_UNALLOCATED) →
      (∀ u, v ≤ u → u < v + n → u ≠ vs →
        toUInt32 (vp.SliceGetLocked (u - 1) + 1) = vp.SliceGetLocked u) →
      vp.BlockQueue_check vs n v c = some c := by
  intro n
  induction n with
  | zero =>
    intro v c _ _
    rfl
  | succ n ih =>
    intro v c h1 h2
    rw [BlockQueue_check, if_neg (h1 v (le_refl _) (by omega))]
    have hc : ¬ (v ≠ vs ∧ toUInt32 (vp.SliceGetLocked (v - 1) + 1) ≠ vp.SliceGetLocked v) := by
      rintro ⟨a, b⟩
      exact b (h2 v (le_refl _) (by omega) a)
    rw [if_neg hc]
    exact ih (v + 1) c (fun u hu1 hu2 => h1 u (by omega) (by omega))
      (fun u hu1 hu2 hu3 => h2 u (by omega) (by omega) hu3)

/-- The loop that checks the slices of a request clears `contiguous` when all slices are
allocated and one of them does not follow its predecessor on the disk. -/
theorem BlockQueue_check_false (vp : VPartition) (vs : Nat) :
    ∀ (n v : Nat) (c : Bool),
      (∀ u, v ≤ u → u < v + n → vp.SliceGetLocked u ≠ PSLICE_UNALLOCATED) →
      (c = false ∨ ∃ u, v ≤ u ∧ u < v + n ∧ u ≠ vs ∧
        toUInt32 (vp.SliceGetLocked (u - 1) + 1) ≠ vp.SliceGetLocked u) →
      vp.BlockQueue_check vs n v c = some false := by
  intro n
  induction n with
  | zero =>
    intro v c _ h
    rcases h with h | ⟨u, a, b, _⟩
    · rw [h]; rfl
    · omega
  | succ n ih =>
    intro v c h1 h2
    rw [BlockQueue_check, if_neg (h1 v (le_refl _) (by omega))]
    apply ih (v + 1) _ (fun u hu1 hu2 => h1 u (by omega) (by omega))
    by_cases hc : v ≠ vs ∧ toUInt32 (vp.SliceGetLocked (v - 1) + 1) ≠ vp.SliceGetLocked v
    · left
      rw [if_pos hc]
    · rw [if_neg hc]
      rcases h2 with h | ⟨u, a, b, d, e⟩
      · exact Or.inl h
      · right
        refine ⟨u, ?_, by omega, d, e⟩
        by_contra hlt
        have huv : u = v := by omega
        rw [huv] at d e
        exact hc ⟨d, e⟩

end VPartition

namespace VPartition
open SliceMap

/-- The test `SliceGetLocked(vslice - 1) + 1 != SliceGetLocked(vslice)` on `uint32_t`
values, the second one allocated. -/
theorem toUInt32_succ_ne (a b : Nat) (ha : a < 2 ^ 32) (hb : b < 2 ^ 32)
    (hb0 : b ≠ PSLICE_UNALLOCATED) : toUInt32 (a + 1) ≠ b ↔ a + 1 ≠ b := by
  unfold toUInt32
  unfold PSLICE_UNALLOCATED at hb0
  by_cases h : a + 1 < 2 ^ 32
  · rw [Nat.mod_eq_of_lt h]
  · have h1 : a + 1 = 2 ^ 32 := by omega
    rw [h1, Nat.mod_self]
    constructor
    · intro _; omega
    · intro _; omega

/-- The number `vslice_end - vslice_start + 1` of sub-requests, in 64-bit arithmetic. -/
theorem txn_count_eq (a b : Nat) (ha : a + 1 < 2 ^ 64) (hb : b ≤ a) :
    (a + 2 ^ 64 - b + 1) % 2 ^ 64 = a - b + 1 := by
  have e : a + 2 ^ 64 - b + 1 = (a - b + 1) + 2 ^ 64 := by omega
  rw [e, Nat.add_mod_right, Nat.mod_eq_of_lt (by omega)]

end VPartition

namespace VPartition
open SliceMap

/-- The physical slices of a run of virtual slices that follow one another on the
disk. -/
theorem SliceGetLocked_run (vp : VPartition) (vf vl : Nat)
    (hcont : ∀ u, vf ≤ u → u < vl → vp.SliceGetLocked (u + 1) = vp.SliceGetLocked u + 1) :
    ∀ j, vf + j ≤ vl → vp.SliceGetLocked (vf + j) = vp.SliceGetLocked vf + j := by
  intro j
  induction j with
  | zero => intro _; rfl
  | succ j ih =>
    intro h
    have := hcont (vf + j) (by omega) (by omega)
    rw [← Nat.add_assoc, this, ih (by omega)]
    omega

/-- The device block of a block of a request, from the quotients and remainders of the
block and of the first block of the request. -/
theorem run_arith (K base p0 vf q r r1 off i : Nat) (h1 : 1 ≤ p0) (hq : vf ≤ q)
    (ho : K * vf + r = off) (hi : K * q + r1 = off + i) :
    base + (p0 - 1) * K + r + i = base + (p0 + (q - vf) - 1) * K + r1 := by
  obtain ⟨a, ha⟩ : ∃ a, p0 = a + 1 := ⟨p0 - 1, by omega⟩
  obtain ⟨j, hj⟩ : ∃ j, q = vf + j := ⟨q - vf, by omega⟩
  subst ha
  subst hj
  have e1 : a + 1 + (vf + j - vf) - 1 = a + j := by omega
  rw [e1, Nat.add_sub_cancel, Nat.add_mul]
  rw [Nat.mul_add] at hi
  rw [Nat.mul_comm j K]
  generalize K * vf = X at ho hi
  generalize K * j = Y at hi ⊢
  generalize a * K = Z
  omega

end VPartition

namespace VPartition
open SliceMap

/-! ## The block queue: the sub-requests of a split request -/

/-- The length of the first sub-request: `round_up(offset + 1, K) - offset` is what is
left of the first slice. -/
theorem round_up_first (K vf r off : Nat) (hK : 0 < K) (ho : off = K * vf + r) (hr : r < K)
    (hlt : off + K < 2 ^ 64) :
    (round_up (size_add off 1) K + 2 ^ 64 - off) % 2 ^ 64 = K - r := by
  have h1 : size_add off 1 = off + 1 := by
    rw [size_add, Nat.mod_eq_of_lt (by omega)]
  have h2 : off + 1 + (K - 1) = K * (vf + 1) + r := by
    rw [ho, Nat.mul_add]
    generalize K * vf = X
    omega
  have h2lt : K * (vf + 1) + r < 2 ^ 64 := by rw [← h2]; omega
  have h3 : (K * (vf + 1) + r) / K = vf + 1 := by
    rw [Nat.mul_add_div hK, Nat.div_eq_of_lt hr]
  have h4 : (vf + 1) * K = K * vf + K := by ring
  have h4lt : K * vf + K < 2 ^ 64 := by rw [ho] at hlt; omega
  have e : K * vf + K + 2 ^ 64 - (K * vf + r) = (K - r) + 2 ^ 64 := by omega
  have h5 : (K * vf + K + 2 ^ 64 - off) % 2 ^ 64 = K - r := by
    rw [ho, e, Nat.add_mod_right, Nat.mod_eq_of_lt (by omega)]
  have h6 : round_up (off + 1) K = K * vf + K := by
    unfold round_up
    rw [h2, Nat.mod_eq_of_lt h2lt, h3, h4, Nat.mod_eq_of_lt h4lt]
  rw [h1, h6, h5]

/-- The lengths of the sub-requests before the `i`-th one, which is not the first. -/
theorem sum_piece_length (K r length n : Nat) :
    ∀ i, 1 ≤ i → i + 1 ≤ n →
      ((List.range i).map (piece_length K r length n)).sum = (K - r) + (i - 1) * K := by
  intro i
  induction i with
  | zero => intro h; omega
  | succ i ih =>
    intro _ hn
    rw [List.range_succ, List.map_append, List.sum_append]
    simp only [List.map_cons, List.map_nil, List.sum_cons, List.sum_nil, Nat.add_zero,
      Nat.add_sub_cancel]
    by_cases hi : i = 0
    · subst hi
      simp [piece_length]
    · rw [ih (by omega) (by omega)]
      have hp : piece_length K r length n i = K := by
        unfold piece_length
        rw [if_neg hi, if_neg (by omega)]
      rw [hp]
      obtain ⟨j, hj⟩ : ∃ j, i = j + 1 := ⟨i - 1, by omega⟩
      subst hj
      rw [Nat.add_sub_cancel, Nat.succ_mul]
      omega

/-- One iteration of the loop that builds the sub-requests, when `calloc` succeeds. -/
theorem BlockQueue_split_succ (Q : QueueParams) (vp : VPartition) (ac : Nat → Bool)
    (txn : block_op_t) (K vs ve m i rem : Nat) (txns : List block_op_t) (t : Nat)
    (hac : ac t = true) :
    vp.BlockQueue_split Q ac txn K vs ve (m + 1) i rem txns t =
      vp.BlockQueue_split Q ac txn K vs ve m (i + 1)
        ((rem + 2 ^ 32 - toUInt32 (if vs + i = vs then
            (round_up (size_add txn.offset_dev 1) K + 2 ^ 64 - txn.offset_dev) % 2 ^ 64
          else if vs + i = ve then rem else K)) % 2 ^ 32)
        (txns ++ [⟨txn.command,
          toUInt32 (if vs + i = vs then
            (round_up (size_add txn.offset_dev 1) K + 2 ^ 64 - txn.offset_dev) % 2 ^ 64
          else if vs + i = ve then rem else K),
          if vs + i = vs then
            size_add (Q.SliceStart (vp.SliceGetLocked (vs + i)) / vp.BlockSize)
              (txn.offset_dev % K)
          else Q.SliceStart (vp.SliceGetLocked (vs + i)) / vp.BlockSize,
          if vs + i = vs then txn.offset_vmo
          else if vs + i = ve then
            size_add txn.offset_vmo ((txn.length + 2 ^ 32 - rem) % 2 ^ 32)
          else
            size_add txn.offset_vmo
              (size_add (txns.headD txn).length ((K * (i - 1)) % 2 ^ 64))⟩])
        (t + 1) := by
  rw [BlockQueue_split]
  simp only [hac, Bool.not_true, Bool.false_eq_true, if_false]

end VPartition

namespace VPartition
open SliceMap

/-- The loop that builds the sub-requests, when no allocation fails: after `i`
iterations the sub-requests built are the first `i` ones of the specification and
`length_remaining` is what they leave of the request, and the loop ends with all `n`. -/
theorem BlockQueue_split_spec (Q : QueueParams) (vp : VPartition) (ac : Nat → Bool)
    (txn : block_op_t) (K vf vl n r r2 : Nat) (pc : Nat → block_op_t)
    (hac : ∀ k, ac k = true) (hK : 0 < K) (hn : n = vl - vf + 1) (hvfl : vf < vl)
    (hoff : txn.offset_dev = K * vf + r) (hr : r < K) (hmodr : txn.offset_dev % K = r)
    (hL : txn.length = (K - r) + (n - 2) * K + (r2 + 1))
    (hL32 : txn.length < 2 ^ 32) (hov : txn.offset_vmo + txn.length < 2 ^ 64)
    (hoffK : txn.offset_dev + K < 2 ^ 64)
    (hdev : Q.SliceStart (vp.SliceGetLocked vf) / vp.block_size + K ≤ 2 ^ 64)
    (hpc : ∀ j, pc j = ⟨txn.command, piece_length K r txn.length n j,
      Q.SliceStart (vp.SliceGetLocked (vf + j)) / vp.block_size + (if j = 0 then r else 0),
      txn.offset_vmo + ((List.range j).map (piece_length K r txn.length n)).sum⟩) :
    ∀ (m i t : Nat), i + m = n →
      vp.BlockQueue_split Q ac txn K vf vl m i
        (txn.length - ((List.range i).map (piece_length K r txn.length n)).sum)
        ((List.range i).map pc) t = (some ((List.range n).map pc), t + m) := by
  intro m
  induction m with
  | zero =>
    intro i t hi
    have : i = n := by omega
    subst this
    rfl
  | succ m ih =>
    intro i t hi
    rw [BlockQueue_split_succ Q vp ac txn K vf vl m i _ _ t (hac t)]
    have hgoal : ∀ (rem1 : Nat) (sub : block_op_t),
        rem1 = txn.length - ((List.range (i + 1)).map (piece_length K r txn.length n)).sum →
        sub = pc i →
        vp.BlockQueue_split Q ac txn K vf vl m (i + 1) rem1
          ((List.range i).map pc ++ [sub]) (t + 1) =
          (some ((List.range n).map pc), t + (m + 1)) := by
      intro rem1 sub h1 h2
      rw [h1, h2]
      have hl : (List.range i).map pc ++ [pc i] = (List.range (i + 1)).map pc := by
        rw [List.range_succ, List.map_append]
        rfl
      rw [hl, ih (i + 1) (t + 1) (by omega)]
      congr 1
      omega
    have hS1 : ((List.range (i + 1)).map (piece_length K r txn.length n)).sum =
        ((List.range i).map (piece_length K r txn.length n)).sum +
          piece_length K r txn.length n i := by
      rw [List.range_succ, List.map_append, List.sum_append]
      simp only [List.map_cons, List.map_nil, List.sum_cons, List.sum_nil, Nat.add_zero]
    apply hgoal
    · -- length_remaining
      rw [hS1]
      by_cases hi0 : i = 0
      · subst hi0
        have hp0 : piece_length K r txn.length n 0 = K - r := by simp [piece_length]
        rw [if_pos (by omega), round_up_first K vf r txn.offset_dev hK hoff hr hoffK, hp0]
        simp only [List.range_zero, List.map_nil, List.sum_nil, Nat.sub_zero, Nat.zero_add]
        have h32 : toUInt32 (K - r) = K - r := Nat.mod_eq_of_lt (by omega)
        rw [h32]
        have e : txn.length + 2 ^ 32 - (K - r) = (txn.length - (K - r)) + 2 ^ 32 := by omega
        rw [e, Nat.add_mod_right, Nat.mod_eq_of_lt (by omega)]
      · have hS := sum_piece_length K r txn.length n i (by omega) (by omega)
        rw [if_neg (by omega), hS]
        by_cases hlast : i + 1 = n
        · have hp : piece_length K r txn.length n i =
              txn.length - (K - r) - (n - 2) * K := by
            unfold piece_length
            rw [if_neg hi0, if_pos hlast]
          have hi2 : i - 1 = n - 2 := by omega
          rw [if_pos (by omega), hp, hi2]
          generalize (n - 2) * K = X at hL ⊢
          have h32 : toUInt32 (txn.length - (K - r + X)) = txn.length - (K - r + X) :=
            Nat.mod_eq_of_lt (by omega)
          rw [h32]
          have e : txn.length - (K - r + X) + 2 ^ 32 - (txn.length - (K - r + X)) =
              0 + 2 ^ 32 := by omega
          rw [e, Nat.add_mod_right]
          omega
        · have hp : piece_length K r txn.length n i = K := by
            unfold piece_length
            rw [if_neg hi0, if_neg hlast]
          have hle : (i - 1 + 1) * K ≤ (n - 2) * K := Nat.mul_le_mul_right _ (by omega)
          rw [Nat.succ_mul] at hle
          rw [if_neg (by omega), hp]
          generalize (n - 2) * K = X at hL hle
          generalize (i - 1) * K = Y at hle ⊢
          have h32 : toUInt32 K = K := Nat.mod_eq_of_lt (by omega)
          rw [h32]
          have e : txn.length - (K - r + Y) + 2 ^ 32 - K =
              (txn.length - (K - r + Y + K)) + 2 ^ 32 := by omega
          rw [e, Nat.add_mod_right, Nat.mod_eq_of_lt (by omega)]
    · -- the sub-request
      rw [hpc i]
      by_cases hi0 : i = 0
      · subst hi0
        have hp0 : piece_length K r txn.length n 0 = K - r := by simp [piece_length]
        simp only [Nat.add_zero, if_true, List.range_zero, List.map_nil, List.sum_nil]
        rw [round_up_first K vf r txn.offset_dev hK hoff hr hoffK, hp0, hmodr]
        have h32 : toUInt32 (K - r) = K - r := Nat.mod_eq_of_lt (by omega)
        have hsa : size_add (Q.SliceStart (vp.SliceGetLocked vf) / vp.BlockSize) r =
            Q.SliceStart (vp.SliceGetLocked vf) / vp.block_size + r := by
          unfold size_add BlockSize
          exact Nat.mod_eq_of_lt (by omega)
        rw [h32, hsa]
      · have hS := sum_piece_length K r txn.length n i (by omega) (by omega)
        have c1 : ¬ (vf + i = vf) := by omega
        simp only [if_neg c1, if_neg hi0, Nat.add_zero, hS]
        by_cases hlast : i + 1 = n
        · have hp : piece_length K r txn.length n i =
              txn.length - (K - r) - (n - 2) * K := by
            unfold piece_length
            rw [if_neg hi0, if_pos hlast]
          have hi2 : i - 1 = n - 2 := by omega
          have c2 : vf + i = vl := by omega
          simp only [if_pos c2, hp, hi2]
          generalize (n - 2) * K = X at hL ⊢
          have h32 : toUInt32 (txn.length - (K - r + X)) = txn.length - (K - r + X) :=
            Nat.mod_eq_of_lt (by omega)
          have e : txn.length + 2 ^ 32 - (txn.length - (K - r + X)) =
              (K - r + X) + 2 ^ 32 := by omega
          have hvmo : size_add txn.offset_vmo
              ((txn.length + 2 ^ 32 - (txn.length - (K - r + X))) % 2 ^ 32) =
              txn.offset_vmo + (K - r + X) := by
            rw [e, Nat.add_mod_right, Nat.mod_eq_of_lt (by omega), size_add,
              Nat.mod_eq_of_lt (by omega)]
          have hsub : txn.length - (K - r) - X = txn.length - (K - r + X) := by omega
          rw [h32, hvmo, hsub]
          rfl
        · have hp : piece_length K r txn.length n i = K := by
            unfold piece_length
            rw [if_neg hi0, if_neg hlast]
          have c2 : ¬ (vf + i = vl) := by omega
          have hle : (i - 1 + 1) * K ≤ (n - 2) * K := Nat.mul_le_mul_right _ (by omega)
          rw [Nat.succ_mul] at hle
          have hhead : ((List.range i).map pc).headD txn = pc 0 := by
            obtain ⟨j, hj⟩ : ∃ j, i = j + 1 := ⟨i - 1, by omega⟩
            rw [hj, List.range_succ_eq_map]
            rfl
          have hp0 : (pc 0).length = K - r := by
            rw [hpc 0]
            simp [piece_length]
          simp only [if_neg c2, hp, hhead, hp0]
          rw [Nat.mul_comm K (i - 1)]
          generalize (n - 2) * K = X at hL hle
          generalize (i - 1) * K = Y at hle ⊢
          have h32 : toUInt32 K = K := Nat.mod_eq_of_lt (by omega)
          have hvmo : size_add txn.offset_vmo (size_add (K - r) (Y % 2 ^ 64)) =
              txn.offset_vmo + (K - r + Y) := by
            unfold size_add
            rw [Nat.mod_eq_of_lt (show Y < 2 ^ 64 by omega),
              Nat.mod_eq_of_lt (show K - r + Y < 2 ^ 64 by omega),
              Nat.mod_eq_of_lt (by omega)]
          rw [h32, hvmo]
          rfl

end VPartition

/-! # The claims on extents, the commit and the life cycle -/

namespace SliceExtent

/-- C11: for an extent covering `[start, end)` and `start ≤ v < end`, `Split v` succeeds
when its two allocations do, and when it succeeds the receiver covers `[start, v + 1)`,
the new extent covers `[v + 1, end)` (it is empty when `v = end - 1`), and `get u` on the
piece that covers `u` is what `get u` was on the original extent. -/
theorem Split_pieces (e : SliceExtent) (v : Nat) (ac : Nat → Bool) (t : Nat)
    (h1 : e.start ≤ v) (h2 : v < e.end_) :
    (ac t = true → ac (t + 1) = true → ∃ n, (e.Split v ac t).1 = some n) ∧
    ∀ n, (e.Split v ac t).1 = some n →
      (e.Split v ac t).2.1.start = e.start ∧ (e.Split v ac t).2.1.end_ = v + 1 ∧
      n.start = v + 1 ∧ n.end_ = e.end_ ∧
      (v = e.end_ - 1 → n.is_empty = true) ∧
      (∀ u, e.start ≤ u → u < v + 1 → (e.Split v ac t).2.1.get u = e.get u) ∧
      (∀ u, v + 1 ≤ u → u < e.end_ → n.get u = e.get u) := by
  constructor
  · intro a1 a2
    rw [Split_eq e v ac t h1 h2 a1 a2]
    exact ⟨_, rfl⟩
  · intro n hn
    obtain ⟨a1, a2⟩ := Split_some e v ac t n hn
    rw [Split_eq e v ac t h1 h2 a1 a2] at hn ⊢
    have hn1 : n = ⟨v + 1, e.pslices.drop (v + 1 - e.start)⟩ := by
      simp only [Option.some.injEq] at hn
      exact hn.symm
    have hk : v + 1 - e.start ≤ e.pslices.length := by
      unfold start end_ at *; omega
    have hs : e.vslice_start + (v + 1 - e.start) = v + 1 := by
      unfold start at *; omega
    subst hn1
    refine ⟨rfl, ?_, rfl, ?_, ?_, ?_, ?_⟩
    · simp only [end_, List.length_take, Nat.min_eq_left hk]
      exact hs
    · simp only [end_, List.length_drop]
      unfold start end_ at *; omega
    · intro hv
      simp only [is_empty, List.isEmpty_iff]
      apply List.drop_eq_nil_iff.mpr
      unfold start end_ at *; omega
    · intro u _ hu
      exact get_take e (v + 1 - e.start) u (by omega)
    · intro u hu _
      have := get_drop e (v + 1 - e.start) u hk (by omega)
      rw [hs] at this
      exact this

/-- Example for C11: splitting the extent `[3, 7)` at virtual slice 4. -/
theorem Split_pieces_witness :
    (SliceExtent.mk 3 [13, 14, 15, 16]).start ≤ 4 ∧ 4 < (SliceExtent.mk 3 [13, 14, 15, 16]).end_ ∧
      (SliceExtent.mk 3 [13, 14, 15, 16]).Split 4 (fun _ => true) 0 =
        (some ⟨5, [15, 16]⟩, ⟨3, [13, 14]⟩, 2) ∧
      ∃ n, ((SliceExtent.mk 3 [13, 14, 15, 16]).Split 4 (fun _ => true) 0).1 = some n :=
  ⟨by decide, by decide, by decide,
    (Split_pieces ⟨3, [13, 14, 15, 16]⟩ 4 (fun _ => true) 0 (by decide) (by decide)).1 rfl rfl⟩

/-- C12: for an extent `e` and `e.start ≤ v < e.end`, when no allocation fails
`Split v` returns a piece, and `Merge` of that piece into the receiver succeeds and
yields `e` again: the same start and the same physical slices. -/
theorem Split_Merge (e : SliceExtent) (v : Nat) (ac : Nat → Bool) (t : Nat)
    (h1 : e.start ≤ v) (h2 : v < e.end_) (hac : ∀ k, ac k = true) :
    ∃ n, (e.Split v ac t).1 = some n ∧
      (e.Split v ac t).2.1.end_ = n.start ∧
      ((e.Split v ac t).2.1.Merge n ac (e.Split v ac t).2.2).1 = true ∧
      ((e.Split v ac t).2.1.Merge n ac (e.Split v ac t).2.2).2.1 = e := by
  rw [Split_eq e v ac t h1 h2 (hac _) (hac _)]
  refine ⟨_, rfl, ?_, ?_⟩
  · have hk : v + 1 - e.start ≤ e.pslices.length := by
      unfold start end_ at *; omega
    simp only [end_, start, List.length_take, Nat.min_eq_left hk]
    unfold start at *; omega
  · rw [Merge_eq _ _ ac _ (hac _)]
    simp only [List.take_append_drop, true_and]

/-- Example for C12: splitting the extent `[3, 7)` at virtual slice 4 and merging the
pieces `[3, 5)` and `[5, 7)`. -/
theorem Split_Merge_witness :
    (SliceExtent.mk 3 [13, 14, 15, 16]).start ≤ 4 ∧ 4 < (SliceExtent.mk 3 [13, 14, 15, 16]).end_ ∧
      (SliceExtent.mk 3 [13, 14]).Merge ⟨5, [15, 16]⟩ (fun _ => true) 2 =
        (true, ⟨3, [13, 14, 15, 16]⟩, 3) ∧
      ∃ n, ((SliceExtent.mk 3 [13, 14, 15, 16]).Split 4 (fun _ => true) 0).1 = some n ∧
        ((SliceExtent.mk 3 [13, 14, 15, 16]).Split 4 (fun _ => true) 0).2.1.end_ = n.start ∧
        (((SliceExtent.mk 3 [13, 14, 15, 16]).Split 4 (fun _ => true) 0).2.1.Merge n
          (fun _ => true) ((SliceExtent.mk 3 [13, 14, 15, 16]).Split 4 (fun _ => true) 0).2.2).1 =
            true ∧
        (((SliceExtent.mk 3 [13, 14, 15, 16]).Split 4 (fun _ => true) 0).2.1.Merge n
          (fun _ => true) ((SliceExtent.mk 3 [13, 14, 15, 16]).Split 4 (fun _ => true) 0).2.2).2.1 =
            ⟨3, [13, 14, 15, 16]⟩ :=
  ⟨by decide, by decide, by decide,
    Split_Merge ⟨3, [13, 14, 15, 16]⟩ 4 (fun _ => true) 0 (by decide) (by decide) (fun _ => rfl)⟩

end SliceExtent

namespace VPartitionManager
open SliceMap VPartition

/-- C13, the claim fails: in a metadata image without partitions whose slot 1 names
partition 2 and virtual slice 0, `Load` succeeds and publishes no partition, so the
slot is not free and yet no loaded partition maps virtual slice 0 to physical slice 1. -/
theorem Load_orphan_slot :
    (Load env_ok (fun _ => ZX_OK) params_small mgr_orphan 0).map
        (fun r => (r.1, r.2.2.1, r.2.1.slice_table 1)) = some (ZX_OK, [], ⟨2, 0⟩) ∧
    (∀ i, i < params_small.FVM_MAX_ENTRIES → (mgr_orphan.vpart_table i).slices = 0) := by
  decide

/-- C13, amended: when `Load` succeeds on a metadata image in which no two allocated
slots of `1..pslice_count` name the same partition and virtual slice, no allocation
failing, then for every published partition and virtual slice `v` with a lookup
`p ≠ FREE` the slot `p` is one of `1..pslice_count` and names the partition and `v`, and
conversely every allocated slot `p` of `1..pslice_count` that names a published
partition and a virtual slice `v` is the lookup of `v` in that partition. -/
theorem Load_coherent (env : Env) (ddk_add : Nat → zx_status_t) (P : Params)
    (mgr : VPartitionManager) (t : Nat) (hac : ∀ k, env.ac k = true)
    (hnd : mgr.NoDuplicates P.pslice_count)
    (hok : (Load env ddk_add P mgr t).map (fun r => r.1) = some ZX_OK) :
    ∃ r, Load env ddk_add P mgr t = some r ∧
      (∀ vp ∈ r.2.2.1, ∀ v, vp.SliceGetLocked v ≠ PSLICE_UNALLOCATED →
        1 ≤ vp.SliceGetLocked v ∧ vp.SliceGetLocked v ≤ P.pslice_count ∧
        r.2.1.slice_table (vp.SliceGetLocked v) = ⟨vp.entry_index, v⟩) ∧
      (∀ p, 1 ≤ p → p ≤ P.pslice_count → (r.2.1.slice_table p).vpart ≠ PSLICE_UNALLOCATED →
        ∀ vp ∈ r.2.2.1, vp.entry_index = (r.2.1.slice_table p).vpart →
          vp.SliceGetLocked (r.2.1.slice_table p).vslice = p) := by
  have hcoh : ∀ r, Load env ddk_add P mgr t = some r →
      ∀ vp ∈ r.2.2.1, Coherent P.pslice_count r.2.1 vp := by
    intro r hr
    unfold Load at hr
    by_cases hN : P.pslice_count ≥ 2 ^ 32 - 1
    · rw [if_pos hN] at hr
      exact absurd hr (by simp)
    · rw [if_neg hN] at hr
      cases hc : Load_create P mgr env.ac (P.FVM_MAX_ENTRIES - 1) 1 (fun _ => none) t with
      | mk st rest =>
        obtain ⟨parts, t1⟩ := rest
        rw [hc] at hr
        cases st with
        | some s =>
          simp only [Option.some.injEq] at hr
          rw [← hr]
          intro vp hvp
          exact absurd hvp (by simp)
        | none =>
          simp only at hr
          have hA := Load_create_spec P mgr env.ac _ 1 _ t parts t1 hc (le_refl _)
            (fun k vp hk => absurd hk (by simp))
          cases hf : Load_fill P mgr env.ac P.pslice_count 1 parts t1 with
          | none => rw [hf] at hr; exact absurd hr (by simp)
          | some res =>
            obtain ⟨parts1, t2⟩ := res
            rw [hf] at hr
            simp only at hr
            have hB := Load_fill_spec P mgr env.ac hac P.pslice_count 1 parts t1 parts1 t2 hf
              (le_refl _) (by rw [Nat.add_sub_cancel_left]; exact hnd)
              (fun k vp hk => by
                obtain ⟨a1, a2, _⟩ := hA k vp hk
                subst a1
                refine ⟨a2, rfl, rfl,
                  ⟨List.Pairwise.nil, by simp [NonEmpty], by simp [NonZero]⟩, ?_⟩
                intro v p hp
                constructor
                · intro h0
                  have : (0 : Nat) = p := h0
                  exact absurd this.symm hp
                · rintro ⟨b1, b2, _⟩
                  omega)
            cases he : Load_expose env ddk_add P parts1 P.FVM_MAX_ENTRIES 0 mgr [] t2 with
            | none => rw [he] at hr; exact absurd hr (by simp)
            | some res2 =>
              obtain ⟨mgr1, exposed, t3⟩ := res2
              rw [he] at hr
              simp only [Option.some.injEq] at hr
              rw [← hr]
              intro vp hvp
              have hC := Load_expose_spec env ddk_add P P.pslice_count parts1 P.FVM_MAX_ENTRIES 0
                mgr [] t2 mgr1 exposed t3 he
                (fun k vp hk hp => by
                  obtain ⟨a1, a2, a3, a4, a5⟩ := hB k vp hp
                  refine ⟨a1, a2, a3, a4, ?_⟩
                  intro v p hpne
                  rw [a5 v p hpne, a2]
                  constructor
                  · rintro ⟨b1, b2, b3⟩
                    exact ⟨b1, by omega, b3⟩
                  · rintro ⟨b1, b2, b3⟩
                    exact ⟨b1, by omega, b3⟩)
                (fun vp hvp => absurd hvp (by simp)) vp hvp
              exact hC.2.2.2
  cases hL : Load env ddk_add P mgr t with
  | none => rw [hL] at hok; exact absurd hok (by simp)
  | some r =>
    refine ⟨r, rfl, ?_, ?_⟩
    · intro vp hvp v hne
      exact (hcoh r hL vp hvp v _ hne).mp rfl
    · intro p h1 h2 _ vp hvp hidx
      have hpne : p ≠ PSLICE_UNALLOCATED := by unfold PSLICE_UNALLOCATED; omega
      apply (hcoh r hL vp hvp _ p hpne).mpr
      refine ⟨h1, h2, ?_⟩
      rw [hidx]

/-- Example for C13: `Load` of an image with an active partition of three slices and an
inactive partition of two slices; the first one is published and the slots of the second
one are freed. -/
theorem Load_coherent_witness :
    mgr_image.NoDuplicates params_small.pslice_count ∧
      (Load env_ok (fun _ => ZX_OK) params_small mgr_image 0).map
        (fun r => (r.1, r.2.2.1.map (fun vp => (vp.entry_index, vp.slice_map)),
          (List.range 7).map (fun p => r.2.1.slice_table p))) =
        some (ZX_OK, [(1, [⟨0, [1, 2]⟩, ⟨7, [5]⟩])],
          [⟨0, 0⟩, ⟨1, 0⟩, ⟨1, 1⟩, ⟨0, 0⟩, ⟨0, 1⟩, ⟨1, 7⟩, ⟨0, 0⟩]) ∧
      ∃ r, Load env_ok (fun _ => ZX_OK) params_small mgr_image 0 = some r ∧
        (∀ vp ∈ r.2.2.1, ∀ v, vp.SliceGetLocked v ≠ PSLICE_UNALLOCATED →
          1 ≤ vp.SliceGetLocked v ∧ vp.SliceGetLocked v ≤ params_small.pslice_count ∧
          r.2.1.slice_table (vp.SliceGetLocked v) = ⟨vp.entry_index, v⟩) ∧
        (∀ p, 1 ≤ p → p ≤ params_small.pslice_count →
          (r.2.1.slice_table p).vpart ≠ PSLICE_UNALLOCATED →
          ∀ vp ∈ r.2.2.1, vp.entry_index = (r.2.1.slice_table p).vpart →
            vp.SliceGetLocked (r.2.1.slice_table p).vslice = p) :=
  ⟨by decide, by decide,
    Load_coherent env_ok (fun _ => ZX_OK) params_small mgr_image 0 (fun _ => rfl) (by decide)
      (by decide)⟩

end VPartitionManager

namespace VPartitionManager
open SliceMap VPartition

/-- C14, the claim fails: `FVM_ALLOC` creates partition 1 with 3 slices and the field
`slices` of its entry is 3; after a successful `AllocateSlices(vp, 5, 1)` (extend) the
extents hold 4 virtual slices, and after a successful `FreeSlices(vp, 1, 1)` (shrink)
they hold 2, while the field `slices` is still 3. -/
theorem slices_field_not_maintained :
    alloc_one.1 = ZX_OK ∧ alloc_one.2.2.1 = some world_one.vp ∧
    world_one.vp.entry_index = 1 ∧ world_one.vp.killed = false ∧
    world_one.vp.slice_map.total_slices = 3 ∧
    (AllocateSlices env_ok world_one 5 1).1 = ZX_OK ∧
    (AllocateSlices env_ok world_one 5 1).2.vp.slice_map.total_slices = 4 ∧
    ((AllocateSlices env_ok world_one 5 1).2.mgr.vpart_table 1).slices = 3 ∧
    (FreeSlices env_ok world_one 1 1).map
        (fun r => (r.1, r.2.vp.slice_map.total_slices, (r.2.mgr.vpart_table 1).slices)) =
      some (ZX_OK, 2, 3) := by
  decide

/-- C14, amended: after a successful `FVM_ALLOC` the extents of the partition that it
publishes hold as many virtual slices as the field `slices` of its partition entry
says, namely the `slice_count` of the request; `AllocateSlices` (extend) and
`FreeSlices` with `vslice_start > 0` (shrink) leave the partition table, and with it the
field `slices`, as it was. -/
theorem FVM_ALLOC_slices (env : Env) (ddk_add : Nat → zx_status_t) (P : Params)
    (mgr : VPartitionManager) (t : Nat) (cmd : Option alloc_req_t)
    (hus : mgr.usable_slices < 2 ^ 32)
    (hok : (DdkIoctl_FVM_ALLOC env ddk_add P mgr t cmd).1 = ZX_OK) :
    (∃ request vp, cmd = some request ∧
      (DdkIoctl_FVM_ALLOC env ddk_add P mgr t cmd).2.2.1 = some vp ∧ vp.killed = false ∧
      vp.slice_map.total_slices =
        ((DdkIoctl_FVM_ALLOC env ddk_add P mgr t cmd).2.1.vpart_table vp.entry_index).slices ∧
      vp.slice_map.total_slices = request.slice_count) ∧
    (∀ (env1 : Env) (w : World) (vslice_start count : Nat),
      (AllocateSlices env1 w vslice_start count).2.mgr.vpart_table = w.mgr.vpart_table) ∧
    (∀ (env1 : Env) (w : World) (vslice_start count : Nat) (r : zx_status_t × World),
      0 < vslice_start → FreeSlices env1 w vslice_start count = some r →
      r.2.mgr.vpart_table = w.mgr.vpart_table) := by
  refine ⟨?_, fun env1 w vs count => AllocateSlicesLocked_vpart_table env1 w vs count,
    fun env1 w vs count r hs h => FreeSlicesLocked_vpart_table env1 w vs count r hs h⟩
  obtain ⟨request, hcmd, hpos, hlt, _, _, hA, hmgr, hvp⟩ :=
    DdkIoctl_FVM_ALLOC_ok env ddk_add P mgr t cmd hok
  have hmax : VSLICE_MAX = 4294967295 := rfl
  have hv0 : Valid ([] : SliceMap) :=
    ⟨List.Pairwise.nil, by simp [NonEmpty], by simp [NonZero]⟩
  obtain ⟨_, hval, hin, hout, _⟩ := AllocateSlicesLocked_ok env _ 0 request.slice_count hv0
    (by omega) hus hA
  obtain ⟨hidx, hkilled, _, _⟩ := AllocateSlicesLocked_ok_fields env _ 0 request.slice_count hv0
    (by omega) hus hA
  have htot := total_slices_of_range _ 0 request.slice_count hval (by
    intro v
    rw [← SliceGetLocked_eq_sum _ v hval.1]
    constructor
    · intro hne
      by_contra hc
      have := hout v (Or.inr (by omega))
      exact hne this
    · intro hv
      exact hin v (by omega) (by omega))
  refine ⟨request, _, hcmd, hvp, hkilled, ?_, htot⟩
  rw [htot, hmgr, AllocateSlicesLocked_vpart_table, hidx]
  simp only [set_vpart_entry, if_true, vpart_entry_t.init]
  exact (Nat.mod_eq_of_lt (by omega)).symm

/-- Example for C14: `FVM_ALLOC` of a partition of 3 slices. -/
theorem FVM_ALLOC_slices_witness :
    mgr_empty.usable_slices < 2 ^ 32 ∧ alloc_one.1 = ZX_OK ∧
      alloc_one.2.2.1.map (fun vp => (vp.entry_index, vp.slice_map)) =
        some (1, [⟨0, [1, 2, 3]⟩]) ∧
      (alloc_one.2.1.vpart_table 1).slices = 3 ∧
      ∃ request vp, some (alloc_req_t.mk 3 [1] [7] [112] 0) = some request ∧
        alloc_one.2.2.1 = some vp ∧ vp.killed = false ∧
        vp.slice_map.total_slices = (alloc_one.2.1.vpart_table vp.entry_index).slices ∧
        vp.slice_map.total_slices = request.slice_count :=
  ⟨by decide, by decide, by decide, by decide,
    (FVM_ALLOC_slices env_ok (fun _ => ZX_OK) params_small mgr_empty 0
      (some ⟨3, [1], [7], [112], 0⟩) (by decide) (by decide)).1⟩

end VPartitionManager

namespace VPartitionManager

/-- C15: a call of `WriteFvmLocked` whose transaction is allocated hands exactly one
write to the device, the metadata buffer with its generation incremented, at byte offset
`M` (the metadata size) when the first copy is primary and at offset 0 otherwise, that is
to the copy that is not primary, and returns the status of that write; it flips
`first_metadata_is_primary_` when the write succeeds and leaves it unchanged when the
write fails. A call whose transaction cannot be allocated writes nothing, returns that
error and leaves the flag unchanged. So the call returns `ZX_OK` exactly when it made a
write that succeeded, and the flag is flipped exactly then. -/
theorem WriteFvmLocked_offset_flip (env : Env) (mgr : VPartitionManager) (t : Nat) :
    (env.iotxn_alloc t = ZX_OK →
      (WriteFvmLocked env mgr t).1 = env.iotxn_status (t + 1) ∧
      (WriteFvmLocked env mgr t).2.1.writes =
        ⟨if mgr.first_metadata_is_primary then mgr.metadata_size else 0,
          (mgr.generation + 1) % 2 ^ 64, env.iotxn_status (t + 1)⟩ :: mgr.writes ∧
      (env.iotxn_status (t + 1) = ZX_OK →
        (WriteFvmLocked env mgr t).2.1.first_metadata_is_primary =
          !mgr.first_metadata_is_primary) ∧
      (env.iotxn_status (t + 1) ≠ ZX_OK →
        (WriteFvmLocked env mgr t).2.1.first_metadata_is_primary =
          mgr.first_metadata_is_primary)) ∧
    (env.iotxn_alloc t ≠ ZX_OK →
      (WriteFvmLocked env mgr t).1 = env.iotxn_alloc t ∧
      (WriteFvmLocked env mgr t).2.1.writes = mgr.writes ∧
      (WriteFvmLocked env mgr t).2.1.first_metadata_is_primary =
        mgr.first_metadata_is_primary) ∧
    ((WriteFvmLocked env mgr t).1 = ZX_OK ↔
      env.iotxn_alloc t = ZX_OK ∧ env.iotxn_status (t + 1) = ZX_OK) ∧
    ((WriteFvmLocked env mgr t).2.1.first_metadata_is_primary =
        (!mgr.first_metadata_is_primary) ↔
      (WriteFvmLocked env mgr t).1 = ZX_OK) := by
  have hb : ∀ b : Bool, b ≠ !b := by decide
  by_cases h : env.iotxn_alloc t = ZX_OK
  · by_cases hs : env.iotxn_status (t + 1) = ZX_OK
    · rw [WriteFvmLocked_written env mgr t h hs]
      exact ⟨fun _ => ⟨hs.symm, rfl, fun _ => rfl, fun h1 => absurd hs h1⟩,
        fun h1 => absurd h h1, ⟨fun _ => ⟨h, hs⟩, fun _ => rfl⟩, ⟨fun _ => rfl, fun _ => rfl⟩⟩
    · rw [WriteFvmLocked_failed env mgr t h hs]
      exact ⟨fun _ => ⟨rfl, rfl, fun h1 => absurd h1 hs, fun _ => rfl⟩,
        fun h1 => absurd h h1, ⟨fun h1 => absurd h1 hs, fun h1 => absurd h1.2 hs⟩,
        ⟨fun h1 => absurd h1 (hb _), fun h1 => absurd h1 hs⟩⟩
  · rw [WriteFvmLocked_no_txn env mgr t h]
    exact ⟨fun h1 => absurd h1 h, fun _ => ⟨rfl, rfl, rfl⟩,
      ⟨fun h1 => absurd h1 h, fun h1 => absurd h1.1 h⟩,
      ⟨fun h1 => absurd h1 (hb _), fun h1 => absurd h1 h⟩⟩

/-- Example for C15: on the manager `mgr_empty` (metadata of 8192 bytes, generation 7,
first copy primary) a commit writes at offset 8192 and flips the flag; the commit after
it writes at offset 0; a commit whose write fails with `ZX_ERR_IO` writes at offset 8192
and keeps the flag; a commit without a transaction writes nothing. -/
theorem WriteFvmLocked_offset_flip_witness :
    ((WriteFvmLocked env_ok mgr_empty 0).1 = ZX_OK ∧
      (WriteFvmLocked env_ok mgr_empty 0).2.1.writes = [⟨8192, 8, ZX_OK⟩] ∧
      (WriteFvmLocked env_ok mgr_empty 0).2.1.first_metadata_is_primary = false) ∧
    ((WriteFvmLocked env_ok (WriteFvmLocked env_ok mgr_empty 0).2.1 2).1 = ZX_OK ∧
      (WriteFvmLocked env_ok (WriteFvmLocked env_ok mgr_empty 0).2.1 2).2.1.writes =
        [⟨0, 9, ZX_OK⟩, ⟨8192, 8, ZX_OK⟩] ∧
      (WriteFvmLocked env_ok
        (WriteFvmLocked env_ok mgr_empty 0).2.1 2).2.1.first_metadata_is_primary = true) ∧
    ((WriteFvmLocked env_write_fails mgr_empty 0).1 = ZX_ERR_IO ∧
      (WriteFvmLocked env_write_fails mgr_empty 0).2.1.writes = [⟨8192, 8, ZX_ERR_IO⟩] ∧
      (WriteFvmLocked env_write_fails mgr_empty 0).2.1.first_metadata_is_primary = true) ∧
    ((WriteFvmLocked env_no_txn mgr_empty 0).1 = ZX_ERR_NO_MEMORY ∧
      (WriteFvmLocked env_no_txn mgr_empty 0).2.1.writes = [] ∧
      (WriteFvmLocked env_no_txn mgr_empty 0).2.1.first_metadata_is_primary = true) :=
  ⟨⟨((WriteFvmLocked_offset_flip env_ok mgr_empty 0).1 (by decide)).1,
      ((WriteFvmLocked_offset_flip env_ok mgr_empty 0).1 (by decide)).2.1,
      ((WriteFvmLocked_offset_flip env_ok mgr_empty 0).1 (by decide)).2.2.1 (by decide)⟩,
    ⟨((WriteFvmLocked_offset_flip env_ok (WriteFvmLocked env_ok mgr_empty 0).2.1 2).1
        (by decide)).1,
      ((WriteFvmLocked_offset_flip env_ok (WriteFvmLocked env_ok mgr_empty 0).2.1 2).1
        (by decide)).2.1,
      ((WriteFvmLocked_offset_flip env_ok (WriteFvmLocked env_ok mgr_empty 0).2.1 2).1
        (by decide)).2.2.1 (by decide)⟩,
    ⟨((WriteFvmLocked_offset_flip env_write_fails mgr_empty 0).1 (by decide)).1,
      ((WriteFvmLocked_offset_flip env_write_fails mgr_empty 0).1 (by decide)).2.1,
      ((WriteFvmLocked_offset_flip env_write_fails mgr_empty 0).1 (by decide)).2.2.2
        (by decide)⟩,
    (WriteFvmLocked_offset_flip env_no_txn mgr_empty 0).2.1 (by decide)⟩

/-- C16: on a disk of two metadata regions where a failed write leaves arbitrary content
in its target, starting from a state whose primary region holds the complete image
`committed`, after any sequence of commits, each succeeding or failing, the region that
`first_metadata_is_primary_` designates holds the image of the most recent successful
commit (the initial image when none succeeded); and a commit leaves the region that is
primary at the time of the call as it is. -/
theorem run_commits_primary (env : Env) (torn : Nat → Option MetadataImage)
    (steps : List ((Nat → vpart_entry_t) × (Nat → slice_entry_t))) (s : CommitState)
    (hM : 0 < s.mgr.metadata_size)
    (hp : s.disk.primary s.mgr.first_metadata_is_primary = some s.committed) :
    (run_commits env torn steps s).disk.primary
        (run_commits env torn steps s).mgr.first_metadata_is_primary =
      some (run_commits env torn steps s).committed ∧
    ∀ (mgr : VPartitionManager) (d : Disk) (t : Nat), 0 < mgr.metadata_size →
      (Commit env torn mgr d t).2.2.1.primary mgr.first_metadata_is_primary =
        d.primary mgr.first_metadata_is_primary := by
  constructor
  · induction steps generalizing s with
    | nil => exact hp
    | cons step rest ih =>
      rw [run_commits]
      by_cases h : env.iotxn_alloc s.tick = ZX_OK
      · by_cases hs : env.iotxn_status (s.tick + 1) = ZX_OK
        · rw [Commit_written env torn _ _ _ h hs, WriteFvmLocked_written env _ _ h hs]
          apply ih
          · exact hM
          · simp only [if_true, BackupOffsetLocked]
            exact Disk.primary_write_flip _ _ _ _ hM
        · rw [Commit_failed env torn _ _ _ h hs, WriteFvmLocked_failed env _ _ h hs]
          apply ih
          · exact hM
          · simp only [if_neg hs, BackupOffsetLocked]
            rw [Disk.primary_write_backup _ _ _ _ hM]
            exact hp
      · rw [Commit_no_txn env torn _ _ _ h]
        apply ih
        · exact hM
        · simp only [if_neg h]
          exact hp
  · intro mgr d t hM1
    by_cases h : env.iotxn_alloc t = ZX_OK
    · by_cases hs : env.iotxn_status (t + 1) = ZX_OK
      · rw [Commit_written env torn _ _ _ h hs]
        exact Disk.primary_write_backup _ _ _ _ hM1
      · rw [Commit_failed env torn _ _ _ h hs]
        exact Disk.primary_write_backup _ _ _ _ hM1
    · rw [Commit_no_txn env torn _ _ _ h]

/-- Example for C16: three commits of which the second one fails; the primary region
holds the image of the third one, of generation 10. -/
theorem run_commits_primary_witness :
    0 < mgr_empty.metadata_size ∧
      (run_commits env_second_write_fails (fun _ => none)
        [(mgr_empty.vpart_table, mgr_empty.slice_table),
          (mgr_empty.vpart_table, mgr_empty.slice_table),
          (mgr_empty.vpart_table, mgr_empty.slice_table)]
        ⟨mgr_empty, ⟨some mgr_empty.image, none⟩, 0, mgr_empty.image⟩).committed.generation =
          10 ∧
      (run_commits env_second_write_fails (fun _ => none)
        [(mgr_empty.vpart_table, mgr_empty.slice_table),
          (mgr_empty.vpart_table, mgr_empty.slice_table),
          (mgr_empty.vpart_table, mgr_empty.slice_table)]
        ⟨mgr_empty, ⟨some mgr_empty.image, none⟩, 0, mgr_empty.image⟩).mgr.writes =
          [⟨0, 10, ZX_OK⟩, ⟨0, 9, ZX_ERR_IO⟩, ⟨8192, 8, ZX_OK⟩] ∧
      (run_commits env_second_write_fails (fun _ => none)
        [(mgr_empty.vpart_table, mgr_empty.slice_table),
          (mgr_empty.vpart_table, mgr_empty.slice_table),
          (mgr_empty.vpart_table, mgr_empty.slice_table)]
        ⟨mgr_empty, ⟨some mgr_empty.image, none⟩, 0, mgr_empty.image⟩).disk.primary
          (run_commits env_second_write_fails (fun _ => none)
            [(mgr_empty.vpart_table, mgr_empty.slice_table),
              (mgr_empty.vpart_table, mgr_empty.slice_table),
              (mgr_empty.vpart_table, mgr_empty.slice_table)]
            ⟨mgr_empty, ⟨some mgr_empty.image, none⟩, 0,
              mgr_empty.image⟩).mgr.first_metadata_is_primary =
        some (run_commits env_second_write_fails (fun _ => none)
          [(mgr_empty.vpart_table, mgr_empty.slice_table),
            (mgr_empty.vpart_table, mgr_empty.slice_table),
            (mgr_empty.vpart_table, mgr_empty.slice_table)]
          ⟨mgr_empty, ⟨some mgr_empty.image, none⟩, 0, mgr_empty.image⟩).committed :=
  ⟨by decide, by decide, by decide,
    (run_commits_primary env_second_write_fails (fun _ => none)
      [(mgr_empty.vpart_table, mgr_empty.slice_table),
        (mgr_empty.vpart_table, mgr_empty.slice_table),
        (mgr_empty.vpart_table, mgr_empty.slice_table)]
      ⟨mgr_empty, ⟨some mgr_empty.image, none⟩, 0, mgr_empty.image⟩ (by decide) rfl).1⟩

/-- C17, the claim fails: a call of `WriteFvmLocked` that cannot allocate its transaction
returns `ZX_ERR_NO_MEMORY` and leaves the generation as it was, so not every commit
attempt increments it. -/
theorem generation_kept_without_txn :
    (WriteFvmLocked env_no_txn mgr_empty 0).1 = ZX_ERR_NO_MEMORY ∧
      (WriteFvmLocked env_no_txn mgr_empty 0).2.1.generation = mgr_empty.generation ∧
      (WriteFvmLocked env_no_txn mgr_empty 0).2.1.generation ≠ mgr_empty.generation + 1 := by
  decide

/-- C17, amended: while the generation is below `2^64 - 1`, a call of `WriteFvmLocked`
that obtains its transaction increments the generation by exactly one and writes an
image of that generation, whether the write succeeds or not; a call that does not
obtain its transaction leaves the generation as it was; the generation never decreases.
When the primary region holds an image whose generation is at most the one of the
buffer, a successful commit makes primary an image of a strictly greater generation,
and after any commit the generation of the primary image is still at most the one of
the buffer. -/
theorem WriteFvmLocked_generation (env : Env) (torn : Nat → Option MetadataImage)
    (mgr : VPartitionManager) (d : Disk) (t : Nat) (img : MetadataImage)
    (hgen : mgr.generation < 2 ^ 64 - 1) (hM : 0 < mgr.metadata_size)
    (hp : d.primary mgr.first_metadata_is_primary = some img)
    (hle : img.generation ≤ mgr.generation) :
    (env.iotxn_alloc t = ZX_OK →
      (WriteFvmLocked env mgr t).2.1.generation = mgr.generation + 1 ∧
      ∃ w, (WriteFvmLocked env mgr t).2.1.writes = w :: mgr.writes ∧
        w.generation = mgr.generation + 1) ∧
    (env.iotxn_alloc t ≠ ZX_OK →
      (WriteFvmLocked env mgr t).2.1.generation = mgr.generation ∧
      (WriteFvmLocked env mgr t).2.1.writes = mgr.writes) ∧
    mgr.generation ≤ (WriteFvmLocked env mgr t).2.1.generation ∧
    (∃ img1, (Commit env torn mgr d t).2.2.1.primary
        (Commit env torn mgr d t).2.1.first_metadata_is_primary = some img1 ∧
      img1.generation ≤ (Commit env torn mgr d t).2.1.generation ∧
      ((Commit env torn mgr d t).1 = ZX_OK →
        img1.generation = mgr.generation + 1 ∧ img.generation < img1.generation)) := by
  have hmod : (mgr.generation + 1) % 2 ^ 64 = mgr.generation + 1 :=
    Nat.mod_eq_of_lt (by omega)
  by_cases h : env.iotxn_alloc t = ZX_OK
  · by_cases hs : env.iotxn_status (t + 1) = ZX_OK
    · rw [Commit_written env torn _ _ _ h hs, WriteFvmLocked_written env mgr t h hs]
      refine ⟨fun _ => ⟨hmod, _, rfl, hmod⟩, fun h1 => absurd h h1, ?_, ?_⟩
      · simp only [hmod]; omega
      · refine ⟨_, Disk.primary_write_flip _ _ _ _ hM, ?_, fun _ => ⟨?_, ?_⟩⟩
        · exact le_refl _
        · exact hmod
        · simp only [image, hmod]; omega
    · rw [Commit_failed env torn _ _ _ h hs, WriteFvmLocked_failed env mgr t h hs]
      refine ⟨fun _ => ⟨hmod, _, rfl, hmod⟩, fun h1 => absurd h h1, ?_, ?_⟩
      · simp only [hmod]; omega
      · refine ⟨img, ?_, ?_, fun h1 => absurd h1 hs⟩
        · simp only [BackupOffsetLocked]
          rw [Disk.primary_write_backup _ _ _ _ hM]
          exact hp
        · simp only [hmod]; omega
  · rw [Commit_no_txn env torn _ _ _ h, WriteFvmLocked_no_txn env mgr t h]
    exact ⟨fun h1 => absurd h1 h, fun _ => ⟨rfl, rfl⟩, le_refl _, img, hp, hle,
      fun h1 => absurd h1 h⟩

/-- Example for C17: a successful commit from generation 7 with the first copy primary. -/
theorem WriteFvmLocked_generation_witness :
    mgr_empty.generation < 2 ^ 64 - 1 ∧ 0 < mgr_empty.metadata_size ∧
      (Commit env_ok (fun _ => none) mgr_empty ⟨some mgr_empty.image, none⟩ 0).1 = ZX_OK ∧
      (WriteFvmLocked env_ok mgr_empty 0).2.1.generation = 8 ∧
      (WriteFvmLocked env_ok mgr_empty 0).2.1.generation = mgr_empty.generation + 1 :=
  ⟨by decide, by decide, by decide, by decide,
    ((WriteFvmLocked_generation env_ok (fun _ => none) mgr_empty ⟨some mgr_empty.image, none⟩ 0
      mgr_empty.image (by decide) (by decide) rfl (le_refl _)).1 rfl).1⟩

end VPartitionManager

namespace VPartitionManager

/-- C18, evaluated at two failing inputs. A partition owns the virtual slices 1 to 4 and
`FreeSlices(vp, 2, 1)` is called with the metadata write failing: the call returns
`ZX_ERR_IO`, yet virtual slice 2 stays free in the slice map and the slot of physical
slice 2 stays marked free. The partition entries 1 (active, GUID 7) and 2 (inactive,
GUID 8) exist and `Upgrade(7, 8)` is called with the metadata write failing: the call
returns `ZX_ERR_IO`, yet entry 1 stays inactive and entry 2 stays active. -/
theorem commit_failure_not_rolled_back :
    world_four.vp.slice_map = [⟨1, [1, 2, 3, 4]⟩] ∧
    (world_four.mgr.slice_table 2).vpart = 1 ∧
    (FreeSlices env_write_fails world_four 2 1).map
        (fun r => (r.1, r.2.vp.slice_map, (r.2.mgr.slice_table 2).vpart)) =
      some ( ZX_ERR_IO, [⟨1, [1]⟩, ⟨3, [3, 4]⟩], 0) ∧
    alloc_one.1 = ZX_OK ∧ alloc_two.1 = ZX_OK ∧
    (List.range 4).map (fun i =>
        ((alloc_two.2.1.vpart_table i).slices, (alloc_two.2.1.vpart_table i).flags)) =
      [(0, 0), (3, 0), (2, 1), (0, 0)] ∧
    (Upgrade env_write_fails params_small alloc_two.2.1 alloc_two.2.2.2 [7] [8]).1 =
      ZX_ERR_IO ∧
    (List.range 4).map (fun i =>
        (((Upgrade env_write_fails params_small alloc_two.2.1 alloc_two.2.2.2
            [7] [8]).2.1.vpart_table i).slices,
          ((Upgrade env_write_fails params_small alloc_two.2.1 alloc_two.2.2.2
            [7] [8]).2.1.vpart_table i).flags)) =
      [(0, 0), (3, 1), (2, 0), (0, 0)] := by
  decide

end VPartitionManager

namespace VPartitionManager
open SliceMap VPartition

/-- C19: `FreeSlices(vp, 0, VSLICE_MAX)` on a live partition with a well-formed slice map,
the sync succeeding, returns with the slice map of the partition empty, the partition
`Killed`, its partition entry cleared (`slices == 0`) and the other entries as they
were, the slot of every physical slice that the partition mapped marked free
(`vpart == 0`) and every other slot as it was, so also every slot of another owner when
the slots that the partition maps name it as owner. The block count is 0 afterwards when
it was the number of slices times the blocks per slice of a block-aligned slice size. -/
theorem FreeSlices_destroy (env : Env) (w : World)
    (hk : w.vp.killed = false) (hsync : env.sync w.tick = ZX_OK)
    (hv : Valid w.vp.slice_map) (hbs : 0 < w.vp.block_size)
    (hdiv : w.vp.block_size ∣ w.vp.slice_size)
    (hover : w.vp.slice_map.total_slices * w.vp.slice_size < 2 ^ 64)
    (hbc : w.vp.block_count =
      w.vp.slice_map.total_slices * (w.vp.slice_size / w.vp.block_size)) :
    ∃ st W, FreeSlices env w 0 VSLICE_MAX = some (st, W) ∧
      W.vp.slice_map = [] ∧ W.vp.block_count = 0 ∧ W.vp.killed = true ∧
      W.mgr.vpart_table w.vp.entry_index = (w.mgr.vpart_table w.vp.entry_index).clear ∧
      (W.mgr.vpart_table w.vp.entry_index).slices = 0 ∧
      (∀ i, i ≠ w.vp.entry_index → W.mgr.vpart_table i = w.mgr.vpart_table i) ∧
      (∀ v, w.vp.SliceGetLocked v ≠ PSLICE_UNALLOCATED →
        (W.mgr.slice_table (w.vp.SliceGetLocked v)).vpart = 0) ∧
      (∀ p, (∀ v, w.vp.SliceGetLocked v = p → p = PSLICE_UNALLOCATED) →
        W.mgr.slice_table p = w.mgr.slice_table p) ∧
      ((∀ v, w.vp.SliceGetLocked v ≠ PSLICE_UNALLOCATED →
          (w.mgr.slice_table (w.vp.SliceGetLocked v)).vpart = w.vp.entry_index) →
        ∀ p, (w.mgr.slice_table p).vpart ≠ w.vp.entry_index →
          W.mgr.slice_table p = w.mgr.slice_table p) := by
  obtain ⟨st, W, hW, h1, h2, _, h4, h5, h6⟩ :=
    FreeSlices_zero_spec env w VSLICE_MAX hk hsync (le_refl _) hv
  have hfree : ∀ p, (∀ v, w.vp.SliceGetLocked v = p → p = PSLICE_UNALLOCATED) →
      W.mgr.slice_table p = w.mgr.slice_table p := by
    intro p hp
    have hn : p ∉ w.vp.slice_map.all_pslices := by
      intro hmem
      obtain ⟨v, hq, hne⟩ := (mem_all_pslices_iff w.vp p hv).mp hmem
      exact hne (hp v hq)
    rw [h4]
    simp only [hn, if_false]
  refine ⟨st, W, hW, h1, h6 hbs hdiv hover hbc, h2, ?_, ?_, ?_, ?_, hfree, ?_⟩
  · rw [h5]; simp only [if_true]
  · rw [h5]; simp only [if_true]; rfl
  · intro i hi
    rw [h5]; simp only [hi, if_false]
  · intro v hne
    have hmem := (mem_all_pslices_iff w.vp _ hv).mpr ⟨v, rfl, hne⟩
    rw [h4]
    simp only [hmem, if_true]
  · intro hco p hp
    apply hfree
    intro v hq
    by_contra hne
    have := hco v (by rw [hq]; exact hne)
    rw [hq] at this
    exact hp this

/-- Example for C19: destroying a partition that owns the virtual slices 1 to 4. -/
theorem FreeSlices_destroy_witness :
    (AllocateSlices env_ok world_empty 1 4).2.vp = vp_of [⟨1, [1, 2, 3, 4]⟩] ∧
      (FreeSlices env_ok (AllocateSlices env_ok world_empty 1 4).2 0 VSLICE_MAX).map
        (fun r => (r.1, r.2.vp, (List.range 6).map (fun p => (r.2.mgr.slice_table p).vpart))) =
          some (ZX_OK, ⟨1, [], 0, 512, 1048576, true⟩, [0, 0, 0, 0, 0, 0]) ∧
      ∃ st W, FreeSlices env_ok (AllocateSlices env_ok world_empty 1 4).2 0 VSLICE_MAX =
          some (st, W) ∧
        W.vp.slice_map = [] ∧ W.vp.block_count = 0 ∧ W.vp.killed = true :=
  ⟨by decide, by decide,
    match FreeSlices_destroy env_ok (AllocateSlices env_ok world_empty 1 4).2 (by decide)
      (by decide) (by decide) (by decide) (by decide) (by decide) (by decide) with
    | ⟨st, W, h, h1, h2, h3, _⟩ => ⟨st, W, h, h1, h2, h3⟩⟩

end VPartitionManager

namespace VPartitionManager

/-- C20: for a partition that is `Killed`, `AllocateSlices` and `FreeSlices` with a range
within `VSLICE_MAX` and `CheckSlices` with `v < VSLICE_MAX` return `ZX_ERR_BAD_STATE`,
and the manager, the partition and the number of interactions with the environment are
what they were: no table, map or generation changes and nothing is written. -/
theorem killed_bad_state (env : Env) (w : World) (vslice_start count v : Nat)
    (hk : w.vp.killed = true) (hrange : vslice_start + count ≤ VSLICE_MAX)
    (hv : v < VSLICE_MAX) :
    AllocateSlices env w vslice_start count = (ZX_ERR_BAD_STATE, w) ∧
      FreeSlices env w vslice_start count = some (ZX_ERR_BAD_STATE, w) ∧
      w.vp.CheckSlices v = .error ZX_ERR_BAD_STATE := by
  have hmax : VSLICE_MAX = 4294967295 := rfl
  have hsa : size_add vslice_start count = vslice_start + count := by
    rw [size_add, Nat.mod_eq_of_lt (by omega)]
  refine ⟨?_, ?_, ?_⟩
  · unfold AllocateSlices AllocateSlicesLocked
    rw [if_neg (by rw [hsa]; omega)]
    simp only [VPartition.IsKilledLocked, hk, if_true]
  · unfold FreeSlices FreeSlicesLocked
    rw [if_neg (by rw [hsa]; omega)]
    simp only [VPartition.IsKilledLocked, hk, if_true]
  · unfold VPartition.CheckSlices
    rw [if_neg (by omega)]
    simp only [VPartition.IsKilledLocked, hk, if_true]

/-- Example for C20: the calls on a killed partition that owns the virtual slices 1 to 4. -/
theorem killed_bad_state_witness :
    (vp_of [⟨1, [1, 2, 3, 4]⟩]).KillLocked.killed = true ∧
      (AllocateSlices env_ok ⟨mgr_empty, (vp_of [⟨1, [1, 2, 3, 4]⟩]).KillLocked, 0⟩ 5 2).1 =
        ZX_ERR_BAD_STATE ∧
      (FreeSlices env_ok ⟨mgr_empty, (vp_of [⟨1, [1, 2, 3, 4]⟩]).KillLocked, 0⟩ 5 2).map
        (fun r => (r.1, r.2.vp.slice_map, r.2.mgr.generation, r.2.tick)) =
          some (ZX_ERR_BAD_STATE, [⟨1, [1, 2, 3, 4]⟩], 7, 0) ∧
      AllocateSlices env_ok ⟨mgr_empty, (vp_of [⟨1, [1, 2, 3, 4]⟩]).KillLocked, 0⟩ 5 2 =
        (ZX_ERR_BAD_STATE, ⟨mgr_empty, (vp_of [⟨1, [1, 2, 3, 4]⟩]).KillLocked, 0⟩) :=
  ⟨rfl, by decide, by decide,
    (killed_bad_state env_ok ⟨mgr_empty, (vp_of [⟨1, [1, 2, 3, 4]⟩]).KillLocked, 0⟩ 5 2 3 rfl
      (by decide) (by decide)).1⟩

end VPartitionManager

/-! # The claims on the control interface and the block queue -/

namespace VPartitionManager
open SliceMap VPartition

/-- C21: `Upgrade(old_guid, new_guid)` returns `ZX_ERR_NOT_FOUND` with the manager as it
was and without an interaction with the environment (no partition entry modified, no
commit, generation and primary copy unchanged) exactly when no entry `1 ≤ i <
FVM_MAX_ENTRIES` has `slices != 0`, the flag `INACTIVE` and the GUID `new_guid`. When
such an entry exists the result is that of a commit, `WriteFvmLocked`; so, when the
commit does not itself report `ZX_ERR_NOT_FOUND`, the status is `ZX_ERR_NOT_FOUND`
exactly when no such entry exists. -/
theorem Upgrade_not_found (env : Env) (P : Params) (mgr : VPartitionManager) (t : Nat)
    (old_guid new_guid : List Nat) :
    (Upgrade env P mgr t old_guid new_guid = (ZX_ERR_NOT_FOUND, mgr, t) ↔
      ¬ ∃ i, i < P.FVM_MAX_ENTRIES ∧ 1 ≤ i ∧ (mgr.vpart_table i).slices ≠ 0 ∧
        Nat.land (mgr.vpart_table i).flags P.kVPartFlagInactive ≠ 0 ∧
        memcmp_eq P.GUID_LEN (mgr.vpart_table i).guid new_guid = true) ∧
    ((∃ i, i < P.FVM_MAX_ENTRIES ∧ 1 ≤ i ∧ (mgr.vpart_table i).slices ≠ 0 ∧
        Nat.land (mgr.vpart_table i).flags P.kVPartFlagInactive ≠ 0 ∧
        memcmp_eq P.GUID_LEN (mgr.vpart_table i).guid new_guid = true) →
      ∃ mgr2, Upgrade env P mgr t old_guid new_guid = WriteFvmLocked env mgr2 t) ∧
    (env.iotxn_alloc t ≠ ZX_ERR_NOT_FOUND → env.iotxn_status (t + 1) ≠ ZX_ERR_NOT_FOUND →
      ((Upgrade env P mgr t old_guid new_guid).1 = ZX_ERR_NOT_FOUND ↔
        ¬ ∃ i, i < P.FVM_MAX_ENTRIES ∧ 1 ≤ i ∧ (mgr.vpart_table i).slices ≠ 0 ∧
          Nat.land (mgr.vpart_table i).flags P.kVPartFlagInactive ≠ 0 ∧
          memcmp_eq P.GUID_LEN (mgr.vpart_table i).guid new_guid = true)) := by
  have hz := Upgrade_find_new_zero P mgr
    (if memcmp_eq P.GUID_LEN old_guid new_guid then none else some old_guid) new_guid
  have hU := Upgrade_eq env P mgr t old_guid new_guid _ rfl
  generalize Upgrade_find P mgr
    (if memcmp_eq P.GUID_LEN old_guid new_guid then none else some old_guid) new_guid
    (P.FVM_MAX_ENTRIES - 1) 1 (0, 0) = r at hz hU
  by_cases h0 : r.2 = 0
  · rw [if_pos h0] at hU
    have hno := hz.mp h0
    refine ⟨⟨fun _ => hno, fun _ => hU⟩, fun h => absurd h hno, fun _ _ => ?_⟩
    rw [hU]
    exact ⟨fun _ => hno, fun _ => rfl⟩
  · rw [if_neg h0] at hU
    have hex : ∃ i, i < P.FVM_MAX_ENTRIES ∧ 1 ≤ i ∧ (mgr.vpart_table i).slices ≠ 0 ∧
        Nat.land (mgr.vpart_table i).flags P.kVPartFlagInactive ≠ 0 ∧
        memcmp_eq P.GUID_LEN (mgr.vpart_table i).guid new_guid = true := by
      by_contra hc
      exact h0 (hz.mpr hc)
    obtain ⟨mgr2, hU2⟩ : ∃ mgr2, Upgrade env P mgr t old_guid new_guid =
        WriteFvmLocked env mgr2 t := ⟨_, hU⟩
    refine ⟨⟨fun h => ?_, fun h => absurd hex h⟩, fun _ => ⟨_, hU⟩, fun ha hs => ?_⟩
    · have ht := (WriteFvmLocked_tick_status env mgr2 t).1
      rw [← hU2, h] at ht
      exact absurd ht (lt_irrefl t)
    · rw [hU2]
      constructor
      · intro h
        rcases (WriteFvmLocked_tick_status env mgr2 t).2 with e | e | e
        · rw [e] at h; exact absurd h ha
        · rw [e] at h; exact absurd h hs
        · rw [e] at h; exact absurd h (by decide)
      · intro h
        exact absurd hex h

/-- Example for C21: after the two allocations of `alloc_two`, the inactive partition 2
has the GUID 8: `Upgrade` to the GUID 9 finds no entry, and `Upgrade` to the GUID 8
does not return `ZX_ERR_NOT_FOUND`. -/
theorem Upgrade_not_found_witness :
    (Upgrade env_ok params_small alloc_two.2.1 alloc_two.2.2.2 [7] [9]).1 = ZX_ERR_NOT_FOUND ∧
    (Upgrade env_ok params_small alloc_two.2.1 alloc_two.2.2.2 [7] [8]).1 = ZX_OK ∧
    ((Upgrade env_ok params_small alloc_two.2.1 alloc_two.2.2.2 [7] [8]).1 = ZX_ERR_NOT_FOUND ↔
      ¬ ∃ i, i < params_small.FVM_MAX_ENTRIES ∧ 1 ≤ i ∧
        (alloc_two.2.1.vpart_table i).slices ≠ 0 ∧
        Nat.land (alloc_two.2.1.vpart_table i).flags params_small.kVPartFlagInactive ≠ 0 ∧
        memcmp_eq params_small.GUID_LEN (alloc_two.2.1.vpart_table i).guid [8] = true) :=
  ⟨by decide, by decide,
    (Upgrade_not_found env_ok params_small alloc_two.2.1 alloc_two.2.2.2 [7] [8]).2.2
      (by decide) (by decide)⟩

end VPartitionManager

namespace VPartitionManager
open SliceMap VPartition

/-- C22: when no two allocated entries have the same GUID and the allocated, inactive
entry `N` has the GUID `new_guid`, the partition table after `Upgrade(old_guid,
new_guid)` has the bits of `INACTIVE` clear in the flags of `N`; an allocated, active
entry `O` with the GUID `old_guid`, when `old_guid` differs from `new_guid`, has them
set; every other entry is unchanged; in every entry the fields other than the flags and
the bits of the flags outside of `INACTIVE` are unchanged; and when `old_guid` equals
`new_guid` every entry but `N` is unchanged. The flags are a `uint32_t`. -/
theorem Upgrade_flags (env : Env) (P : Params) (mgr : VPartitionManager) (t : Nat)
    (old_guid new_guid : List Nat) (N : Nat)
    (huniq : ∀ i, i < P.FVM_MAX_ENTRIES → ∀ j, j < P.FVM_MAX_ENTRIES →
      (1 ≤ i ∧ 1 ≤ j ∧ (mgr.vpart_table i).slices ≠ 0 ∧ (mgr.vpart_table j).slices ≠ 0 ∧
        memcmp_eq P.GUID_LEN (mgr.vpart_table i).guid (mgr.vpart_table j).guid = true) → i = j)
    (hN1 : 1 ≤ N) (hN2 : N < P.FVM_MAX_ENTRIES) (hNs : (mgr.vpart_table N).slices ≠ 0)
    (hNi : Nat.land (mgr.vpart_table N).flags P.kVPartFlagInactive ≠ 0)
    (hNg : memcmp_eq P.GUID_LEN (mgr.vpart_table N).guid new_guid = true)
    (hflags : (mgr.vpart_table N).flags < 2 ^ 32) :
    Nat.land ((Upgrade env P mgr t old_guid new_guid).2.1.vpart_table N).flags
        P.kVPartFlagInactive = 0 ∧
    (∀ O, O < P.FVM_MAX_ENTRIES → 1 ≤ O → (mgr.vpart_table O).slices ≠ 0 →
      Nat.land (mgr.vpart_table O).flags P.kVPartFlagInactive = 0 →
      memcmp_eq P.GUID_LEN (mgr.vpart_table O).guid old_guid = true →
      memcmp_eq P.GUID_LEN old_guid new_guid = false →
      Nat.land ((Upgrade env P mgr t old_guid new_guid).2.1.vpart_table O).flags
        P.kVPartFlagInactive = P.kVPartFlagInactive) ∧
    (∀ i, i ≠ N →
      ¬ (i < P.FVM_MAX_ENTRIES ∧ 1 ≤ i ∧ (mgr.vpart_table i).slices ≠ 0 ∧
        Nat.land (mgr.vpart_table i).flags P.kVPartFlagInactive = 0 ∧
        memcmp_eq P.GUID_LEN (mgr.vpart_table i).guid old_guid = true ∧
        memcmp_eq P.GUID_LEN old_guid new_guid = false) →
      (Upgrade env P mgr t old_guid new_guid).2.1.vpart_table i = mgr.vpart_table i) ∧
    (∀ i, ((Upgrade env P mgr t old_guid new_guid).2.1.vpart_table i).type =
        (mgr.vpart_table i).type ∧
      ((Upgrade env P mgr t old_guid new_guid).2.1.vpart_table i).guid =
        (mgr.vpart_table i).guid ∧
      ((Upgrade env P mgr t old_guid new_guid).2.1.vpart_table i).slices =
        (mgr.vpart_table i).slices ∧
      ((Upgrade env P mgr t old_guid new_guid).2.1.vpart_table i).name =
        (mgr.vpart_table i).name ∧
      ∀ b, P.kVPartFlagInactive.testBit b = false →
        ((Upgrade env P mgr t old_guid new_guid).2.1.vpart_table i).flags.testBit b =
          (mgr.vpart_table i).flags.testBit b) ∧
    (memcmp_eq P.GUID_LEN old_guid new_guid = true → ∀ i, i ≠ N →
      (Upgrade env P mgr t old_guid new_guid).2.1.vpart_table i = mgr.vpart_table i) := by
  have hnew := Upgrade_find_new P mgr
    (if memcmp_eq P.GUID_LEN old_guid new_guid then none else some old_guid) new_guid
    (P.FVM_MAX_ENTRIES - 1) 1 (0, 0)
  have hold := Upgrade_find_old P mgr
    (if memcmp_eq P.GUID_LEN old_guid new_guid then none else some old_guid) new_guid
    (P.FVM_MAX_ENTRIES - 1) 1 (0, 0)
  have hT := Upgrade_table env P mgr t old_guid new_guid _ rfl
  generalize Upgrade_find P mgr
    (if memcmp_eq P.GUID_LEN old_guid new_guid then none else some old_guid) new_guid
    (P.FVM_MAX_ENTRIES - 1) 1 (0, 0) = r at hnew hold hT
  -- the entry found is `N`
  have hr2 : r.2 = N := by
    rcases hnew with ⟨_, hno⟩ | ⟨a, b, c, _⟩
    · exact absurd ⟨hNs, hNi, hNg⟩ (hno N hN1 (by omega))
    · exact huniq r.2 (by omega) N hN2
        ⟨a, hN1, c.1, hNs, memcmp_eq_trans _ _ _ _ c.2.2 hNg⟩
  -- the old entry, when there is one
  have hr1 : (r.1 = 0 ∧ ∀ j, 1 ≤ j → j < P.FVM_MAX_ENTRIES →
        ¬ ((mgr.vpart_table j).slices ≠ 0 ∧
          memcmp_eq P.GUID_LEN old_guid new_guid = false ∧
          Nat.land (mgr.vpart_table j).flags P.kVPartFlagInactive = 0 ∧
          memcmp_eq P.GUID_LEN (mgr.vpart_table j).guid old_guid = true)) ∨
      (1 ≤ r.1 ∧ r.1 < P.FVM_MAX_ENTRIES ∧ (mgr.vpart_table r.1).slices ≠ 0 ∧
        memcmp_eq P.GUID_LEN old_guid new_guid = false ∧
        Nat.land (mgr.vpart_table r.1).flags P.kVPartFlagInactive = 0 ∧
        memcmp_eq P.GUID_LEN (mgr.vpart_table r.1).guid old_guid = true) := by
    cases hm : memcmp_eq P.GUID_LEN old_guid new_guid with
    | true =>
      left
      rw [hm] at hold
      rcases hold with ⟨e, _⟩ | ⟨_, _, c, _⟩
      · exact ⟨e, fun j _ _ h => absurd h.2.1 (by decide)⟩
      · exact absurd c.2.1 (by simp)
    | false =>
      rw [hm] at hold
      simp only [Bool.false_eq_true, if_false, Option.isSome_some, true_and,
        Option.getD_some] at hold
      rcases hold with ⟨e, hno⟩ | ⟨a, b, c, _⟩
      · left
        exact ⟨e, fun j h1 h2 h => hno j h1 (by omega) ⟨h.1, h.2.2.1, h.2.2.2⟩⟩
      · right
        exact ⟨a, by omega, c.1, rfl, c.2.1, c.2.2⟩
  have h12 : r.1 ≠ r.2 := by
    rcases hr1 with ⟨e, _⟩ | ⟨_, _, _, _, c, _⟩
    · omega
    · intro he
      rw [he, hr2] at c
      exact hNi c
  have hT := hT (by omega) h12
  rw [hr2] at hT
  have hentry : ∀ i, (Upgrade env P mgr t old_guid new_guid).2.1.vpart_table i =
      if i = N then
        { mgr.vpart_table i with
          flags := Nat.land (mgr.vpart_table i).flags
            (Nat.xor (2 ^ 32 - 1) (P.kVPartFlagInactive % 2 ^ 32)) }
      else if r.1 ≠ 0 ∧ i = r.1 then
        { mgr.vpart_table i with
          flags := Nat.lor (mgr.vpart_table i).flags P.kVPartFlagInactive }
      else mgr.vpart_table i := fun i => by rw [hT]
  have hother : ∀ i, i ≠ N →
      ¬ (i < P.FVM_MAX_ENTRIES ∧ 1 ≤ i ∧ (mgr.vpart_table i).slices ≠ 0 ∧
        Nat.land (mgr.vpart_table i).flags P.kVPartFlagInactive = 0 ∧
        memcmp_eq P.GUID_LEN (mgr.vpart_table i).guid old_guid = true ∧
        memcmp_eq P.GUID_LEN old_guid new_guid = false) →
      (Upgrade env P mgr t old_guid new_guid).2.1.vpart_table i = mgr.vpart_table i := by
    intro i hi hno
    rw [hentry i, if_neg hi]
    by_cases hc : r.1 ≠ 0 ∧ i = r.1
    · rcases hr1 with ⟨e, _⟩ | ⟨a, b, c, d, e, f⟩
      · exact absurd e hc.1
      · rw [← hc.2] at a b c e f
        exact absurd ⟨b, a, c, e, f, d⟩ hno
    · rw [if_neg hc]
  refine ⟨?_, ?_, hother, ?_, ?_⟩
  · rw [hentry N, if_pos rfl]
    exact land_not_land _ _
  · intro O hO1 hO2 hOs hOa hOg hne
    have hON : O ≠ N := by
      intro he
      rw [he] at hOa
      exact hNi hOa
    rcases hr1 with ⟨_, hno⟩ | ⟨a, b, c, _, e, f⟩
    · exact absurd ⟨hOs, hne, hOa, hOg⟩ (hno O hO2 hO1)
    · have hOr : O = r.1 := huniq O hO1 r.1 b
        ⟨hO2, a, hOs, c, memcmp_eq_trans _ _ _ _ hOg f⟩
      rw [hentry O, if_neg hON, if_pos ⟨by omega, hOr⟩]
      exact lor_land _ _
  · intro i
    rw [hentry i]
    by_cases hi : i = N
    · rw [if_pos hi]
      refine ⟨rfl, rfl, rfl, rfl, fun b hb => ?_⟩
      exact testBit_land_not _ _ b (by rw [hi]; exact hflags) hb
    · rw [if_neg hi]
      by_cases hc : r.1 ≠ 0 ∧ i = r.1
      · rw [if_pos hc]
        exact ⟨rfl, rfl, rfl, rfl, fun b hb => testBit_lor_mask _ _ b hb⟩
      · rw [if_neg hc]
        exact ⟨rfl, rfl, rfl, rfl, fun b _ => rfl⟩
  · intro hm i hi
    exact hother i hi (by rw [hm]; simp)

/-- Example for C22: after the two allocations of `alloc_two` the partition 1 is active
with the GUID 7 and the partition 2 is inactive with the GUID 8; `Upgrade` from 7 to 8
swaps the flag. -/
theorem Upgrade_flags_witness :
    (List.range 4).map (fun i => (alloc_two.2.1.vpart_table i).flags) = [0, 0, 1, 0] ∧
    (List.range 4).map (fun i =>
      ((Upgrade env_ok params_small alloc_two.2.1 alloc_two.2.2.2 [7] [8]).2.1.vpart_table
        i).flags) = [0, 1, 0, 0] ∧
    Nat.land ((Upgrade env_ok params_small alloc_two.2.1 alloc_two.2.2.2 [7]
      [8]).2.1.vpart_table 2).flags params_small.kVPartFlagInactive = 0 :=
  ⟨by decide, by decide,
    (Upgrade_flags env_ok params_small alloc_two.2.1 alloc_two.2.2.2 [7] [8] 2 (by decide)
      (by decide) (by decide) (by decide) (by decide) (by decide) (by decide)).1⟩

end VPartitionManager

namespace VPartitionManager
open SliceMap VPartition

/-- C23, the claim fails: in the image `mgr_image` the partition 1 is active with 3
slices; when `DdkAdd` fails, every sync and commit succeeding, `Load` succeeds and the
partition is not among the published ones. -/
theorem Load_active_not_published :
    (mgr_image.vpart_table 1).slices = 3 ∧
    Nat.land (mgr_image.vpart_table 1).flags params_small.kVPartFlagInactive = 0 ∧
    (Load env_ok (fun _ => ZX_ERR_NO_MEMORY) params_small mgr_image 0).map
        (fun r => (r.1, r.2.2.1)) = some (ZX_OK, []) := by
  decide

/-- C23, amended: after a `Load` that succeeds on a metadata image in which no two
allocated slots of `1..pslice_count` name the same partition and virtual slice, with no
allocation failing and every sync and every `DdkAdd` succeeding: for every entry `k` of
the image with `slices > 0` and the flag `INACTIVE`, the entry is cleared, every slot of
`1..pslice_count` that named `k` as its owner is free, and no published partition has
the index `k`; for every entry `k` with `slices > 0` whose flag `INACTIVE` is clear, the
entry is unchanged and a partition of index `k` is published that maps `v` to `q` for
every slot `q` naming `k` and `v`, and these slots are unchanged. -/
theorem Load_inactive (env : Env) (ddk_add : Nat → zx_status_t) (P : Params)
    (mgr : VPartitionManager) (t : Nat) (hac : ∀ k, env.ac k = true)
    (hsync : ∀ k, env.sync k = ZX_OK) (hadd : ∀ k, ddk_add k = ZX_OK)
    (hnd : mgr.NoDuplicates P.pslice_count)
    (hok : (Load env ddk_add P mgr t).map (fun r => r.1) = some ZX_OK) :
    ∃ r, Load env ddk_add P mgr t = some r ∧
      (∀ k, 1 ≤ k → k < P.FVM_MAX_ENTRIES → (mgr.vpart_table k).slices ≠ 0 →
        Nat.land (mgr.vpart_table k).flags P.kVPartFlagInactive ≠ 0 →
        r.2.1.vpart_table k = (mgr.vpart_table k).clear ∧
        (∀ q, 1 ≤ q → q ≤ P.pslice_count → (mgr.slice_table q).vpart = k →
          (r.2.1.slice_table q).vpart = 0) ∧
        (∀ vp ∈ r.2.2.1, vp.entry_index ≠ k)) ∧
      (∀ k, 1 ≤ k → k < P.FVM_MAX_ENTRIES → (mgr.vpart_table k).slices ≠ 0 →
        Nat.land (mgr.vpart_table k).flags P.kVPartFlagInactive = 0 →
        r.2.1.vpart_table k = mgr.vpart_table k ∧
        ∃ vp ∈ r.2.2.1, vp.entry_index = k ∧
          ∀ q v, 1 ≤ q → q ≤ P.pslice_count → mgr.slice_table q = ⟨k, v⟩ →
            vp.SliceGetLocked v = q ∧ r.2.1.slice_table q = ⟨k, v⟩) := by
  unfold Load at hok ⊢
  by_cases hN : P.pslice_count ≥ 2 ^ 32 - 1
  · rw [if_pos hN] at hok
    exact absurd hok (by simp)
  · rw [if_neg hN] at hok ⊢
    have hcn := Load_create_none P mgr env.ac hac (P.FVM_MAX_ENTRIES - 1) 1 (fun _ => none) t
    cases hc : Load_create P mgr env.ac (P.FVM_MAX_ENTRIES - 1) 1 (fun _ => none) t with
    | mk st rest =>
      obtain ⟨parts, t1⟩ := rest
      rw [hc] at hcn hok
      simp only at hcn
      subst hcn
      simp only at hok ⊢
      have hA := Load_create_spec P mgr env.ac _ 1 _ t parts t1 hc (le_refl _)
        (fun k vp hk => absurd hk (by simp))
      have hA2 := Load_create_parts P mgr env.ac _ 1 _ t parts t1 hc
      cases hf : Load_fill P mgr env.ac P.pslice_count 1 parts t1 with
      | none =>
        try rw [hf] at hok
        exact absurd hok (by simp)
      | some res =>
        obtain ⟨parts1, t2⟩ := res
        try rw [hf] at hok
        try rw [hf]
        simp only at hok ⊢
        have hB := Load_fill_spec P mgr env.ac hac P.pslice_count 1 parts t1 parts1 t2 hf
          (le_refl _) (by rw [Nat.add_sub_cancel_left]; exact hnd)
          (fun k vp hk => by
            obtain ⟨a1, a2, _⟩ := hA k vp hk
            subst a1
            refine ⟨a2, rfl, rfl,
              ⟨List.Pairwise.nil, by simp [NonEmpty], by simp [NonZero]⟩, ?_⟩
            intro v p hp
            constructor
            · intro h0
              have : (0 : Nat) = p := h0
              exact absurd this.symm hp
            · rintro ⟨b1, b2, _⟩
              omega)
        have hB2 := Load_fill_isSome P mgr env.ac P.pslice_count 1 parts t1 parts1 t2 hf
        -- every allocated entry has its partition
        have hsome : ∀ k, 1 ≤ k → k < P.FVM_MAX_ENTRIES → (mgr.vpart_table k).slices ≠ 0 →
            ∃ vp, parts1 k = some vp := by
          intro k h1 h2 h3
          have h4 : (parts1 k).isSome = true := by
            rw [hB2 k, hA2 k, if_pos ⟨h1, by omega, h3⟩]
            rfl
          exact Option.isSome_iff_exists.mp h4
        cases he : Load_expose env ddk_add P parts1 P.FVM_MAX_ENTRIES 0 mgr [] t2 with
        | none =>
          try rw [he] at hok
          exact absurd hok (by simp)
        | some res2 =>
          obtain ⟨mgr1, exposed, t3⟩ := res2
          obtain ⟨c1, _, c3, c4, c5⟩ := Load_expose_full env ddk_add P parts1 hsync hadd
            (fun k vp hk => by
              obtain ⟨a1, a2, a3, a4, _⟩ := hB k vp hk
              exact ⟨a2, a3, a4⟩)
            P.FVM_MAX_ENTRIES 0 mgr [] t2 mgr1 exposed t3 he
          try rw [he]
          refine ⟨_, rfl, ?_, ?_⟩
          · intro k h1 h2 h3 h4
            obtain ⟨vp, hvp⟩ := hsome k h1 h2 h3
            obtain ⟨b1, b2, b3, b4, b5⟩ := hB k vp hvp
            refine ⟨?_, ?_, ?_⟩
            · show mgr1.vpart_table k = _
              rw [c1 k, if_pos ⟨by omega, by omega, by rw [hvp]; rfl, h4⟩]
            · intro q hq1 hq2 hq3
              show (mgr1.slice_table q).vpart = 0
              apply c4 q k vp (by omega) (by omega) hvp h4
              rw [mem_all_pslices_iff vp q b4]
              have hq0 : q ≠ PSLICE_UNALLOCATED := by unfold PSLICE_UNALLOCATED; omega
              refine ⟨(mgr.slice_table q).vslice, ?_, hq0⟩
              apply (b5 _ q hq0).mpr
              refine ⟨hq1, by omega, ?_⟩
              rw [← hq3]
            · intro vp1 hvp1
              show vp1.entry_index ≠ k
              rcases (c5 vp1).mp hvp1 with hm | ⟨k1, _, _, e3, e4⟩
              · exact absurd hm (by simp)
              · obtain ⟨_, f2, _⟩ := hB k1 vp1 e3
                rw [f2]
                intro hk
                rw [hk] at e4
                exact h4 e4
          · intro k h1 h2 h3 h4
            obtain ⟨vp, hvp⟩ := hsome k h1 h2 h3
            obtain ⟨b1, b2, b3, b4, b5⟩ := hB k vp hvp
            refine ⟨?_, vp, ?_, b2, ?_⟩
            · show mgr1.vpart_table k = _
              rw [c1 k, if_neg (fun hc => hc.2.2.2 h4)]
            · show vp ∈ exposed
              exact (c5 vp).mpr (Or.inr ⟨k, by omega, by omega, hvp, h4⟩)
            · intro q v hq1 hq2 hq3
              have hq0 : q ≠ PSLICE_UNALLOCATED := by unfold PSLICE_UNALLOCATED; omega
              refine ⟨(b5 v q hq0).mpr ⟨hq1, by omega, hq3⟩, ?_⟩
              show mgr1.slice_table q = _
              rw [c3 q, hq3]
              intro k1 vp1 _ _ e3 e4 hmem
              obtain ⟨f1, f2, f3, f4, f5⟩ := hB k1 vp1 e3
              obtain ⟨v1, g1, _⟩ := (mem_all_pslices_iff vp1 q f4).mp hmem
              obtain ⟨_, _, g3⟩ := (f5 v1 q hq0).mp g1
              rw [hq3] at g3
              simp only [slice_entry_t.mk.injEq] at g3
              rw [← g3.1] at e4
              exact e4 h4

/-- Example for C23: `Load` of the image `mgr_image`, in which the partition 1 is active
with the slots 1, 2 and 5 and the partition 2 is inactive with the slots 3 and 4. -/
theorem Load_inactive_witness :
    mgr_image.NoDuplicates params_small.pslice_count ∧
      (Load env_ok (fun _ => ZX_OK) params_small mgr_image 0).map
        (fun r => (r.1, r.2.2.1.map (fun vp => (vp.entry_index, vp.slice_map)),
          (List.range 7).map (fun p => (r.2.1.slice_table p).vpart),
          (List.range 4).map (fun k => (r.2.1.vpart_table k).slices))) =
        some (ZX_OK, [(1, [⟨0, [1, 2]⟩, ⟨7, [5]⟩])], [0, 1, 1, 0, 0, 1, 0], [0, 3, 0, 0]) ∧
      ∃ r, Load env_ok (fun _ => ZX_OK) params_small mgr_image 0 = some r ∧
        (∀ k, 1 ≤ k → k < params_small.FVM_MAX_ENTRIES → (mgr_image.vpart_table k).slices ≠ 0 →
          Nat.land (mgr_image.vpart_table k).flags params_small.kVPartFlagInactive ≠ 0 →
          r.2.1.vpart_table k = (mgr_image.vpart_table k).clear ∧
          (∀ q, 1 ≤ q → q ≤ params_small.pslice_count → (mgr_image.slice_table q).vpart = k →
            (r.2.1.slice_table q).vpart = 0) ∧
          (∀ vp ∈ r.2.2.1, vp.entry_index ≠ k)) ∧
        (∀ k, 1 ≤ k → k < params_small.FVM_MAX_ENTRIES → (mgr_image.vpart_table k).slices ≠ 0 →
          Nat.land (mgr_image.vpart_table k).flags params_small.kVPartFlagInactive = 0 →
          r.2.1.vpart_table k = mgr_image.vpart_table k ∧
          ∃ vp ∈ r.2.2.1, vp.entry_index = k ∧
            ∀ q v, 1 ≤ q → q ≤ params_small.pslice_count → mgr_image.slice_table q = ⟨k, v⟩ →
              vp.SliceGetLocked v = q ∧ r.2.1.slice_table q = ⟨k, v⟩) :=
  ⟨by decide, by decide,
    Load_inactive env_ok (fun _ => ZX_OK) params_small mgr_image 0 (fun _ => rfl)
      (fun _ => rfl) (fun _ => rfl) (by decide) (by decide)⟩

end VPartitionManager

/-- C24: over 64-bit values of `offset`, `length` and `vslice_max`, `RequestBoundCheck`
returns `ZX_OK` exactly when, over the natural numbers, `offset > 0` and
`offset + length ≤ vslice_max`; in every other case it returns `ZX_ERR_OUT_OF_RANGE`,
and so it does when `offset + length` wraps at `2^64`. -/
theorem RequestBoundCheck_iff (request : extend_request_t) (vslice_max : Nat)
    (ho : request.offset < 2 ^ 64) (hl : request.length < 2 ^ 64) (hv : vslice_max < 2 ^ 64) :
    (RequestBoundCheck request vslice_max = ZX_OK ↔
      0 < request.offset ∧ request.offset + request.length ≤ vslice_max) ∧
    (¬ (0 < request.offset ∧ request.offset + request.length ≤ vslice_max) →
      RequestBoundCheck request vslice_max = ZX_ERR_OUT_OF_RANGE) ∧
    (2 ^ 64 ≤ request.offset + request.length →
      RequestBoundCheck request vslice_max = ZX_ERR_OUT_OF_RANGE) := by
  have hne : ZX_ERR_OUT_OF_RANGE ≠ ZX_OK := by decide
  have key : (0 < request.offset ∧ request.offset + request.length ≤ vslice_max →
        RequestBoundCheck request vslice_max = ZX_OK) ∧
      (¬ (0 < request.offset ∧ request.offset + request.length ≤ vslice_max) →
        RequestBoundCheck request vslice_max = ZX_ERR_OUT_OF_RANGE) := by
    unfold RequestBoundCheck size_add
    constructor
    · rintro ⟨h1, h2⟩
      rw [if_neg (by omega), if_neg (by omega), Nat.mod_eq_of_lt (by omega), if_neg (by omega)]
    · intro h
      by_cases h1 : request.offset = 0 ∨ request.offset > vslice_max
      · rw [if_pos h1]
      · rw [if_neg h1]
        by_cases h2 : request.length > vslice_max
        · rw [if_pos h2]
        · rw [if_neg h2]
          by_cases h3 : request.offset + request.length < 2 ^ 64
          · rw [Nat.mod_eq_of_lt h3, if_pos (by omega)]
          · have h4 : (request.offset + request.length) % 2 ^ 64 =
                request.offset + request.length - 2 ^ 64 := by
              rw [Nat.mod_eq_sub_mod (by omega), Nat.mod_eq_of_lt (by omega)]
            rw [h4, if_pos (by omega)]
  refine ⟨⟨?_, key.1⟩, key.2, ?_⟩
  · intro h
    by_contra hc
    rw [key.2 hc] at h
    exact hne h
  · intro h
    exact key.2 (by omega)

/-- Example for C24: a request for the virtual slices 5 to 7; and a request whose
`offset + length` wraps to 4 is refused. -/
theorem RequestBoundCheck_iff_witness :
    RequestBoundCheck ⟨5, 2 ^ 64 - 1⟩ VSLICE_MAX = ZX_ERR_OUT_OF_RANGE ∧
      (RequestBoundCheck ⟨5, 3⟩ VSLICE_MAX = ZX_OK ↔ 0 < 5 ∧ 5 + 3 ≤ VSLICE_MAX) :=
  ⟨by decide,
    (RequestBoundCheck_iff ⟨5, 3⟩ VSLICE_MAX (by decide) (by decide) (by decide)).1⟩

namespace VPartition

/-- C25, the claim fails: an `FVM_EXTEND` request with `offset == VSLICE_MAX` and
`length == 0` passes `RequestBoundCheck` and returns `ZX_OK`. -/
theorem extend_at_max_zero_length :
    RequestBoundCheck ⟨VSLICE_MAX, 0⟩ VSLICE_MAX = ZX_OK ∧
    (DdkIoctl_FVM_EXTEND env_ok world_one (some ⟨VSLICE_MAX, 0⟩)).1 = ZX_OK := by
  decide

/-- C25, amended: an `FVM_EXTEND` request with `offset == VSLICE_MAX` returns
`ZX_ERR_OUT_OF_RANGE` for every `length > 0` and `ZX_OK` for `length == 0`, and changes
nothing in both cases. -/
theorem FVM_EXTEND_at_max (env : Env) (w : World) (length : Nat) :
    DdkIoctl_FVM_EXTEND env w (some ⟨VSLICE_MAX, length⟩) =
      if length = 0 then (ZX_OK, w) else (ZX_ERR_OUT_OF_RANGE, w) := by
  have hmax : VSLICE_MAX = 4294967295 := rfl
  have hne : ZX_ERR_OUT_OF_RANGE ≠ ZX_OK := by decide
  by_cases h0 : length = 0
  · subst h0
    rw [if_pos rfl]
    have h1 : RequestBoundCheck ⟨VSLICE_MAX, 0⟩ VSLICE_MAX = ZX_OK := by decide
    simp only [DdkIoctl_FVM_EXTEND, h1, ne_eq, not_true_eq_false, if_false, if_true]
  · rw [if_neg h0]
    have h1 : RequestBoundCheck ⟨VSLICE_MAX, length⟩ VSLICE_MAX = ZX_ERR_OUT_OF_RANGE := by
      unfold RequestBoundCheck size_add
      dsimp only
      rw [if_neg (by omega)]
      by_cases h2 : length > VSLICE_MAX
      · rw [if_pos h2]
      · rw [if_neg h2, Nat.mod_eq_of_lt (by omega), if_pos (by omega)]
    simp only [DdkIoctl_FVM_EXTEND, h1, ne_eq, hne, not_false_eq_true, if_true]

end VPartition

namespace VPartitionManager
open SliceMap VPartition

/-- C26, the claim fails: the partition that `FVM_ALLOC` publishes for `slice_count = 3`
has the virtual slice 0 allocated and the virtual slice 3 free. -/
theorem FVM_ALLOC_starts_at_zero :
    alloc_one.1 = ZX_OK ∧
    alloc_one.2.2.1.map (fun vp => (vp.slice_map, vp.SliceGetLocked 0, vp.SliceGetLocked 3)) =
      some ([⟨0, [1, 2, 3]⟩], 1, PSLICE_UNALLOCATED) := by
  decide

/-- C26, amended: for every successful `FVM_ALLOC` request with `slice_count = n`, the
partition that is published has exactly the virtual slices `[0, n)` allocated: the
lookup of `v` is not `FREE` for `v < n` and is `FREE` for `v ≥ n`. -/
theorem FVM_ALLOC_vslices (env : Env) (ddk_add : Nat → zx_status_t) (P : Params)
    (mgr : VPartitionManager) (t : Nat) (cmd : Option alloc_req_t)
    (hus : mgr.usable_slices < 2 ^ 32)
    (hok : (DdkIoctl_FVM_ALLOC env ddk_add P mgr t cmd).1 = ZX_OK) :
    ∃ request vp, cmd = some request ∧
      (DdkIoctl_FVM_ALLOC env ddk_add P mgr t cmd).2.2.1 = some vp ∧
      (∀ v, v < request.slice_count → vp.SliceGetLocked v ≠ PSLICE_UNALLOCATED) ∧
      (∀ v, request.slice_count ≤ v → vp.SliceGetLocked v = PSLICE_UNALLOCATED) := by
  obtain ⟨request, hcmd, hpos, hlt, _, _, hA, hmgr, hvp⟩ :=
    DdkIoctl_FVM_ALLOC_ok env ddk_add P mgr t cmd hok
  have hmax : VSLICE_MAX = 4294967295 := rfl
  have hv0 : Valid ([] : SliceMap) :=
    ⟨List.Pairwise.nil, by simp [NonEmpty], by simp [NonZero]⟩
  obtain ⟨_, hval, hin, hout, _⟩ := AllocateSlicesLocked_ok env _ 0 request.slice_count hv0
    (by omega) hus hA
  refine ⟨request, _, hcmd, hvp, ?_, ?_⟩
  · intro v hv
    exact hin v (by omega) (by omega)
  · intro v hv
    rw [hout v (Or.inr (by omega))]
    rfl

/-- Example for C26: `FVM_ALLOC` of a partition of 3 slices. -/
theorem FVM_ALLOC_vslices_witness :
    mgr_empty.usable_slices < 2 ^ 32 ∧ alloc_one.1 = ZX_OK ∧
      ∃ request vp, some (alloc_req_t.mk 3 [1] [7] [112] 0) = some request ∧
        alloc_one.2.2.1 = some vp ∧
        (∀ v, v < request.slice_count → vp.SliceGetLocked v ≠ PSLICE_UNALLOCATED) ∧
        (∀ v, request.slice_count ≤ v → vp.SliceGetLocked v = PSLICE_UNALLOCATED) :=
  ⟨by decide, by decide,
    FVM_ALLOC_vslices env_ok (fun _ => ZX_OK) params_small mgr_empty 0
      (some ⟨3, [1], [7], [112], 0⟩) (by decide) (by decide)⟩

/-- C27, the claim fails: `FVM_ALLOC` with `slice_count == 0` returns
`ZX_ERR_OUT_OF_RANGE`, which is not `ZX_ERR_INVALID_ARGS`. -/
theorem alloc_zero_out_of_range :
    (DdkIoctl_FVM_ALLOC env_ok (fun _ => ZX_OK) params_small mgr_empty 0
      (some ⟨0, [1], [7], [112], 0⟩)).1 = ZX_ERR_OUT_OF_RANGE ∧
    ZX_ERR_OUT_OF_RANGE ≠ ZX_ERR_INVALID_ARGS := by
  decide

/-- C27, amended: an `FVM_ALLOC` request with `slice_count == 0` fails with
`ZX_ERR_OUT_OF_RANGE`; the manager, and with it the partition table and the allocation
table, is unchanged, no partition is published and nothing is asked of the
environment. -/
theorem FVM_ALLOC_zero (env : Env) (ddk_add : Nat → zx_status_t) (P : Params)
    (mgr : VPartitionManager) (t : Nat) (type guid name : List Nat) (flags : Nat) :
    DdkIoctl_FVM_ALLOC env ddk_add P mgr t (some ⟨0, type, guid, name, flags⟩) =
      (ZX_ERR_OUT_OF_RANGE, mgr, none, t) := by
  simp [DdkIoctl_FVM_ALLOC]

end VPartitionManager

namespace VPartitionManager
open SliceMap VPartition

/-- C28, the claim fails: on a range without allocated virtual slices, `FreeSlices`
returns the status of the sync when the sync fails, here `ZX_ERR_IO`, and not
`ZX_ERR_INVALID_ARGS`. -/
theorem nothing_freed_sync_fails :
    world_one.vp.killed = false ∧
    (∀ v, 5 ≤ v → v < 5 + 3 → world_one.vp.SliceGetLocked v = PSLICE_UNALLOCATED) ∧
    (FreeSlices ⟨fun _ => true, fun _ => ZX_OK, fun _ => ZX_OK, fun _ => ZX_ERR_IO⟩
      world_one 5 3).map (fun r => r.1) = some ZX_ERR_IO := by
  decide

/-- C28, amended: for every live partition and every range `[s, s+n)` with `s > 0` and
`s + n ≤ VSLICE_MAX` in which no virtual slice is allocated, the sync succeeding,
`FreeSlices(vp, s, n)` returns `ZX_ERR_INVALID_ARGS`; the manager, and with it the
generation, the choice of the primary copy, the writes issued and the allocation table,
and the partition with its slice map are unchanged. -/
theorem FreeSlices_nothing (env : Env) (w : World) (s n : Nat)
    (hlive : w.vp.killed = false) (hs : 0 < s) (hrange : s + n ≤ VSLICE_MAX)
    (hsync : env.sync w.tick = ZX_OK)
    (hfree : ∀ v, s ≤ v → v < s + n → w.vp.SliceGetLocked v = PSLICE_UNALLOCATED) :
    FreeSlices env w s n = some (ZX_ERR_INVALID_ARGS, { w with tick := w.tick + 1 }) := by
  have hmax : VSLICE_MAX = 4294967295 := rfl
  have hg : ¬ (size_add s n > VSLICE_MAX ∨ n > VSLICE_MAX) := by
    rw [size_add, Nat.mod_eq_of_lt (by omega)]; omega
  have hcnt : int_loop_count (size_pred n) ≤ n := by
    rcases int_loop_count_cases n (by omega) with h | h <;> omega
  have hloop := FreeSlicesLocked_loop_nothing env s (int_loop_count (size_pred n)) false
    { w with tick := w.tick + 1 } (by
      intro i hi
      have hsa : size_add s i = s + i := by
        rw [size_add, Nat.mod_eq_of_lt (by omega)]
      rw [hsa]
      cases hc : w.vp.SliceCanFree (s + i) with
      | false => rfl
      | true => exact absurd (hfree (s + i) (by omega) (by omega)) ((SliceCanFree_iff _ _).mp hc))
  unfold FreeSlices FreeSlicesLocked
  rw [if_neg hg]
  simp only [IsKilledLocked, hlive, Bool.false_eq_true, if_false, hsync, ne_eq,
    not_true_eq_false]
  rw [if_neg (by omega), hloop]
  rfl

/-- Example for C28: the partition of `world_one` has the virtual slices 0 to 2, and
`FreeSlices(vp, 5, 3)` finds nothing to free. -/
theorem FreeSlices_nothing_witness :
    world_one.vp.slice_map = [⟨0, [1, 2, 3]⟩] ∧
      FreeSlices env_ok world_one 5 3 =
        some (ZX_ERR_INVALID_ARGS, { world_one with tick := world_one.tick + 1 }) :=
  ⟨by decide,
    FreeSlices_nothing env_ok world_one 5 3 (by decide) (by decide) (by decide) (by decide)
      (by decide)⟩

end VPartitionManager

namespace VPartition
open SliceMap

/-- C29: let the block count of a partition be the number of virtual slices in its
extents times `slice_size / block_size`, on a device whose slice size is a multiple of
its block size and on which the byte size of one more slice than the partition holds
fits in 64 bits. Then the same holds after `SliceSetLocked` on a free virtual slice,
after `SliceFreeLocked` on an allocated virtual slice and after `ExtentDestroyLocked`,
whether the call succeeds or not. In particular the partition that `FVM_ALLOC` creates
with 3 slices of 1048576 bytes on blocks of 512 bytes has the block count 6144. -/
theorem block_count_invariant (vp : VPartition) (hv : Valid vp.slice_map)
    (hbs : 0 < vp.block_size) (hdiv : vp.block_size ∣ vp.slice_size)
    (hover : (vp.slice_map.total_slices + 1) * vp.slice_size < 2 ^ 64)
    (hinv : vp.block_count = vp.slice_map.total_slices * (vp.slice_size / vp.block_size)) :
    (∀ v p ac t, vp.SliceGetLocked v = PSLICE_UNALLOCATED →
      (vp.SliceSetLocked v p ac t).2.1.block_count =
        (vp.SliceSetLocked v p ac t).2.1.slice_map.total_slices *
          ((vp.SliceSetLocked v p ac t).2.1.slice_size /
            (vp.SliceSetLocked v p ac t).2.1.block_size) ∧
      ((vp.SliceSetLocked v p ac t).1 = ZX_OK →
        (vp.SliceSetLocked v p ac t).2.1.slice_map.total_slices =
          vp.slice_map.total_slices + 1)) ∧
    (∀ v ac t, vp.SliceGetLocked v ≠ PSLICE_UNALLOCATED →
      (vp.SliceFreeLocked v ac t).2.1.block_count =
        (vp.SliceFreeLocked v ac t).2.1.slice_map.total_slices *
          ((vp.SliceFreeLocked v ac t).2.1.slice_size /
            (vp.SliceFreeLocked v ac t).2.1.block_size) ∧
      ((vp.SliceFreeLocked v ac t).1 = true →
        (vp.SliceFreeLocked v ac t).2.1.slice_map.total_slices + 1 =
          vp.slice_map.total_slices)) ∧
    (∀ v, (vp.ExtentDestroyLocked v).block_count =
      (vp.ExtentDestroyLocked v).slice_map.total_slices *
        ((vp.ExtentDestroyLocked v).slice_size / (vp.ExtentDestroyLocked v).block_size)) ∧
    alloc_one.2.2.1.map (fun p => (p.slice_map.total_slices, p.slice_size, p.block_size,
      p.block_count)) = some (3, 1048576, 512, 6144) := by
  have hK : vp.slice_size / vp.block_size ≤ vp.slice_size := Nat.div_le_self _ _
  have hTK : (vp.slice_map.total_slices + 1) * (vp.slice_size / vp.block_size) < 2 ^ 64 :=
    lt_of_le_of_lt (Nat.mul_le_mul_left _ hK) hover
  have hexp : (vp.slice_map.total_slices + 1) * (vp.slice_size / vp.block_size) =
      vp.slice_map.total_slices * (vp.slice_size / vp.block_size) +
        vp.slice_size / vp.block_size := by ring
  refine ⟨?_, ?_, ?_, by decide⟩
  · intro v p ac t hfree
    by_cases hok : (vp.SliceSetLocked v p ac t).1 = ZX_OK
    · obtain ⟨h1, h2, h3, h4⟩ := SliceSetLocked_total vp v p ac t hv hfree hok
      refine ⟨?_, fun _ => h1⟩
      rw [h1, h2, h3, h4, hexp]
      unfold AddBlocksLocked
      simp only
      omega
    · rcases SliceSetLocked_form vp v p ac t hv hfree with ⟨_, h, _⟩ | ⟨_, _, _, _, _, _, _, h, _⟩
      · rw [h]
        exact ⟨hinv, fun h1 => absurd h1 hok⟩
      · rw [h] at hok
        exact absurd rfl hok
  · intro v ac t halloc
    by_cases hok : (vp.SliceFreeLocked v ac t).1 = true
    · obtain ⟨h1, h2, h3, h4⟩ := SliceFreeLocked_total vp v ac t hv halloc hok
      refine ⟨?_, fun _ => h1⟩
      rw [h2, h3, h4]
      have hx : vp.slice_map.total_slices * (vp.slice_size / vp.block_size) =
          (vp.SliceFreeLocked v ac t).2.1.slice_map.total_slices *
            (vp.slice_size / vp.block_size) + vp.slice_size / vp.block_size := by
        rw [← h1]; ring
      rw [hexp] at hTK
      rw [hx] at hinv hTK
      unfold AddBlocksLocked
      simp only
      generalize (vp.SliceFreeLocked v ac t).2.1.slice_map.total_slices *
        (vp.slice_size / vp.block_size) = X at hinv hTK ⊢
      generalize vp.slice_size / vp.block_size = Y at hinv hTK ⊢
      omega
    · obtain ⟨L, e, R, hm, h1, h2⟩ := exists_extent_of_allocated vp v hv halloc
      have hv1 := hv
      rw [hm] at hv1
      rcases SliceFreeLocked_form vp v ac t L e R hm hv1.1 hv1.2.1 h1 h2 with
        ⟨_, h, _⟩ | ⟨t2, h⟩
      · rw [h]
        exact ⟨hinv, fun h1 => absurd h1 hok⟩
      · rw [h] at hok
        exact absurd rfl hok
  · intro v
    cases hu : upper_bound_prev vp.slice_map v with
    | none =>
      have : vp.ExtentDestroyLocked v = vp := by
        unfold ExtentDestroyLocked
        rw [hu]
      rw [this]
      exact hinv
    | some e =>
      obtain ⟨h1, h2⟩ := ExtentDestroyLocked_total vp v e hv hu
      have hsz : e.size = e.pslices.length := by
        unfold SliceExtent.size SliceExtent.end_ SliceExtent.start
        omega
      have hle : e.size * vp.slice_size < 2 ^ 64 :=
        lt_of_le_of_lt (Nat.mul_le_mul_right _ (by omega)) hover
      have hbc : vp.block_count < 2 ^ 64 := by
        rw [hinv]
        exact lt_of_le_of_lt (Nat.mul_le_mul_right _ (by omega)) hTK
      have := VPartitionManager.block_arith vp.block_count e.size vp.slice_size vp.block_size
        (vp.ExtentDestroyLocked v).slice_map.total_slices hbs hdiv hle
        (by rw [hinv, ← h1, hsz, Nat.add_comm]) hbc
      rw [h2]
      exact this

/-- Example for C29: the partition of `world_one` has 3 slices and 6144 blocks; after
`SliceSetLocked(5, 9)` it has 4 slices and 8192 blocks, after `SliceFreeLocked(1)` 2
slices and 4096 blocks, and after `ExtentDestroyLocked(0)` none. -/
theorem block_count_invariant_witness :
    (world_one.vp.slice_map.total_slices, world_one.vp.block_count) = (3, 6144) ∧
    ((world_one.vp.SliceSetLocked 5 9 (fun _ => true) 0).2.1.slice_map.total_slices,
      (world_one.vp.SliceSetLocked 5 9 (fun _ => true) 0).2.1.block_count) = (4, 8192) ∧
    ((world_one.vp.SliceFreeLocked 1 (fun _ => true) 0).2.1.slice_map.total_slices,
      (world_one.vp.SliceFreeLocked 1 (fun _ => true) 0).2.1.block_count) = (2, 4096) ∧
    ((world_one.vp.ExtentDestroyLocked 0).slice_map.total_slices,
      (world_one.vp.ExtentDestroyLocked 0).block_count) = (0, 0) ∧
    ∀ v, (world_one.vp.ExtentDestroyLocked v).block_count =
      (world_one.vp.ExtentDestroyLocked v).slice_map.total_slices *
        ((world_one.vp.ExtentDestroyLocked v).slice_size /
          (world_one.vp.ExtentDestroyLocked v).block_size) :=
  ⟨by decide, by decide, by decide, by decide,
    (block_count_invariant world_one.vp (by decide) (by decide) (by decide) (by decide)
      (by decide)).2.2.1⟩

end VPartition

namespace VPartition
open SliceMap

/-- C30: on a device whose block size is not 0 and divides the slice size, with
`VSLICE_MAX * slice_size` below `2^64`, `BlockQueue` completes a READ or WRITE request
with `ZX_ERR_INVALID_ARGS` when its length is 0, and with `ZX_ERR_OUT_OF_RANGE` when its
length is not 0 and the blocks `[offset_dev, offset_dev + length)` do not fit in
`VSLICE_MAX * K` blocks, `K = slice_size / block_size`; in both cases nothing is handed
to the queue of the manager, the request is as it was and nothing is asked of the
environment. -/
theorem BlockQueue_bounds (Q : QueueParams) (vp : VPartition) (ac : Nat → Bool)
    (txn : block_op_t) (t : Nat)
    (hcmd : Nat.land txn.command Q.BLOCK_OP_MASK = Q.BLOCK_OP_READ ∨
      Nat.land txn.command Q.BLOCK_OP_MASK = Q.BLOCK_OP_WRITE)
    (hbs : 0 < vp.block_size) (hdiv : vp.block_size ∣ vp.slice_size)
    (hover : VSLICE_MAX * vp.slice_size < 2 ^ 64) :
    (txn.length = 0 →
      vp.BlockQueue Q ac txn t = some ⟨some ZX_ERR_INVALID_ARGS, [], txn, none, t⟩) ∧
    (txn.length ≠ 0 →
      ¬ (txn.offset_dev + txn.length ≤ VSLICE_MAX * (vp.slice_size / vp.block_size)) →
      vp.BlockQueue Q ac txn t = some ⟨some ZX_ERR_OUT_OF_RANGE, [], txn, none, t⟩) := by
  have hcap : vp.DdkGetSize / vp.BlockSize = VSLICE_MAX * (vp.slice_size / vp.block_size) := by
    unfold DdkGetSize BlockSize
    rw [Nat.mod_eq_of_lt hover]
    exact Nat.mul_div_assoc _ hdiv
  have hne : ¬ (vp.BlockSize = 0) := by
    unfold BlockSize; omega
  constructor
  · intro h0
    unfold BlockQueue
    rw [if_pos hcmd, if_neg hne]
    simp only [h0, if_true]
  · intro h0 hfit
    unfold BlockQueue
    rw [if_pos hcmd, if_neg hne]
    simp only [h0, if_false, hcap]
    rw [if_pos (by omega)]

/-- Example for C30: on blocks of 512 bytes and slices of 1 MiB, a read of length 0 and
a read of the 4 blocks from block `2048 * VSLICE_MAX - 3` on. -/
theorem BlockQueue_bounds_witness :
    (world_one.vp.BlockQueue ⟨255, 1, 2, 3, fun p => 16384 + (p - 1) * 1048576⟩
        (fun _ => true) ⟨1, 0, 5, 0⟩ 0 =
      some ⟨some ZX_ERR_INVALID_ARGS, [], ⟨1, 0, 5, 0⟩, none, 0⟩) ∧
    world_one.vp.BlockQueue ⟨255, 1, 2, 3, fun p => 16384 + (p - 1) * 1048576⟩
        (fun _ => true) ⟨1, 4, 2048 * 4294967295 - 3, 0⟩ 0 =
      some ⟨some ZX_ERR_OUT_OF_RANGE, [], ⟨1, 4, 2048 * 4294967295 - 3, 0⟩, none, 0⟩ :=
  ⟨(BlockQueue_bounds ⟨255, 1, 2, 3, fun p => 16384 + (p - 1) * 1048576⟩ world_one.vp
      (fun _ => true) ⟨1, 0, 5, 0⟩ 0 (by decide) (by decide) (by decide) (by decide)).1 rfl,
    (BlockQueue_bounds ⟨255, 1, 2, 3, fun p => 16384 + (p - 1) * 1048576⟩ world_one.vp
      (fun _ => true) ⟨1, 4, 2048 * 4294967295 - 3, 0⟩ 0 (by decide) (by decide) (by decide)
      (by decide)).2 (by decide) (by decide)⟩

end VPartition

namespace VPartition
open SliceMap

/-- C31: for a READ or WRITE request of a length other than 0 whose blocks fit in the
partition, on a device whose block size divides its slice size: when one of the virtual
slices from the one of its first block to the one of its last block is free,
`BlockQueue` completes the request with `ZX_ERR_OUT_OF_RANGE`, hands nothing to the
queue of the manager and leaves the request as it was. -/
theorem BlockQueue_free_slice (Q : QueueParams) (vp : VPartition) (ac : Nat → Bool)
    (txn : block_op_t) (t : Nat)
    (hcmd : Nat.land txn.command Q.BLOCK_OP_MASK = Q.BLOCK_OP_READ ∨
      Nat.land txn.command Q.BLOCK_OP_MASK = Q.BLOCK_OP_WRITE)
    (hbs : 0 < vp.block_size) (hdiv : vp.block_size ∣ vp.slice_size)
    (hss : 0 < vp.slice_size) (hover : VSLICE_MAX * vp.slice_size < 2 ^ 64)
    (hlen : txn.length ≠ 0)
    (hfit : txn.offset_dev + txn.length ≤ VSLICE_MAX * (vp.slice_size / vp.block_size))
    (v : Nat) (hv1 : txn.offset_dev / (vp.slice_size / vp.block_size) ≤ v)
    (hv2 : v ≤ (txn.offset_dev + txn.length - 1) / (vp.slice_size / vp.block_size))
    (hfree : vp.SliceGetLocked v = PSLICE_UNALLOCATED) :
    vp.BlockQueue Q ac txn t = some ⟨some ZX_ERR_OUT_OF_RANGE, [], txn, none, t⟩ := by
  rw [BlockQueue_in_range Q vp ac txn t hcmd hbs hdiv hss hover hlen hfit]
  simp only [BlockQueue_slices]
  by_cases he : txn.offset_dev / (vp.slice_size / vp.block_size) =
      (txn.offset_dev + txn.length - 1) / (vp.slice_size / vp.block_size)
  · rw [if_pos he]
    have hv : v = txn.offset_dev / (vp.slice_size / vp.block_size) := by omega
    rw [hv] at hfree
    rw [if_pos hfree]
  · rw [if_neg he]
    rw [BlockQueue_check_none vp _ _ _ true ⟨v, hv1, by omega, hfree⟩]

/-- Example for C31: the partition of `world_one` has the virtual slices 0 to 2; a read
of 4 blocks inside the virtual slice 3, and a read of 4 blocks that starts in the
virtual slice 2 and ends in the virtual slice 3. -/
theorem BlockQueue_free_slice_witness :
    world_one.vp.BlockQueue queue_params (fun _ => true) ⟨1, 4, 3 * 2048 + 5, 0⟩ 0 =
      some ⟨some ZX_ERR_OUT_OF_RANGE, [], ⟨1, 4, 3 * 2048 + 5, 0⟩, none, 0⟩ ∧
    world_one.vp.BlockQueue queue_params (fun _ => true) ⟨1, 4, 3 * 2048 - 2, 0⟩ 0 =
      some ⟨some ZX_ERR_OUT_OF_RANGE, [], ⟨1, 4, 3 * 2048 - 2, 0⟩, none, 0⟩ :=
  ⟨BlockQueue_free_slice queue_params world_one.vp (fun _ => true) ⟨1, 4, 3 * 2048 + 5, 0⟩ 0
      (by decide) (by decide) (by decide) (by decide) (by decide) (by decide) (by decide)
      3 (by decide) (by decide) (by decide),
    BlockQueue_free_slice queue_params world_one.vp (fun _ => true) ⟨1, 4, 3 * 2048 - 2, 0⟩ 0
      (by decide) (by decide) (by decide) (by decide) (by decide) (by decide) (by decide)
      3 (by decide) (by decide) (by decide)⟩

/-- C32, the claim fails: on a disk with metadata of 8192 bytes, blocks of 512 bytes and
slices of 1 MiB (`K = 2048`), a read of 4 blocks at block 10 of a partition whose virtual
slice 0 is the physical slice 1 is forwarded with the device offset 42, the start block
32 of the physical slice 1 plus 10, and not with `1 * K + 10 = 2058`. -/
theorem BlockQueue_single_slice_offset :
    world_one.vp.SliceGetLocked 0 = 1 ∧
    world_one.vp.slice_size / world_one.vp.block_size = 2048 ∧
    world_one.vp.BlockQueue queue_params (fun _ => true) ⟨1, 4, 10, 7⟩ 0 =
      some ⟨none, [⟨1, 4, 42, 7⟩], ⟨1, 4, 42, 7⟩, none, 0⟩ ∧
    (42 : Nat) ≠ 1 * 2048 + 10 % 2048 := by
  decide

/-- C32, amended: for a READ or WRITE request of a length other than 0 whose blocks fit
in the partition and lie in one virtual slice, mapped to the physical slice `p`,
`BlockQueue` hands one request to the queue of the manager, the request itself with its
length unchanged and its device offset rewritten to `SliceStart(p) / block_size +
(offset mod K)`, in 64-bit arithmetic; this is `base + (p - 1) * K + (offset mod K)`
when the physical slice `p` starts at the device block `base + (p - 1) * K`. -/
theorem BlockQueue_single_slice (Q : QueueParams) (vp : VPartition) (ac : Nat → Bool)
    (txn : block_op_t) (t : Nat)
    (hcmd : Nat.land txn.command Q.BLOCK_OP_MASK = Q.BLOCK_OP_READ ∨
      Nat.land txn.command Q.BLOCK_OP_MASK = Q.BLOCK_OP_WRITE)
    (hbs : 0 < vp.block_size) (hdiv : vp.block_size ∣ vp.slice_size)
    (hss : 0 < vp.slice_size) (hover : VSLICE_MAX * vp.slice_size < 2 ^ 64)
    (hlen : txn.length ≠ 0)
    (hfit : txn.offset_dev + txn.length ≤ VSLICE_MAX * (vp.slice_size / vp.block_size))
    (hone : txn.offset_dev / (vp.slice_size / vp.block_size) =
      (txn.offset_dev + txn.length - 1) / (vp.slice_size / vp.block_size))
    (halloc : vp.SliceGetLocked (txn.offset_dev / (vp.slice_size / vp.block_size)) ≠
      PSLICE_UNALLOCATED) :
    vp.BlockQueue Q ac txn t =
      some ⟨none,
        [⟨txn.command, txn.length,
          size_add (Q.SliceStart (vp.SliceGetLocked
              (txn.offset_dev / (vp.slice_size / vp.block_size))) / vp.block_size)
            (txn.offset_dev % (vp.slice_size / vp.block_size)), txn.offset_vmo⟩],
        ⟨txn.command, txn.length,
          size_add (Q.SliceStart (vp.SliceGetLocked
              (txn.offset_dev / (vp.slice_size / vp.block_size))) / vp.block_size)
            (txn.offset_dev % (vp.slice_size / vp.block_size)), txn.offset_vmo⟩,
        none, t⟩ ∧
    ∀ base, Q.SliceStart (vp.SliceGetLocked
          (txn.offset_dev / (vp.slice_size / vp.block_size))) / vp.block_size =
        base + (vp.SliceGetLocked (txn.offset_dev / (vp.slice_size / vp.block_size)) - 1) *
          (vp.slice_size / vp.block_size) →
      base + vp.SliceGetLocked (txn.offset_dev / (vp.slice_size / vp.block_size)) *
          (vp.slice_size / vp.block_size) ≤ 2 ^ 64 →
      size_add (Q.SliceStart (vp.SliceGetLocked
            (txn.offset_dev / (vp.slice_size / vp.block_size))) / vp.block_size)
          (txn.offset_dev % (vp.slice_size / vp.block_size)) =
        base + (vp.SliceGetLocked (txn.offset_dev / (vp.slice_size / vp.block_size)) - 1) *
          (vp.slice_size / vp.block_size) +
          txn.offset_dev % (vp.slice_size / vp.block_size) := by
  constructor
  · rw [BlockQueue_in_range Q vp ac txn t hcmd hbs hdiv hss hover hlen hfit]
    simp only [BlockQueue_slices]
    rw [if_pos hone, if_neg halloc]
    rfl
  · intro base hstart hno
    have hK := blocks_per_slice_pos vp hbs hdiv hss
    have hr := Nat.mod_lt txn.offset_dev hK
    have hp : 1 ≤ vp.SliceGetLocked (txn.offset_dev / (vp.slice_size / vp.block_size)) := by
      unfold PSLICE_UNALLOCATED at halloc
      omega
    rw [hstart, size_add]
    generalize vp.slice_size / vp.block_size = K at hK hr hp hno ⊢
    generalize vp.SliceGetLocked (txn.offset_dev / K) = p at hp hno ⊢
    obtain ⟨q, hq⟩ : ∃ q, p = q + 1 := ⟨p - 1, by omega⟩
    subst hq
    rw [Nat.succ_mul] at hno
    rw [Nat.add_sub_cancel]
    apply Nat.mod_eq_of_lt
    generalize q * K = X at hno ⊢
    omega

/-- Example for C32: a read of 4 blocks at block 10 of the partition of `world_one`. -/
theorem BlockQueue_single_slice_witness :
    world_one.vp.BlockQueue queue_params (fun _ => true) ⟨1, 4, 10, 7⟩ 0 =
      some ⟨none, [⟨1, 4, 42, 7⟩], ⟨1, 4, 42, 7⟩, none, 0⟩ :=
  (BlockQueue_single_slice queue_params world_one.vp (fun _ => true) ⟨1, 4, 10, 7⟩ 0
    (by decide) (by decide) (by decide) (by decide) (by decide) (by decide) (by decide)
    (by decide) (by decide)).1

end VPartition

namespace VPartition
open SliceMap

/-- C33: assuming that every physical slice `p` of the request starts at the device
block `base + (p - 1) * K`: for a READ or WRITE request of a length other than 0 whose blocks
fit in the partition and span several virtual slices, all allocated, each on the
physical slice that follows the one of its predecessor, `BlockQueue` hands one request
to the queue of the manager, of the length of the request, and for every `i` below the
length the device block `offset_dev' + i` is the block that the translation slice by
slice gives for the virtual block `offset + i`. The physical slices are `uint32_t`
values, and the last one of the request ends within the 64-bit block addresses. -/
theorem BlockQueue_contiguous (Q : QueueParams) (vp : VPartition) (ac : Nat → Bool)
    (txn : block_op_t) (t : Nat) (base : Nat)
    (hcmd : Nat.land txn.command Q.BLOCK_OP_MASK = Q.BLOCK_OP_READ ∨
      Nat.land txn.command Q.BLOCK_OP_MASK = Q.BLOCK_OP_WRITE)
    (hbs : 0 < vp.block_size) (hdiv : vp.block_size ∣ vp.slice_size)
    (hss : 0 < vp.slice_size) (hover : VSLICE_MAX * vp.slice_size < 2 ^ 64)
    (hlen : txn.length ≠ 0)
    (hfit : txn.offset_dev + txn.length ≤ VSLICE_MAX * (vp.slice_size / vp.block_size))
    (hseveral : txn.offset_dev / (vp.slice_size / vp.block_size) <
      (txn.offset_dev + txn.length - 1) / (vp.slice_size / vp.block_size))
    (hall : ∀ u, txn.offset_dev / (vp.slice_size / vp.block_size) ≤ u →
      u ≤ (txn.offset_dev + txn.length - 1) / (vp.slice_size / vp.block_size) →
      vp.SliceGetLocked u ≠ PSLICE_UNALLOCATED ∧ vp.SliceGetLocked u < 2 ^ 32)
    (hcont : ∀ u, txn.offset_dev / (vp.slice_size / vp.block_size) ≤ u →
      u < (txn.offset_dev + txn.length - 1) / (vp.slice_size / vp.block_size) →
      vp.SliceGetLocked (u + 1) = vp.SliceGetLocked u + 1)
    (hstart : ∀ u, txn.offset_dev / (vp.slice_size / vp.block_size) ≤ u →
      u ≤ (txn.offset_dev + txn.length - 1) / (vp.slice_size / vp.block_size) →
      Q.SliceStart (vp.SliceGetLocked u) / vp.block_size =
        base + (vp.SliceGetLocked u - 1) * (vp.slice_size / vp.block_size))
    (hno : base + vp.SliceGetLocked
        ((txn.offset_dev + txn.length - 1) / (vp.slice_size / vp.block_size)) *
      (vp.slice_size / vp.block_size) ≤ 2 ^ 64) :
    ∃ offset_dev1,
      vp.BlockQueue Q ac txn t =
        some ⟨none, [⟨txn.command, txn.length, offset_dev1, txn.offset_vmo⟩],
          ⟨txn.command, txn.length, offset_dev1, txn.offset_vmo⟩, none, t⟩ ∧
      ∀ i, i < txn.length → offset_dev1 + i = vp.block_address Q (txn.offset_dev + i) := by
  have hK := blocks_per_slice_pos vp hbs hdiv hss
  refine ⟨size_add (Q.SliceStart (vp.SliceGetLocked
      (txn.offset_dev / (vp.slice_size / vp.block_size))) / vp.block_size)
    (txn.offset_dev % (vp.slice_size / vp.block_size)), ?_, ?_⟩
  · rw [BlockQueue_in_range Q vp ac txn t hcmd hbs hdiv hss hover hlen hfit]
    simp only [BlockQueue_slices]
    generalize (txn.offset_dev + txn.length - 1) / (vp.slice_size / vp.block_size) = vl
      at hseveral hall hcont ⊢
    generalize txn.offset_dev / (vp.slice_size / vp.block_size) = vf at hseveral hall hcont ⊢
    have hcheck := BlockQueue_check_true vp vf (vl + 1 - vf) vf true
      (fun w hw1 hw2 => (hall w hw1 (by omega)).1)
      (fun w hw1 hw2 hw3 => by
        have h1 := hcont (w - 1) (by omega) (by omega)
        have h2 : w - 1 + 1 = w := by omega
        rw [h2] at h1
        rw [← h1]
        exact Nat.mod_eq_of_lt (hall w hw1 (by omega)).2)
    rw [if_neg (by omega), hcheck]
    rfl
  · intro i hi
    have hq1 : txn.offset_dev / (vp.slice_size / vp.block_size) ≤
        (txn.offset_dev + i) / (vp.slice_size / vp.block_size) :=
      Nat.div_le_div_right (by omega)
    have hq2 : (txn.offset_dev + i) / (vp.slice_size / vp.block_size) ≤
        (txn.offset_dev + txn.length - 1) / (vp.slice_size / vp.block_size) :=
      Nat.div_le_div_right (by omega)
    have ho := Nat.div_add_mod txn.offset_dev (vp.slice_size / vp.block_size)
    have hoi := Nat.div_add_mod (txn.offset_dev + i) (vp.slice_size / vp.block_size)
    have hr := Nat.mod_lt txn.offset_dev hK
    unfold block_address
    generalize (txn.offset_dev + i) % (vp.slice_size / vp.block_size) = r1 at hoi ⊢
    generalize txn.offset_dev % (vp.slice_size / vp.block_size) = r at ho hr ⊢
    generalize (txn.offset_dev + i) / (vp.slice_size / vp.block_size) = q at hq1 hq2 hoi ⊢
    generalize (txn.offset_dev + txn.length - 1) / (vp.slice_size / vp.block_size) = vl
      at hseveral hall hcont hstart hno hq2 ⊢
    generalize txn.offset_dev / (vp.slice_size / vp.block_size) = vf
      at hseveral hall hcont hstart hq1 ho ⊢
    generalize vp.slice_size / vp.block_size = K at hK hstart hno ho hoi hr ⊢
    have hrun := SliceGetLocked_run vp vf vl hcont
    have hp0 := (hall vf (le_refl _) (by omega)).1
    unfold PSLICE_UNALLOCATED at hp0
    have hlq := hrun (q - vf) (by omega)
    have hlv := hrun (vl - vf) (by omega)
    rw [Nat.add_sub_cancel' hq1] at hlq
    rw [Nat.add_sub_cancel' (by omega)] at hlv
    have hs1 := hstart vf (le_refl _) (by omega)
    have hs2 := hstart q hq1 hq2
    rw [hlq] at hs2
    rw [hlq, hs1, hs2]
    rw [hlv] at hno
    have hlt : base + (vp.SliceGetLocked vf - 1) * K + r < 2 ^ 64 := by
      have hmono : vp.SliceGetLocked vf * K ≤ (vp.SliceGetLocked vf + (vl - vf)) * K :=
        Nat.mul_le_mul_right _ (by omega)
      obtain ⟨a, ha⟩ : ∃ a, vp.SliceGetLocked vf = a + 1 :=
        ⟨vp.SliceGetLocked vf - 1, by omega⟩
      rw [ha] at hmono hno ⊢
      rw [Nat.succ_mul] at hmono
      rw [Nat.add_sub_cancel]
      generalize (a + 1 + (vl - vf)) * K = Y at hmono hno
      generalize a * K = X at hmono ⊢
      omega
    rw [size_add, Nat.mod_eq_of_lt hlt]
    exact run_arith K base _ vf q r r1 txn.offset_dev i (by omega) hq1 ho hoi

/-- Example for C33: the partition of `world_one` has the virtual slices 0, 1 and 2 on
the physical slices 1, 2 and 3; a read of 4000 blocks from block 2046 on spans all
three. -/
theorem BlockQueue_contiguous_witness :
    world_one.vp.BlockQueue queue_params (fun _ => true) ⟨1, 4000, 2046, 7⟩ 0 =
      some ⟨none, [⟨1, 4000, 2078, 7⟩], ⟨1, 4000, 2078, 7⟩, none, 0⟩ ∧
    ∃ offset_dev1,
      world_one.vp.BlockQueue queue_params (fun _ => true) ⟨1, 4000, 2046, 7⟩ 0 =
        some ⟨none, [⟨1, 4000, offset_dev1, 7⟩], ⟨1, 4000, offset_dev1, 7⟩, none, 0⟩ ∧
      ∀ i, i < 4000 → offset_dev1 + i = world_one.vp.block_address queue_params (2046 + i) :=
  ⟨by decide,
    BlockQueue_contiguous queue_params world_one.vp (fun _ => true) ⟨1, 4000, 2046, 7⟩ 0 32
      (by decide) (by decide) (by decide) (by decide) (by decide) (by decide) (by decide)
      (by decide) (by decide) (by decide)
      (by decide) (by decide)⟩

end VPartition

namespace VPartition
open SliceMap

/-- C34: let a READ or WRITE request of a length other than 0, whose blocks fit in the
partition, span the `n = vl - vf + 1` virtual slices `vf..vl`, `n ≤ 32`, all allocated
and one of them not on the physical slice that follows the one of its predecessor, and
let no allocation fail. Then `BlockQueue` hands `n` sub-requests to the queue of the
manager, in the order of the virtual slices, which are the ones of the specification:
the `j`-th has the length `piece_length`, that is `K - r` for the first, `K` for the
middle ones and the remainder for the last, `r` being `offset mod K`; its VMO offset is
the one of the request plus the lengths of the sub-requests before it; its device
offset is the start block of the physical slice of the virtual slice `vf + j`, plus `r`
for the first only. The lengths lie in `[1, K]` and add up to the length of the
request; for `n = 2` they are `K - r` and the length less that. The state shared by the
sub-requests counts `n` of them, and the request itself is unchanged. The length and the
physical slices are `uint32_t` values, and the VMO offsets and the blocks of the first
physical slice lie within 64 bits. -/
theorem BlockQueue_scatter (Q : QueueParams) (vp : VPartition) (ac : Nat → Bool)
    (txn : block_op_t) (t : Nat) (K vf vl n r : Nat)
    (hKdef : K = vp.slice_size / vp.block_size) (hvf : vf = txn.offset_dev / K)
    (hvl : vl = (txn.offset_dev + txn.length - 1) / K) (hn : n = vl - vf + 1)
    (hrdef : r = txn.offset_dev % K)
    (hcmd : Nat.land txn.command Q.BLOCK_OP_MASK = Q.BLOCK_OP_READ ∨
      Nat.land txn.command Q.BLOCK_OP_MASK = Q.BLOCK_OP_WRITE)
    (hbs : 0 < vp.block_size) (hdiv : vp.block_size ∣ vp.slice_size)
    (hss : 0 < vp.slice_size) (hover : VSLICE_MAX * vp.slice_size < 2 ^ 64)
    (hlen : txn.length ≠ 0) (hfit : txn.offset_dev + txn.length ≤ VSLICE_MAX * K)
    (hac : ∀ k, ac k = true) (hL32 : txn.length < 2 ^ 32)
    (hov : txn.offset_vmo + txn.length < 2 ^ 64)
    (hall : ∀ u, vf ≤ u → u ≤ vl →
      vp.SliceGetLocked u ≠ PSLICE_UNALLOCATED ∧ vp.SliceGetLocked u < 2 ^ 32)
    (hnc : ∃ u, u ≤ vl ∧ vf < u ∧ vp.SliceGetLocked (u - 1) + 1 ≠ vp.SliceGetLocked u)
    (hn32 : n ≤ 32)
    (hdev : Q.SliceStart (vp.SliceGetLocked vf) / vp.block_size + K ≤ 2 ^ 64) :
    vp.BlockQueue Q ac txn t =
      some ⟨none, (List.range n).map (vp.scatter_piece Q txn n), txn, some n, t + n + 1⟩ ∧
    (∀ j, j < n → 1 ≤ piece_length K r txn.length n j ∧
      piece_length K r txn.length n j ≤ K) ∧
    ((List.range n).map (piece_length K r txn.length n)).sum = txn.length ∧
    (n = 2 → (List.range n).map (piece_length K r txn.length n) =
      [K - r, txn.length - (K - r)]) := by
  have hK : 0 < K := by rw [hKdef]; exact blocks_per_slice_pos vp hbs hdiv hss
  obtain ⟨_, hcaplt⟩ := device_capacity_eq vp hdiv hover
  rw [← hKdef] at hcaplt
  have hQ := BlockQueue_in_range Q vp ac txn t hcmd hbs hdiv hss hover hlen
    (by rw [← hKdef]; exact hfit)
  rw [← hKdef, ← hvf, ← hvl] at hQ
  -- the arithmetic of the request
  have ho := Nat.div_add_mod txn.offset_dev K
  have hol := Nat.div_add_mod (txn.offset_dev + txn.length - 1) K
  have hr : r < K := by rw [hrdef]; exact Nat.mod_lt _ hK
  have hr2 := Nat.mod_lt (txn.offset_dev + txn.length - 1) hK
  have hvlmax : vl < VSLICE_MAX := by
    rw [hvl]
    apply Nat.div_lt_of_lt_mul
    rw [Nat.mul_comm]
    omega
  rw [← hvf, ← hrdef] at ho
  rw [← hvl] at hol
  generalize (txn.offset_dev + txn.length - 1) % K = r2 at hol hr2
  obtain ⟨u0, hu1, hu2, hu3⟩ := hnc
  have hvfl : vf < vl := by omega
  have hmul1 : K * vl = K * vf + (n - 2) * K + K := by
    have e : vl = vf + (n - 2) + 1 := by omega
    rw [e]
    ring
  have hmul2 : K * (vl + 1) ≤ K * VSLICE_MAX := Nat.mul_le_mul_left _ (by omega)
  rw [Nat.mul_add, Nat.mul_one] at hmul2
  rw [Nat.mul_comm VSLICE_MAX K] at hcaplt hfit
  have hL : txn.length = (K - r) + (n - 2) * K + (r2 + 1) := by
    generalize K * vl = A at hmul1 hol hmul2
    generalize K * vf = B at hmul1 ho
    generalize (n - 2) * K = C at hmul1 ⊢
    omega
  have hoffK : txn.offset_dev + K < 2 ^ 64 := by
    generalize K * vl = A at hmul1 hol hmul2
    generalize K * vf = B at hmul1 ho
    generalize (n - 2) * K = C at hmul1
    generalize K * VSLICE_MAX = D at hmul2 hcaplt hfit
    omega
  have hpc : ∀ j, vp.scatter_piece Q txn n j = ⟨txn.command, piece_length K r txn.length n j,
      Q.SliceStart (vp.SliceGetLocked (vf + j)) / vp.block_size + (if j = 0 then r else 0),
      txn.offset_vmo + ((List.range j).map (piece_length K r txn.length n)).sum⟩ := by
    intro j
    unfold scatter_piece
    rw [← hKdef, ← hvf, ← hrdef]
  have hsplit := BlockQueue_split_spec Q vp ac txn K vf vl n r r2 (vp.scatter_piece Q txn n)
    hac hK hn hvfl ho.symm hr hrdef.symm hL hL32 hov hoffK hdev hpc n 0 (t + 1) (by omega)
  simp only [List.range_zero, List.map_nil, List.sum_nil, Nat.sub_zero] at hsplit
  have hcheck := BlockQueue_check_false vp vf (vl + 1 - vf) vf true
    (fun w hw1 hw2 => (hall w hw1 (by omega)).1)
    (Or.inr ⟨u0, by omega, by omega, by omega,
      (toUInt32_succ_ne _ _ (hall (u0 - 1) (by omega) (by omega)).2
        (hall u0 (by omega) hu1).2 (hall u0 (by omega) hu1).1).mpr hu3⟩)
  have hcount : (vl + 2 ^ 64 - vf + 1) % 2 ^ 64 = n := by
    rw [txn_count_eq vl vf (by unfold VSLICE_MAX at hvlmax; omega) (by omega), hn]
  have hpl : ∀ j, j < n → 1 ≤ piece_length K r txn.length n j ∧
      piece_length K r txn.length n j ≤ K := by
    intro j hj
    unfold piece_length
    by_cases h0 : j = 0
    · rw [if_pos h0]; omega
    · rw [if_neg h0]
      by_cases h1 : j + 1 = n
      · rw [if_pos h1]
        generalize (n - 2) * K = C at hL ⊢
        omega
      · rw [if_neg h1]; omega
  have hsum : ((List.range n).map (piece_length K r txn.length n)).sum = txn.length := by
    obtain ⟨i, hi⟩ : ∃ i, n = i + 1 := ⟨n - 1, by omega⟩
    have hS := sum_piece_length K r txn.length n i (by omega) (by omega)
    have hp : piece_length K r txn.length n i = txn.length - (K - r) - (n - 2) * K := by
      unfold piece_length
      rw [if_neg (by omega), if_pos hi.symm]
    have hi2 : i - 1 = n - 2 := by omega
    rw [hi2] at hS
    rw [hi, List.range_succ, List.map_append, List.sum_append]
    simp only [List.map_cons, List.map_nil, List.sum_cons, List.sum_nil, Nat.add_zero]
    rw [← hi, hS, hp]
    generalize (n - 2) * K = C at hL ⊢
    omega
  refine ⟨?_, hpl, hsum, ?_⟩
  · rw [hQ]
    simp only [BlockQueue_slices]
    rw [if_neg (by omega), hcheck]
    simp only
    rw [hcount, if_neg (by omega)]
    simp only [hac, Bool.not_true, Bool.false_eq_true, if_false]
    rw [hsplit]
    simp only
    congr 2
    omega
  · intro h2
    rw [h2]
    have e : List.range 2 = [0, 1] := rfl
    rw [e]
    simp only [List.map_cons, List.map_nil, piece_length, if_true, Nat.sub_self, Nat.zero_mul,
      Nat.sub_zero]
    simp

/-- Example for C34: a read of 4000 blocks from block 2046 on of the partition
`vp_scattered`, whose virtual slices 0, 1 and 2 are the physical slices 1, 5 and 2, on
blocks of 512 bytes and slices of 1 MiB: sub-requests of 2, 2048 and 1950 blocks. -/
theorem BlockQueue_scatter_witness :
    vp_scattered.BlockQueue queue_params (fun _ => true) ⟨1, 4000, 2046, 7⟩ 0 =
      some ⟨none, [⟨1, 2, 2078, 7⟩, ⟨1, 2048, 8224, 9⟩, ⟨1, 1950, 2080, 2057⟩],
        ⟨1, 4000, 2046, 7⟩, some 3, 4⟩ ∧
    vp_scattered.BlockQueue queue_params (fun _ => true) ⟨1, 4000, 2046, 7⟩ 0 =
      some ⟨none, (List.range 3).map
          (vp_scattered.scatter_piece queue_params ⟨1, 4000, 2046, 7⟩ 3),
        ⟨1, 4000, 2046, 7⟩, some 3, 0 + 3 + 1⟩ :=
  ⟨by decide,
    (BlockQueue_scatter queue_params vp_scattered (fun _ => true) ⟨1, 4000, 2046, 7⟩ 0
      2048 0 2 3 2046 (by decide) (by decide) (by decide) (by decide) (by decide)
      (by decide) (by decide) (by decide) (by decide) (by decide) (by decide) (by decide)
      (fun _ => rfl) (by decide) (by decide) (by decide) ⟨1, by decide, by decide, by decide⟩
      (by decide) (by decide)).1⟩

end VPartition

namespace VPartition
open SliceMap

/-- C35: for a READ or WRITE request of a length other than 0 whose blocks fit in the
partition and cover more than 32 virtual slices, all of them allocated and one of them
not on the physical slice that follows the one of its predecessor, `BlockQueue`
completes the request with `ZX_ERR_OUT_OF_RANGE`, hands nothing to the queue of the
manager and asks nothing of the heap. -/
theorem BlockQueue_too_many (Q : QueueParams) (vp : VPartition) (ac : Nat → Bool)
    (txn : block_op_t) (t : Nat)
    (hcmd : Nat.land txn.command Q.BLOCK_OP_MASK = Q.BLOCK_OP_READ ∨
      Nat.land txn.command Q.BLOCK_OP_MASK = Q.BLOCK_OP_WRITE)
    (hbs : 0 < vp.block_size) (hdiv : vp.block_size ∣ vp.slice_size)
    (hss : 0 < vp.slice_size) (hover : VSLICE_MAX * vp.slice_size < 2 ^ 64)
    (hlen : txn.length ≠ 0)
    (hfit : txn.offset_dev + txn.length ≤ VSLICE_MAX * (vp.slice_size / vp.block_size))
    (hall : ∀ u, txn.offset_dev / (vp.slice_size / vp.block_size) ≤ u →
      u ≤ (txn.offset_dev + txn.length - 1) / (vp.slice_size / vp.block_size) →
      vp.SliceGetLocked u ≠ PSLICE_UNALLOCATED ∧ vp.SliceGetLocked u < 2 ^ 32)
    (hnc : ∃ u, u ≤ (txn.offset_dev + txn.length - 1) / (vp.slice_size / vp.block_size) ∧
      txn.offset_dev / (vp.slice_size / vp.block_size) < u ∧
      vp.SliceGetLocked (u - 1) + 1 ≠ vp.SliceGetLocked u)
    (hmany : 32 < (txn.offset_dev + txn.length - 1) / (vp.slice_size / vp.block_size) -
      txn.offset_dev / (vp.slice_size / vp.block_size) + 1) :
    vp.BlockQueue Q ac txn t = some ⟨some ZX_ERR_OUT_OF_RANGE, [], txn, none, t⟩ := by
  obtain ⟨_, hlt⟩ := device_capacity_eq vp hdiv hover
  have hvl : (txn.offset_dev + txn.length - 1) / (vp.slice_size / vp.block_size) + 1 < 2 ^ 64 :=
    lt_of_le_of_lt (Nat.add_le_add_right (Nat.div_le_self _ _) 1) (by omega)
  rw [BlockQueue_in_range Q vp ac txn t hcmd hbs hdiv hss hover hlen hfit]
  simp only [BlockQueue_slices]
  obtain ⟨u, hu1, hu2, hu3⟩ := hnc
  have hcheck := BlockQueue_check_false vp
    (txn.offset_dev / (vp.slice_size / vp.block_size))
    ((txn.offset_dev + txn.length - 1) / (vp.slice_size / vp.block_size) + 1 -
      txn.offset_dev / (vp.slice_size / vp.block_size))
    (txn.offset_dev / (vp.slice_size / vp.block_size)) true
    (fun w hw1 hw2 => (hall w hw1 (by omega)).1)
    (Or.inr ⟨u, by omega, by omega, by omega,
      (toUInt32_succ_ne _ _ (hall (u - 1) (by omega) (by omega)).2
        (hall u (by omega) hu1).2 (hall u (by omega) hu1).1).mpr hu3⟩)
  rw [if_neg (by omega), hcheck]
  simp only
  have hle : txn.offset_dev / (vp.slice_size / vp.block_size) ≤
      (txn.offset_dev + txn.length - 1) / (vp.slice_size / vp.block_size) := by omega
  rw [txn_count_eq _ _ hvl hle, if_pos hmany]

/-- Example for C35: a read of the first `33 * 2048 + 1` blocks of the partition
`vp_many`, which covers its 34 virtual slices. -/
theorem BlockQueue_too_many_witness :
    vp_many.BlockQueue queue_params (fun _ => true) ⟨1, 33 * 2048 + 1, 0, 0⟩ 0 =
      some ⟨some ZX_ERR_OUT_OF_RANGE, [], ⟨1, 33 * 2048 + 1, 0, 0⟩, none, 0⟩ :=
  BlockQueue_too_many queue_params vp_many (fun _ => true) ⟨1, 33 * 2048 + 1, 0, 0⟩ 0
    (by decide) (by decide) (by decide) (by decide) (by decide) (by decide) (by decide)
    (by decide) ⟨1, by decide, by decide, by decide⟩ (by decide)

end VPartition

/-- C36: for a request split into `n ≥ 1` sub-requests that complete with the statuses
`s_1..s_n` in this order (any order of the completions is such a list), the calls of
`multi_txn_completion` on the shared state invoke the completion callback of the
request at the `n`-th completion and at no other, with the first status of the list
that is not `ZX_OK`, or with `ZX_OK` when there is none. -/
theorem multi_txn_completion_once (l : List zx_status_t) (hn : 1 ≤ l.length)
    (hlt : l.length < 2 ^ 64) :
    run_completions (multi_txn_state_t.init l.length) l =
      List.replicate (l.length - 1) none ++
        [some ((l.find? (fun s => decide (s ≠ ZX_OK))).getD ZX_OK)] := by
  have hne : l ≠ [] := by
    intro h
    rw [h] at hn
    exact absurd hn (by decide)
  have := run_completions_from l 0 l.length ZX_OK hne (by omega) hlt
  rw [if_pos rfl] at this
  exact this

/-- Example for C36: three sub-requests that complete with `ZX_OK`, `ZX_ERR_IO` and
`ZX_ERR_NO_MEMORY`. -/
theorem multi_txn_completion_once_witness :
    run_completions (multi_txn_state_t.init 3) [ZX_OK, ZX_ERR_IO, ZX_ERR_NO_MEMORY] =
      [none, none, some ZX_ERR_IO] :=
  multi_txn_completion_once [ZX_OK, ZX_ERR_IO, ZX_ERR_NO_MEMORY] (by decide) (by decide)

namespace VPartitionManager
open SliceMap VPartition

/-- C37: for a hint of at most `PSLICE_COUNT + 1` (the value `UsableSlicesCount`; all
callers pass 0 or one more than a slice found before), `FindFreeSliceLocked(hint)`
returns `ZX_OK` or `ZX_ERR_NO_SPACE`. With `ZX_OK` the index `i` that it stores is one of
`1..PSLICE_COUNT`, so not the sentinel 0, its entry is free, and it is the first free
index in the order `max(hint,1), ..., PSLICE_COUNT, 1, ..., max(hint,1) - 1`. It returns
`ZX_ERR_NO_SPACE` exactly when no index of `1..PSLICE_COUNT` is free. -/
theorem FindFreeSliceLocked_first (mgr : VPartitionManager) (hint : Nat)
    (hh : hint ≤ mgr.usable_slices + 1) :
    ((mgr.FindFreeSliceLocked hint).1 = ZX_OK ∨
      (mgr.FindFreeSliceLocked hint).1 = ZX_ERR_NO_SPACE) ∧
    ((mgr.FindFreeSliceLocked hint).1 = ZX_OK →
      1 ≤ (mgr.FindFreeSliceLocked hint).2 ∧
      (mgr.FindFreeSliceLocked hint).2 ≤ mgr.usable_slices ∧
      (mgr.slice_table (mgr.FindFreeSliceLocked hint).2).vpart = 0 ∧
      (max hint 1 ≤ (mgr.FindFreeSliceLocked hint).2 →
        ∀ k, max hint 1 ≤ k → k < (mgr.FindFreeSliceLocked hint).2 →
          (mgr.slice_table k).vpart ≠ 0) ∧
      ((mgr.FindFreeSliceLocked hint).2 < max hint 1 →
        (∀ k, max hint 1 ≤ k → k ≤ mgr.usable_slices → (mgr.slice_table k).vpart ≠ 0) ∧
        ∀ k, 1 ≤ k → k < (mgr.FindFreeSliceLocked hint).2 →
          (mgr.slice_table k).vpart ≠ 0)) ∧
    ((mgr.FindFreeSliceLocked hint).1 = ZX_ERR_NO_SPACE ↔
      ∀ k, 1 ≤ k → k ≤ mgr.usable_slices → (mgr.slice_table k).vpart ≠ 0) := by
  have hne : ZX_ERR_NO_SPACE ≠ ZX_OK := by decide
  have hm1 : 1 ≤ max hint 1 := le_max_right _ _
  have hm2 : max hint 1 ≤ mgr.usable_slices + 1 := max_le hh (by omega)
  cases h1 : mgr.find_free_from (mgr.usable_slices + 1 - max hint 1) (max hint 1) with
  | some i =>
    have hres : mgr.FindFreeSliceLocked hint = (ZX_OK, i) := by
      unfold FindFreeSliceLocked
      simp only [h1]
    rw [hres]
    obtain ⟨a1, a2, a3⟩ := find_free_from_some mgr _ _ _ h1
    have a4 := find_free_from_first mgr _ _ _ h1
    refine ⟨Or.inl rfl, fun _ => ⟨by omega, by omega, a3, fun _ => a4, fun hc => ?_⟩, ?_⟩
    · have hc1 : i < max hint 1 := hc
      omega
    · constructor
      · intro h; exact absurd h.symm hne
      · intro h; exact absurd a3 (h i (by omega) (by omega))
  | none =>
    have b1 := (find_free_from_none mgr _ _).mp h1
    cases h2 : mgr.find_free_from (max hint 1 - 1) 1 with
    | some i =>
      have hres : mgr.FindFreeSliceLocked hint = (ZX_OK, i) := by
        unfold FindFreeSliceLocked
        simp only [h1, h2]
      rw [hres]
      obtain ⟨a1, a2, a3⟩ := find_free_from_some mgr _ _ _ h2
      have a4 := find_free_from_first mgr _ _ _ h2
      refine ⟨Or.inl rfl, fun _ => ⟨a1, by omega, a3, fun hc => ?_,
        fun _ => ⟨fun k hk1 hk2 => b1 k hk1 (by omega), a4⟩⟩, ?_⟩
      · have hc1 : max hint 1 ≤ i := hc
        omega
      · constructor
        · intro h; exact absurd h.symm hne
        · intro h; exact absurd a3 (h i a1 (by omega))
    | none =>
      have hres : mgr.FindFreeSliceLocked hint = (ZX_ERR_NO_SPACE, 0) := by
        unfold FindFreeSliceLocked
        simp only [h1, h2]
      rw [hres]
      have b2 := (find_free_from_none mgr _ _).mp h2
      refine ⟨Or.inr rfl, fun h => absurd h hne, ?_⟩
      constructor
      · intro _ k hk1 hk2
        by_cases hk : k < max hint 1
        · exact b2 k hk1 (by omega)
        · exact b1 k (by omega) (by omega)
      · intro _; rfl

/-- Example for C37: in `mgr_image` the slots 1 to 5 are taken; the search from the
hint 4 and the search from the hint 63, which wraps around, both find the slot 6. -/
theorem FindFreeSliceLocked_first_witness :
    mgr_image.FindFreeSliceLocked 4 = (ZX_OK, 6) ∧
    mgr_image.FindFreeSliceLocked 63 = (ZX_OK, 6) ∧
    ((mgr_image.FindFreeSliceLocked 63).1 = ZX_ERR_NO_SPACE ↔
      ∀ k, 1 ≤ k → k ≤ mgr_image.usable_slices → (mgr_image.slice_table k).vpart ≠ 0) :=
  ⟨by decide, by decide, (FindFreeSliceLocked_first mgr_image 63 (by decide)).2.2⟩

end VPartitionManager

namespace VPartitionManager
open SliceMap VPartition

/-- C38: on a valid slice map, for a range `[s, s+n)` with `s > 0` and
`s + n ≤ VSLICE_MAX`, the high-to-low loop of `FreeSlicesLocked` never reaches its
`ZX_ASSERT`: it ends, and when it returns early it does so with `ZX_ERR_NO_MEMORY` at
the first free, nothing freed and the allocation table untouched. Once a slice has been
freed the virtual slice above the position of the loop is free, and from such a state
the loop runs to its end without a failure, whatever the heap does; for an allocated
virtual slice whose successor is free is the last one of its extent, so that
`SliceFreeLocked` does not split and succeeds. `FreeSlices` therefore always returns. -/
theorem FreeSlicesLocked_no_assert (env : Env) (w : World) (s n : Nat)
    (hv : Valid w.vp.slice_map) (hs : 0 < s) (hrange : s + n ≤ VSLICE_MAX) :
    (∃ st f1 w1,
      FreeSlicesLocked_loop env s (int_loop_count (size_pred n)) false
          { w with tick := w.tick + 1 } = some (st, f1, w1) ∧
        (st = none ∨ (st = some ZX_ERR_NO_MEMORY ∧ f1 = false ∧ w1.mgr = w.mgr))) ∧
    (∀ (m : Nat) (W : World), m ≤ n → Valid W.vp.slice_map →
      W.vp.SliceGetLocked (s + m) = PSLICE_UNALLOCATED →
      ∃ W1, FreeSlicesLocked_loop env s m true W = some (none, true, W1)) ∧
    (∀ (vp : VPartition) (v : Nat), Valid vp.slice_map →
      vp.SliceGetLocked v ≠ PSLICE_UNALLOCATED →
      vp.SliceGetLocked (v + 1) = PSLICE_UNALLOCATED →
      (∃ e, upper_bound_prev vp.slice_map v = some e ∧ ¬ (v ≠ e.end_ - 1)) ∧
        ∀ ac t, (vp.SliceFreeLocked v ac t).1 = true) ∧
    ∃ r, FreeSlices env w s n = some r := by
  have hmax : VSLICE_MAX = 4294967295 := rfl
  have hcnt : int_loop_count (size_pred n) ≤ n := by
    rcases int_loop_count_cases n (by omega) with h | h <;> omega
  have hloop := FreeSlicesLocked_loop_first env s (int_loop_count (size_pred n))
    { w with tick := w.tick + 1 } hv (by omega)
  refine ⟨hloop, ?_, fun vp v h1 h2 h3 => SliceFreeLocked_last vp v h1 h2 h3, ?_⟩
  · intro m W hm hW hnext
    exact FreeSlicesLocked_loop_after_first env s m W hW (by omega) hnext
  · have hg : ¬ (size_add s n > VSLICE_MAX ∨ n > VSLICE_MAX) := by
      rw [size_add, Nat.mod_eq_of_lt (by omega)]; omega
    unfold FreeSlices FreeSlicesLocked
    rw [if_neg hg]
    by_cases hk : w.vp.IsKilledLocked = true
    · rw [if_pos hk]
      exact ⟨_, rfl⟩
    · rw [if_neg hk]
      by_cases hsync : env.sync w.tick ≠ ZX_OK
      · rw [if_pos hsync]
        exact ⟨_, rfl⟩
      · rw [if_neg hsync, if_neg (by omega)]
        obtain ⟨st, f1, w1, h, _⟩ := hloop
        rw [h]
        cases st with
        | none => exact ⟨_, rfl⟩
        | some x => exact ⟨_, rfl⟩

/-- Example for C38: the partition of `world_four` has the virtual slices 1 to 4 in one
extent. `FreeSlices(vp, 2, 2)` frees the virtual slice 3 first, which splits the extent,
and then the virtual slice 2, the last one of what is left; with a heap that fails the
call returns `ZX_ERR_NO_MEMORY` at the first free. -/
theorem FreeSlicesLocked_no_assert_witness :
    world_four.vp.slice_map = [⟨1, [1, 2, 3, 4]⟩] ∧
    (FreeSlices env_ok world_four 2 2).map (fun r => (r.1, r.2.vp.slice_map)) =
      some (ZX_OK, [⟨1, [1]⟩, ⟨4, [4]⟩]) ∧
    (FreeSlices env_no_heap world_four 2 2).map (fun r => (r.1, r.2.vp.slice_map)) =
      some (ZX_ERR_NO_MEMORY, [⟨1, [1, 2, 3, 4]⟩]) ∧
    ∃ r, FreeSlices env_no_heap world_four 2 2 = some r :=
  ⟨by decide, by decide, by decide,
    (FreeSlicesLocked_no_assert env_no_heap world_four 2 2 (by decide) (by decide)
      (by decide)).2.2.2⟩

end VPartitionManager

namespace VPartitionManager
open SliceMap VPartition

/-- C39, evaluated at a failing input: partition 1 owns virtual slice 3 as physical slice
1, and its slice map is coherent with the allocation table. `AllocateSlices(vp, 1, 2)`
maps the virtual slices 1 and 2 to the physical slices 2 and 3, the metadata write fails
with `ZX_ERR_IO`, and while the allocation is undone the heap allocation of `Split` for
virtual slice 2 fails. The call returns `ZX_ERR_IO` with the slot of physical slice 3
marked free and virtual slice 2 still mapped to it: the state is not coherent. The
next, successful `AllocateSlices(vp, 10, 2)` hands physical slice 3 out again, so that
the virtual slices 2 and 11 are both mapped to it. -/
theorem AllocateSlices_breaks_coherence :
    Coherent 62 (AllocateSlices env_ok world_empty 3 1).2.mgr
      (AllocateSlices env_ok world_empty 3 1).2.vp ∧
    (AllocateSlices env_write_alloc_fail (AllocateSlices env_ok world_empty 3 1).2 1 2).1 =
      ZX_ERR_IO ∧
    (AllocateSlices env_write_alloc_fail
      (AllocateSlices env_ok world_empty 3 1).2 1 2).2.vp.SliceGetLocked 2 = 3 ∧
    (AllocateSlices env_write_alloc_fail
      (AllocateSlices env_ok world_empty 3 1).2 1 2).2.mgr.slice_table 3 = ⟨0, 2⟩ ∧
    ¬ Coherent 62
      (AllocateSlices env_write_alloc_fail (AllocateSlices env_ok world_empty 3 1).2 1 2).2.mgr
      (AllocateSlices env_write_alloc_fail (AllocateSlices env_ok world_empty 3 1).2 1 2).2.vp ∧
    (AllocateSlices env_ok
      (AllocateSlices env_write_alloc_fail (AllocateSlices env_ok world_empty 3 1).2 1 2).2
      10 2).1 = ZX_OK ∧
    (AllocateSlices env_ok
      (AllocateSlices env_write_alloc_fail (AllocateSlices env_ok world_empty 3 1).2 1 2).2
      10 2).2.vp.slice_map = [⟨2, [3, 1]⟩, ⟨10, [2, 3]⟩] ∧
    (AllocateSlices env_ok
      (AllocateSlices env_write_alloc_fail (AllocateSlices env_ok world_empty 3 1).2 1 2).2
      10 2).2.vp.SliceGetLocked 2 =
    (AllocateSlices env_ok
      (AllocateSlices env_write_alloc_fail (AllocateSlices env_ok world_empty 3 1).2 1 2).2
      10 2).2.vp.SliceGetLocked 11 := by
  refine ⟨?_, by decide, by decide, by decide, ?_, by decide, by decide, by decide⟩
  · have hvp : (AllocateSlices env_ok world_empty 3 1).2.vp = vp_of [⟨3, [1]⟩] := by decide
    have htab : ∀ p, p ≤ 62 →
        (AllocateSlices env_ok world_empty 3 1).2.mgr.slice_table p =
          if p = 1 then ⟨1, 3⟩ else ⟨0, 0⟩ := by decide
    have hval : Valid (vp_of [⟨3, [1]⟩]).slice_map := by decide
    intro v p hp
    rw [hvp]
    constructor
    · intro h
      have hne : (vp_of [⟨3, [1]⟩]).SliceGetLocked v ≠ PSLICE_UNALLOCATED := by
        rw [h]; exact hp
      obtain ⟨L, e, R, hm, h1, h2⟩ := exists_extent_of_allocated _ v hval hne
      have he : e ∈ (vp_of [⟨3, [1]⟩]).slice_map := by rw [hm]; simp
      have he3 : e = ⟨3, [1]⟩ := by
        simpa [vp_of] using he
      subst he3
      have hv3 : v = 3 := by
        have h1a : (3 : Nat) ≤ v := h1
        have h2a : v < 3 + 1 := h2
        omega
      subst hv3
      have hp1 : p = 1 := by rw [← h]; decide
      subst hp1
      exact ⟨by decide, by decide, by rw [htab 1 (by decide)]; rfl⟩
    · rintro ⟨h1, h2, h3⟩
      rw [htab p h2] at h3
      by_cases hp1 : p = 1
      · subst hp1
        simp only [if_true, slice_entry_t.mk.injEq] at h3
        have hv3 : v = 3 := h3.2.symm
        subst hv3
        decide
      · simp only [hp1, if_false, slice_entry_t.mk.injEq] at h3
        exact absurd h3.1 (by decide)
  · intro h
    have h3 := (h 2 3 (by decide)).mp (by decide)
    exact absurd h3.2.2 (by decide)

end VPartitionManager

namespace VPartitionManager
open SliceMap VPartition

/-- C40, evaluated at a failing input: the heap allocation of `SliceSetLocked` for the
first virtual slice fails, `SliceSetLocked` returns `ZX_ERR_NO_MEMORY`, and
`AllocateSlicesLocked` returns the value 1 of the comparison `... != ZX_OK` that it has
stored in `status`: not `ZX_ERR_NO_MEMORY`, and not a negative error code. -/
theorem AllocateSlicesLocked_returns_one :
    world_empty.vp.SliceGetLocked 1 = PSLICE_UNALLOCATED ∧
    world_empty.mgr.FindFreeSliceLocked 0 = (ZX_OK, 1) ∧
    (world_empty.vp.SliceSetLocked 1 1 env_no_heap.ac 0).1 = ZX_ERR_NO_MEMORY ∧
    (AllocateSlicesLocked env_no_heap world_empty 1 1).1 = 1 ∧
    (1 : zx_status_t) ≠ ZX_ERR_NO_MEMORY ∧ ¬ ((1 : zx_status_t) < 0) ∧
    (AllocateSlicesLocked env_no_heap world_empty 1 1).2.vp = world_empty.vp := by
  decide

end VPartitionManager

end fvm
